import Mathlib

/-! # Suffix tree construction (`suffixtree.c`)

A shallow embedding of the construction half of `suffixtree.c` and of
`print_all_suffixes`, and a verification development over it.

Conventions of the embedding.

* A `char` is an `Int` (its code); `FIRST_SYMBOL` is 97 and `NUM_SYMBOLS` is 26.
* The text buffer `string .. string_end` is a `List Int` called `text`;
  a `const char *` into it is the `Int` offset from `string`, so `string` is
  `0` and `string_end` is `text.length`.  A character pointer that does not
  point into the text buffer (`NULL` after `memset`, or the literal
  `"(root)"`) is `none`; reading through it, or reading outside
  `[string, string_end)`, is reported as `Err.read`.
* A `struct edge *` is an `Option eptr`: `none` is `NULL`,
  `eptr.rootedge` is `&rootedge` and `eptr.slot i` is `&edges[i]`.
  Following a `NULL` edge pointer is reported as `Err.null`.
* `int` values (`len`, `offset`, symbol numbers) are unbounded `Int`s: the
  development does not model texts of 2^31 characters or more.
* Every `assert` of the source has its own `Err` constructor, and so has the
  exit of `need_alloced` on a `NULL` pointer (`Err.oom`).
* What `realloc` answers is not determined by the program: it is an argument
  of the model, `none` for `NULL` and `some garbage` for a block, `garbage`
  being what the block holds where nothing was kept.
* Loops carry a fuel argument; running out of it is `Err.fuel`.
-/

namespace Suffixtree

def NUM_SYMBOLS : Int := 26

def FIRST_SYMBOL : Int := 97

/-- The ways a run can stop abnormally: one constructor per `assert` of the
source, the exit of `need_alloced`, plus invalid memory accesses and
exhausted loop fuel. -/
inductive Err where
  | capacity      -- allocate_edge: assert(edges_size < edges_capacity)
  | symbol        -- get_symbol: assert(0 <= sym && sym < NUM_SYMBOLS)
  | label         -- charstep: assert(st.edge->label[st.offset] == c)
  | whole         -- consume_whole_string: assert(s == end)
  | tail_offset   -- insert_tail: assert(st.offset == st.edge->len)
  | tail_child    -- insert_tail: assert(st.edge->childs[sym] == NULL)
  | split_offset  -- split_if_not_at_node: assert(0 <= st.offset && st.offset <= st.edge->len)
  | split_parent  -- split_if_not_at_node: assert(st.parent != NULL)
  | split_child   -- split_if_not_at_node: assert(st.parent->childs[sym] == bottomhalf)
  | root_tail     -- state_transition: assert(st.tail == st.suffix)
  | unreachable   -- state_transition: assert(0)
  | null          -- a NULL struct edge pointer is followed
  | read          -- a character is read outside [string, string_end)
  | write         -- a character is written outside the buffer of print_all_suffixes
  | fuel          -- a loop of the model ran out of fuel
  | oom           -- need_alloced: the pointer is NULL, exit(1) after "OOM!"
  deriving DecidableEq, Repr

/-- The address of an edge record: `&rootedge` or `&edges[i]`. -/
inductive eptr where
  | rootedge : eptr
  | slot : Nat → eptr
  deriving DecidableEq, Repr

/-- The record `struct edge`. -/
structure edge where
  label : Option Int
  len : Int
  link : Option eptr
  childs : Int → Option eptr

/-- The record `struct state` (the cursor `st`). -/
structure state where
  edge : Option eptr
  parent : Option eptr
  offset : Int
  suffix : Int
  tail : Int

/-- The mutable globals of the program other than the text buffer. -/
structure globals where
  st : state
  rootedge : edge
  edges : Nat → edge
  edges_size : Nat
  edges_capacity : Nat

/-- An edge record after `memset(edge, 0, sizeof *edge)`. -/
def zero_edge : edge := ⟨none, 0, none, fun _ => none⟩

/-- The record an edge pointer points to. -/
def load (g : globals) : eptr → edge
  | .rootedge => g.rootedge
  | .slot i => g.edges i

/-- Overwrite the record an edge pointer points to. -/
def store (g : globals) (p : eptr) (e : edge) : globals :=
  match p with
  | .rootedge => { g with rootedge := e }
  | .slot i => { g with edges := fun j => if j = i then e else g.edges j }

/-- Follow a possibly-NULL edge pointer. -/
def deref (g : globals) : Option eptr → Except Err edge
  | none => .error .null
  | some p => .ok (load g p)

/-- Read `p[off]` for a character pointer `p`. -/
def read (text : List Int) (p : Option Int) (off : Int) : Except Err Int :=
  match p with
  | none => .error .read
  | some b =>
    if 0 ≤ b + off ∧ b + off < text.length then .ok (text.getD (b + off).toNat 0)
    else .error .read

/-- Model of `allocate_edge`. -/
def allocate_edge (g : globals) : Except Err (eptr × globals) :=
  if g.edges_size < g.edges_capacity then
    .ok (.slot g.edges_size,
      { g with edges := fun j => if j = g.edges_size then zero_edge else g.edges j,
               edges_size := g.edges_size + 1 })
  else .error .capacity

/-- Model of `go_to_node`. -/
def go_to_node (g : globals) (e : Option eptr) : Except Err globals :=
  match deref g e with
  | .error x => .error x
  | .ok r => .ok { g with st := { g.st with edge := e, offset := r.len, parent := none } }

/-- Model of `get_symbol`. -/
def get_symbol (c : Int) : Except Err Int :=
  let sym := c - FIRST_SYMBOL
  if 0 ≤ sym ∧ sym < NUM_SYMBOLS then .ok sym else .error .symbol

/-- The second half of `charstep`: compare `st.edge->label[st.offset]` with `c`. -/
def charstep_compare (text : List Int) (c : Int) (g : globals) : Except Err (Bool × globals) := do
  let e ← deref g g.st.edge
  let x ← read text e.label g.st.offset
  if x ≠ c then pure (false, g)
  else pure (true, { g with st := { g.st with offset := g.st.offset + 1 } })

/-- Model of `charstep`. -/
def charstep (text : List Int) (c : Int) (g : globals) : Except Err (Bool × globals) := do
  let e ← deref g g.st.edge
  if g.st.offset ≥ e.len then
    let sym ← get_symbol c
    match e.childs sym with
    | none => pure (false, g)
    | some ch =>
      let g1 := { g with st := { g.st with parent := g.st.edge, edge := some ch, offset := 0 } }
      let x ← read text (load g1 ch).label g1.st.offset
      if x ≠ c then throw Err.label
      else charstep_compare text c g1
  else charstep_compare text c g

/-- The loop `while (s < stop && charstep( *s)) s++;` shared by `consume_string`
and `consume_whole_string`; returns the final `s`. -/
def consume_loop (text : List Int) (stop : Int) : Nat → Int → globals → Except Err (Int × globals)
  | 0, s, g => if s < stop then throw Err.fuel else pure (s, g)
  | k + 1, s, g =>
    if s < stop then do
      let c ← read text (some s) 0
      let (b, g1) ← charstep text c g
      if b then consume_loop text stop k (s + 1) g1 else pure (s, g1)
    else pure (s, g)

/-- Model of `consume_string`. -/
def consume_string (text : List Int) (s : Int) (g : globals) : Except Err (Int × globals) :=
  consume_loop text text.length (text.length - s).toNat s g

/-- Model of `consume_whole_string`. -/
def consume_whole_string (text : List Int) (s stop : Int) (g : globals) : Except Err globals := do
  let (s1, g1) ← consume_loop text stop (stop - s).toNat s g
  if s1 = stop then pure g1 else throw Err.whole

/-- Model of `insert_tail`. -/
def insert_tail (text : List Int) (g : globals) : Except Err globals := do
  let (child, g1) ← allocate_edge g
  let g2 := store g1 child { load g1 child with label := some g1.st.tail }
  let g3 := store g2 child { load g2 child with len := text.length - g2.st.tail }
  let c ← read text (some g3.st.tail) 0
  let sym ← get_symbol c
  match g3.st.edge with
  | none => throw Err.null
  | some p =>
    if g3.st.offset ≠ (load g3 p).len then throw Err.tail_offset
    else if (load g3 p).childs sym ≠ none then throw Err.tail_child
    else
      pure (store g3 p { load g3 p with
        childs := fun j => if j = sym then some child else (load g3 p).childs j })

/-- Model of `split_if_not_at_node`. -/
def split_if_not_at_node (text : List Int) (g : globals) : Except Err globals :=
  match g.st.edge with
  | none => throw Err.null
  | some bottomhalf =>
    if ¬ (0 ≤ g.st.offset ∧ g.st.offset ≤ (load g bottomhalf).len) then throw Err.split_offset
    else if g.st.offset ≥ (load g bottomhalf).len then pure g
    else do
      let (tophalf, g1) ← allocate_edge g
      let g2 := { g1 with st := { g1.st with edge := some tophalf } }
      let g3 := store g2 tophalf { load g2 tophalf with label := (load g2 bottomhalf).label }
      let g4 := store g3 tophalf { load g3 tophalf with len := g3.st.offset }
      let g5 := store g4 bottomhalf { load g4 bottomhalf with
        label := (load g4 bottomhalf).label.map (fun p => p + g4.st.offset) }
      let g6 := store g5 bottomhalf { load g5 bottomhalf with
        len := (load g5 bottomhalf).len - g5.st.offset }
      let c ← read text (load g6 bottomhalf).label 0
      let sym ← get_symbol c
      let g7 := store g6 tophalf { load g6 tophalf with
        childs := fun j => if j = sym then some bottomhalf else (load g6 tophalf).childs j }
      let c1 ← read text (load g7 tophalf).label 0
      let sym1 ← get_symbol c1
      match g7.st.parent with
      | none => throw Err.split_parent
      | some q =>
        if (load g7 q).childs sym1 ≠ some bottomhalf then throw Err.split_child
        else
          pure (store g7 q { load g7 q with
            childs := fun j => if j = sym1 then some tophalf else (load g7 q).childs j })

/-- The shared tail of the two re-scanning branches of `state_transition`:
`consume_whole_string(s, stop); split_if_not_at_node(); last->link = st.edge;`. -/
def rescan (text : List Int) (last : eptr) (s stop : Int) (g : globals) : Except Err globals := do
  let g1 ← consume_whole_string text s stop g
  let g2 ← split_if_not_at_node text g1
  pure (store g2 last { load g2 last with link := g2.st.edge })

/-- Lines 266-284 of `state_transition`: reposition the cursor and fix the
suffix link of the edge it was on. -/
def reposition (text : List Int) (g : globals) : Except Err globals :=
  match g.st.edge with
  | none => throw Err.null
  | some last =>
    if last = eptr.rootedge then
      if g.st.tail = g.st.suffix then pure g else throw Err.root_tail
    else if (load g last).link = none ∧ g.st.parent = some eptr.rootedge then do
      let g1 ← go_to_node g (some eptr.rootedge)
      match (load g1 last).label with
      | none => throw Err.read
      | some p => rescan text last (p + 1) (p + (load g1 last).len) g1
    else if (load g last).link = none ∧ g.st.parent ≠ some eptr.rootedge then do
      let q ← deref g g.st.parent
      let g1 ← go_to_node g q.link
      match (load g1 last).label with
      | none => throw Err.read
      | some p => rescan text last p (p + (load g1 last).len) g1
    else if (load g last).link ≠ none then
      go_to_node g (load g last).link
    else throw Err.unreachable

/-- Lines 286-294 of `state_transition`: consume the tail, split, and insert
the rest of the tail as a leaf unless it is exhausted. -/
def extend (text : List Int) (g : globals) : Except Err (Bool × globals) := do
  let (t, g1) ← consume_string text g.st.tail g
  let g2 := { g1 with st := { g1.st with tail := t } }
  let g3 ← split_if_not_at_node text g2
  if g3.st.tail = text.length then pure (false, g3)
  else do
    let g4 ← insert_tail text g3
    pure (true, { g4 with st := { g4.st with suffix := g4.st.suffix + 1 } })

/-- Model of `state_transition`; the Boolean is the returned `int`. -/
def state_transition (text : List Int) (g : globals) : Except Err (Bool × globals) :=
  let g0 := if g.st.tail < g.st.suffix
    then { g with st := { g.st with tail := g.st.suffix } } else g
  if g0.st.tail = text.length then pure (false, g0)
  else do
    let g1 ← reposition text g0
    extend text g1

/-- Model of `state_init`. -/
def state_init (g : globals) : globals :=
  { g with st := { g.st with suffix := 0, tail := 0 } }

/-- The loop `while (state_transition()) { }`. -/
def build_loop (text : List Int) : Nat → globals → Except Err globals
  | 0, _ => throw Err.fuel
  | k + 1, g => do
    let (b, g1) ← state_transition text g
    if b then build_loop text k g1 else pure g1

/-- The stripping loop of `construct_suffixtree`: drop trailing CR and LF. -/
def strip_eol (line : List Int) : List Int :=
  (line.reverse.dropWhile (fun c => c = 13 ∨ c = 10)).reverse

/-- Model of `need_alloced`: a `NULL` pointer ends the run with "OOM!". -/
def need_alloced {α : Type} (ptr : Option α) : Except Err α :=
  match ptr with
  | none => throw Err.oom
  | some p => pure p

/-- Model of `xrealloc(edges, ...)`: `ra` is the answer of `realloc`, `none`
for `NULL` and `some garbage` for a block; the block keeps the records the
store held and holds `garbage` elsewhere. -/
def xrealloc (ra : Option (Nat → edge)) (old : Nat → edge) (old_capacity : Nat) :
    Except Err (Nat → edge) := do
  let garbage ← need_alloced ra
  pure (fun j => if j < old_capacity then old j else garbage j)

/-- Lines 316-327 of `construct_suffixtree`: size and reset the edge store,
reset the root edge, put the cursor on the root. `ra` is the answer of
`realloc`. -/
def construct_init (text : List Int) (ra : Option (Nat → edge)) (g : globals) :
    Except Err globals := do
  let g1 := { g with edges_capacity := 2 * text.length }
  let store ← xrealloc ra g.edges g.edges_capacity
  let g2 := { g1 with edges := store }
  let g3 := { g2 with edges_size := 0 }
  let g4 := { g3 with rootedge := { g3.rootedge with link := none } }
  let g5 := { g4 with rootedge := { g4.rootedge with label := none } }
  let g6 := { g5 with rootedge := { g5.rootedge with len := 0 } }
  let g7 := { g6 with rootedge := { g6.rootedge with childs := fun _ => none } }
  let g8 ← go_to_node g7 (some eptr.rootedge)
  pure (state_init g8)

/-- Model of `construct_suffixtree` on the line `getline` returned, started
in the global state `g`; `ra` is the answer of `realloc` and `fuel` bounds
the calls of `state_transition`. -/
def construct_suffixtree (fuel : Nat) (ra : Option (Nat → edge)) (g : globals)
    (line : List Int) : Except Err globals := do
  let g1 ← construct_init (strip_eol line) ra g
  build_loop (strip_eol line) fuel g1

/-- The bytes `memcpy` reads from `edge->label`: none when `edge->len` is 0. -/
def copy_label (text : List Int) (e : edge) : Except Err (List Int) :=
  if e.len = 0 then pure []
  else
    match e.label with
    | none => throw Err.read
    | some p =>
      if 0 ≤ p ∧ 0 ≤ e.len ∧ p + e.len ≤ text.length then
        pure ((text.drop p.toNat).take e.len.toNat)
      else throw Err.read

/-- The loop `for (i = 0; i < n; i++)` of `print_all_suffixes_sub`, where `sub`
is the recursive call on a child: returns the lines written and `havechilds`. -/
def print_children (sub : eptr → Except Err (List (List Int))) (childs : Int → Option eptr) :
    Nat → Except Err (List (List Int) × Bool)
  | 0 => pure ([], false)
  | i + 1 => do
    let (out, havechilds) ← print_children sub childs i
    match childs (i : Int) with
    | none => pure (out, havechilds)
    | some c => do
      let out1 ← sub c
      pure (out ++ out1, true)

/-- Model of `print_all_suffixes_sub`; the result is the list of the lines
written to `stdout`. The argument `buf` holds the bytes `buf[0 .. offset)`;
the bytes of the buffer from `offset` on are not modelled, since each of them
is written by a `memcpy` before `fwrite` reads it. The buffer has
`string_end - string` bytes. -/
def print_all_suffixes_sub (text : List Int) (g : globals) :
    Nat → Option eptr → List Int → Int → Except Err (List (List Int))
  | 0, _, _, _ => throw Err.fuel
  | k + 1, ep, buf, offset => do
    let e ← deref g ep
    let lab ← copy_label text e
    if ¬ (0 ≤ offset ∧ offset + e.len ≤ text.length) then throw Err.write
    else do
      let buf1 := buf.take offset.toNat ++ lab
      let (out, havechilds) ← print_children
        (fun c => print_all_suffixes_sub text g k (some c) buf1 (offset + e.len)) e.childs 26
      if !havechilds then pure (out ++ [buf1.take (offset + e.len).toNat]) else pure out

/-- Model of `print_all_suffixes`. -/
def print_all_suffixes (text : List Int) (g : globals) (fuel : Nat) :
    Except Err (List (List Int)) :=
  print_all_suffixes_sub text g fuel (some eptr.rootedge) [] 0

/-! ## Specification vocabulary -/

/-- Every character of the text is one of the 26 lowercase letters. -/
def lowercase (text : List Int) : Prop :=
  ∀ c ∈ text, FIRST_SYMBOL ≤ c ∧ c < FIRST_SYMBOL + NUM_SYMBOLS

/-- The characters `text[a], ..., text[a + l - 1]`. -/
def seg (text : List Int) (a l : Int) : List Int :=
  (text.drop a.toNat).take l.toNat

/-- A run either succeeds with a result satisfying `P`, or stops in the
assertion of `get_symbol` on a text that is not all lowercase. -/
def Outcome {α : Type} (text : List Int) (r : Except Err α) (P : α → Prop) : Prop :=
  match r with
  | .ok v => P v
  | .error e => e = Err.symbol ∧ ¬ lowercase text

/-- The edge pointer is `&rootedge` or points to an allocated slot of the store. -/
def valid (g : globals) : eptr → Prop
  | .rootedge => True
  | .slot j => j < g.edges_size

/-- The edge has no child: `childs[i] == NULL` for all `i < NUM_SYMBOLS`. -/
def is_leaf (e : edge) : Bool :=
  (List.range 26).all (fun i => (e.childs (i : Int)).isNone)

/-- The number of leaf edges: allocated edges without a child. -/
def leaf_count (g : globals) : Nat :=
  ((List.range g.edges_size).filter (fun j => is_leaf (g.edges j))).length

/-- The structural invariant of the tree under construction. `pl` assigns to
each edge its path label (the concatenation of the labels from the root to
the end of the edge); `i` is the number of suffixes inserted so far. -/
structure Tree (text : List Int) (g : globals) (pl : eptr → List Int) (i : Int) : Prop where
  root_pl : pl eptr.rootedge = []
  root_len : (load g eptr.rootedge).len = 0
  root_link : (load g eptr.rootedge).link = none
  lab : ∀ x, valid g x → x ≠ eptr.rootedge →
    ∃ p, (load g x).label = some p ∧ 0 ≤ p ∧ 1 ≤ (load g x).len ∧
      p + (load g x).len ≤ text.length
  par : ∀ x, valid g x → x ≠ eptr.rootedge →
    ∃ q sym, valid g q ∧ (load g q).childs sym = some x
  child : ∀ q sym c, valid g q → (load g q).childs sym = some c →
    valid g c ∧ c ≠ eptr.rootedge ∧ 0 ≤ sym ∧ sym < NUM_SYMBOLS ∧
      ∀ p, (load g c).label = some p →
        text.getD p.toNat 0 = FIRST_SYMBOL + sym ∧ pl c = pl q ++ seg text p (load g c).len
  occ : ∀ x p, valid g x → x ≠ eptr.rootedge → (load g x).label = some p →
    0 ≤ p + (load g x).len - (pl x).length ∧ p + (load g x).len - (pl x).length < i ∧
      pl x = seg text (p + (load g x).len - (pl x).length) (pl x).length
  leaf : ∀ m : Int, 0 ≤ m → m < i →
    ∃ x, valid g x ∧ x ≠ eptr.rootedge ∧ pl x = seg text m (text.length - m) ∧
      ∀ sym, (load g x).childs sym = none
  leaf_end : ∀ x p, valid g x → x ≠ eptr.rootedge → (∀ sym, (load g x).childs sym = none) →
    (load g x).label = some p → p + (load g x).len = text.length
  link : ∀ x t, valid g x → (load g x).link = some t →
    valid g t ∧ (∃ c, pl x = c :: pl t) ∧ ∃ sym ch, (load g x).childs sym = some ch

/-- The cursor position `(v, off)` spells the word `w`: `w` followed by the
rest of the label of `v` is the path label of `v`. The root is only ever
occupied with offset 0, every other edge with an offset of at least 1. -/
def Spells (text : List Int) (g : globals) (pl : eptr → List Int) (w : List Int)
    (v : eptr) (off : Int) : Prop :=
  valid g v ∧
    ((v = eptr.rootedge ∧ w = [] ∧ off = 0) ∨
     (v ≠ eptr.rootedge ∧ ∃ p, (load g v).label = some p ∧ 1 ≤ off ∧ off ≤ (load g v).len ∧
        w ++ seg text (p + off) ((load g v).len - off) = pl v))

/-- The word `w` can be read along the tree from the root. -/
def InTree (text : List Int) (g : globals) (pl : eptr → List Int) (w : List Int) : Prop :=
  ∃ v off, Spells text g pl w v off

/-- The second state has the same edge records, store size and text pointers
as the first: only the cursor position may differ. -/
def same_heap (g g1 : globals) : Prop :=
  g1.rootedge = g.rootedge ∧ g1.edges = g.edges ∧ g1.edges_size = g.edges_size ∧
    g1.edges_capacity = g.edges_capacity ∧ g1.st.suffix = g.st.suffix ∧ g1.st.tail = g.st.tail

/-- The cursor of `g` is at the position spelling `w`; when it is inside an
edge, `st.parent` is the parent of that edge. -/
def At (text : List Int) (g : globals) (pl : eptr → List Int) (w : List Int) : Prop :=
  ∃ v, g.st.edge = some v ∧ Spells text g pl w v g.st.offset ∧
    (g.st.offset < (load g v).len →
      ∃ q sym, g.st.parent = some q ∧ valid g q ∧ (load g q).childs sym = some v)

/-- The edge has at least one child. -/
def has_child (e : edge) : Prop := ∃ sym ch, e.childs sym = some ch

/-- The edge has children under two different symbols. -/
def branching (e : edge) : Prop :=
  ∃ s1 s2 c1 c2, s1 ≠ s2 ∧ e.childs s1 = some c1 ∧ e.childs s2 = some c2

/-- Every allocated edge with a child, other than `ex`, has a suffix link. -/
def HasLink (g : globals) (ex : eptr) : Prop :=
  ∀ x, valid g x → x ≠ eptr.rootedge → x ≠ ex → has_child (load g x) → (load g x).link ≠ none

/-- Every allocated edge with a child, other than `ex`, has two children. -/
def Branching (g : globals) (ex : eptr) : Prop :=
  ∀ x, valid g x → x ≠ eptr.rootedge → x ≠ ex → has_child (load g x) → branching (load g x)

/-- None of the suffixes starting before `i` is an initial part of a suffix
that starts earlier. -/
def NoEarlier (text : List Int) (i : Int) : Prop :=
  ∀ m j : Int, 0 ≤ j → j < m → m < i →
    ¬ ∃ r, seg text j (text.length - j) = seg text m (text.length - m) ++ r

/-- What `split_if_not_at_node` has done when the cursor was inside an edge:
`g`, `pl` are the state and path labels before, `g1`, `pl1` after, and `w` is
the cursor's word. -/
structure SplitPost (text : List Int) (g : globals) (pl : eptr → List Int) (i : Int)
    (w : List Int) (g1 : globals) (pl1 : eptr → List Int) : Prop where
  size : g1.edges_size = g.edges_size + 1
  cap : g1.edges_capacity = g.edges_capacity
  st : g1.st = { g.st with edge := some (eptr.slot g.edges_size) }
  tree : Tree text g1 pl1 i
  off : g1.st.offset = (load g1 (eptr.slot g.edges_size)).len
  word : pl1 (eptr.slot g.edges_size) = w
  nolink : (load g1 (eptr.slot g.edges_size)).link = none
  parent : ∃ q sym, g1.st.parent = some q ∧ valid g1 q ∧
    (load g1 q).childs sym = some (eptr.slot g.edges_size)
  only : ∃ sym ch, (load g1 (eptr.slot g.edges_size)).childs sym = some ch ∧
    (∀ s c, (load g1 (eptr.slot g.edges_size)).childs s = some c → s = sym) ∧
    InTree text g pl (w ++ [FIRST_SYMBOL + sym]) ∧
    ∀ c, InTree text g pl (w ++ [c]) → c = FIRST_SYMBOL + sym
  inside : ∃ b, g.st.edge = some b ∧ valid g b ∧ b ≠ eptr.rootedge ∧
    g.st.offset < (load g b).len
  old_pl : ∀ x, valid g x → pl1 x = pl x
  old_link : ∀ x, valid g x → (load g1 x).link = (load g x).link
  old_childs : ∀ x, valid g x → ∀ s, (load g1 x).childs s = none ↔ (load g x).childs s = none
  valid1 : ∀ x, valid g1 x ↔ (x = eptr.slot g.edges_size ∨ valid g x)

/-- What `insert_tail` has done: `g`, `pl` are the state and path labels
before, `g1`, `pl1` after, and `v` is the edge the cursor is at the end of. -/
structure InsertPost (text : List Int) (g : globals) (pl : eptr → List Int) (i : Int)
    (v : eptr) (g1 : globals) (pl1 : eptr → List Int) : Prop where
  size : g1.edges_size = g.edges_size + 1
  cap : g1.edges_capacity = g.edges_capacity
  st : g1.st = g.st
  tree : Tree text g1 pl1 (i + 1)
  leaf : ∀ s, (load g1 (eptr.slot g.edges_size)).childs s = none
  hang : ∃ sym, text.getD g.st.tail.toNat 0 = FIRST_SYMBOL + sym ∧
    (load g1 v).childs sym = some (eptr.slot g.edges_size) ∧
    ∀ s, s ≠ sym → (load g1 v).childs s = (load g v).childs s
  len : (load g1 v).len = (load g v).len
  old_pl : ∀ x, valid g x → pl1 x = pl x
  old_link : ∀ x, valid g x → (load g1 x).link = (load g x).link
  old_childs : ∀ x, valid g x → x ≠ v → (load g1 x).childs = (load g x).childs
  valid1 : ∀ x, valid g1 x ↔ (x = eptr.slot g.edges_size ∨ valid g x)

/-- The state `go_to_node` produces for a non-NULL argument. -/
def gone_to (g : globals) (x : eptr) : globals :=
  { g with st := { g.st with edge := some x, offset := (load g x).len, parent := none } }

/-- The invariant between two calls of `state_transition`: `v` is the edge
the cursor is at the end of, `i` is `st.suffix` and `t` is `st.tail`. -/
structure LoopInv (text : List Int) (g : globals) (pl : eptr → List Int) (v : eptr)
    (i t : Int) : Prop where
  suf : g.st.suffix = i
  tl : g.st.tail = t
  tree : Tree text g pl i
  cap : g.edges_capacity = 2 * text.length
  suf0 : 0 ≤ i
  sufn : i ≤ text.length
  edge : g.st.edge = some v
  val : valid g v
  off : g.st.offset = (load g v).len
  at_root : v = eptr.rootedge → t ≤ i
  deep : v ≠ eptr.rootedge →
    1 ≤ i ∧ i ≤ t ∧ t < text.length ∧ pl v = seg text (i - 1) (t - i + 1) ∧
    ∃ sym ch, (load g v).childs sym = some ch ∧ FIRST_SYMBOL + sym ≠ text.getD t.toNat 0
  fresh : v ≠ eptr.rootedge → (load g v).link = none →
    ∃ q sym, g.st.parent = some q ∧ valid g q ∧ (load g q).childs sym = some v
  haslink : HasLink g v
  branch : Branching g eptr.rootedge
  size0 : i = 0 → g.edges_size = 0
  size1 : 1 ≤ i → (g.edges_size : Int) + 1 ≤ 2 * i
  early : NoEarlier text i

/-- The second state has the same edge records and store size as the first. -/
def same_store (g g1 : globals) : Prop :=
  g1.rootedge = g.rootedge ∧ g1.edges = g.edges ∧ g1.edges_size = g.edges_size ∧
    g1.edges_capacity = g.edges_capacity

/-- The invariant inside `state_transition` after the tail has been consumed
and the edge reached has been split: the cursor is at the end of `u`, which
spells `text[i .. t)`, and `text[t]` does not continue it inside the tree. -/
structure PreInsert (text : List Int) (g : globals) (pl : eptr → List Int) (u : eptr)
    (i t : Int) : Prop where
  suf : g.st.suffix = i
  tl : g.st.tail = t
  tree : Tree text g pl i
  cap : g.edges_capacity = 2 * text.length
  suf0 : 0 ≤ i
  suft : i ≤ t
  tailn : t ≤ text.length
  below : i < text.length
  edge : g.st.edge = some u
  val : valid g u
  off : g.st.offset = (load g u).len
  word : pl u = seg text i (t - i)
  parent : u ≠ eptr.rootedge → (load g u).link = none →
    ∃ q sym, g.st.parent = some q ∧ valid g q ∧ (load g q).childs sym = some u
  stop : t < text.length → ¬ InTree text g pl (pl u ++ [text.getD t.toNat 0])
  other : u ≠ eptr.rootedge → t < text.length →
    ∃ sym ch, (load g u).childs sym = some ch ∧ FIRST_SYMBOL + sym ≠ text.getD t.toNat 0
  haslink : HasLink g u
  branch : Branching g u
  size0 : i = 0 → g.edges_size = 0
  size1 : 1 ≤ i → (g.edges_size : Int) ≤ 2 * i
  early : NoEarlier text i

/-- The invariant inside `state_transition` after the cursor has been
repositioned and before the tail is consumed. -/
structure MidInv (text : List Int) (g : globals) (pl : eptr → List Int) (v : eptr)
    (i t : Int) : Prop where
  suf : g.st.suffix = i
  tl : g.st.tail = t
  tree : Tree text g pl i
  cap : g.edges_capacity = 2 * text.length
  suf0 : 0 ≤ i
  suft : i ≤ t
  tailn : t < text.length
  edge : g.st.edge = some v
  val : valid g v
  off : g.st.offset = (load g v).len
  word : pl v = seg text i (t - i)
  fresh : v ≠ eptr.rootedge → (load g v).link = none →
    (∃ q sym, g.st.parent = some q ∧ valid g q ∧ (load g q).childs sym = some v) ∧
    has_child (load g v) ∧
    ∀ sym ch, (load g v).childs sym = some ch → FIRST_SYMBOL + sym ≠ text.getD t.toNat 0
  haslink : HasLink g v
  branch : Branching g (if (load g v).link = none then v else eptr.rootedge)
  size0 : i = 0 → g.edges_size = 0
  size1 : 1 ≤ i → (g.edges_size : Int) + 1 ≤
    2 * i + (if v ≠ eptr.rootedge ∧ (load g v).link = none then 1 else 0)
  early : NoEarlier text i

/-- The invariant after `state_transition` has returned 0. -/
structure FinalInv (text : List Int) (g : globals) (pl : eptr → List Int) (v : eptr)
    (i : Int) : Prop where
  suf : g.st.suffix = i
  tl : g.st.tail = text.length
  tree : Tree text g pl i
  cap : g.edges_capacity = 2 * text.length
  suf0 : 0 ≤ i
  sufn : i ≤ text.length
  edge : g.st.edge = some v
  val : valid g v
  rest : InTree text g pl (seg text i (text.length - i))
  haslink : HasLink g v
  branch : Branching g v
  size0 : i = 0 → g.edges_size = 0
  size1 : 1 ≤ i → i < text.length → (g.edges_size : Int) ≤ 2 * i
  sizen : i = text.length →
    ((1 : Int) ≤ text.length → (g.edges_size : Int) + 1 ≤ 2 * text.length) ∧
    Branching g eptr.rootedge
  early : NoEarlier text i

/-- The globals of the program when `main` starts: static storage is zeroed,
there is no edge store yet. -/
def blank : globals := ⟨⟨none, none, 0, 0, 0⟩, zero_edge, fun _ => zero_edge, 0, 0⟩

/-- The state after `k` calls of `state_transition`, provided each of them
returned 1. -/
def after_calls (text : List Int) : Nat → globals → Option globals
  | 0, g => some g
  | k + 1, g =>
    match state_transition text g with
    | .ok (true, g1) => after_calls text k g1
    | _ => none

/-- The state `g1` is reached while `construct_suffixtree` builds the tree of
`text`: between two calls of `state_transition`, or when the loop has ended.
(No state is reached when `realloc` answers `NULL`.) -/
def Reached (text : List Int) (ra : Option (Nat → edge)) (g g1 : globals) : Prop :=
  ∃ g0, construct_init text ra g = .ok g0 ∧
    ((∃ k, after_calls text k g0 = some g1) ∨ (∃ fuel, build_loop text fuel g0 = .ok g1))

/-- The path label of an edge: the concatenation of the labels of the edges
on the way from the root to it, the root's being empty. -/
inductive PathLabel (text : List Int) (g : globals) : eptr → List Int → Prop where
  | root : PathLabel text g eptr.rootedge []
  | child (q c : eptr) (sym p : Int) (w : List Int) :
      PathLabel text g q w → (load g q).childs sym = some c → (load g c).label = some p →
      PathLabel text g c (w ++ seg text p (load g c).len)

/-- The state in which `construct_suffixtree` ends when it is run on `line`
in a freshly started program in which `realloc` returns a zeroed block, with
fuel for one more call of `state_transition` than the line has characters. -/
def built (line : List Int) : globals :=
  match construct_suffixtree (line.length + 1) (some (fun _ => zero_edge)) blank line with
  | .ok g => g
  | .error _ => blank

/-- Call `charstep` on the characters of a string one after the other, until
one call returns 0; the Boolean tells whether every call returned 1. -/
def walk_from (text : List Int) : List Int → globals → Except Err (Bool × globals)
  | [], g => pure (true, g)
  | c :: cs, g => do
    let (b, g1) ← charstep text c g
    if b then walk_from text cs g1 else pure (false, g1)

/-- Place the cursor at the root with `go_to_node(&rootedge)` and walk a
string from there with `charstep`. -/
def walk (text : List Int) (t : List Int) (g : globals) : Except Err (Bool × globals) := do
  let g1 ← go_to_node g (some eptr.rootedge)
  walk_from text t g1

/-- The word `w` is the path label of an edge without children that lies at
or below the edge `x`. -/
def Below (g : globals) (pl : eptr → List Int) (x : eptr) (w : List Int) : Prop :=
  ∃ y, valid g y ∧ (∀ sym, (load g y).childs sym = none) ∧ pl y = w ∧ ∃ r, w = pl x ++ r

/-- The state `g` with the part of the edge store that has not been allocated
replaced by `h`. -/
def regarb (g : globals) (h : Nat → edge) : globals :=
  { g with edges := fun j => if j < g.edges_size then g.edges j else h j }

/-- Two states hold the same tree: the same cursor, the same root record, the
same store size and capacity and the same record in every allocated slot. -/
def agree (g g1 : globals) : Prop :=
  g1.st = g.st ∧ g1.rootedge = g.rootedge ∧ g1.edges_size = g.edges_size ∧
    g1.edges_capacity = g.edges_capacity ∧ ∀ j, j < g.edges_size → g1.edges j = g.edges j

/-- A possibly-NULL edge pointer is NULL or points to an allocated record. -/
def okp (g : globals) (o : Option eptr) : Prop := ∀ x, o = some x → valid g x

/-- The edge pointers of a record are NULL or point to allocated records. -/
def edge_ok (g : globals) (e : edge) : Prop := okp g e.link ∧ ∀ sym, okp g (e.childs sym)

/-- No edge pointer of the cursor, of the root or of an allocated record
points outside the allocated part of the store. -/
def closed (g : globals) : Prop :=
  okp g g.st.edge ∧ okp g g.st.parent ∧ ∀ x, valid g x → edge_ok g (load g x)

end Suffixtree

namespace Suffixtree

/-- The edge has a child under exactly one symbol. -/
def one_child (e : edge) : Prop :=
  ∃ sym c, e.childs sym = some c ∧ ∀ s c1, e.childs s = some c1 → s = sym

/-- The label of a child starts where the label of its parent ends, or
later: for every edge `q` other than the root and every child `c` of `q`,
`q->label + q->len <= c->label`. The root's label does not point into the
text and every child has a label that does. -/
def Ordered (g : globals) : Prop :=
  g.rootedge.label = none ∧
  ∀ q, valid g q → ∀ sym c, (load g q).childs sym = some c →
    ∃ pc, (load g c).label = some pc ∧
      (q ≠ eptr.rootedge → ∃ pq, (load g q).label = some pq ∧ pq + (load g q).len ≤ pc)

/-- The edge `d` lies below the edge `a`: it is reached from `a` by following
one or more child pointers. -/
inductive Above (g : globals) : eptr → eptr → Prop where
  | child (q c : eptr) (sym : Int) : (load g q).childs sym = some c → Above g q c
  | step (q c d : eptr) (sym : Int) : (load g q).childs sym = some c → Above g c d → Above g q d

/-- No edge is allocated and no edge's label, length or child map is
modified from the first state to the second (a `link` may be). -/
def same_shape (g g1 : globals) : Prop :=
  g1.edges_size = g.edges_size ∧
  ∀ x, (load g1 x).label = (load g x).label ∧ (load g1 x).len = (load g x).len ∧
    (load g1 x).childs = (load g x).childs

end Suffixtree

namespace Suffixtree

/-- From the first state to the second exactly one edge has been allocated,
by the split of an edge `b` with label `[p, p + len)` after `k` of its
characters: the new edge `edges[edges_size]` is the upper half, with the label
`[p, p + k)`, no link and `b` as its only child; `b` is the lower half, with
the label `[p + k, p + len)` and the children it had; the child pointer to
`b` in its parent `q` points to the new edge; the cursor is on the new edge;
no label, length or child map of another edge is modified. -/
def split_made (g g1 : globals) : Prop :=
  g1.edges_size = g.edges_size + 1 ∧
  g1.st.edge = some (eptr.slot g.edges_size) ∧
  ∃ b q p k sa sb, valid g b ∧ valid g q ∧ q ≠ b ∧ (load g b).label = some p ∧
    0 ≤ k ∧ k < (load g b).len ∧ 0 ≤ sb ∧ sb < NUM_SYMBOLS ∧
    (load g q).childs sa = some b ∧
    load g1 (eptr.slot g.edges_size)
      = ⟨some p, k, none, fun j => if j = sb then some b else none⟩ ∧
    (load g1 b).label = some (p + k) ∧ (load g1 b).len = (load g b).len - k ∧
    (load g1 b).childs = (load g b).childs ∧
    (load g1 q).label = (load g q).label ∧ (load g1 q).len = (load g q).len ∧
    (load g1 q).childs
      = (fun j => if j = sa then some (eptr.slot g.edges_size) else (load g q).childs j) ∧
    ∀ x, x ≠ eptr.slot g.edges_size → x ≠ b → x ≠ q →
      (load g1 x).label = (load g x).label ∧ (load g1 x).len = (load g x).len ∧
        (load g1 x).childs = (load g x).childs

/-- From the first state to the second no leaf has been inserted and
`st.suffix` has not moved: the store has not shrunk, the edges allocated
before are leaves exactly when they were, and the edges allocated since are
not leaves. -/
structure Quiet (g g1 : globals) : Prop where
  size : g.edges_size ≤ g1.edges_size
  cap : g1.edges_capacity = g.edges_capacity
  suffix : g1.st.suffix = g.st.suffix
  old_leaf : ∀ j, j < g.edges_size → is_leaf (g1.edges j) = is_leaf (g.edges j)
  new_leaf : ∀ j, g.edges_size ≤ j → j < g1.edges_size → is_leaf (g1.edges j) = false

/-- What a repositioning step has done when it returns: it has inserted no
leaf and has not moved `st.tail`; it has left the labels, lengths and child
maps alone, or it has allocated one edge, which the cursor is on and which
has no link. -/
def Repositioned (g g1 : globals) : Prop :=
  closed g1 ∧ Ordered g1 ∧ Quiet g g1 ∧ g1.st.tail = g.st.tail ∧
    (same_shape g g1 ∨
      (g1.edges_size = g.edges_size + 1 ∧ g1.st.edge = some (eptr.slot g.edges_size) ∧
        (load g1 (eptr.slot g.edges_size)).link = none))

end Suffixtree

namespace Suffixtree

/-! ## Segments of the text -/

theorem seg_zero (text : List Int) (a : Int) : seg text a 0 = [] := by
  simp [seg]

theorem seg_len (text : List Int) (a l : Int) (ha : 0 ≤ a) (hl : 0 ≤ l)
    (h : a + l ≤ text.length) : ((seg text a l).length : Int) = l := by
  lift a to ℕ using ha
  lift l to ℕ using hl
  have h1 : a + l ≤ text.length := by exact_mod_cast h
  simp only [seg, Int.toNat_ofNat, List.length_take, List.length_drop]
  have : min l (text.length - a) = l := by omega
  rw [this]

theorem seg_add (text : List Int) (a l1 l2 : Int) (ha : 0 ≤ a) (h1 : 0 ≤ l1) (h2 : 0 ≤ l2) :
    seg text a (l1 + l2) = seg text a l1 ++ seg text (a + l1) l2 := by
  lift a to ℕ using ha
  lift l1 to ℕ using h1
  lift l2 to ℕ using h2
  have e1 : ((l1 : Int) + (l2 : Int)).toNat = l1 + l2 := by omega
  have e2 : ((a : Int) + (l1 : Int)).toNat = a + l1 := by omega
  simp only [seg, Int.toNat_ofNat, e1, e2]
  rw [List.take_add, List.drop_drop]

theorem seg_split (text : List Int) (a k l : Int) (ha : 0 ≤ a) (hk : 0 ≤ k) (hkl : k ≤ l) :
    seg text a l = seg text a k ++ seg text (a + k) (l - k) := by
  have := seg_add text a k (l - k) ha hk (by omega)
  rwa [show k + (l - k) = l by omega] at this

theorem seg_take (text : List Int) (a k l : Int) (hkl : k ≤ l) :
    (seg text a l).take k.toNat = seg text a k := by
  simp only [seg, List.take_take]
  congr 1
  omega

theorem seg_cons (text : List Int) (a l : Int) (ha : 0 ≤ a) (h : a < text.length) (hl : 1 ≤ l) :
    seg text a l = text.getD a.toNat 0 :: seg text (a + 1) (l - 1) := by
  lift a to ℕ using ha
  lift l to ℕ using (by omega : 0 ≤ l)
  have h1 : a < text.length := by exact_mod_cast h
  obtain ⟨m, rfl⟩ : ∃ m, l = m + 1 := ⟨l - 1, by omega⟩
  have e1 : ((a : Int) + 1).toNat = a + 1 := by omega
  have e2 : (((m + 1 : ℕ) : Int) - 1).toNat = m := by omega
  simp only [seg, Int.toNat_ofNat, e1, e2]
  rw [List.drop_eq_getElem_cons h1, List.take_succ_cons]
  simp [List.getD_eq_getElem, h1]

theorem seg_one (text : List Int) (a : Int) (ha : 0 ≤ a) (h : a < text.length) :
    seg text a 1 = [text.getD a.toNat 0] := by
  rw [seg_cons text a 1 ha h (le_refl _)]
  simp [seg_zero]

theorem seg_snoc (text : List Int) (a l : Int) (ha : 0 ≤ a) (hl : 0 ≤ l)
    (h : a + l < text.length) :
    seg text a (l + 1) = seg text a l ++ [text.getD (a + l).toNat 0] := by
  rw [seg_add text a l 1 ha hl (by omega), seg_one text (a + l) (by omega) h]

theorem seg_ne_nil (text : List Int) (a l : Int) (ha : 0 ≤ a) (hl : 1 ≤ l)
    (h : a + l ≤ text.length) : seg text a l ≠ [] := by
  intro e
  have := seg_len text a l ha (by omega) h
  rw [e] at this
  simp at this
  omega

theorem seg_mem (text : List Int) (a l : Int) (c : Int) (h : c ∈ seg text a l) : c ∈ text := by
  unfold seg at h
  exact List.mem_of_mem_drop (List.mem_of_mem_take h)

theorem getD_mem (text : List Int) (a : Int) (ha : 0 ≤ a) (h : a < text.length) :
    text.getD a.toNat 0 ∈ text := by
  lift a to ℕ using ha
  have h1 : a < text.length := by exact_mod_cast h
  simp [List.getD_eq_getElem, h1]

/-- Two segments that are equal as lists and start a common list at the same
place have the same length. -/
theorem seg_full (text : List Int) (m : Int) (hm : 0 ≤ m) :
    seg text m (text.length - m) = text.drop m.toNat := by
  unfold seg
  apply List.take_of_length_le
  simp only [List.length_drop]
  omega

/-! ## Memory -/

@[simp] theorem load_store_same (g : globals) (p : eptr) (e : edge) :
    load (store g p e) p = e := by
  cases p <;> simp [load, store]

theorem load_store_ne (g : globals) (p q : eptr) (e : edge) (h : q ≠ p) :
    load (store g p e) q = load g q := by
  cases p <;> cases q <;> simp_all [load, store]

theorem load_store (g : globals) (p q : eptr) (e : edge) :
    load (store g p e) q = if q = p then e else load g q := by
  by_cases h : q = p
  · subst h; simp
  · simp [h, load_store_ne]

@[simp] theorem store_st (g : globals) (p : eptr) (e : edge) : (store g p e).st = g.st := by
  cases p <;> rfl

@[simp] theorem store_size (g : globals) (p : eptr) (e : edge) :
    (store g p e).edges_size = g.edges_size := by
  cases p <;> rfl

@[simp] theorem store_capacity (g : globals) (p : eptr) (e : edge) :
    (store g p e).edges_capacity = g.edges_capacity := by
  cases p <;> rfl

theorem valid_congr (g g1 : globals) (h : g1.edges_size = g.edges_size) (x : eptr) :
    valid g1 x ↔ valid g x := by
  cases x <;> simp [valid, h]

theorem valid_root (g : globals) : valid g eptr.rootedge := trivial

theorem read_ok (text : List Int) (b off : Int) (h0 : 0 ≤ b + off) (h1 : b + off < text.length) :
    read text (some b) off = .ok (text.getD (b + off).toNat 0) := by
  simp [read, h0, h1]

theorem get_symbol_ok (c : Int) (h0 : FIRST_SYMBOL ≤ c) (h1 : c < FIRST_SYMBOL + NUM_SYMBOLS) :
    get_symbol c = .ok (c - FIRST_SYMBOL) := by
  have a : 0 ≤ c - FIRST_SYMBOL ∧ c - FIRST_SYMBOL < NUM_SYMBOLS := by constructor <;> omega
  unfold get_symbol
  simp only []
  rw [if_pos a]

theorem get_symbol_err (c : Int) (h : ¬ (FIRST_SYMBOL ≤ c ∧ c < FIRST_SYMBOL + NUM_SYMBOLS)) :
    get_symbol c = .error Err.symbol := by
  have a : ¬ (0 ≤ c - FIRST_SYMBOL ∧ c - FIRST_SYMBOL < NUM_SYMBOLS) := by
    intro h'; apply h; constructor <;> omega
  unfold get_symbol
  simp only []
  rw [if_neg a]

/-! ## Outcomes -/

theorem Outcome.ok {α : Type} {text : List Int} {v : α} {P : α → Prop} (h : P v) :
    Outcome text (Except.ok v : Except Err α) P := h

theorem Outcome.bind {α β : Type} {text : List Int} {m : Except Err α} {f : α → Except Err β}
    {P : α → Prop} {Q : β → Prop} (hm : Outcome text m P)
    (hf : ∀ v, m = .ok v → P v → Outcome text (f v) Q) : Outcome text (m >>= f) Q := by
  cases m with
  | error e => exact hm
  | ok v => exact hf v rfl hm

theorem Outcome.mono {α : Type} {text : List Int} {m : Except Err α}
    {P Q : α → Prop} (hm : Outcome text m P) (h : ∀ v, m = .ok v → P v → Q v) :
    Outcome text m Q := by
  cases m with
  | error e => exact hm
  | ok v => exact h v rfl hm

theorem Outcome.of_lowercase {α : Type} {text : List Int} {m : Except Err α}
    {P : α → Prop} (hm : Outcome text m P) (hl : lowercase text) : ∃ v, m = .ok v ∧ P v := by
  cases m with
  | error e => exact absurd hl hm.2
  | ok v => exact ⟨v, rfl, hm⟩

theorem Outcome.of_ok {α : Type} {text : List Int} {m : Except Err α} {v : α}
    {P : α → Prop} (hm : Outcome text m P) (h : m = .ok v) : P v := by
  subst h; exact hm

/-- The outcome of `get_symbol` on a character of the text. -/
theorem get_symbol_outcome (text : List Int) (c : Int) (hc : c ∈ text) :
    Outcome text (get_symbol c)
      (fun sym => sym = c - FIRST_SYMBOL ∧ 0 ≤ sym ∧ sym < NUM_SYMBOLS) := by
  by_cases h : FIRST_SYMBOL ≤ c ∧ c < FIRST_SYMBOL + NUM_SYMBOLS
  · rw [get_symbol_ok c h.1 h.2]
    exact ⟨rfl, by omega, by omega⟩
  · rw [get_symbol_err c h]
    exact ⟨rfl, fun hl => h (hl c hc)⟩

end Suffixtree

namespace Suffixtree

/-! ## Structure of the tree -/

theorem load_congr (g g1 : globals) (hr : g1.rootedge = g.rootedge) (he : g1.edges = g.edges) :
    load g1 = load g := by
  funext x
  cases x <;> simp [load, hr, he]

theorem valid_eq (g g1 : globals) (hs : g1.edges_size = g.edges_size) : valid g1 = valid g := by
  funext x
  exact propext (valid_congr g g1 hs x)

theorem Tree.congr_t {text : List Int} {g g1 : globals} {pl : eptr → List Int} {i : Int}
    (T : Tree text g pl i) (hr : g1.rootedge = g.rootedge) (he : g1.edges = g.edges)
    (hs : g1.edges_size = g.edges_size) : Tree text g1 pl i := by
  have hl := load_congr g g1 hr he
  have hv := valid_eq g g1 hs
  obtain ⟨a, b, c, d, e, f, h, k, m, n⟩ := T
  exact ⟨a, by simpa only [hl, hv] using b, by simpa only [hl, hv] using c,
    by simpa only [hl, hv] using d, by simpa only [hl, hv] using e,
    by simpa only [hl, hv] using f, by simpa only [hl, hv] using h,
    by simpa only [hl, hv] using k, by simpa only [hl, hv] using m,
    by simpa only [hl, hv] using n⟩

theorem Spells.congr_w {text : List Int} {g g1 : globals} {pl : eptr → List Int} {w : List Int}
    {v : eptr} {off : Int} (h : Spells text g pl w v off) (hr : g1.rootedge = g.rootedge)
    (he : g1.edges = g.edges) (hs : g1.edges_size = g.edges_size) :
    Spells text g1 pl w v off := by
  have hl := load_congr g g1 hr he
  have hv := valid_eq g g1 hs
  unfold Spells at *
  simpa only [hl, hv] using h

/-- The end of an edge spells its path label. -/
theorem spells_node {text : List Int} {g : globals} {pl : eptr → List Int} {i : Int}
    (T : Tree text g pl i) (v : eptr) (hv : valid g v) :
    Spells text g pl (pl v) v (load g v).len := by
  refine ⟨hv, ?_⟩
  by_cases h : v = eptr.rootedge
  · subst h
    exact Or.inl ⟨rfl, T.root_pl, T.root_len⟩
  · obtain ⟨p, hp, _, h1, _⟩ := T.lab v hv h
    refine Or.inr ⟨h, p, hp, h1, le_refl _, ?_⟩
    simp [seg_zero]

/-- What a position on an edge other than the root says in terms of the parent. -/
theorem Spells.parent {text : List Int} {g : globals} {pl : eptr → List Int} {i : Int}
    {w : List Int} {v : eptr} {off : Int}
    (T : Tree text g pl i) (h : Spells text g pl w v off) (hv : v ≠ eptr.rootedge) :
    ∃ q sym p, valid g q ∧ (load g q).childs sym = some v ∧ (load g v).label = some p ∧
      1 ≤ off ∧ off ≤ (load g v).len ∧ 0 ≤ p ∧ p + (load g v).len ≤ text.length ∧
      w = pl q ++ seg text p off ∧ pl v = pl q ++ seg text p (load g v).len ∧
      text.getD p.toNat 0 = FIRST_SYMBOL + sym ∧ (w.length : Int) = (pl q).length + off := by
  obtain ⟨hval, h⟩ := h
  rcases h with ⟨h, _⟩ | ⟨_, p, hp, h1, h2, hw⟩
  · exact absurd h hv
  obtain ⟨p', hp', h0, _, hn⟩ := T.lab v hval hv
  rw [hp] at hp'
  cases hp'
  obtain ⟨q, sym, hq, hc⟩ := T.par v hval hv
  obtain ⟨_, _, _, _, hch⟩ := T.child q sym v hq hc
  obtain ⟨hfirst, hpl⟩ := hch p hp
  have hs := seg_split text p off (load g v).len h0 (by omega) h2
  have hw2 : w = pl q ++ seg text p off := by
    rw [hpl, hs, ← List.append_assoc] at hw
    exact List.append_cancel_right hw
  refine ⟨q, sym, p, hq, hc, hp, h1, h2, h0, hn, hw2, hpl, hfirst, ?_⟩
  rw [hw2, List.length_append]
  have := seg_len text p off h0 (by omega) (by omega)
  push_cast
  omega

theorem Spells.is_valid {text : List Int} {g : globals} {pl : eptr → List Int}
    {w : List Int} {v : eptr} {off : Int} (h : Spells text g pl w v off) : valid g v := h.1

theorem Spells.root {text : List Int} {g : globals} {pl : eptr → List Int}
    {w : List Int} {off : Int} (h : Spells text g pl w eptr.rootedge off) : w = [] ∧ off = 0 := by
  rcases h.2 with ⟨_, a, b⟩ | ⟨h, _⟩
  · exact ⟨a, b⟩
  · exact absurd rfl h

/-- A position on a word along an edge, from the parent's side. -/
theorem spells_on_edge {text : List Int} {g : globals} {pl : eptr → List Int} {i : Int}
    (T : Tree text g pl i) (q v : eptr) (sym p k : Int) (hq : valid g q)
    (hc : (load g q).childs sym = some v) (hp : (load g v).label = some p)
    (h1 : 1 ≤ k) (h2 : k ≤ (load g v).len) :
    Spells text g pl (pl q ++ seg text p k) v k := by
  obtain ⟨hv, hne, _, _, hch⟩ := T.child q sym v hq hc
  obtain ⟨_, hpl⟩ := hch p hp
  obtain ⟨p', hp', h0, _, _⟩ := T.lab v hv hne
  rw [hp] at hp'
  cases hp'
  refine ⟨hv, Or.inr ⟨hne, p, hp, h1, h2, ?_⟩⟩
  rw [hpl, List.append_assoc, ← seg_split text p k _ h0 (by omega) h2]

/-- Each word has at most one position in the tree. -/
theorem spells_unique_aux {text : List Int} {g : globals} {pl : eptr → List Int} {i : Int}
    (T : Tree text g pl i) (n : Nat) :
    ∀ (w : List Int) (v v' : eptr) (off off' : Int), w.length < n →
      Spells text g pl w v off → Spells text g pl w v' off' → v = v' ∧ off = off' := by
  induction n with
  | zero => intro w v v' off off' h; omega
  | succ n ih =>
    intro w v v' off off' hlen h h'
    by_cases hv : v = eptr.rootedge
    · subst hv
      obtain ⟨hw, ho⟩ := h.root
      by_cases hv' : v' = eptr.rootedge
      · subst hv'
        exact ⟨rfl, by rw [ho, h'.root.2]⟩
      · obtain ⟨q, sym, p, _, _, _, h1, _, _, _, _, _, _, hl⟩ := h'.parent T hv'
        rw [hw] at hl
        simp at hl
        omega
    by_cases hv' : v' = eptr.rootedge
    · subst hv'
      obtain ⟨hw, ho⟩ := h'.root
      obtain ⟨q, sym, p, _, _, _, h1, _, _, _, _, _, _, hl⟩ := h.parent T hv
      rw [hw] at hl
      simp at hl
      omega
    -- the crossing case: the parent of one lies strictly inside the edge of the other
    have key : ∀ (v v' : eptr) (off off' : Int), Spells text g pl w v off →
        Spells text g pl w v' off' → v ≠ eptr.rootedge → v' ≠ eptr.rootedge →
        ∀ q sym p q' sym' p', valid g q → (load g q).childs sym = some v →
          (load g v).label = some p → valid g q' → (load g q').childs sym' = some v' →
          (load g v').label = some p' → w = pl q ++ seg text p off →
          w = pl q' ++ seg text p' off' → (pl q).length < (pl q').length → False := by
      intro v v' off off' h h' hv hv' q sym p q' sym' p' hq hc hp hq' hc' hp' hw hw' hlt
      obtain ⟨_, _, p1, _, _, hp1, h1, h2, h0, hn, _, _, _, hl⟩ := h.parent T hv
      rw [hp] at hp1; cases hp1
      obtain ⟨_, _, p1', _, _, hp1', h1', h2', h0', hn', _, _, _, hl'⟩ := h'.parent T hv'
      rw [hp'] at hp1'; cases hp1'
      have hlq : (w.length : Int) = (pl q).length + off := by
        rw [hw, List.length_append]
        have := seg_len text p off h0 (by omega) (by omega)
        push_cast; omega
      have hlq' : (w.length : Int) = (pl q').length + off' := by
        rw [hw', List.length_append]
        have := seg_len text p' off' h0' (by omega) (by omega)
        push_cast; omega
      -- pl q' is the part of w of its length
      have e1 : pl q' = w.take (pl q').length := by
        rw [hw', List.take_left']
        rfl
      have e2 : w.take (pl q').length
          = pl q ++ seg text p (((pl q').length : Int) - (pl q).length) := by
        rw [hw, List.take_append_eq_append_take, List.take_of_length_le (by omega)]
        congr 1
        have := seg_take text p (((pl q').length : Int) - (pl q).length) off (by omega)
        rw [← this]
        congr 1
        omega
      have hs := spells_on_edge T q v sym p (((pl q').length : Int) - (pl q).length)
          hq hc hp (by omega) (by omega)
      rw [← e1.trans e2] at hs
      have hs' := spells_node T q' hq'
      have hshort : (pl q').length < n := by omega
      obtain ⟨e3, e4⟩ := ih (pl q') v q' _ _ hshort hs hs'
      subst e3
      omega
    obtain ⟨q, sym, p, hq, hc, hp, h1, h2, h0, hn, hw, hpl, hf, hl⟩ := h.parent T hv
    obtain ⟨q', sym', p', hq', hc', hp', h1', h2', h0', hn', hw', hpl', hf', hl'⟩ :=
      h'.parent T hv'
    rcases lt_trichotomy (pl q).length (pl q').length with hlt | heq | hgt
    · exact (key v v' off off' h h' hv hv' q sym p q' sym' p' hq hc hp hq' hc' hp' hw hw' hlt).elim
    · have hww : pl q ++ seg text p off = pl q' ++ seg text p' off' := by rw [← hw, ← hw']
      obtain ⟨ea, eb⟩ := List.append_inj hww heq
      have hshort : (pl q).length < n := by omega
      have hs := spells_node T q hq
      have hs' := spells_node T q' hq'
      rw [← ea] at hs'
      obtain ⟨e3, _⟩ := ih (pl q) q q' _ _ hshort hs hs'
      subst e3
      rw [seg_cons text p off h0 (by omega) h1, seg_cons text p' off' h0' (by omega) h1'] at eb
      have hhead := (List.cons.inj eb).1
      have hsym : sym = sym' := by
        rw [hf, hf'] at hhead
        omega
      subst hsym
      rw [hc] at hc'
      cases hc'
      exact ⟨rfl, by omega⟩
    · exact (key v' v off' off h' h hv' hv q' sym' p' q sym p hq' hc' hp' hq hc hp hw' hw hgt).elim

theorem spells_unique {text : List Int} {g : globals} {pl : eptr → List Int} {i : Int}
    (T : Tree text g pl i) {w : List Int} {v v' : eptr} {off off' : Int}
    (h : Spells text g pl w v off) (h' : Spells text g pl w v' off') : v = v' ∧ off = off' :=
  spells_unique_aux T (w.length + 1) w v v' off off' (Nat.lt_succ_self _) h h'

/-- Distinct edges have distinct path labels. -/
theorem pl_inj {text : List Int} {g : globals} {pl : eptr → List Int} {i : Int}
    (T : Tree text g pl i) {x y : eptr} (hx : valid g x) (hy : valid g y) (h : pl x = pl y) :
    x = y := by
  have a := spells_node T x hx
  have b := spells_node T y hy
  rw [← h] at b
  exact (spells_unique T a b).1

/-- An edge has one parent, and is its child under one symbol. -/
theorem parent_unique {text : List Int} {g : globals} {pl : eptr → List Int} {i : Int}
    (T : Tree text g pl i) {q q' c : eptr} {sym sym' : Int} (hq : valid g q) (hq' : valid g q')
    (h : (load g q).childs sym = some c) (h' : (load g q').childs sym' = some c) :
    q = q' ∧ sym = sym' := by
  obtain ⟨hv, hne, _, _, hch⟩ := T.child q sym c hq h
  obtain ⟨_, _, _, _, hch'⟩ := T.child q' sym' c hq' h'
  obtain ⟨p, hp, _⟩ := T.lab c hv hne
  obtain ⟨hf, hpl⟩ := hch p hp
  obtain ⟨hf', hpl'⟩ := hch' p hp
  rw [hpl] at hpl'
  have := List.append_cancel_right hpl'
  exact ⟨pl_inj T hq hq' this, by omega⟩

/-- Removing the last character of a word of the tree gives a word of the tree. -/
theorem spells_unsnoc {text : List Int} {g : globals} {pl : eptr → List Int} {i : Int}
    (T : Tree text g pl i) {w : List Int} {c : Int} {v : eptr} {off : Int}
    (h : Spells text g pl (w ++ [c]) v off) :
    (2 ≤ off ∧ Spells text g pl w v (off - 1)) ∨
    (off = 1 ∧ ∃ q sym, valid g q ∧ (load g q).childs sym = some v ∧ w = pl q ∧
      c = FIRST_SYMBOL + sym ∧ Spells text g pl w q (load g q).len) := by
  have hv : v ≠ eptr.rootedge := by
    intro e
    subst e
    have := h.root.1
    simp at this
  obtain ⟨q, sym, p, hq, hc, hp, h1, h2, h0, hn, hw, hpl, hf, hl⟩ := h.parent T hv
  have hsn : seg text p off = seg text p (off - 1) ++ [text.getD (p + (off - 1)).toNat 0] := by
    have := seg_snoc text p (off - 1) h0 (by omega) (by omega)
    rwa [show off - 1 + 1 = off by omega] at this
  rw [hsn, ← List.append_assoc] at hw
  obtain ⟨hw1, hw2⟩ := List.append_inj' hw rfl
  by_cases h2' : 2 ≤ off
  · left
    refine ⟨h2', ?_⟩
    rw [hw1]
    exact spells_on_edge T q v sym p (off - 1) hq hc hp (by omega) (by omega)
  · right
    have h1' : off = 1 := by omega
    subst h1'
    simp only [sub_self, seg_zero, List.append_nil, add_zero] at hw1 hw2
    refine ⟨rfl, q, sym, hq, hc, hw1, ?_, ?_⟩
    · have := (List.cons.inj hw2).1
      rw [this, hf]
    · rw [hw1]
      exact spells_node T q hq

/-- The words of the tree are closed under taking an initial part. -/
theorem InTree.init {text : List Int} {g : globals} {pl : eptr → List Int} {i : Int}
    (T : Tree text g pl i) (w r : List Int) (h : InTree text g pl (w ++ r)) :
    InTree text g pl w := by
  induction r using List.reverseRecOn generalizing w with
  | nil => simpa using h
  | append_singleton r c ih =>
    apply ih
    obtain ⟨v, off, hs⟩ := h
    rw [← List.append_assoc] at hs
    rcases spells_unsnoc T hs with ⟨_, h1⟩ | ⟨_, q, _, _, _, _, _, h1⟩
    · exact ⟨v, _, h1⟩
    · exact ⟨q, _, h1⟩

theorem InTree.nil {text : List Int} {g : globals} {pl : eptr → List Int} :
    InTree text g pl [] :=
  ⟨eptr.rootedge, 0, valid_root g, Or.inl ⟨rfl, rfl, rfl⟩⟩

end Suffixtree

namespace Suffixtree

/-! ## Moving the cursor -/

theorem ok_bind {α β : Type} (a : α) (f : α → Except Err β) : (Except.ok a >>= f) = f a := rfl

theorem error_bind {α β : Type} (e : Err) (f : α → Except Err β) :
    ((Except.error e : Except Err α) >>= f) = Except.error e := rfl

theorem pure_eq {α : Type} (a : α) : (pure a : Except Err α) = Except.ok a := rfl

theorem throw_eq {α : Type} (e : Err) : (throw e : Except Err α) = Except.error e := rfl

theorem same_heap.refl (g : globals) : same_heap g g := ⟨rfl, rfl, rfl, rfl, rfl, rfl⟩

theorem same_heap.trans {g g1 g2 : globals} (a : same_heap g g1) (b : same_heap g1 g2) :
    same_heap g g2 := by
  obtain ⟨a1, a2, a3, a4, a5, a6⟩ := a
  obtain ⟨b1, b2, b3, b4, b5, b6⟩ := b
  exact ⟨b1.trans a1, b2.trans a2, b3.trans a3, b4.trans a4, b5.trans a5, b6.trans a6⟩

theorem same_heap.load_h {g g1 : globals} (h : same_heap g g1) : load g1 = load g :=
  load_congr g g1 h.1 h.2.1

theorem same_heap.valid_h {g g1 : globals} (h : same_heap g g1) : valid g1 = valid g :=
  valid_eq g g1 h.2.2.1

theorem same_heap.tree_h {text : List Int} {g g1 : globals} {pl : eptr → List Int} {i : Int}
    (h : same_heap g g1) (T : Tree text g pl i) : Tree text g1 pl i :=
  T.congr_t h.1 h.2.1 h.2.2.1

theorem same_heap.spells_h {text : List Int} {g g1 : globals} {pl : eptr → List Int}
    {w : List Int} {v : eptr} {off : Int} (h : same_heap g g1)
    (hs : Spells text g pl w v off) : Spells text g1 pl w v off :=
  hs.congr_w h.1 h.2.1 h.2.2.1

theorem same_heap.symm_h {g g1 : globals} (h : same_heap g g1) : same_heap g1 g :=
  ⟨h.1.symm, h.2.1.symm, h.2.2.1.symm, h.2.2.2.1.symm, h.2.2.2.2.1.symm, h.2.2.2.2.2.symm⟩

theorem same_heap.intree_h {text : List Int} {g g1 : globals} {pl : eptr → List Int}
    {w : List Int} (h : same_heap g g1) : InTree text g1 pl w ↔ InTree text g pl w := by
  constructor
  · rintro ⟨v, off, hs⟩
    exact ⟨v, off, h.symm_h.spells_h hs⟩
  · rintro ⟨v, off, hs⟩
    exact ⟨v, off, h.spells_h hs⟩

/-- A word ending inside an edge continues with the next character of the label only. -/
theorem spells_next {text : List Int} {g : globals} {pl : eptr → List Int} {i : Int}
    (T : Tree text g pl i) {w : List Int} {v : eptr} {off p : Int}
    (hs : Spells text g pl w v off) (hp : (load g v).label = some p)
    (hlt : off < (load g v).len) (hne : v ≠ eptr.rootedge) (c : Int) :
    InTree text g pl (w ++ [c]) ↔ c = text.getD (p + off).toNat 0 := by
  obtain ⟨q, sym, p1, hq, hc, hp1, h1, h2, h0, hn, hw, hpl, hf, hl⟩ := hs.parent T hne
  rw [hp] at hp1
  cases hp1
  have hsn := seg_snoc text p off h0 (by omega) (by omega)
  constructor
  · rintro ⟨v', off', hs'⟩
    rcases spells_unsnoc T hs' with ⟨h2', hs2⟩ | ⟨_, q', sym', hq', hc', hw', _, hs2⟩
    · obtain ⟨e1, e2⟩ := spells_unique T hs hs2
      subst e1
      obtain ⟨q2, sym2, p2, hq2, hc2, hp2, _, _, _, _, hw2, _, _, _⟩ := hs'.parent T hne
      rw [hp] at hp2
      cases hp2
      obtain ⟨e3, _⟩ := parent_unique T hq hq2 hc hc2
      subst e3
      rw [show off' = off + 1 by omega, hsn, hw, List.append_assoc] at hw2
      have := List.append_cancel_left (List.append_cancel_left hw2)
      exact (List.cons.inj this).1
    · obtain ⟨e1, e2⟩ := spells_unique T hs hs2
      subst e1
      omega
  · intro hcc
    refine ⟨v, off + 1, ?_⟩
    have := spells_on_edge T q v sym p (off + 1) hq hc hp (by omega) (by omega)
    rwa [hsn, ← List.append_assoc, ← hw, ← hcc] at this

theorem spells_at_end {text : List Int} {g : globals} {pl : eptr → List Int}
    {i : Int} (T : Tree text g pl i) {w : List Int} {v : eptr}
    (hs : Spells text g pl w v (load g v).len) : w = pl v := by
  rcases hs.2 with ⟨e, hw, _⟩ | ⟨_, p, _, _, _, hw⟩
  · rw [e, hw, T.root_pl]
  · simpa [seg_zero] using hw

/-- A word ending at the end of an edge continues with the first characters of
the labels of the children. -/
theorem spells_child {text : List Int} {g : globals} {pl : eptr → List Int} {i : Int}
    (T : Tree text g pl i) {w : List Int} {v : eptr}
    (hs : Spells text g pl w v (load g v).len) (sym : Int) :
    InTree text g pl (w ++ [FIRST_SYMBOL + sym]) ↔ ∃ ch, (load g v).childs sym = some ch := by
  have hw : w = pl v := spells_at_end T hs
  constructor
  · rintro ⟨v', off', hs'⟩
    rcases spells_unsnoc T hs' with ⟨h2', hs2⟩ | ⟨_, q', sym', hq', hc', hw', hsym, hs2⟩
    · obtain ⟨e1, e2⟩ := spells_unique T hs hs2
      subst e1
      have hne : v ≠ eptr.rootedge := by
        intro e
        subst e
        have := hs2.root.2
        omega
      obtain ⟨_, _, _, _, _, _, _, hle, _⟩ := hs'.parent T hne
      omega
    · obtain ⟨e1, _⟩ := spells_unique T hs hs2
      subst e1
      have : sym = sym' := by omega
      subst this
      exact ⟨v', hc'⟩
  · rintro ⟨ch, hch⟩
    obtain ⟨hv, hne, _, _, hc⟩ := T.child v sym ch hs.is_valid hch
    obtain ⟨p, hp, h0, h1, hn⟩ := T.lab ch hv hne
    obtain ⟨hf, _⟩ := hc p hp
    have := spells_on_edge T v ch sym p 1 hs.is_valid hch hp (le_refl _) h1
    rw [seg_one text p h0 (by omega), hf, ← hw] at this
    exact ⟨ch, 1, this⟩

theorem load_setst (g : globals) (s : state) (x : eptr) : load { g with st := s } x = load g x := by
  cases x <;> rfl

theorem charstep_compare_eq (text : List Int) (c : Int) (g : globals) (v : eptr) (p : Int)
    (he : g.st.edge = some v) (hp : (load g v).label = some p) (h0 : 0 ≤ p + g.st.offset)
    (h1 : p + g.st.offset < text.length) :
    charstep_compare text c g = .ok
      (if text.getD (p + g.st.offset).toNat 0 ≠ c then (false, g)
       else (true, { g with st := { g.st with offset := g.st.offset + 1 } })) := by
  unfold charstep_compare
  rw [he]
  simp only [deref, ok_bind, hp, read_ok text p g.st.offset h0 h1]
  split <;> rfl

/-- The effect of `charstep` at a position of the tree. -/
theorem charstep_spec {text : List Int} {g : globals} {pl : eptr → List Int} {i : Int}
    (T : Tree text g pl i) {w : List Int} (hat : At text g pl w) (c : Int) (hc : c ∈ text) :
    Outcome text (charstep text c g) (fun r =>
      (r.1 = true ∧ same_heap g r.2 ∧ At text r.2 pl (w ++ [c])) ∨
      (r.1 = false ∧ r.2 = g ∧ ¬ InTree text g pl (w ++ [c]))) := by
  obtain ⟨v, he, hs, hpar⟩ := hat
  unfold charstep
  rw [he]
  simp only [deref, ok_bind]
  by_cases hnode : g.st.offset ≥ (load g v).len
  · -- at the end of an edge
    rw [if_pos hnode]
    have hoff : g.st.offset = (load g v).len := by
      rcases hs.2 with ⟨e, _, ho⟩ | ⟨_, p, _, _, hle, _⟩
      · rw [e, T.root_len]; exact ho
      · omega
    rw [hoff] at hs
    apply Outcome.bind (get_symbol_outcome text c hc)
    rintro sym _ ⟨hsym, hs0, hs1⟩
    have hcs : c = FIRST_SYMBOL + sym := by omega
    cases hch : (load g v).childs sym with
    | none =>
      right
      refine ⟨rfl, rfl, ?_⟩
      rw [hcs, spells_child T hs sym, hch]
      simp
    | some ch =>
      obtain ⟨hv, hne, _, _, hcc⟩ := T.child v sym ch hs.is_valid hch
      obtain ⟨p, hp, h0, h1, hn⟩ := T.lab ch hv hne
      obtain ⟨hf, hpl⟩ := hcc p hp
      simp only [load_setst, hp]
      rw [read_ok text p 0 (by omega) (by omega)]
      simp only [ok_bind, add_zero]
      have hx : text.getD p.toNat 0 = c := by rw [hf, hcs]
      rw [if_neg (by simpa using hx)]
      rw [charstep_compare_eq text c _ ch p rfl (by simpa [load_setst] using hp)
        (by simpa using h0) (by simp; omega)]
      simp only [add_zero, hx, ne_eq, not_true_eq_false, if_false]
      left
      refine ⟨rfl, ⟨rfl, rfl, rfl, rfl, rfl, rfl⟩, ch, rfl, ?_, ?_⟩
      · have := spells_on_edge T v ch sym p 1 hs.is_valid hch hp (le_refl _) h1
        rw [seg_one text p h0 (by omega), hx, ← spells_at_end T hs] at this
        exact same_heap.spells_h ⟨rfl, rfl, rfl, rfl, rfl, rfl⟩ this
      · intro _
        exact ⟨v, sym, rfl, hs.is_valid, hch⟩
  · -- inside an edge
    rw [if_neg hnode]
    have hne : v ≠ eptr.rootedge := by
      intro e
      subst e
      have := hs.root.2
      have := T.root_len
      omega
    obtain ⟨q, sym, p, hq, hcq, hp, h1, h2, h0, hn, hw, hpl, hf, hl⟩ := hs.parent T hne
    rw [charstep_compare_eq text c g v p he hp (by omega) (by omega)]
    have hnext := spells_next T hs hp (by omega) hne c
    by_cases hx : text.getD (p + g.st.offset).toNat 0 = c
    · rw [if_neg (by simpa using hx)]
      left
      refine ⟨rfl, ⟨rfl, rfl, rfl, rfl, rfl, rfl⟩, v, he, ?_, ?_⟩
      · have := spells_on_edge T q v sym p (g.st.offset + 1) hq hcq hp (by omega) (by omega)
        rw [seg_snoc text p g.st.offset h0 (by omega) (by omega), ← List.append_assoc, ← hw, hx]
          at this
        exact same_heap.spells_h ⟨rfl, rfl, rfl, rfl, rfl, rfl⟩ this
      · intro hlt
        exact hpar (by simp [load_setst] at hlt; omega)
    · rw [if_pos hx]
      right
      refine ⟨rfl, rfl, ?_⟩
      rw [hnext]
      exact fun e => hx e.symm

end Suffixtree

namespace Suffixtree

/-! ## Consuming a run of characters -/

theorem At.congr_word {text : List Int} {g : globals} {pl : eptr → List Int} {w w' : List Int}
    (h : At text g pl w) (e : w = w') : At text g pl w' := e ▸ h

/-- The effect of the loop shared by `consume_string` and
`consume_whole_string`, started at a position of the tree. -/
theorem consume_loop_spec {text : List Int} {pl : eptr → List Int} {i : Int} (stop : Int)
    (hstop : stop ≤ text.length) :
    ∀ (k : Nat) (s : Int) (g : globals) (w : List Int), Tree text g pl i → At text g pl w →
      0 ≤ s → s ≤ stop → (stop - s).toNat ≤ k →
      Outcome text (consume_loop text stop k s g) (fun r =>
        s ≤ r.1 ∧ r.1 ≤ stop ∧ same_heap g r.2 ∧ At text r.2 pl (w ++ seg text s (r.1 - s)) ∧
        (r.1 < stop → ¬ InTree text g pl (w ++ seg text s (r.1 - s + 1))) ∧
        (r.1 = s → r.2 = g)) := by
  intro k
  induction k with
  | zero =>
    intro s g w T hat h0 hs hk
    have : ¬ s < stop := by omega
    simp only [consume_loop, if_neg this, pure_eq]
    refine ⟨le_refl _, hs, same_heap.refl g, ?_, fun h => absurd h this, fun _ => rfl⟩
    simpa [seg_zero] using hat
  | succ k ih =>
    intro s g w T hat h0 hs hk
    by_cases hlt : s < stop
    · simp only [consume_loop, if_pos hlt]
      rw [read_ok text s 0 (by omega) (by omega)]
      simp only [ok_bind, add_zero]
      have hmem := getD_mem text s h0 (by omega)
      apply Outcome.bind (charstep_spec T hat _ hmem)
      rintro ⟨b, g1⟩ _ hr
      rcases hr with ⟨hb, hh, hat1⟩ | ⟨hb, hg, hnot⟩
      · simp only at hb hh hat1
        subst hb
        simp only [if_true]
        have := ih (s + 1) g1 (w ++ [text.getD s.toNat 0]) (hh.tree_h T) hat1 (by omega) (by omega)
          (by omega)
        apply Outcome.mono this
        rintro ⟨s', g'⟩ _ ⟨a1, a2, a3, a4, a5, a6⟩
        simp only at a1 a2 a3 a4 a5 a6
        have hseg : ∀ l : Int, s + 1 + l ≤ s' + 1 → 0 ≤ l →
            (w ++ [text.getD s.toNat 0]) ++ seg text (s + 1) l = w ++ seg text s (l + 1) := by
          intro l _ hl
          rw [seg_cons text s (l + 1) h0 (by omega) (by omega), List.append_assoc]
          simp
        refine ⟨by simp only; omega, a2, hh.trans a3, ?_, ?_, ?_⟩
        · simp only
          rw [← show s' - (s + 1) + 1 = s' - s by omega, ← hseg _ (by omega) (by omega)]
          exact a4
        · simp only
          intro hl
          rw [← hh.intree_h, ← hseg _ (by omega) (by omega),
            show s' - s = s' - (s + 1) + 1 by omega]
          exact a5 hl
        · simp only
          intro e
          omega
      · simp only at hb hg hnot
        subst hb
        subst hg
        simp only [Bool.false_eq_true, if_false, pure_eq]
        refine ⟨le_refl _, hs, same_heap.refl _, ?_, ?_, fun _ => rfl⟩
        · simpa [seg_zero] using hat
        · intro _
          simpa [seg_one text s h0 (by omega)] using hnot
    · simp only [consume_loop, if_neg hlt, pure_eq]
      refine ⟨le_refl _, hs, same_heap.refl g, ?_, fun h => absurd h hlt, fun _ => rfl⟩
      simpa [seg_zero] using hat

/-- The effect of `consume_string`. -/
theorem consume_string_spec {text : List Int} {g : globals} {pl : eptr → List Int} {i : Int}
    (T : Tree text g pl i) {w : List Int} (hat : At text g pl w) (s : Int) (h0 : 0 ≤ s)
    (hs : s ≤ text.length) :
    Outcome text (consume_string text s g) (fun r =>
      s ≤ r.1 ∧ r.1 ≤ text.length ∧ same_heap g r.2 ∧
      At text r.2 pl (w ++ seg text s (r.1 - s)) ∧
      (r.1 < text.length → ¬ InTree text g pl (w ++ seg text s (r.1 - s + 1))) ∧
      (r.1 = s → r.2 = g)) :=
  consume_loop_spec (text.length : Int) (le_refl _) _ s g w T hat h0 hs (le_refl _)

/-- The effect of `consume_whole_string` on a run of characters that
continues the cursor's word inside the tree. -/
theorem consume_whole_string_spec {text : List Int} {g : globals} {pl : eptr → List Int}
    {i : Int} (T : Tree text g pl i) {w : List Int} (hat : At text g pl w) (s stop : Int)
    (h0 : 0 ≤ s) (hs : s ≤ stop) (hstop : stop ≤ text.length)
    (hin : InTree text g pl (w ++ seg text s (stop - s))) :
    Outcome text (consume_whole_string text s stop g) (fun g1 =>
      same_heap g g1 ∧ At text g1 pl (w ++ seg text s (stop - s))) := by
  unfold consume_whole_string
  apply Outcome.bind (consume_loop_spec stop hstop _ s g w T hat h0 hs (le_refl _))
  rintro ⟨s1, g1⟩ _ ⟨a1, a2, a3, a4, a5, _⟩
  simp only at a1 a2 a3 a4 a5
  by_cases e : s1 = stop
  · subst e
    simp only [if_true, pure_eq]
    exact ⟨a3, a4⟩
  · exfalso
    apply a5 (by omega)
    have hsp := seg_split text s (s1 - s + 1) (stop - s) h0 (by omega) (by omega)
    rw [hsp, ← List.append_assoc] at hin
    exact InTree.init T _ _ hin

end Suffixtree

namespace Suffixtree

/-! ## Splitting an edge -/

theorem load_alloc (g : globals) (e : edge) (x : eptr) :
    load { g with edges := fun j => if j = g.edges_size then e else g.edges j,
                  edges_size := g.edges_size + 1 } x
      = if x = eptr.slot g.edges_size then e else load g x := by
  cases x with
  | rootedge => simp [load]
  | slot j => simp [load]

/-- `split_if_not_at_node` at the end of an edge does nothing. -/
theorem split_at_node (text : List Int) (g : globals) (v : eptr) (he : g.st.edge = some v)
    (h0 : 0 ≤ g.st.offset) (h : g.st.offset = (load g v).len) :
    split_if_not_at_node text g = .ok g := by
  unfold split_if_not_at_node
  rw [he]
  simp only
  rw [if_neg (by rw [h]; simp; omega), if_pos (by omega)]
  rfl

/-- The state `split_if_not_at_node` produces when the cursor is inside an edge. -/
theorem split_eval (text : List Int) (g : globals) (b q : eptr) (p symA : Int)
    (he : g.st.edge = some b) (hp : (load g b).label = some p) (hp0 : 0 ≤ p)
    (hk1 : 1 ≤ g.st.offset) (hk : g.st.offset < (load g b).len)
    (hn : p + (load g b).len ≤ text.length) (hcap : g.edges_size < g.edges_capacity)
    (hpar : g.st.parent = some q) (hqc : (load g q).childs symA = some b)
    (hA : text.getD p.toNat 0 = FIRST_SYMBOL + symA) (hA0 : 0 ≤ symA) (hA1 : symA < NUM_SYMBOLS)
    (hbN : b ≠ eptr.slot g.edges_size) (hqN : q ≠ eptr.slot g.edges_size) (hqb : q ≠ b) :
    Outcome text (split_if_not_at_node text g) (fun g' =>
      g'.edges_size = g.edges_size + 1 ∧ g'.edges_capacity = g.edges_capacity ∧
      g'.st = { g.st with edge := some (eptr.slot g.edges_size) } ∧
      ∃ symB, 0 ≤ symB ∧ symB < NUM_SYMBOLS ∧
        text.getD (p + g.st.offset).toNat 0 = FIRST_SYMBOL + symB ∧
        ∀ x, load g' x =
          if x = eptr.slot g.edges_size then
            ⟨some p, g.st.offset, none, fun j => if j = symB then some b else none⟩
          else if x = b then
            { load g b with label := some (p + g.st.offset), len := (load g b).len - g.st.offset }
          else if x = q then
            { load g q with childs := fun j =>
                if j = symA then some (eptr.slot g.edges_size) else (load g q).childs j }
          else load g x) := by
  unfold split_if_not_at_node
  rw [he]
  simp only
  rw [if_neg (by simp; omega), if_neg (by omega)]
  unfold allocate_edge
  rw [if_pos hcap]
  simp only [ok_bind, load_store, store_st, load_alloc, load_setst, if_true, if_neg hbN,
    if_neg (Ne.symm hbN), hp, Option.map_some']
  rw [read_ok text (p + g.st.offset) 0 (by omega) (by omega)]
  simp only [ok_bind, add_zero]
  apply Outcome.bind (get_symbol_outcome text _ (getD_mem text _ (by omega) (by omega)))
  rintro symB _ ⟨hB, hB0, hB1⟩
  rw [read_ok text p 0 (by omega) (by omega)]
  simp only [ok_bind, add_zero, hA]
  rw [get_symbol_ok _ (by omega) (by omega)]
  simp only [ok_bind, store_st, hpar, load_store, if_neg hqN, if_neg hqb, load_alloc, load_setst,
    add_sub_cancel_left, hqc, ne_eq, not_true_eq_false, if_false, pure_eq]
  refine ⟨by simp, by simp, by simp, symB, hB0, hB1, by omega, ?_⟩
  intro x
  simp only [load_store, load_alloc, load_setst]
  by_cases h1 : x = eptr.slot g.edges_size
  · subst h1
    simp [hqN, hbN, Ne.symm hqN, Ne.symm hbN]
    exact ⟨rfl, rfl⟩
  by_cases h2 : x = b
  · subst h2
    simp [h1, hqb, Ne.symm hqb]
  by_cases h3 : x = q
  · subst h3
    simp [h1, h2]
  simp only [if_neg h1, if_neg h2, if_neg h3]
  cases x with
  | rootedge => rfl
  | slot j =>
    have : j ≠ g.edges_size := fun e => h1 (by rw [e])
    simp [load, this]

/-- Splitting the edge the cursor is inside keeps the tree invariant; the
new upper half gets the cursor's word as its path label. -/
theorem Tree.split {text : List Int} {g g' : globals} {pl : eptr → List Int} {i : Int}
    {w : List Int} {b q : eptr} {k p symA symB : Int}
    (T : Tree text g pl i) (hs : Spells text g pl w b k) (hk : k < (load g b).len)
    (hq : valid g q) (hqc : (load g q).childs symA = some b) (hp : (load g b).label = some p)
    (hB : text.getD (p + k).toNat 0 = FIRST_SYMBOL + symB) (hB0 : 0 ≤ symB)
    (hB1 : symB < NUM_SYMBOLS) (hsize : g'.edges_size = g.edges_size + 1)
    (hload : ∀ x, load g' x =
      if x = eptr.slot g.edges_size then
        ⟨some p, k, none, fun j => if j = symB then some b else none⟩
      else if x = b then { load g b with label := some (p + k), len := (load g b).len - k }
      else if x = q then
        { load g q with childs := fun j =>
            if j = symA then some (eptr.slot g.edges_size) else (load g q).childs j }
      else load g x) :
    Tree text g' (fun x => if x = eptr.slot g.edges_size then w else pl x) i := by
  have hNv : ¬ valid g (eptr.slot g.edges_size) := by simp [valid]
  have hval : ∀ x, valid g' x ↔ (x = eptr.slot g.edges_size ∨ valid g x) := by
    intro x
    cases x with
    | rootedge => simp [valid]
    | slot j =>
      simp only [valid, hsize, eptr.slot.injEq]
      omega
  have hNr : eptr.slot g.edges_size ≠ eptr.rootedge := by simp
  generalize eptr.slot g.edges_size = nw at *
  have hbne : b ≠ eptr.rootedge := by
    intro e
    subst e
    have := hs.root.2
    have := T.root_len
    omega
  obtain ⟨q0, sym0, p0, hq0, hc0, hp0, h1, h2, h0, hn, hw, hplb, hf, hl⟩ := hs.parent T hbne
  rw [hp] at hp0
  cases hp0
  obtain ⟨e1, e2⟩ := parent_unique T hq hq0 hqc hc0
  subst e1
  subst e2
  have hbv := hs.is_valid
  have hqN : q ≠ nw := fun e => hNv (e ▸ hq)
  have hbN : b ≠ nw := fun e => hNv (e ▸ hbv)
  have hqb : q ≠ b := by
    intro e
    rw [e] at hplb
    have h3 := seg_ne_nil text p (load g b).len h0 (by omega) hn
    have h4 := congrArg List.length hplb
    rw [List.length_append] at h4
    apply h3
    apply List.eq_nil_of_length_eq_zero
    omega
  obtain ⟨_, _, hA0, hA1, _⟩ := T.child q symA b hq hqc
  -- the records of the new state
  have lnw : load g' nw = ⟨some p, k, none, fun j => if j = symB then some b else none⟩ := by
    rw [hload, if_pos rfl]
  have lb : load g' b = { load g b with label := some (p + k), len := (load g b).len - k } := by
    rw [hload, if_neg hbN, if_pos rfl]
  have lq : load g' q = { load g q with childs := fun j =>
      if j = symA then (some nw) else (load g q).childs j } := by
    rw [hload, if_neg hqN, if_neg hqb, if_pos rfl]
  have lo : ∀ x, x ≠ nw → x ≠ b → x ≠ q → load g' x = load g x := by
    intro x a b c
    rw [hload, if_neg a, if_neg b, if_neg c]
  have llen : ∀ x, x ≠ nw → x ≠ b → (load g' x).len = (load g x).len ∧
      (load g' x).label = (load g x).label := by
    intro x a b
    by_cases c : x = q
    · subst c; rw [lq]; exact ⟨rfl, rfl⟩
    · rw [lo x a b c]; exact ⟨rfl, rfl⟩
  have llink : ∀ x, x ≠ nw → (load g' x).link = (load g x).link := by
    intro x a
    by_cases b' : x = b
    · subst b'; rw [lb]
    by_cases c : x = q
    · subst c; rw [lq]
    · rw [lo x a b' c]
  have lch : ∀ x, x ≠ nw → x ≠ q → (load g' x).childs = (load g x).childs := by
    intro x a c
    by_cases b' : x = b
    · subst b'; rw [lb]
    · rw [lo x a b' c]
  -- the path labels of the new state
  obtain ⟨pl', hpl'⟩ : ∃ pl' : eptr → List Int, pl' = fun x => if x = nw then w else pl x :=
    ⟨_, rfl⟩
  rw [← hpl']
  have plnw : pl' nw = w := by rw [hpl']; simp
  have plo : ∀ x, x ≠ nw → pl' x = pl x := by
    intro x a
    rw [hpl']
    simp [a]
  have hvo : ∀ x, valid g x → x ≠ nw := fun x hx e => hNv (e ▸ hx)
  -- the children of the new state
  have hch : ∀ x sym c, valid g' x → (load g' x).childs sym = some c →
      (x = nw ∧ sym = symB ∧ c = b) ∨ (x = q ∧ sym = symA ∧ c = nw) ∨
      (valid g x ∧ (load g x).childs sym = some c ∧ c ≠ b ∧ valid g c) := by
    intro x sym c hx hc
    by_cases a : x = nw
    · subst a
      rw [lnw] at hc
      simp only at hc
      by_cases e : sym = symB
      · rw [if_pos e] at hc
        exact Or.inl ⟨rfl, e, (Option.some.inj hc).symm⟩
      · rw [if_neg e] at hc
        cases hc
    have hxv : valid g x := ((hval x).1 hx).resolve_left a
    by_cases c' : x = q
    · subst c'
      rw [lq] at hc
      simp only at hc
      by_cases e : sym = symA
      · rw [if_pos e] at hc
        exact Or.inr (Or.inl ⟨rfl, e, (Option.some.inj hc).symm⟩)
      · rw [if_neg e] at hc
        refine Or.inr (Or.inr ⟨hxv, hc, ?_, (T.child x sym c hxv hc).1⟩)
        intro e'
        subst e'
        exact e (parent_unique T hxv hxv hc hqc).2
    · rw [lch x a c'] at hc
      refine Or.inr (Or.inr ⟨hxv, hc, ?_, (T.child x sym c hxv hc).1⟩)
      intro e'
      subst e'
      exact c' (parent_unique T hxv hq hc hqc).1
  have hsplit := seg_split text p k (load g b).len h0 (by omega) (by omega)
  have hocc := T.occ b p hbv hbne hp
  have hlb : ((pl b).length : Int) = (pl q).length + (load g b).len := by
    rw [hplb, List.length_append]
    have := seg_len text p (load g b).len h0 (by omega) hn
    push_cast
    omega
  refine ⟨?_, ?_, ?_, ?_, ?_, ?_, ?_, ?_, ?_, ?_⟩
  · -- root_pl
    rw [plo _ (Ne.symm hNr)]
    exact T.root_pl
  · -- root_len
    rw [(llen _ (Ne.symm hNr) (Ne.symm hbne)).1]
    exact T.root_len
  · -- root_link
    rw [llink _ (Ne.symm hNr)]
    exact T.root_link
  · -- lab
    intro x hx hne
    by_cases a : x = nw
    · subst a
      rw [lnw]
      exact ⟨p, rfl, h0, h1, by simp only; omega⟩
    by_cases b' : x = b
    · subst b'
      rw [lb]
      exact ⟨p + k, rfl, by omega, by simp only; omega, by simp only; omega⟩
    · rw [(llen x a b').1, (llen x a b').2]
      exact T.lab x (((hval x).1 hx).resolve_left a) hne
  · -- par
    intro x hx hne
    by_cases a : x = nw
    · subst a
      refine ⟨q, symA, (hval q).2 (Or.inr hq), ?_⟩
      rw [lq]
      simp
    by_cases b' : x = b
    · subst b'
      refine ⟨nw, symB, (hval nw).2 (Or.inl rfl), ?_⟩
      rw [lnw]
      simp
    · have hxv : valid g x := ((hval x).1 hx).resolve_left a
      obtain ⟨y, sym, hy, hyc⟩ := T.par x hxv hne
      refine ⟨y, sym, (hval y).2 (Or.inr hy), ?_⟩
      by_cases c : y = q
      · subst c
        rw [lq]
        simp only
        rw [if_neg]
        · exact hyc
        · intro e
          subst e
          rw [hqc] at hyc
          exact b' (Option.some.inj hyc).symm
      · rw [lch y (hvo y hy) c]
        exact hyc
  · -- child
    intro x sym c hx hc
    rcases hch x sym c hx hc with ⟨rfl, rfl, rfl⟩ | ⟨rfl, rfl, rfl⟩ | ⟨hxv, hco, hcb, hcv⟩
    · refine ⟨(hval _).2 (Or.inr hbv), hbne, hB0, hB1, ?_⟩
      intro p' hp'
      rw [lb] at hp'
      simp only at hp'
      cases hp'
      rw [lb, plnw, plo _ hbN, hplb, hw, hsplit, List.append_assoc]
      exact ⟨hB, rfl⟩
    · refine ⟨(hval _).2 (Or.inl rfl), hNr, hA0, hA1, ?_⟩
      intro p' hp'
      rw [lnw] at hp'
      simp only at hp'
      cases hp'
      rw [lnw, plnw, plo _ hqN]
      exact ⟨hf, hw⟩
    · obtain ⟨_, hcne, s0, s1, hcc⟩ := T.child x sym c hxv hco
      refine ⟨(hval _).2 (Or.inr hcv), hcne, s0, s1, ?_⟩
      intro p' hp'
      rw [(llen c (hvo c hcv) hcb).2] at hp'
      rw [(llen c (hvo c hcv) hcb).1, plo c (hvo c hcv), plo x (hvo x hxv)]
      exact hcc p' hp'
  · -- occ
    intro x p' hx hne hp'
    by_cases a : x = nw
    · subst a
      rw [lnw] at hp' ⊢
      simp only at hp' ⊢
      cases hp'
      rw [plnw]
      obtain ⟨o1, o2, o3⟩ := hocc
      refine ⟨by omega, by omega, ?_⟩
      have e : p + k - (w.length : Int) = p + (load g b).len - (pl b).length := by omega
      rw [e]
      have ht := seg_take text (p + (load g b).len - (pl b).length) w.length (pl b).length
        (by omega)
      have hwb : pl b = w ++ seg text (p + k) ((load g b).len - k) := by
        rw [hplb, hw, hsplit, List.append_assoc]
      rw [← ht, ← o3, Int.toNat_ofNat]
      conv_rhs => rw [hwb]
      exact (List.take_left' rfl).symm
    by_cases b' : x = b
    · subst b'
      rw [lb] at hp' ⊢
      simp only at hp' ⊢
      cases hp'
      rw [plo _ hbN]
      obtain ⟨o1, o2, o3⟩ := hocc
      rw [show p + k + ((load g x).len - k) = p + (load g x).len by omega]
      exact ⟨o1, o2, o3⟩
    · rw [(llen x a b').2] at hp'
      rw [(llen x a b').1, plo x a]
      exact T.occ x p' (((hval x).1 hx).resolve_left a) hne hp'
  · -- leaf
    intro m hm0 hm1
    obtain ⟨x, hx, hne, hplx, hnc⟩ := T.leaf m hm0 hm1
    refine ⟨x, (hval x).2 (Or.inr hx), hne, by rw [plo x (hvo x hx)]; exact hplx, ?_⟩
    have : x ≠ q := by
      intro e
      subst e
      rw [hnc symA] at hqc
      cases hqc
    rw [lch x (hvo x hx) this]
    exact hnc
  · -- leaf_end
    intro x p' hx hne hnc hp'
    by_cases a : x = nw
    · subst a
      have := hnc symB
      rw [lnw] at this
      simp at this
    by_cases c : x = q
    · subst c
      have := hnc symA
      rw [lq] at this
      simp at this
    have hxv : valid g x := ((hval x).1 hx).resolve_left a
    rw [lch x a c] at hnc
    by_cases b' : x = b
    · subst b'
      rw [lb] at hp' ⊢
      simp only at hp' ⊢
      cases hp'
      have := T.leaf_end x p hxv hne hnc hp
      omega
    · rw [(llen x a b').2] at hp'
      rw [(llen x a b').1]
      exact T.leaf_end x p' hxv hne hnc hp'
  · -- link
    intro x t hx hlk
    by_cases a : x = nw
    · subst a
      rw [lnw] at hlk
      cases hlk
    have hxv : valid g x := ((hval x).1 hx).resolve_left a
    rw [llink x a] at hlk
    obtain ⟨ht, ⟨c, hc⟩, sym, ch, hch0⟩ := T.link x t hxv hlk
    refine ⟨(hval t).2 (Or.inr ht), ⟨c, by rw [plo x a, plo t (hvo t ht)]; exact hc⟩, ?_⟩
    by_cases c' : x = q
    · subst c'
      refine ⟨symA, nw, ?_⟩
      rw [lq]
      simp
    · rw [lch x a c']
      exact ⟨sym, ch, hch0⟩

end Suffixtree

namespace Suffixtree

/-! ## Inserting a leaf -/

/-- The state `insert_tail` produces when the cursor is at the end of an edge
that has no child for the first character of the tail. -/
theorem insert_eval (text : List Int) (g : globals) (v : eptr)
    (he : g.st.edge = some v) (hoff : g.st.offset = (load g v).len)
    (ht0 : 0 ≤ g.st.tail) (ht1 : g.st.tail < text.length)
    (hcap : g.edges_size < g.edges_capacity) (hvN : v ≠ eptr.slot g.edges_size)
    (hnone : (load g v).childs (text.getD g.st.tail.toNat 0 - FIRST_SYMBOL) = none) :
    Outcome text (insert_tail text g) (fun g' =>
      g'.edges_size = g.edges_size + 1 ∧ g'.edges_capacity = g.edges_capacity ∧ g'.st = g.st ∧
      ∃ sym, 0 ≤ sym ∧ sym < NUM_SYMBOLS ∧ text.getD g.st.tail.toNat 0 = FIRST_SYMBOL + sym ∧
        ∀ x, load g' x =
          if x = eptr.slot g.edges_size then
            ⟨some g.st.tail, text.length - g.st.tail, none, fun _ => none⟩
          else if x = v then
            { load g v with childs := fun j =>
                if j = sym then some (eptr.slot g.edges_size) else (load g v).childs j }
          else load g x) := by
  unfold insert_tail allocate_edge
  rw [if_pos hcap]
  simp only [ok_bind, load_store, store_st, load_alloc, load_setst, if_true]
  rw [read_ok text g.st.tail 0 (by omega) (by omega)]
  simp only [ok_bind, add_zero]
  apply Outcome.bind (get_symbol_outcome text _ (getD_mem text _ ht0 ht1))
  rintro sym _ ⟨hs, hs0, hs1⟩
  rw [← hs] at hnone
  simp only [he, load_store, load_alloc, load_setst, if_neg hvN, hoff, ne_eq, not_true_eq_false,
    if_false, hnone, pure_eq]
  refine ⟨by simp, by simp, by simp, sym, hs0, hs1, by omega, ?_⟩
  intro x
  simp only [load_store, load_alloc, load_setst]
  by_cases h1 : x = eptr.slot g.edges_size
  · subst h1
    simp [Ne.symm hvN]
    exact ⟨rfl, rfl⟩
  by_cases h2 : x = v
  · subst h2
    simp [h1]
  cases x with
  | rootedge => simp [h2, load]
  | slot j =>
    have : j ≠ g.edges_size := fun e => h1 (by rw [e])
    simp [load, this, h2]

/-- Hanging the rest of the current suffix as a new leaf below the end of the
cursor's edge keeps the tree invariant, with one more suffix inserted. -/
theorem Tree.insert {text : List Int} {g g' : globals} {pl : eptr → List Int} {i t sym : Int}
    {v : eptr} (T : Tree text g pl i) (hv : valid g v) (hi0 : 0 ≤ i) (hit : i ≤ t)
    (htn : t < text.length) (hw : pl v = seg text i (t - i))
    (hsym : text.getD t.toNat 0 = FIRST_SYMBOL + sym) (hs0 : 0 ≤ sym) (hs1 : sym < NUM_SYMBOLS)
    (hnone : (load g v).childs sym = none) (hsize : g'.edges_size = g.edges_size + 1)
    (hload : ∀ x, load g' x =
      if x = eptr.slot g.edges_size then ⟨some t, text.length - t, none, fun _ => none⟩
      else if x = v then
        { load g v with childs := fun j =>
            if j = sym then some (eptr.slot g.edges_size) else (load g v).childs j }
      else load g x) :
    Tree text g' (fun x => if x = eptr.slot g.edges_size then seg text i (text.length - i)
      else pl x) (i + 1) := by
  have hNv : ¬ valid g (eptr.slot g.edges_size) := by simp [valid]
  have hval : ∀ x, valid g' x ↔ (x = eptr.slot g.edges_size ∨ valid g x) := by
    intro x
    cases x with
    | rootedge => simp [valid]
    | slot j =>
      simp only [valid, hsize, eptr.slot.injEq]
      omega
  have hNr : eptr.slot g.edges_size ≠ eptr.rootedge := by simp
  generalize eptr.slot g.edges_size = nw at *
  have hvN : v ≠ nw := fun e => hNv (e ▸ hv)
  have lnw : load g' nw = ⟨some t, text.length - t, none, fun _ => none⟩ := by
    rw [hload, if_pos rfl]
  have lv : load g' v = { load g v with childs := fun j =>
      if j = sym then (some nw) else (load g v).childs j } := by
    rw [hload, if_neg hvN, if_pos rfl]
  have lo : ∀ x, x ≠ nw → x ≠ v → load g' x = load g x := by
    intro x a b
    rw [hload, if_neg a, if_neg b]
  have llen : ∀ x, x ≠ nw → (load g' x).len = (load g x).len ∧
      (load g' x).label = (load g x).label ∧ (load g' x).link = (load g x).link := by
    intro x a
    by_cases c : x = v
    · subst c; rw [lv]; exact ⟨rfl, rfl, rfl⟩
    · rw [lo x a c]; exact ⟨rfl, rfl, rfl⟩
  obtain ⟨pl', hpl'⟩ : ∃ pl' : eptr → List Int,
      pl' = fun x => if x = nw then seg text i (text.length - i) else pl x := ⟨_, rfl⟩
  rw [← hpl']
  have plnw : pl' nw = seg text i (text.length - i) := by rw [hpl']; simp
  have plo : ∀ x, x ≠ nw → pl' x = pl x := by
    intro x a
    rw [hpl']
    simp [a]
  have hvo : ∀ x, valid g x → x ≠ nw := fun x hx e => hNv (e ▸ hx)
  have hch : ∀ x s c, valid g' x → (load g' x).childs s = some c →
      (x = v ∧ s = sym ∧ c = nw) ∨ (valid g x ∧ (load g x).childs s = some c ∧ valid g c) := by
    intro x s c hx hc
    by_cases a : x = nw
    · subst a
      rw [lnw] at hc
      cases hc
    have hxv : valid g x := ((hval x).1 hx).resolve_left a
    by_cases c' : x = v
    · subst c'
      rw [lv] at hc
      simp only at hc
      by_cases e : s = sym
      · rw [if_pos e] at hc
        exact Or.inl ⟨rfl, e, (Option.some.inj hc).symm⟩
      · rw [if_neg e] at hc
        exact Or.inr ⟨hxv, hc, (T.child x s c hxv hc).1⟩
    · rw [lo x a c'] at hc
      exact Or.inr ⟨hxv, hc, (T.child x s c hxv hc).1⟩
  have hkeep : ∀ x s c, valid g x → (load g x).childs s = some c →
      (load g' x).childs s = some c := by
    intro x s c hx hc
    by_cases c' : x = v
    · subst c'
      rw [lv]
      simp only
      rw [if_neg]
      · exact hc
      · intro e
        subst e
        rw [hnone] at hc
        cases hc
    · rw [lo x (hvo x hx) c']
      exact hc
  have hsplit := seg_split text i (t - i) (text.length - i) hi0 (by omega) (by omega)
  rw [show i + (t - i) = t by omega, show (text.length : Int) - i - (t - i) = text.length - t by omega]
    at hsplit
  have hlnw := seg_len text i (text.length - i) hi0 (by omega) (by omega)
  refine ⟨?_, ?_, ?_, ?_, ?_, ?_, ?_, ?_, ?_, ?_⟩
  · rw [plo _ (Ne.symm hNr)]
    exact T.root_pl
  · rw [(llen _ (Ne.symm hNr)).1]
    exact T.root_len
  · rw [(llen _ (Ne.symm hNr)).2.2]
    exact T.root_link
  · -- lab
    intro x hx hne
    by_cases a : x = nw
    · subst a
      rw [lnw]
      exact ⟨t, rfl, by omega, by simp only; omega, by simp only; omega⟩
    · rw [(llen x a).1, (llen x a).2.1]
      exact T.lab x (((hval x).1 hx).resolve_left a) hne
  · -- par
    intro x hx hne
    by_cases a : x = nw
    · subst a
      refine ⟨v, sym, (hval v).2 (Or.inr hv), ?_⟩
      rw [lv]
      simp
    · obtain ⟨y, s, hy, hyc⟩ := T.par x (((hval x).1 hx).resolve_left a) hne
      exact ⟨y, s, (hval y).2 (Or.inr hy), hkeep y s x hy hyc⟩
  · -- child
    intro x s c hx hc
    rcases hch x s c hx hc with ⟨rfl, rfl, rfl⟩ | ⟨hxv, hco, hcv⟩
    · refine ⟨(hval _).2 (Or.inl rfl), hNr, hs0, hs1, ?_⟩
      intro p' hp'
      rw [lnw] at hp'
      simp only at hp'
      cases hp'
      rw [lnw, plnw, plo _ hvN, hw]
      exact ⟨hsym, hsplit⟩
    · obtain ⟨_, hcne, s0, s1, hcc⟩ := T.child x s c hxv hco
      refine ⟨(hval _).2 (Or.inr hcv), hcne, s0, s1, ?_⟩
      intro p' hp'
      rw [(llen c (hvo c hcv)).2.1] at hp'
      rw [(llen c (hvo c hcv)).1, plo c (hvo c hcv), plo x (hvo x hxv)]
      exact hcc p' hp'
  · -- occ
    intro x p' hx hne hp'
    by_cases a : x = nw
    · subst a
      rw [lnw] at hp' ⊢
      simp only at hp' ⊢
      cases hp'
      rw [plnw]
      have e : t + ((text.length : Int) - t) - ((seg text i (text.length - i)).length : Int) = i := by
        omega
      rw [e, hlnw]
      exact ⟨hi0, by omega, rfl⟩
    · rw [(llen x a).2.1] at hp'
      rw [(llen x a).1, plo x a]
      obtain ⟨o1, o2, o3⟩ := T.occ x p' (((hval x).1 hx).resolve_left a) hne hp'
      exact ⟨o1, by omega, o3⟩
  · -- leaf
    intro m hm0 hm1
    by_cases hm : m = i
    · subst hm
      refine ⟨nw, (hval _).2 (Or.inl rfl), hNr, plnw, ?_⟩
      intro s
      rw [lnw]
    · obtain ⟨x, hx, hne, hplx, hnc⟩ := T.leaf m hm0 (by omega)
      refine ⟨x, (hval x).2 (Or.inr hx), hne, by rw [plo x (hvo x hx)]; exact hplx, ?_⟩
      have : x ≠ v := by
        intro e
        subst e
        have h1 := congrArg List.length hplx
        rw [hw] at h1
        have h2 := seg_len text i (t - i) hi0 (by omega) (by omega)
        have h3 := seg_len text m (text.length - m) hm0 (by omega) (by omega)
        omega
      rw [lo x (hvo x hx) this]
      exact hnc
  · -- leaf_end
    intro x p' hx hne hnc hp'
    by_cases a : x = nw
    · subst a
      rw [lnw] at hp' ⊢
      simp only at hp' ⊢
      cases hp'
      omega
    by_cases c : x = v
    · subst c
      have := hnc sym
      rw [lv] at this
      simp at this
    have hxv : valid g x := ((hval x).1 hx).resolve_left a
    rw [lo x a c] at hnc hp' ⊢
    exact T.leaf_end x p' hxv hne hnc hp'
  · -- link
    intro x u hx hlk
    by_cases a : x = nw
    · subst a
      rw [lnw] at hlk
      cases hlk
    have hxv : valid g x := ((hval x).1 hx).resolve_left a
    rw [(llen x a).2.2] at hlk
    obtain ⟨ht, ⟨c, hc⟩, s, ch, hch0⟩ := T.link x u hxv hlk
    exact ⟨(hval u).2 (Or.inr ht), ⟨c, by rw [plo x a, plo u (hvo u ht)]; exact hc⟩,
      s, ch, hkeep x s ch hxv hch0⟩

end Suffixtree

namespace Suffixtree

/-! ## The two structural updates, seen from the cursor -/

/-- The effect of `split_if_not_at_node` at a position of the tree. -/
theorem split_spec {text : List Int} {g : globals} {pl : eptr → List Int} {i : Int}
    {w : List Int} (T : Tree text g pl i) (hat : At text g pl w)
    (hcap : ∀ b, g.st.edge = some b → g.st.offset < (load g b).len →
      g.edges_size < g.edges_capacity) :
    Outcome text (split_if_not_at_node text g) (fun g1 =>
      (g1 = g ∧ ∃ v, g.st.edge = some v ∧ g.st.offset = (load g v).len ∧
        Spells text g pl w v (load g v).len) ∨
      SplitPost text g pl i w g1 (fun x => if x = eptr.slot g.edges_size then w else pl x)) := by
  obtain ⟨b, he, hs, hpar⟩ := hat
  by_cases hlt : g.st.offset < (load g b).len
  · have hbne : b ≠ eptr.rootedge := by
      intro e
      subst e
      have := hs.root.2
      have := T.root_len
      omega
    obtain ⟨q, symA, hpq, hq, hqc⟩ := hpar hlt
    obtain ⟨q0, sym0, p, hq0, hc0, hp, h1, h2, h0, hn, hw, hplb, hf, hl⟩ := hs.parent T hbne
    obtain ⟨e1, e2⟩ := parent_unique T hq hq0 hqc hc0
    subst e1
    subst e2
    obtain ⟨_, _, hA0, hA1, _⟩ := T.child q symA b hq hqc
    have hNv : ¬ valid g (eptr.slot g.edges_size) := by simp [valid]
    have hbv := hs.is_valid
    have hqN : q ≠ eptr.slot g.edges_size := fun e => hNv (e ▸ hq)
    have hbN : b ≠ eptr.slot g.edges_size := fun e => hNv (e ▸ hbv)
    have hqb : q ≠ b := by
      intro e
      rw [e] at hplb
      have h3 := seg_ne_nil text p (load g b).len h0 (by omega) hn
      have h4 := congrArg List.length hplb
      rw [List.length_append] at h4
      apply h3
      apply List.eq_nil_of_length_eq_zero
      omega
    apply Outcome.mono (split_eval text g b q p symA he hp h0 h1 hlt hn (hcap b he hlt) hpq hqc
      hf hA0 hA1 hbN hqN hqb)
    rintro g1 _ ⟨hsize, hcp, hst, symB, hB0, hB1, hB, hload⟩
    right
    have hval : ∀ x, valid g1 x ↔ (x = eptr.slot g.edges_size ∨ valid g x) := by
      intro x
      cases x with
      | rootedge => simp [valid]
      | slot j =>
        simp only [valid, hsize, eptr.slot.injEq]
        omega
    have hvo : ∀ x, valid g x → x ≠ eptr.slot g.edges_size := fun x hx e => hNv (e ▸ hx)
    have lnw := hload (eptr.slot g.edges_size)
    rw [if_pos rfl] at lnw
    have lq := hload q
    rw [if_neg hqN, if_neg hqb, if_pos rfl] at lq
    have lb := hload b
    rw [if_neg hbN, if_pos rfl] at lb
    have hnext := spells_next T hs hp hlt hbne
    refine ⟨hsize, hcp, hst, Tree.split T hs hlt hq hqc hp hB hB0 hB1 hsize hload, ?_, ?_, ?_,
      ?_, ?_, ⟨b, he, hbv, hbne, hlt⟩, ?_, ?_, ?_, hval⟩
    · rw [lnw, hst]
    · simp
    · rw [lnw]
    · refine ⟨q, symA, by rw [hst]; exact hpq, (hval q).2 (Or.inr hq), ?_⟩
      rw [lq]
      simp
    · refine ⟨symB, b, by rw [lnw]; simp, ?_, (hnext _).2 hB.symm, ?_⟩
      · intro s c hsc
        rw [lnw] at hsc
        simp only at hsc
        by_contra hne
        rw [if_neg hne] at hsc
        cases hsc
      · intro c hc
        rw [(hnext c).1 hc, hB]
    · intro x hx
      simp [hvo x hx]
    · intro x hx
      rw [hload, if_neg (hvo x hx)]
      by_cases e1 : x = b
      · subst e1; simp
      by_cases e2 : x = q
      · subst e2; simp [e1]
      · simp [e1, e2]
    · intro x hx s
      rw [hload, if_neg (hvo x hx)]
      by_cases e1 : x = b
      · subst e1; simp
      by_cases e2 : x = q
      · subst e2
        simp only [if_neg e1, if_true]
        by_cases e3 : s = symA
        · subst e3
          simp [hqc]
        · simp [e3]
      · simp [e1, e2]
  · have hoff : g.st.offset = (load g b).len := by
      rcases hs.2 with ⟨e, _, ho⟩ | ⟨_, p, _, _, hle, _⟩
      · rw [e, T.root_len]; exact ho
      · omega
    have h0 : 0 ≤ g.st.offset := by
      rcases hs.2 with ⟨e, _, ho⟩ | ⟨_, p, _, h1, hle, _⟩
      · omega
      · omega
    rw [split_at_node text g b he h0 hoff]
    left
    exact ⟨rfl, b, he, hoff, hoff ▸ hs⟩

/-- The effect of `insert_tail` at the end of an edge where the tail does
not continue inside the tree. -/
theorem insert_spec {text : List Int} {g : globals} {pl : eptr → List Int} {i : Int}
    {v : eptr} (T : Tree text g pl i) (he : g.st.edge = some v) (hv : valid g v)
    (hoff : g.st.offset = (load g v).len) (hi0 : 0 ≤ i) (hit : i ≤ g.st.tail)
    (htn : g.st.tail < text.length) (hw : pl v = seg text i (g.st.tail - i))
    (hcap : g.edges_size < g.edges_capacity)
    (hnot : ¬ InTree text g pl (pl v ++ [text.getD g.st.tail.toNat 0])) :
    Outcome text (insert_tail text g) (fun g1 =>
      InsertPost text g pl i v g1
        (fun x => if x = eptr.slot g.edges_size then seg text i (text.length - i) else pl x)) := by
  have hNv : ¬ valid g (eptr.slot g.edges_size) := by simp [valid]
  have hvN : v ≠ eptr.slot g.edges_size := fun e => hNv (e ▸ hv)
  have hvo : ∀ x, valid g x → x ≠ eptr.slot g.edges_size := fun x hx e => hNv (e ▸ hx)
  have hnone : (load g v).childs (text.getD g.st.tail.toNat 0 - FIRST_SYMBOL) = none := by
    cases hc : (load g v).childs (text.getD g.st.tail.toNat 0 - FIRST_SYMBOL) with
    | none => rfl
    | some ch =>
      exfalso
      apply hnot
      have := (spells_child T (spells_node T v hv)
        (text.getD g.st.tail.toNat 0 - FIRST_SYMBOL)).2 ⟨ch, hc⟩
      rwa [show FIRST_SYMBOL + (text.getD g.st.tail.toNat 0 - FIRST_SYMBOL)
        = text.getD g.st.tail.toNat 0 by omega] at this
  apply Outcome.mono (insert_eval text g v he hoff (by omega) htn hcap hvN hnone)
  rintro g1 _ ⟨hsize, hcp, hst, sym, hs0, hs1, hsym, hload⟩
  have hval : ∀ x, valid g1 x ↔ (x = eptr.slot g.edges_size ∨ valid g x) := by
    intro x
    cases x with
    | rootedge => simp [valid]
    | slot j =>
      simp only [valid, hsize, eptr.slot.injEq]
      omega
  have hnone' : (load g v).childs sym = none := by
    rw [← hnone]
    congr 1
    omega
  have lnw := hload (eptr.slot g.edges_size)
  rw [if_pos rfl] at lnw
  have lv := hload v
  rw [if_neg hvN, if_pos rfl] at lv
  refine ⟨hsize, hcp, hst,
    Tree.insert T hv hi0 hit htn hw hsym hs0 hs1 hnone' hsize hload, ?_, ?_, ?_, ?_, ?_, ?_, hval⟩
  · intro s
    rw [lnw]
  · refine ⟨sym, hsym, by rw [lv]; simp, ?_⟩
    intro s hs
    rw [lv]
    simp [hs]
  · rw [lv]
  · intro x hx
    simp [hvo x hx]
  · intro x hx
    rw [hload, if_neg (hvo x hx)]
    by_cases e : x = v
    · subst e; simp
    · simp [e]
  · intro x hx hxv
    rw [hload, if_neg (hvo x hx), if_neg hxv]

/-- Setting the suffix link of an edge with a child to the edge whose path
label is its own without the first character keeps the tree invariant. -/
theorem Tree.set_link {text : List Int} {g : globals} {pl : eptr → List Int} {i : Int}
    {v u : eptr} (T : Tree text g pl i) (hne : v ≠ eptr.rootedge)
    (hu : valid g u) (c : Int) (hpl : pl v = c :: pl u) (hch : has_child (load g v)) :
    Tree text (store g v { load g v with link := some u }) pl i := by
  have hl : ∀ x, (load (store g v { load g v with link := some u }) x).label = (load g x).label ∧
      (load (store g v { load g v with link := some u }) x).len = (load g x).len ∧
      (load (store g v { load g v with link := some u }) x).childs = (load g x).childs ∧
      (load (store g v { load g v with link := some u }) x).link
        = if x = v then (some u) else (load g x).link := by
    intro x
    rw [load_store]
    by_cases e : x = v
    · subst e; simp
    · simp [e]
  have hv : ∀ x, valid (store g v { load g v with link := some u }) x ↔ valid g x :=
    fun x => valid_congr _ _ (store_size _ _ _) x
  refine ⟨T.root_pl, ?_, ?_, ?_, ?_, ?_, ?_, ?_, ?_, ?_⟩
  · rw [(hl _).2.1]; exact T.root_len
  · rw [(hl _).2.2.2, if_neg (Ne.symm hne)]; exact T.root_link
  · intro x hx hxr
    rw [(hl x).1, (hl x).2.1]
    exact T.lab x ((hv x).1 hx) hxr
  · intro x hx hxr
    obtain ⟨q, sym, hq, hqc⟩ := T.par x ((hv x).1 hx) hxr
    exact ⟨q, sym, (hv q).2 hq, by rw [(hl q).2.2.1]; exact hqc⟩
  · intro q sym c' hq hqc
    rw [(hl q).2.2.1] at hqc
    obtain ⟨a1, a2, a3, a4, a5⟩ := T.child q sym c' ((hv q).1 hq) hqc
    refine ⟨(hv c').2 a1, a2, a3, a4, ?_⟩
    intro p hp
    rw [(hl c').1] at hp
    rw [(hl c').2.1]
    exact a5 p hp
  · intro x p hx hxr hp
    rw [(hl x).1] at hp
    rw [(hl x).2.1]
    exact T.occ x p ((hv x).1 hx) hxr hp
  · intro m hm0 hm1
    obtain ⟨x, hx, hxr, hplx, hnc⟩ := T.leaf m hm0 hm1
    exact ⟨x, (hv x).2 hx, hxr, hplx, by rw [(hl x).2.2.1]; exact hnc⟩
  · intro x p hx hxr hnc hp
    rw [(hl x).2.2.1] at hnc
    rw [(hl x).1] at hp
    rw [(hl x).2.1]
    exact T.leaf_end x p ((hv x).1 hx) hxr hnc hp
  · intro x t hx hlk
    rw [(hl x).2.2.2] at hlk
    rw [(hl x).2.2.1]
    by_cases e : x = v
    · subst e
      rw [if_pos rfl] at hlk
      cases hlk
      exact ⟨(hv _).2 hu, ⟨c, hpl⟩, hch⟩
    · rw [if_neg e] at hlk
      obtain ⟨a1, a2, a3⟩ := T.link x t ((hv x).1 hx) hlk
      exact ⟨(hv t).2 a1, a2, a3⟩

end Suffixtree

namespace Suffixtree

/-! ## Words of the tree and suffixes of the text -/

/-- The path label of an edge without its first character is a word of the
tree, provided the suffix after the one the edge belongs to has been inserted. -/
theorem tail_in_tree {text : List Int} {g : globals} {pl : eptr → List Int} {i : Int}
    (T : Tree text g pl i) (x : eptr) (p c : Int) (u : List Int) (hx : valid g x)
    (hne : x ≠ eptr.rootedge) (hp : (load g x).label = some p) (hpl : pl x = c :: u)
    (hst : p + (load g x).len - (pl x).length + 1 < i) : InTree text g pl u := by
  obtain ⟨o1, o2, o3⟩ := T.occ x p hx hne hp
  obtain ⟨p', hp', h0, h1, hn⟩ := T.lab x hx hne
  rw [hp] at hp'
  cases hp'
  have hd : (1 : Int) ≤ (pl x).length := by
    rw [hpl]
    simp
  obtain ⟨y, hy, _, hply, _⟩ := T.leaf (p + (load g x).len - (pl x).length + 1) (by omega) hst
  have e1 := seg_cons text (p + (load g x).len - (pl x).length) (pl x).length o1 (by omega) hd
  have hu := (List.cons.inj (hpl.symm.trans (o3.trans e1))).2
  have e2 := seg_split text (p + (load g x).len - (pl x).length + 1) ((pl x).length - 1)
    (text.length - (p + (load g x).len - (pl x).length + 1)) (by omega) (by omega) (by omega)
  rw [e2, ← hu] at hply
  have hs := spells_node T y hy
  rw [hply] at hs
  exact InTree.init T _ _ ⟨y, _, hs⟩

/-- An edge whose path label is a run of the text that starts at the current
suffix has a child. -/
theorem cursor_has_child {text : List Int} {g : globals} {pl : eptr → List Int} {i : Int}
    (T : Tree text g pl i) (u : eptr) (l : Int) (hu : valid g u) (hne : u ≠ eptr.rootedge)
    (hi : 0 ≤ i) (hl : 0 ≤ l) (hn : i + l ≤ text.length) (hpl : pl u = seg text i l) :
    has_child (load g u) := by
  by_contra hno
  have hnc : ∀ sym, (load g u).childs sym = none := by
    intro sym
    cases h : (load g u).childs sym with
    | none => rfl
    | some ch => exact absurd ⟨sym, ch, h⟩ hno
  obtain ⟨p, hp, _, _, _⟩ := T.lab u hu hne
  have he := T.leaf_end u p hu hne hnc hp
  obtain ⟨o1, o2, _⟩ := T.occ u p hu hne hp
  have hlen := seg_len text i l hi hl hn
  rw [← hpl] at hlen
  omega

/-- At the start of a call the cursor's word without its first character,
continued by the first character of a child that is not the one just
inserted, is a word of the tree. -/
theorem link_word_in_tree {text : List Int} {g : globals} {pl : eptr → List Int} {i t : Int}
    (T : Tree text g pl i) (v ch : eptr) (sym : Int) (hv : valid g v)
    (hi : 1 ≤ i) (hit : i ≤ t) (htn : t < text.length)
    (hpl : pl v = seg text (i - 1) (t - i + 1)) (hch : (load g v).childs sym = some ch)
    (hsym : FIRST_SYMBOL + sym ≠ text.getD t.toNat 0) :
    InTree text g pl (seg text i (t - i) ++ [FIRST_SYMBOL + sym]) := by
  obtain ⟨hcv, hcne, _, _, hcc⟩ := T.child v sym ch hv hch
  obtain ⟨p, hp, h0, h1, hn⟩ := T.lab ch hcv hcne
  obtain ⟨hf, hplc⟩ := hcc p hp
  obtain ⟨o1, o2, o3⟩ := T.occ ch p hcv hcne hp
  have hlv := seg_len text (i - 1) (t - i + 1) (by omega) (by omega) (by omega)
  rw [← hpl] at hlv
  have hlc : ((pl ch).length : Int) = (pl v).length + (load g ch).len := by
    rw [hplc, List.length_append]
    have := seg_len text p (load g ch).len h0 (by omega) hn
    push_cast
    omega
  have hcons := seg_cons text (i - 1) (t - i + 1) (by omega) (by omega) (by omega)
  rw [show i - 1 + 1 = i by omega, show t - i + 1 - 1 = t - i by omega] at hcons
  have hlab := seg_cons text p (load g ch).len h0 (by omega) h1
  have hplc2 : pl ch = text.getD (i - 1).toNat 0 ::
      (seg text i (t - i) ++ seg text p (load g ch).len) := by
    rw [hplc, hpl, hcons]
    rfl
  obtain ⟨d, hd⟩ : ∃ d : Int, d = (pl ch).length := ⟨_, rfl⟩
  rw [← hd] at o1 o2 o3 hlc
  -- the child does not belong to the suffix just inserted
  have hm : p + (load g ch).len - d ≠ i - 1 := by
    intro e
    rw [e] at o3
    have e2 := seg_split text (i - 1) (t - i + 1) d (by omega) (by omega) (by omega)
    rw [e2, hplc, hpl] at o3
    have e3 := List.append_cancel_left o3
    rw [show i - 1 + (t - i + 1) = t by omega] at e3
    rw [hlab, seg_cons text t _ (by omega) htn (by omega)] at e3
    have := (List.cons.inj e3).1
    rw [hf] at this
    exact hsym this
  have htl := tail_in_tree T ch p (text.getD (i - 1).toNat 0)
    (seg text i (t - i) ++ seg text p (load g ch).len) hcv hcne hp hplc2 (by omega)
  rw [hlab, hf] at htl
  have : seg text i (t - i) ++ (FIRST_SYMBOL + sym) :: seg text (p + 1) ((load g ch).len - 1)
      = (seg text i (t - i) ++ [FIRST_SYMBOL + sym]) ++ seg text (p + 1) ((load g ch).len - 1) := by
    simp
  rw [this] at htl
  exact InTree.init T _ _ htl

/-- A word of the tree is an initial part of a suffix that has been inserted. -/
theorem in_tree_occurs {text : List Int} {g : globals} {pl : eptr → List Int} {i : Int}
    (T : Tree text g pl i) (w : List Int) (hne : w ≠ []) (h : InTree text g pl w) :
    ∃ m r, 0 ≤ m ∧ m < i ∧ m < text.length ∧ seg text m (text.length - m) = w ++ r := by
  obtain ⟨v, off, hs⟩ := h
  have hv : v ≠ eptr.rootedge := by
    intro e
    subst e
    exact hne hs.root.1
  rcases hs.2 with ⟨e, _⟩ | ⟨_, p, hp, h1, h2, hw⟩
  · exact absurd e hv
  obtain ⟨p', hp', h0, _, hn⟩ := T.lab v hs.is_valid hv
  rw [hp] at hp'
  cases hp'
  obtain ⟨o1, o2, o3⟩ := T.occ v p hs.is_valid hv hp
  have hd : (1 : Int) ≤ (pl v).length := by
    rw [← hw, List.length_append]
    have : 1 ≤ w.length := List.length_pos.mpr hne
    push_cast
    omega
  refine ⟨p + (load g v).len - (pl v).length,
    seg text (p + off) ((load g v).len - off) ++ seg text (p + (load g v).len)
      (text.length - (p + (load g v).len)), o1, o2, by omega, ?_⟩
  have e2 := seg_split text (p + (load g v).len - (pl v).length) (pl v).length
    (text.length - (p + (load g v).len - (pl v).length)) o1 (by omega) (by omega)
  rw [e2, ← o3, ← hw, List.append_assoc]
  congr 2
  congr 1 <;> omega

theorem Branching.weaken {g : globals} (h : Branching g eptr.rootedge) (ex : eptr) :
    Branching g ex :=
  fun x hx hne _ hc => h x hx hne hne hc

theorem has_child_of_in_tree {text : List Int} {g : globals} {pl : eptr → List Int} {i : Int}
    (T : Tree text g pl i) (u : eptr) (sym : Int) (hu : valid g u)
    (h : InTree text g pl (pl u ++ [FIRST_SYMBOL + sym])) : has_child (load g u) := by
  obtain ⟨ch, hch⟩ := (spells_child T (spells_node T u hu) sym).1 h
  exact ⟨sym, ch, hch⟩

end Suffixtree

namespace Suffixtree

/-! ## Repositioning the cursor -/

theorem load_set_link (g : globals) (v : eptr) (e : Option eptr) (x : eptr) :
    (load (store g v { load g v with link := e }) x).label = (load g x).label ∧
    (load (store g v { load g v with link := e }) x).len = (load g x).len ∧
    (load (store g v { load g v with link := e }) x).childs = (load g x).childs ∧
    (load (store g v { load g v with link := e }) x).link
      = if x = v then e else (load g x).link := by
  rw [load_store]
  by_cases h : x = v
  · subst h; simp
  · simp [h]

theorem has_child_iff_of_none_iff {e e1 : edge}
    (h : ∀ s, e1.childs s = none ↔ e.childs s = none) : has_child e1 ↔ has_child e := by
  constructor
  · rintro ⟨s, c, hc⟩
    cases h0 : e.childs s with
    | none => rw [(h s).2 h0] at hc; cases hc
    | some c0 => exact ⟨s, c0, h0⟩
  · rintro ⟨s, c, hc⟩
    cases h0 : e1.childs s with
    | none => rw [(h s).1 h0] at hc; cases hc
    | some c0 => exact ⟨s, c0, h0⟩

theorem has_child_congr {e e1 : edge} (h : e1.childs = e.childs) :
    has_child e1 ↔ has_child e := by
  unfold has_child
  rw [h]

theorem branching_congr {e e1 : edge} (h : e1.childs = e.childs) :
    branching e1 ↔ branching e := by
  unfold branching
  rw [h]

theorem branching_of_none_iff {e e1 : edge}
    (h : ∀ s, e1.childs s = none ↔ e.childs s = none) (hb : branching e) : branching e1 := by
  obtain ⟨s1, s2, c1, c2, hne, h1, h2⟩ := hb
  cases a1 : e1.childs s1 with
  | none => rw [(h s1).1 a1] at h1; cases h1
  | some d1 =>
    cases a2 : e1.childs s2 with
    | none => rw [(h s2).1 a2] at h2; cases h2
    | some d2 => exact ⟨s1, s2, d1, d2, hne, a1, a2⟩

/-- The effect of the re-scanning branches of `state_transition` once the
cursor has been put where the re-scan starts. -/
theorem rescan_spec {text : List Int} {g : globals} {pl : eptr → List Int} {v : eptr}
    (ch : eptr) (sym : Int) (w0 : List Int) {i t s stop : Int}
    (hsuf : g.st.suffix = i) (htl : g.st.tail = t)
    (T : Tree text g pl i) (cap : g.edges_capacity = 2 * text.length)
    (hi : 1 ≤ i) (hit : i ≤ t) (htn : t < text.length)
    (hat : At text g pl w0) (hv : valid g v) (hne : v ≠ eptr.rootedge)
    (hplv : pl v = seg text (i - 1) (t - i + 1))
    (hs0 : 0 ≤ s) (hss : s ≤ stop) (hsn : stop ≤ text.length)
    (hword : w0 ++ seg text s (stop - s) = seg text i (t - i))
    (hch : (load g v).childs sym = some ch) (hsym : FIRST_SYMBOL + sym ≠ text.getD t.toNat 0)
    (HL : HasLink g v) (BR : Branching g eptr.rootedge)
    (hsize : (g.edges_size : Int) + 1 ≤ 2 * i) (early : NoEarlier text i) :
    Outcome text (rescan text v s stop g) (fun g4 => ∃ pl4 u, MidInv text g4 pl4 u i t) := by
  have hin := link_word_in_tree T v ch sym hv hi hit htn hplv hch hsym
  have hind := InTree.init T _ _ hin
  have hcons := seg_cons text (i - 1) (t - i + 1) (by omega) (by omega) (by omega)
  rw [show i - 1 + 1 = i by omega, show t - i + 1 - 1 = t - i by omega, ← hplv] at hcons
  unfold rescan
  apply Outcome.bind (consume_whole_string_spec T hat s stop hs0 hss hsn (by rw [hword]; exact hind))
  rintro g2 _ ⟨hh, hat2⟩
  rw [hword] at hat2
  have T2 := hh.tree_h T
  have hl2 := hh.load_h
  have hv2 := hh.valid_h
  have hin2 := hh.intree_h.2 hin
  apply Outcome.bind (split_spec T2 hat2 (by
    intro b _ _
    rw [hh.2.2.1, hh.2.2.2.1, cap]
    omega))
  rintro g3 _ (⟨rfl, u, he, hoff, hsp⟩ | SP)
  · -- the re-scan ends at the end of an edge
    simp only [pure_eq]
    have hplu : seg text i (t - i) = pl u := spells_at_end T2 hsp
    have huv : u ≠ v := by
      intro e
      rw [e, hcons] at hplu
      have := congrArg List.length hplu
      simp at this
    have hvu : valid g u := by rw [← hv2]; exact hsp.is_valid
    have hcu : has_child (load g u) := by
      apply has_child_of_in_tree T u sym hvu
      rw [← hplu]
      exact hin
    refine ⟨pl, u, ?_⟩
    have hls := load_set_link g3 v g3.st.edge
    refine ⟨by rw [store_st]; exact hh.2.2.2.2.1.trans hsuf,
      by rw [store_st]; exact hh.2.2.2.2.2.trans htl, ?_, ?_, by omega, hit, htn, ?_, ?_, ?_,
      hplu.symm, ?_, ?_, ?_, ?_, ?_, early⟩
    · rw [he]
      apply Tree.set_link T2 hne hsp.is_valid (text.getD (i - 1).toNat 0) (by rw [← hplu]; exact hcons)
      rw [hl2]
      exact ⟨sym, ch, hch⟩
    · rw [store_capacity, hh.2.2.2.1]; exact cap
    · rw [store_st]; exact he
    · rw [valid_congr _ _ (store_size _ _ _)]; exact hsp.is_valid
    · rw [store_st, (hls u).2.1]; exact hoff
    · intro hur hlk
      exfalso
      rw [(hls u).2.2.2, if_neg huv, hl2] at hlk
      exact HL u hvu hur huv hcu hlk
    · intro x hx hxr hxu hc
      rw [valid_congr _ _ (store_size _ _ _), hv2] at hx
      rw [has_child_congr (hls x).2.2.1, hl2] at hc
      rw [(hls x).2.2.2]
      by_cases e : x = v
      · rw [if_pos e, he]; simp
      · rw [if_neg e, hl2]
        exact HL x hx hxr e hc
    · apply Branching.weaken
      intro x hx hxr _ hc
      rw [valid_congr _ _ (store_size _ _ _), hv2] at hx
      rw [has_child_congr (hls x).2.2.1, hl2] at hc
      rw [branching_congr (hls x).2.2.1, hl2]
      exact BR x hx hxr hxr hc
    · intro h0
      omega
    · intro _
      rw [store_size, hh.2.2.1]
      split <;> omega
  · -- the re-scan ends inside an edge, which is split
    simp only [pure_eq]
    have hst3 : g3.st.edge = some (eptr.slot g2.edges_size) := by rw [SP.st]
    have hNv : ¬ valid g2 (eptr.slot g2.edges_size) := by simp [valid]
    have hv2' : valid g2 v := by rw [hv2]; exact hv
    have hvn : v ≠ eptr.slot g2.edges_size := fun e => hNv (e ▸ hv2')
    have hls := load_set_link g3 v g3.st.edge
    have hvalid4 : ∀ x, valid (store g3 v { load g3 v with link := g3.st.edge }) x ↔
        (x = eptr.slot g2.edges_size ∨ valid g x) := by
      intro x
      rw [valid_congr _ _ (store_size _ _ _), SP.valid1, hv2]
    have hnl4 : (load (store g3 v { load g3 v with link := g3.st.edge })
        (eptr.slot g2.edges_size)).link = none := by
      rw [(hls _).2.2.2, if_neg (Ne.symm hvn)]
      exact SP.nolink
    obtain ⟨symB, b, hb, honly, _, huniq⟩ := SP.only
    have hsymB : sym = symB := by
      have := huniq _ hin2
      omega
    refine ⟨fun x => if x = eptr.slot g2.edges_size then seg text i (t - i) else pl x,
      eptr.slot g2.edges_size, ?_⟩
    refine ⟨by rw [store_st, SP.st]; exact hh.2.2.2.2.1.trans hsuf,
      by rw [store_st, SP.st]; exact hh.2.2.2.2.2.trans htl, ?_, ?_, by omega, hit, htn, ?_, ?_, ?_,
      SP.word, ?_, ?_, ?_, ?_, ?_, early⟩
    · rw [hst3]
      apply Tree.set_link SP.tree hne ((SP.valid1 _).2 (Or.inl rfl)) (text.getD (i - 1).toNat 0)
      · rw [SP.word, SP.old_pl v hv2']
        exact hcons
      · rw [has_child_iff_of_none_iff (SP.old_childs v hv2'), hl2]
        exact ⟨sym, ch, hch⟩
    · rw [store_capacity, SP.cap, hh.2.2.2.1]; exact cap
    · rw [store_st]; exact hst3
    · rw [hvalid4]; exact Or.inl rfl
    · rw [store_st, (hls _).2.1]; exact SP.off
    · intro _ _
      obtain ⟨q, sq, hq1, hq2, hq3⟩ := SP.parent
      refine ⟨⟨q, sq, by rw [store_st]; exact hq1,
        by rw [valid_congr _ _ (store_size _ _ _)]; exact hq2,
        by rw [(hls q).2.2.1]; exact hq3⟩, ⟨symB, b, by rw [(hls _).2.2.1]; exact hb⟩, ?_⟩
      intro s' c' hc'
      rw [(hls _).2.2.1] at hc'
      rw [honly s' c' hc', ← hsymB]
      exact hsym
    · intro x hx hxr hxu hc
      have hxg : valid g x := ((hvalid4 x).1 hx).resolve_left hxu
      have hxg2 : valid g2 x := by rw [hv2]; exact hxg
      rw [(hls x).2.2.2]
      by_cases e : x = v
      · rw [if_pos e, hst3]; simp
      · rw [if_neg e, SP.old_link x hxg2, hl2]
        apply HL x hxg hxr e
        rw [has_child_congr (hls x).2.2.1] at hc
        have := (has_child_iff_of_none_iff (SP.old_childs x hxg2)).1 hc
        rwa [hl2] at this
    · rw [hnl4, if_pos rfl]
      intro x hx hxr hxu hc
      have hxg : valid g x := ((hvalid4 x).1 hx).resolve_left hxu
      have hxg2 : valid g2 x := by rw [hv2]; exact hxg
      rw [has_child_congr (hls x).2.2.1] at hc
      rw [branching_congr (hls x).2.2.1]
      have hc2 := (has_child_iff_of_none_iff (SP.old_childs x hxg2)).1 hc
      rw [hl2] at hc2
      have hb2 := BR x hxg hxr hxr hc2
      rw [← hl2] at hb2
      exact branching_of_none_iff (SP.old_childs x hxg2) hb2
    · intro h0
      omega
    · intro _
      rw [hnl4, store_size, SP.size, hh.2.2.1, if_pos ⟨by simp, rfl⟩]
      push_cast
      omega

end Suffixtree

namespace Suffixtree

theorem same_heap.haslink_h {g g1 : globals} (h : same_heap g g1) {ex : eptr}
    (H : HasLink g ex) : HasLink g1 ex := by
  unfold HasLink at *
  rw [h.load_h, h.valid_h]
  exact H

theorem same_heap.branching_h {g g1 : globals} (h : same_heap g g1) {ex : eptr}
    (H : Branching g ex) : Branching g1 ex := by
  unfold Branching at *
  rw [h.load_h, h.valid_h]
  exact H

theorem go_to_node_eq (g : globals) (x : eptr) : go_to_node g (some x) = .ok (gone_to g x) :=
  rfl

theorem same_heap_go (g : globals) (x : eptr) : same_heap g (gone_to g x) :=
  ⟨rfl, rfl, rfl, rfl, rfl, rfl⟩

theorem at_go_to_node {text : List Int} {g : globals} {pl : eptr → List Int} {i : Int}
    (T : Tree text g pl i) (x : eptr) (hx : valid g x) : At text (gone_to g x) pl (pl x) := by
  refine ⟨x, rfl, (same_heap_go g x).spells_h (spells_node T x hx), ?_⟩
  intro h
  have : (gone_to g x).st.offset = (load (gone_to g x) x).len := by
    rw [(same_heap_go g x).load_h]
    rfl
  omega

/-- The effect of the repositioning part of `state_transition`, called
with `st.tail` not behind `st.suffix` and not at the end of the text. -/
theorem reposition_spec {text : List Int} {g : globals} {pl : eptr → List Int} {v : eptr}
    {i t : Int} (L : LoopInv text g pl v i t) (hit : i ≤ t) (htn : t < text.length) :
    Outcome text (reposition text g) (fun g1 => ∃ pl1 v1, MidInv text g1 pl1 v1 i t) := by
  unfold reposition
  rw [L.edge]
  simp only
  by_cases hr : v = eptr.rootedge
  · subst hr
    have hti : t = i := by
      have := L.at_root rfl
      omega
    have e : g.st.tail = g.st.suffix := by rw [L.suf, L.tl, hti]
    rw [if_pos rfl, if_pos e]
    refine ⟨pl, eptr.rootedge, L.suf, L.tl, L.tree, L.cap, L.suf0, hit, htn, L.edge, L.val, L.off,
      ?_, fun h => absurd rfl h, L.haslink, Branching.weaken L.branch _, L.size0, ?_, L.early⟩
    · rw [L.tree.root_pl, hti, sub_self, seg_zero]
    · intro h1
      have := L.size1 h1
      simp only [ne_eq, not_true_eq_false, false_and, if_false]
      omega
  rw [if_neg hr]
  obtain ⟨hi1, _, _, hplv, sym, ch, hch, hsym⟩ := L.deep hr
  obtain ⟨p, hp, hp0, hlen1, hpn⟩ := L.tree.lab v L.val hr
  have hcons := seg_cons text (i - 1) (t - i + 1) (by omega) (by omega) (by omega)
  rw [show i - 1 + 1 = i by omega, show t - i + 1 - 1 = t - i by omega, ← hplv] at hcons
  by_cases hlk : (load g v).link = none
  · obtain ⟨q, sq, hpq, hq, hqc⟩ := L.fresh hr hlk
    obtain ⟨_, _, _, _, hcc⟩ := L.tree.child q sq v hq hqc
    obtain ⟨hf, hplq⟩ := hcc p hp
    by_cases hqr : q = eptr.rootedge
    · subst hqr
      rw [if_pos ⟨hlk, hpq⟩, go_to_node_eq]
      have hg := same_heap_go g eptr.rootedge
      have hat := at_go_to_node L.tree _ (valid_root g)
      generalize gone_to g eptr.rootedge = g1 at hg hat ⊢
      have hl1 := hg.load_h
      simp only [ok_bind, hl1, hp]
      apply rescan_spec ch sym (pl eptr.rootedge)
        (hg.2.2.2.2.1.trans L.suf) (hg.2.2.2.2.2.trans L.tl)
        (hg.tree_h L.tree) (hg.2.2.2.1.trans L.cap) hi1 hit htn hat
        (by rw [hg.valid_h]; exact L.val) hr hplv (by omega : 0 ≤ p + 1) (by omega) hpn ?_
        (by rw [hl1]; exact hch) hsym (hg.haslink_h L.haslink)
        (hg.branching_h L.branch) (by rw [hg.2.2.1]; exact L.size1 hi1) L.early
      rw [hcons, L.tree.root_pl, List.nil_append, seg_cons text p _ hp0 (by omega) hlen1] at hplq
      rw [L.tree.root_pl, List.nil_append, show p + (load g v).len - (p + 1) = (load g v).len - 1
        by omega]
      exact (List.cons.inj hplq).2.symm
    · have hnot : ¬ ((load g v).link = none ∧ g.st.parent = some eptr.rootedge) := by
        rintro ⟨_, h⟩
        rw [hpq] at h
        exact hqr (Option.some.inj h)
      have hyes : (load g v).link = none ∧ g.st.parent ≠ some eptr.rootedge := by
        refine ⟨hlk, ?_⟩
        rw [hpq]
        intro h
        exact hqr (Option.some.inj h)
      rw [if_neg hnot, if_pos hyes, hpq]
      simp only [deref, ok_bind]
      have hqv : q ≠ v := by
        intro e
        rw [e] at hplq
        have h3 := seg_ne_nil text p (load g v).len hp0 (by omega) hpn
        have h4 := congrArg List.length hplq
        rw [List.length_append] at h4
        apply h3
        apply List.eq_nil_of_length_eq_zero
        omega
      have hql := L.haslink q hq hqr hqv ⟨sq, v, hqc⟩
      obtain ⟨tq, htq⟩ := Option.ne_none_iff_exists'.mp hql
      obtain ⟨htv, ⟨c, hc⟩, _⟩ := L.tree.link q tq hq htq
      rw [htq, go_to_node_eq]
      have hg := same_heap_go g tq
      have hat := at_go_to_node L.tree _ htv
      generalize gone_to g tq = g1 at hg hat ⊢
      have hl1 := hg.load_h
      simp only [ok_bind, hl1, hp]
      apply rescan_spec ch sym (pl tq)
        (hg.2.2.2.2.1.trans L.suf) (hg.2.2.2.2.2.trans L.tl)
        (hg.tree_h L.tree) (hg.2.2.2.1.trans L.cap) hi1 hit htn hat
        (by rw [hg.valid_h]; exact L.val) hr hplv hp0 (by omega) hpn ?_
        (by rw [hl1]; exact hch) hsym (hg.haslink_h L.haslink)
        (hg.branching_h L.branch) (by rw [hg.2.2.1]; exact L.size1 hi1) L.early
      rw [hcons, hc, List.cons_append] at hplq
      rw [show p + (load g v).len - p = (load g v).len by omega]
      exact (List.cons.inj hplq).2.symm
  · -- the edge has its suffix link already
    obtain ⟨u, hu⟩ := Option.ne_none_iff_exists'.mp hlk
    have hnot1 : ¬ ((load g v).link = none ∧ g.st.parent = some eptr.rootedge) := fun h => hlk h.1
    have hnot2 : ¬ ((load g v).link = none ∧ g.st.parent ≠ some eptr.rootedge) := fun h => hlk h.1
    rw [if_neg hnot1, if_neg hnot2, if_pos hlk, hu, go_to_node_eq]
    obtain ⟨huv, ⟨c, hc⟩, _⟩ := L.tree.link v u L.val hu
    have hg := same_heap_go g u
    have hplu : pl u = seg text i (t - i) := by
      rw [hcons] at hc
      exact (List.cons.inj hc).2.symm
    have hin := link_word_in_tree L.tree v ch sym L.val hi1 hit htn hplv hch hsym
    rw [← hplu] at hin
    have hcu := has_child_of_in_tree L.tree u sym huv hin
    have hne : u ≠ v := by
      intro e
      rw [e] at hc
      have := congrArg List.length hc
      simp at this
    have hfresh : u ≠ eptr.rootedge → (load g u).link ≠ none :=
      fun hur => L.haslink u huv hur hne hcu
    have hl1 := hg.load_h
    refine ⟨pl, u, L.suf, L.tl, hg.tree_h L.tree, L.cap, L.suf0, hit, htn, rfl, huv,
      by rw [hl1]; rfl, hplu, ?_, ?_, ?_, L.size0, ?_, L.early⟩
    · intro hur h
      rw [hl1] at h
      exact absurd h (hfresh hur)
    · apply hg.haslink_h
      intro x hx hxr hxu hc'
      by_cases e : x = v
      · rw [e, hu]; simp
      · exact L.haslink x hx hxr e hc'
    · exact Branching.weaken (hg.branching_h L.branch) _
    · intro h1
      have := L.size1 h1
      rw [hg.2.2.1]
      split <;> omega

end Suffixtree

namespace Suffixtree

/-! ## Consuming the tail and splitting -/

theorem same_store.load_s {g g1 : globals} (h : same_store g g1) : load g1 = load g :=
  load_congr g g1 h.1 h.2.1

theorem same_store.valid_s {g g1 : globals} (h : same_store g g1) : valid g1 = valid g :=
  valid_eq g g1 h.2.2.1

theorem same_store.tree_s {text : List Int} {g g1 : globals} {pl : eptr → List Int} {i : Int}
    (h : same_store g g1) (T : Tree text g pl i) : Tree text g1 pl i :=
  T.congr_t h.1 h.2.1 h.2.2.1

theorem same_store.symm_s {g g1 : globals} (h : same_store g g1) : same_store g1 g :=
  ⟨h.1.symm, h.2.1.symm, h.2.2.1.symm, h.2.2.2.symm⟩

theorem same_store.spells_s {text : List Int} {g g1 : globals} {pl : eptr → List Int}
    {w : List Int} {v : eptr} {off : Int} (h : same_store g g1)
    (hs : Spells text g pl w v off) : Spells text g1 pl w v off :=
  hs.congr_w h.1 h.2.1 h.2.2.1

theorem same_store.intree_s {text : List Int} {g g1 : globals} {pl : eptr → List Int}
    {w : List Int} (h : same_store g g1) : InTree text g1 pl w ↔ InTree text g pl w := by
  constructor
  · rintro ⟨v, off, hs⟩
    exact ⟨v, off, h.symm_s.spells_s hs⟩
  · rintro ⟨v, off, hs⟩
    exact ⟨v, off, h.spells_s hs⟩

theorem same_store.haslink_s {g g1 : globals} (h : same_store g g1) {ex : eptr}
    (H : HasLink g ex) : HasLink g1 ex := by
  unfold HasLink at *
  rw [h.load_s, h.valid_s]
  exact H

theorem same_store.branching_s {g g1 : globals} (h : same_store g g1) {ex : eptr}
    (H : Branching g ex) : Branching g1 ex := by
  unfold Branching at *
  rw [h.load_s, h.valid_s]
  exact H

theorem same_heap.store {g g1 : globals} (h : same_heap g g1) : same_store g g1 :=
  ⟨h.1, h.2.1, h.2.2.1, h.2.2.2.1⟩

/-- The path label of an edge other than the root is not empty. -/
theorem pl_ne_nil {text : List Int} {g : globals} {pl : eptr → List Int} {i : Int}
    (T : Tree text g pl i) (x : eptr) (hx : valid g x) (hne : x ≠ eptr.rootedge) :
    pl x ≠ [] := by
  obtain ⟨q, sym, hq, hc⟩ := T.par x hx hne
  obtain ⟨_, _, _, _, hcc⟩ := T.child q sym x hq hc
  obtain ⟨p, hp, h0, h1, hn⟩ := T.lab x hx hne
  obtain ⟨_, hpl⟩ := hcc p hp
  intro e
  rw [e] at hpl
  have := seg_ne_nil text p (load g x).len h0 h1 hn
  have h2 := congrArg List.length hpl
  rw [List.length_append] at h2
  apply this
  apply List.eq_nil_of_length_eq_zero
  simp at h2
  omega

/-- The invariant reached after the tail has been consumed and the edge
reached has been split if necessary. -/
theorem pre_insert_of_split {text : List Int} {g g2 g3 : globals} {pl : eptr → List Int}
    {v : eptr} {i t t1 : Int} (M : MidInv text g pl v i t)
    (a1 : t ≤ t1) (a2 : t1 ≤ text.length) (hs : same_store g g2)
    (hsuf : g2.st.suffix = i) (htl : g2.st.tail = t1)
    (hstay : t1 = t → g2.st.edge = g.st.edge ∧ g2.st.offset = g.st.offset ∧
      g2.st.parent = g.st.parent)
    (hin : InTree text g pl (seg text i (t1 - i)))
    (a5 : t1 < text.length → ¬ InTree text g pl (seg text i (t1 - i) ++ [text.getD t1.toNat 0]))
    (hsplit : (g3 = g2 ∧ ∃ u, g2.st.edge = some u ∧ g2.st.offset = (load g2 u).len ∧
        Spells text g2 pl (seg text i (t1 - i)) u (load g2 u).len) ∨
      SplitPost text g2 pl i (seg text i (t1 - i)) g3
        (fun x => if x = eptr.slot g2.edges_size then seg text i (t1 - i) else pl x)) :
    ∃ pl3 u3, PreInsert text g3 pl3 u3 i t1 := by
  have T2 := hs.tree_s M.tree
  have hl2 := hs.load_s
  have hv2 := hs.valid_s
  have hsw := seg_split text i (t - i) (t1 - i) M.suf0 (by have := M.suft; omega) (by omega)
  rw [show i + (t - i) = t by omega, show t1 - i - (t - i) = t1 - t by omega] at hsw
  -- a freshly split cursor edge stops the tail at once
  have hfresh : v ≠ eptr.rootedge → (load g v).link = none → t1 = t := by
    intro hvr hlk
    by_contra hne
    obtain ⟨_, _, hall⟩ := M.fresh hvr hlk
    have hc := seg_cons text t (t1 - t) (by have := M.suft; have := M.suf0; omega)
      M.tailn (by omega)
    rw [hsw, hc, ← M.word] at hin
    have h1 : pl v ++ text.getD t.toNat 0 :: seg text (t + 1) (t1 - t - 1)
        = (pl v ++ [text.getD t.toNat 0]) ++ seg text (t + 1) (t1 - t - 1) := by simp
    rw [h1] at hin
    have h2 := InTree.init M.tree _ _ hin
    rw [show text.getD t.toNat 0 = FIRST_SYMBOL + (text.getD t.toNat 0 - FIRST_SYMBOL) by omega]
      at h2
    obtain ⟨ch, hch⟩ := (spells_child M.tree (spells_node M.tree v M.val) _).1 h2
    exact hall _ ch hch (by omega)
  have hbelow : i < text.length := by
    have := M.suft
    have := M.tailn
    omega
  rcases hsplit with ⟨rfl, u, he, hoff, hsp⟩ | SP
  · -- the tail ends at the end of an edge
    have hplu : seg text i (t1 - i) = pl u := spells_at_end T2 hsp
    have hvu : valid g u := by rw [← hv2]; exact hsp.is_valid
    have hsame : u = v → t1 = t := by
      intro e
      have h1 := M.word
      rw [← e, ← hplu] at h1
      have h2 := congrArg List.length h1
      have h3 := seg_len text i (t1 - i) M.suf0 (by have := M.suft; omega) (by omega)
      have h4 := seg_len text i (t - i) M.suf0 (by have := M.suft; omega)
        (by have := M.tailn; omega)
      omega
    have hchild : u ≠ eptr.rootedge → has_child (load g u) := fun hur =>
      cursor_has_child M.tree u (t1 - i) hvu hur M.suf0 (by have := M.suft; omega) (by omega)
        hplu.symm
    refine ⟨pl, u, hsuf, htl, T2, hs.2.2.2.trans M.cap, M.suf0, by have := M.suft; omega, a2,
      hbelow, he, hsp.is_valid, hoff, hplu.symm, ?_, ?_, ?_, ?_, ?_, ?_, ?_, M.early⟩
    · -- parent
      intro hur hlk
      rw [hl2] at hlk ⊢
      rw [hv2]
      by_cases e : u = v
      · subst e
        obtain ⟨hq, _, _⟩ := M.fresh hur hlk
        rw [(hstay (hsame rfl)).2.2]
        exact hq
      · exact absurd hlk (M.haslink u hvu hur e (hchild hur))
    · -- stop
      intro hlt
      rw [← hplu, hs.intree_s]
      exact a5 hlt
    · -- other
      intro hur hlt
      obtain ⟨sym, ch, hch⟩ := hchild hur
      refine ⟨sym, ch, by rw [hl2]; exact hch, ?_⟩
      intro e
      apply a5 hlt
      rw [hplu, ← e]
      exact (spells_child M.tree (spells_node M.tree u hvu) sym).2 ⟨ch, hch⟩
    · -- haslink
      apply hs.haslink_s
      intro x hx hxr hxu hc
      by_cases e : x = v
      · subst e
        intro hlk
        have := hfresh hxr hlk
        have h1 := (hstay this).1
        rw [he, M.edge] at h1
        exact hxu (Option.some.inj h1).symm
      · exact M.haslink x hx hxr e hc
    · -- branch
      apply hs.branching_s
      intro x hx hxr hxu hc
      by_cases hlk : (load g v).link = none
      · have hb := M.branch
        rw [if_pos hlk] at hb
        apply hb x hx hxr _ hc
        intro e
        subst e
        have := hfresh hxr hlk
        have h1 := (hstay this).1
        rw [he, M.edge] at h1
        exact hxu (Option.some.inj h1).symm
      · have hb := M.branch
        rw [if_neg hlk] at hb
        exact hb x hx hxr hxr hc
    · intro h0
      rw [hs.2.2.1]
      exact M.size0 h0
    · intro h1
      have := M.size1 h1
      rw [hs.2.2.1]
      split at this <;> omega
  · -- the tail ends inside an edge, which is split
    obtain ⟨b, hb, hbv2, hbr, hblt⟩ := SP.inside
    have hbv : valid g b := by rw [← hv2]; exact hbv2
    have hnotfresh : ¬ (v ≠ eptr.rootedge ∧ (load g v).link = none) := by
      rintro ⟨hvr, hlk⟩
      have := hstay (hfresh hvr hlk)
      rw [this.1, M.edge] at hb
      cases hb
      rw [this.2.1, M.off, hl2] at hblt
      omega
    obtain ⟨symB, c, hc, honly, hic, _⟩ := SP.only
    have hother : t1 < text.length → FIRST_SYMBOL + symB ≠ text.getD t1.toNat 0 := by
      intro hlt e
      apply a5 hlt
      rw [← e, ← hs.intree_s]
      exact hic
    have hold : ∀ x, valid g3 x → x ≠ eptr.slot g2.edges_size → valid g x ∧ valid g2 x := by
      intro x hx hxn
      have := ((SP.valid1 x).1 hx).resolve_left hxn
      exact ⟨by rw [← hv2]; exact this, this⟩
    refine ⟨_, eptr.slot g2.edges_size, by rw [SP.st]; exact hsuf, by rw [SP.st]; exact htl,
      SP.tree, SP.cap.trans (hs.2.2.2.trans M.cap), M.suf0, by have := M.suft; omega, a2, hbelow,
      by rw [SP.st], (SP.valid1 _).2 (Or.inl rfl), SP.off, SP.word, fun _ _ => SP.parent,
      ?_, ?_, ?_, ?_, ?_, ?_, M.early⟩
    · -- stop
      intro hlt hin3
      rw [show text.getD t1.toNat 0 = FIRST_SYMBOL + (text.getD t1.toNat 0 - FIRST_SYMBOL)
        by omega] at hin3
      obtain ⟨ch, hch⟩ := (spells_child SP.tree
        (spells_node SP.tree _ ((SP.valid1 _).2 (Or.inl rfl))) _).1 hin3
      have := honly _ _ hch
      exact hother hlt (by omega)
    · -- other
      intro _ hlt
      exact ⟨symB, c, hc, hother hlt⟩
    · -- haslink
      intro x hx hxr hxn hch
      obtain ⟨hxg, hxg2⟩ := hold x hx hxn
      rw [SP.old_link x hxg2, hl2]
      rw [has_child_iff_of_none_iff (SP.old_childs x hxg2), hl2] at hch
      by_cases e : x = v
      · subst e
        exact fun hlk => hnotfresh ⟨hxr, hlk⟩
      · exact M.haslink x hxg hxr e hch
    · -- branch
      intro x hx hxr hxn hch
      obtain ⟨hxg, hxg2⟩ := hold x hx hxn
      have hch2 := hch
      rw [has_child_iff_of_none_iff (SP.old_childs x hxg2), hl2] at hch2
      apply branching_of_none_iff (SP.old_childs x hxg2)
      rw [hl2]
      have hb := M.branch
      by_cases hlk : (load g v).link = none
      · rw [if_pos hlk] at hb
        apply hb x hxg hxr _ hch2
        intro e
        subst e
        exact hnotfresh ⟨hxr, hlk⟩
      · rw [if_neg hlk] at hb
        exact hb x hxg hxr hxr hch2
    · -- size0
      intro h0
      exfalso
      have := M.size0 h0
      cases b with
      | rootedge => exact hbr rfl
      | slot j =>
        simp only [valid] at hbv
        omega
    · -- size1
      intro h1
      have := M.size1 h1
      rw [if_neg hnotfresh] at this
      rw [SP.size, hs.2.2.1]
      push_cast
      omega

end Suffixtree

namespace Suffixtree

/-! ## One call of `state_transition` -/

theorem final_of_pre {text : List Int} {g : globals} {pl : eptr → List Int} {u : eptr} {i : Int}
    (P : PreInsert text g pl u i text.length) : FinalInv text g pl u i := by
  have hb := P.below
  refine ⟨P.suf, P.tl, P.tree, P.cap, P.suf0, by omega, P.edge, P.val, ?_, P.haslink, P.branch,
    P.size0, fun h1 _ => P.size1 h1, fun h => by omega, P.early⟩
  rw [← P.word]
  exact ⟨u, _, spells_node P.tree u P.val⟩

/-- The invariant at the end of a call that has inserted a leaf. -/
theorem loop_of_insert {text : List Int} {g3 g4 : globals} {pl3 pl4 : eptr → List Int}
    {u : eptr} {i t1 : Int} (P : PreInsert text g3 pl3 u i t1) (hlt : t1 < text.length)
    (IP : InsertPost text g3 pl3 i u g4 pl4) :
    LoopInv text { g4 with st := { g4.st with suffix := g4.st.suffix + 1 } } pl4 u (i + 1) t1 := by
  have hs : same_store g4 { g4 with st := { g4.st with suffix := g4.st.suffix + 1 } } :=
    ⟨rfl, rfl, rfl, rfl⟩
  have hl := hs.load_s
  have hv := hs.valid_s
  obtain ⟨symN, hsymN, hhang, hrest⟩ := IP.hang
  rw [P.tl] at hsymN
  have hNv : ¬ valid g3 (eptr.slot g3.edges_size) := by simp [valid]
  have hun : u ≠ eptr.slot g3.edges_size := fun e => hNv (e ▸ P.val)
  have hvu4 : valid g4 u := (IP.valid1 u).2 (Or.inr P.val)
  have hlen := seg_len text i (t1 - i) P.suf0 (by have := P.suft; omega) (by have := P.tailn; omega)
  rw [← P.word] at hlen
  have hold : ∀ x, valid g4 x → has_child (load g4 x) → valid g3 x := by
    intro x hx hc
    rcases (IP.valid1 x).1 hx with e | h
    · subst e
      obtain ⟨s, c, hc⟩ := hc
      rw [IP.leaf s] at hc
      cases hc
    · exact h
  refine ⟨?_, ?_, hs.tree_s IP.tree, ?_, by have := P.suf0; omega,
    by have := P.suft; omega, ?_, ?_, ?_, ?_, ?_, ?_, ?_, ?_, ?_, ?_, ?_⟩
  · show g4.st.suffix + 1 = i + 1
    rw [IP.st, P.suf]
  · show g4.st.tail = t1
    rw [IP.st, P.tl]
  · show g4.edges_capacity = _
    rw [IP.cap, P.cap]
  · show g4.st.edge = some u
    rw [IP.st, P.edge]
  · rw [hv]; exact hvu4
  · show g4.st.offset = _
    rw [hl, IP.st, IP.len, P.off]
  · -- at_root
    intro e
    subst e
    rw [P.tree.root_pl] at hlen
    simp at hlen
    omega
  · -- deep
    intro hur
    have hne := pl_ne_nil P.tree u P.val hur
    have h1 : 1 ≤ (pl3 u).length := List.length_pos.mpr hne
    refine ⟨by have := P.suf0; omega, by omega, hlt, ?_, ?_⟩
    · rw [IP.old_pl u P.val, P.word]
      congr 1 <;> omega
    · obtain ⟨sym, ch, hch, hsym⟩ := P.other hur hlt
      refine ⟨sym, ch, ?_, hsym⟩
      rw [hl, hrest sym (by intro e; rw [e] at hsym; exact hsym hsymN.symm)]
      exact hch
  · -- fresh
    intro hur hlk
    rw [hl, IP.old_link u P.val] at hlk
    obtain ⟨q, sym, hq1, hq2, hq3⟩ := P.parent hur hlk
    refine ⟨q, sym, ?_, ?_, ?_⟩
    · show g4.st.parent = some q
      rw [IP.st, hq1]
    · rw [hv]; exact (IP.valid1 q).2 (Or.inr hq2)
    · rw [hl]
      by_cases e : q = u
      · subst e
        rw [hrest sym]
        · exact hq3
        · intro e2
          subst e2
          have := has_child_of_in_tree P.tree q sym hq2
          have h2 := (spells_child P.tree (spells_node P.tree q hq2) sym).2 ⟨_, hq3⟩
          rw [← hsymN] at h2
          exact P.stop hlt h2
      · rw [IP.old_childs q hq2 e]
        exact hq3
  · -- haslink
    apply hs.haslink_s
    intro x hx hxr hxu hc
    have hx3 := hold x hx hc
    rw [IP.old_link x hx3]
    rw [has_child_congr (IP.old_childs x hx3 hxu)] at hc
    exact P.haslink x hx3 hxr hxu hc
  · -- branch
    apply hs.branching_s
    intro x hx hxr _ hc
    have hx3 := hold x hx hc
    by_cases e : x = u
    · subst e
      obtain ⟨sym, ch, hch, hsym⟩ := P.other hxr hlt
      have hne : sym ≠ symN := by
        intro e
        rw [e] at hsym
        exact hsym hsymN.symm
      exact ⟨sym, symN, ch, _, hne, by rw [hrest sym hne]; exact hch, hhang⟩
    · rw [has_child_congr (IP.old_childs x hx3 e)] at hc
      rw [branching_congr (IP.old_childs x hx3 e)]
      exact P.branch x hx3 hxr e hc
  · intro h0
    have := P.suf0
    omega
  · intro _
    show (g4.edges_size : Int) + 1 ≤ _
    rw [IP.size]
    push_cast
    by_cases h0 : i = 0
    · have := P.size0 h0
      omega
    · have := P.size1 (by have := P.suf0; omega)
      omega
  · -- early
    intro m j hj0 hjm hmi
    by_cases e : m = i
    · subst e
      rintro ⟨r, hr⟩
      obtain ⟨y, hy, _, hply, _⟩ := P.tree.leaf j hj0 hjm
      have hsy := spells_node P.tree y hy
      rw [hply, hr] at hsy
      have h1 := seg_split text m (t1 - m + 1) (text.length - m) P.suf0
        (by have := P.suft; omega) (by omega)
      have h2 := seg_snoc text m (t1 - m) P.suf0 (by have := P.suft; omega) (by omega)
      rw [show m + (t1 - m) = t1 by omega, ← P.word] at h2
      rw [h1, h2, List.append_assoc] at hsy
      exact P.stop hlt (InTree.init P.tree _ _ ⟨y, _, hsy⟩)
    · exact P.early m j hj0 hjm (by omega)

theorem at_set_tail {text : List Int} {g : globals} {pl : eptr → List Int} {w : List Int}
    (h : At text g pl w) (t : Int) :
    At text { g with st := { g.st with tail := t } } pl w := by
  obtain ⟨v, he, hs, hp⟩ := h
  have hst : same_store g { g with st := { g.st with tail := t } } := ⟨rfl, rfl, rfl, rfl⟩
  refine ⟨v, he, hst.spells_s hs, ?_⟩
  rw [hst.load_s, hst.valid_s]
  exact hp

theorem same_store_set_tail (g : globals) (t : Int) :
    same_store g { g with st := { g.st with tail := t } } := ⟨rfl, rfl, rfl, rfl⟩

/-- The effect of the second half of `state_transition`. -/
theorem extend_spec {text : List Int} {g : globals} {pl : eptr → List Int} {v : eptr}
    {i t : Int} (M : MidInv text g pl v i t) :
    Outcome text (extend text g) (fun r =>
      (r.1 = true ∧ ∃ pl1 v1 t1, LoopInv text r.2 pl1 v1 (i + 1) t1) ∨
      (r.1 = false ∧ ∃ pl1 v1, FinalInv text r.2 pl1 v1 i)) := by
  have hi0 := M.suf0
  have hit := M.suft
  have htn := M.tailn
  have hat : At text g pl (pl v) := by
    refine ⟨v, M.edge, ?_, ?_⟩
    · rw [M.off]
      exact spells_node M.tree v M.val
    · intro h
      have := M.off
      omega
  unfold extend
  apply Outcome.bind (consume_string_spec M.tree hat g.st.tail (by rw [M.tl]; omega)
    (by rw [M.tl]; omega))
  rintro ⟨t1, g1⟩ _ ⟨a1, a2, hh, hat1, a5, a6⟩
  simp only at a1 a2 hh hat1 a5 a6
  rw [M.tl] at a1 hat1 a5 a6
  simp only
  have hsw := seg_split text i (t - i) (t1 - i) hi0 (by omega) (by omega)
  rw [show i + (t - i) = t by omega, show t1 - i - (t - i) = t1 - t by omega] at hsw
  rw [M.word, ← hsw] at hat1
  have hs2 : same_store g { g1 with st := { g1.st with tail := t1 } } :=
    ⟨hh.1, hh.2.1, hh.2.2.1, hh.2.2.2.1⟩
  have T2 := hs2.tree_s M.tree
  have hat2 := at_set_tail hat1 t1
  have hsize : g.edges_size < 2 * text.length := by
    by_cases h0 : i = 0
    · have := M.size0 h0
      omega
    · have := M.size1 (by omega)
      split at this <;> omega
  have hin : InTree text g pl (seg text i (t1 - i)) := by
    obtain ⟨x, _, hsx, _⟩ := hat1
    exact hh.intree_h.1 ⟨x, _, hsx⟩
  have a5' : t1 < text.length →
      ¬ InTree text g pl (seg text i (t1 - i) ++ [text.getD t1.toNat 0]) := by
    intro hlt
    have h1 := seg_snoc text i (t1 - i) hi0 (by omega) (by omega)
    have h2 := seg_split text i (t - i) (t1 - i + 1) hi0 (by omega) (by omega)
    rw [show i + (t1 - i) = t1 by omega] at h1
    rw [show i + (t - i) = t by omega, show t1 - i + 1 - (t - i) = t1 - t + 1 by omega] at h2
    rw [← h1, h2, ← M.word]
    exact a5 hlt
  have hstay : t1 = t →
      ({ g1 with st := { g1.st with tail := t1 } } : globals).st.edge = g.st.edge ∧
      ({ g1 with st := { g1.st with tail := t1 } } : globals).st.offset = g.st.offset ∧
      ({ g1 with st := { g1.st with tail := t1 } } : globals).st.parent = g.st.parent := by
    intro e
    rw [a6 e]
    exact ⟨rfl, rfl, rfl⟩
  apply Outcome.bind (Outcome.mono (split_spec T2 hat2 (by
      intro b _ _
      show g1.edges_size < g1.edges_capacity
      rw [hh.2.2.1, hh.2.2.2.1, M.cap]
      exact hsize))
    (fun g3 _ hsp => pre_insert_of_split M a1 a2 hs2 (hh.2.2.2.2.1.trans M.suf) rfl hstay hin
      a5' hsp))
  rintro g3 _ ⟨pl3, u3, P⟩
  by_cases hend : g3.st.tail = text.length
  · rw [if_pos hend]
    right
    have e : t1 = text.length := by rw [← P.tl, hend]
    subst e
    exact ⟨rfl, pl3, u3, final_of_pre P⟩
  · rw [if_neg hend]
    have hlt : t1 < text.length := by
      have := P.tailn
      have := P.tl
      omega
    have hsz : g3.edges_size < g3.edges_capacity := by
      rw [P.cap]
      have := P.below
      by_cases h0 : i = 0
      · have := P.size0 h0
        omega
      · have := P.size1 (by omega)
        omega
    apply Outcome.bind (insert_spec P.tree P.edge P.val P.off P.suf0
      (by rw [P.tl]; exact P.suft) (by rw [P.tl]; exact hlt) (by rw [P.tl]; exact P.word) hsz
      (by rw [P.tl]; exact P.stop hlt))
    intro g4 _ IP
    left
    exact ⟨rfl, _, u3, t1, loop_of_insert P hlt IP⟩

end Suffixtree

namespace Suffixtree

/-! ## The build loop -/

/-- The invariant holds again after `st.tail` has caught up with `st.suffix`. -/
theorem LoopInv.normalise {text : List Int} {g : globals} {pl : eptr → List Int} {v : eptr}
    {i t : Int} (L : LoopInv text g pl v i t) :
    LoopInv text
      (if g.st.tail < g.st.suffix then { g with st := { g.st with tail := g.st.suffix } } else g)
      pl v i (max t i) := by
  by_cases h : g.st.tail < g.st.suffix
  · rw [if_pos h]
    have hs := same_store_set_tail g g.st.suffix
    have hti : t < i := by rw [← L.suf, ← L.tl]; exact h
    have hvr : v = eptr.rootedge := by
      by_contra hne
      have := (L.deep hne).2.1
      omega
    rw [max_eq_right (by omega)]
    refine ⟨L.suf, L.suf, hs.tree_s L.tree, L.cap, L.suf0, L.sufn, L.edge, ?_, ?_, fun _ => le_refl _,
      fun hne => absurd hvr hne, fun hne => absurd hvr hne, hs.haslink_s L.haslink,
      hs.branching_s L.branch, L.size0, L.size1, L.early⟩
    · rw [hs.valid_s]; exact L.val
    · rw [hs.load_s]; exact L.off
  · rw [if_neg h]
    have hti : i ≤ t := by rw [← L.suf, ← L.tl]; omega
    rw [max_eq_left hti]
    exact L

/-- The effect of one call of `state_transition` between two calls of which
the invariant holds. -/
theorem state_transition_spec {text : List Int} {g : globals} {pl : eptr → List Int} {v : eptr}
    {i t : Int} (L : LoopInv text g pl v i t) :
    Outcome text (state_transition text g) (fun r =>
      (r.1 = true ∧ ∃ pl1 v1 t1, LoopInv text r.2 pl1 v1 (i + 1) t1) ∨
      (r.1 = false ∧ ∃ pl1 v1, FinalInv text r.2 pl1 v1 i)) := by
  have L0 := L.normalise
  unfold state_transition
  simp only
  generalize (if g.st.tail < g.st.suffix then
    ({ g with st := { g.st with tail := g.st.suffix } } : globals) else g) = g0 at L0 ⊢
  by_cases hend : g0.st.tail = text.length
  · rw [if_pos hend]
    right
    refine ⟨rfl, pl, v, ?_⟩
    have htm : max t i = text.length := by rw [← L0.tl, hend]
    have hvr : v = eptr.rootedge := by
      by_contra hne
      have := (L0.deep hne).2.2.1
      omega
    have hin : i = text.length := by
      have := L0.at_root hvr
      have := L0.sufn
      omega
    refine ⟨L0.suf, hend, L0.tree, L0.cap, L0.suf0, L0.sufn, L0.edge, L0.val, ?_, L0.haslink,
      ?_, L0.size0, fun _ h => by omega, fun _ => ⟨fun h1 => ?_, L0.branch⟩, L0.early⟩
    · rw [hin, sub_self, seg_zero]
      exact InTree.nil
    · rw [hvr]
      exact L0.branch
    · have := L0.size1 (by omega)
      show (g0.edges_size : Int) + 1 ≤ _
      omega
  · rw [if_neg hend]
    have htl := L0.tl
    have hlt : max t i < text.length := by
      have h1 : max t i ≤ text.length := by
        by_cases hvr : v = eptr.rootedge
        · have := L0.at_root hvr
          have := L0.sufn
          omega
        · have := (L0.deep hvr).2.2.1
          omega
      omega
    apply Outcome.bind (reposition_spec L0 (le_max_right _ _) hlt)
    rintro g1 _ ⟨pl1, v1, M⟩
    exact extend_spec M

/-- The build loop ends, with enough fuel, in a state satisfying the final
invariant. -/
theorem build_loop_spec {text : List Int} :
    ∀ (fuel : Nat) (g : globals) (pl : eptr → List Int) (v : eptr) (i t : Int),
      LoopInv text g pl v i t → (text.length : Int) + 1 - i ≤ fuel →
      Outcome text (build_loop text fuel g) (fun g1 => ∃ pl1 v1 k, FinalInv text g1 pl1 v1 k) := by
  intro fuel
  induction fuel with
  | zero =>
    intro g pl v i t L hf
    have := L.sufn
    simp at hf
    omega
  | succ n ih =>
    intro g pl v i t L hf
    unfold build_loop
    apply Outcome.bind (state_transition_spec L)
    rintro ⟨b, g1⟩ _ h
    rcases h with ⟨hb, pl1, v1, t1, L1⟩ | ⟨hb, pl1, v1, F⟩
    · simp only at hb L1
      subst hb
      simp only [if_true]
      exact ih g1 pl1 v1 (i + 1) t1 L1 (by push_cast at hf; omega)
    · simp only at hb F
      subst hb
      simp only [Bool.false_eq_true, if_false, pure_eq]
      exact ⟨pl1, v1, i, F⟩

/-- The state `construct_suffixtree` starts the build loop in. -/
theorem construct_init_spec (text : List Int) (garbage : Nat → edge) (g : globals) :
    ∃ g1, construct_init text (some garbage) g = .ok g1 ∧
      LoopInv text g1 (fun _ => []) eptr.rootedge 0 0 := by
  refine ⟨_, rfl, ?_⟩
  have hv : ∀ x, valid (state_init (gone_to { g with
      edges_capacity := 2 * text.length,
      edges := fun j => if j < g.edges_capacity then g.edges j else garbage j,
      edges_size := 0,
      rootedge := ⟨none, 0, none, fun _ => none⟩ } eptr.rootedge)) x → x = eptr.rootedge := by
    intro x hx
    cases x with
    | rootedge => rfl
    | slot j => exact absurd hx (Nat.not_lt_zero j)
  have T : Tree text (state_init (gone_to { g with
      edges_capacity := 2 * text.length,
      edges := fun j => if j < g.edges_capacity then g.edges j else garbage j,
      edges_size := 0,
      rootedge := ⟨none, 0, none, fun _ => none⟩ } eptr.rootedge)) (fun _ => []) 0 := by
    refine ⟨rfl, rfl, rfl, ?_, ?_, ?_, ?_, ?_, ?_, ?_⟩
    · intro x hx hne
      exact absurd (hv x hx) hne
    · intro x hx hne
      exact absurd (hv x hx) hne
    · intro q sym c hq hc
      rw [hv q hq] at hc
      cases hc
    · intro x p hx hne
      exact absurd (hv x hx) hne
    · intro m h0 h1
      omega
    · intro x p hx hne
      exact absurd (hv x hx) hne
    · intro x t hx hl
      rw [hv x hx] at hl
      cases hl
  refine ⟨rfl, rfl, T, rfl, le_refl _, by omega, rfl, trivial, rfl, fun _ => le_refl _,
    fun h => absurd rfl h, fun h => absurd rfl h, ?_, ?_, fun _ => rfl, fun h => by omega, ?_⟩
  · intro x hx hne
    exact absurd (hv x hx) hne
  · intro x hx hne
    exact absurd (hv x hx) hne
  · intro m j h0 h1 h2
    omega

/-- The outcome of `construct_suffixtree`: with fuel for one more call than
the text has characters it reaches the final invariant, or stops in the
assertion of `get_symbol` on a text that is not all lowercase. -/
theorem construct_spec (fuel : Nat) (garbage : Nat → edge) (g : globals) (line : List Int)
    (hf : (strip_eol line).length + 1 ≤ fuel) :
    Outcome (strip_eol line) (construct_suffixtree fuel (some garbage) g line)
      (fun g1 => ∃ pl1 v1 k, FinalInv (strip_eol line) g1 pl1 v1 k) := by
  obtain ⟨g1, h1, L⟩ := construct_init_spec (strip_eol line) garbage g
  unfold construct_suffixtree
  rw [h1]
  simp only [ok_bind]
  exact build_loop_spec fuel g1 _ _ 0 0 L (by omega)

end Suffixtree

namespace Suffixtree

/-! ## States reached during the construction -/

/-- The loop invariant holds after any number of calls that returned 1. -/
theorem after_calls_inv {text : List Int} :
    ∀ (k : Nat) (g g1 : globals) (pl : eptr → List Int) (v : eptr) (i t : Int),
      LoopInv text g pl v i t → after_calls text k g = some g1 →
      ∃ pl1 v1 t1, LoopInv text g1 pl1 v1 (i + k) t1 := by
  intro k
  induction k with
  | zero =>
    intro g g1 pl v i t L h
    simp only [after_calls, Option.some.injEq] at h
    subst h
    exact ⟨pl, v, t, by simpa using L⟩
  | succ k ih =>
    intro g g1 pl v i t L h
    have hspec := state_transition_spec L
    unfold after_calls at h
    cases hr : state_transition text g with
    | error e => rw [hr] at h; cases h
    | ok r =>
      obtain ⟨b, g2⟩ := r
      rw [hr] at h hspec
      cases b with
      | false => cases h
      | true =>
        simp only at h
        rcases hspec with ⟨_, pl1, v1, t1, L1⟩ | ⟨hb, _⟩
        · obtain ⟨pl2, v2, t2, L2⟩ := ih g2 g1 pl1 v1 (i + 1) t1 L1 h
          refine ⟨pl2, v2, t2, ?_⟩
          rw [show i + ((k + 1 : Nat) : Int) = i + 1 + k by push_cast; omega]
          exact L2
        · cases hb

/-- A state in which the build loop ends satisfies the final invariant. -/
theorem build_loop_final {text : List Int} {g1 : globals} :
    ∀ (n : Nat) (g2 : globals) (pl : eptr → List Int) (v : eptr) (i t : Int),
      LoopInv text g2 pl v i t → build_loop text n g2 = .ok g1 →
      ∃ pl1 v1 k, FinalInv text g1 pl1 v1 k := by
  intro n
  induction n with
  | zero =>
    intro g2 pl v i t _ h
    simp [build_loop, throw_eq] at h
  | succ n ih =>
    intro g2 pl v i t L2 h
    have hspec := state_transition_spec L2
    unfold build_loop at h
    cases hr : state_transition text g2 with
    | error e => rw [hr] at h; cases h
    | ok r =>
      obtain ⟨b, g3⟩ := r
      rw [hr] at h hspec
      simp only [ok_bind] at h
      rcases hspec with ⟨hb, pl1, v1, t1, L1⟩ | ⟨hb, pl1, v1, F⟩
      · simp only at hb L1
        subst hb
        simp only [if_true] at h
        exact ih g3 pl1 v1 _ t1 L1 h
      · simp only at hb F
        subst hb
        simp only [Bool.false_eq_true, if_false, pure_eq] at h
        cases h
        exact ⟨pl1, v1, _, F⟩

/-- What holds in every state reached during the construction. -/
theorem reached_inv {text : List Int} {garbage : Nat → edge} {g g1 : globals}
    (h : Reached text (some garbage) g g1) :
    (∃ pl v i t, LoopInv text g1 pl v i t) ∨ (∃ pl v i, FinalInv text g1 pl v i) := by
  obtain ⟨g0, h0, h1⟩ := h
  obtain ⟨g0', h0', L⟩ := construct_init_spec text garbage g
  rw [h0] at h0'
  cases h0'
  rcases h1 with ⟨k, hk⟩ | ⟨fuel, hf⟩
  · obtain ⟨pl1, v1, t1, L1⟩ := after_calls_inv k g0 g1 _ _ 0 0 L hk
    exact Or.inl ⟨pl1, v1, _, t1, L1⟩
  · obtain ⟨pl1, v1, k, F⟩ := build_loop_final fuel g0 _ _ 0 0 L hf
    exact Or.inr ⟨pl1, v1, k, F⟩

theorem reached_tree {text : List Int} {garbage : Nat → edge} {g g1 : globals}
    (h : Reached text (some garbage) g g1) : ∃ pl i, Tree text g1 pl i := by
  rcases reached_inv h with ⟨pl, v, i, t, L⟩ | ⟨pl, v, i, F⟩
  · exact ⟨pl, i, L.tree⟩
  · exact ⟨pl, i, F.tree⟩

/-! ## Path labels -/

theorem path_label_pl {text : List Int} {g : globals} {pl : eptr → List Int} {i : Int}
    (T : Tree text g pl i) {x : eptr} {w : List Int} (h : PathLabel text g x w) :
    valid g x ∧ w = pl x := by
  induction h with
  | root => exact ⟨valid_root g, T.root_pl.symm⟩
  | child q c sym p w _ hc hp ih =>
    obtain ⟨hq, hw⟩ := ih
    obtain ⟨hv, _, _, _, hcc⟩ := T.child q sym c hq hc
    refine ⟨hv, ?_⟩
    rw [hw, (hcc p hp).2]

theorem pl_path_label_aux {text : List Int} {g : globals} {pl : eptr → List Int} {i : Int}
    (T : Tree text g pl i) (n : Nat) :
    ∀ x, valid g x → (pl x).length < n → PathLabel text g x (pl x) := by
  induction n with
  | zero => intro x _ h; omega
  | succ n ih =>
    intro x hx hlen
    by_cases hr : x = eptr.rootedge
    · subst hr
      rw [T.root_pl]
      exact PathLabel.root
    · obtain ⟨q, sym, hq, hc⟩ := T.par x hx hr
      obtain ⟨_, _, _, _, hcc⟩ := T.child q sym x hq hc
      obtain ⟨p, hp, h0, h1, hn⟩ := T.lab x hx hr
      obtain ⟨_, hpl⟩ := hcc p hp
      have hl := seg_len text p (load g x).len h0 (by omega) hn
      have hshort : (pl q).length < n := by
        have := congrArg List.length hpl
        rw [List.length_append] at this
        omega
      rw [hpl]
      exact PathLabel.child q x sym p (pl q) (ih q hq hshort) hc hp

theorem pl_path_label {text : List Int} {g : globals} {pl : eptr → List Int} {i : Int}
    (T : Tree text g pl i) (x : eptr) (hx : valid g x) : PathLabel text g x (pl x) :=
  pl_path_label_aux T ((pl x).length + 1) x hx (Nat.lt_succ_self _)

/-! ## The run of a freshly started program -/

theorem strip_eol_length (line : List Int) : (strip_eol line).length ≤ line.length := by
  unfold strip_eol
  rw [List.length_reverse]
  have := (List.dropWhile_suffix (fun c : Int => decide (c = 13 ∨ c = 10))
    (l := line.reverse)).length_le
  simpa using this

/-- A state in which `construct_suffixtree` ends is a state reached during
the construction. -/
theorem reached_of_construct {fuel : Nat} {garbage : Nat → edge} {g g1 : globals}
    {line : List Int} (h : construct_suffixtree fuel (some garbage) g line = .ok g1) :
    Reached (strip_eol line) (some garbage) g g1 := by
  obtain ⟨g0, h0, _⟩ := construct_init_spec (strip_eol line) garbage g
  unfold construct_suffixtree at h
  rw [h0] at h
  exact ⟨g0, h0, Or.inr ⟨fuel, h⟩⟩

/-- On a line of lowercase letters, `built` is the state the construction ends in. -/
theorem built_ok (line : List Int) (hl : lowercase (strip_eol line)) :
    construct_suffixtree (line.length + 1) (some (fun _ => zero_edge)) blank line = .ok (built line) := by
  obtain ⟨g1, h, _⟩ := (construct_spec (line.length + 1) (fun _ => zero_edge) blank line
    (by have := strip_eol_length line; omega)).of_lowercase hl
  unfold built
  rw [h]

end Suffixtree

namespace Suffixtree

/-! ## Totality, termination, the edge bound and the suffix links -/

/-- C5 (totality). For every line whose text, once the trailing CR and LF are
stripped, has only characters in 'a'..'z' (the empty text included), whatever
the previous global state and whatever `realloc` leaves in the edge store it
returns, `construct_suffixtree` ends normally when it has fuel for one more
call of `state_transition` than the text has characters: no `assert` of
`allocate_edge`, `get_symbol`, `charstep`, `consume_whole_string`,
`insert_tail`, `split_if_not_at_node` or `state_transition` fails and no NULL
edge pointer is followed, each of which is an `Err` of the model. When
`realloc` answers `NULL` instead, the run ends in `need_alloced` before the
build loop, which is neither a failed assertion nor a NULL edge pointer
followed. -/
theorem construct_total (fuel : Nat) (garbage : Nat → edge) (g : globals) (line : List Int)
    (hl : lowercase (strip_eol line)) (hf : (strip_eol line).length + 1 ≤ fuel) :
    (∃ g1, construct_suffixtree fuel (some garbage) g line = Except.ok g1) ∧
      construct_suffixtree fuel none g line = Except.error Err.oom := by
  obtain ⟨g1, h, _⟩ := (construct_spec fuel garbage g line hf).of_lowercase hl
  exact ⟨⟨g1, h⟩, rfl⟩

theorem construct_total_witness :
    lowercase (strip_eol [97, 98, 97, 10]) ∧ (strip_eol [97, 98, 97, 10]).length + 1 ≤ 4 ∧
      (∃ g1, construct_suffixtree 4 (some (fun _ => zero_edge)) blank [97, 98, 97, 10]
          = Except.ok g1) ∧
      construct_suffixtree 4 none blank [97, 98, 97, 10] = Except.error Err.oom :=
  ⟨by unfold lowercase; decide, by decide,
    construct_total 4 (fun _ => zero_edge) blank [97, 98, 97, 10] (by unfold lowercase; decide)
      (by decide)⟩

/-- C6 (termination). For every text of length n over 'a'..'z' the build loop
started by `construct_suffixtree`, once `realloc` has returned the edge
store, ends within n + 1 calls of
`state_transition` (fuel n + 1 is enough); after k calls that returned 1 the
pointer `st.suffix` is exactly k characters into the text, so each such call
advances it by one, it never passes `string_end`, and at most n calls return 1. -/
theorem build_terminates (text : List Int) (garbage : Nat → edge) (g : globals)
    (hl : lowercase text) :
    ∃ g0, construct_init text (some garbage) g = Except.ok g0 ∧
      (∃ g1, build_loop text (text.length + 1) g0 = Except.ok g1) ∧
      ∀ k g1, after_calls text k g0 = some g1 →
        g1.st.suffix = k ∧ g1.st.suffix ≤ text.length ∧ k ≤ text.length := by
  obtain ⟨g0, h0, L⟩ := construct_init_spec text garbage g
  refine ⟨g0, h0, ?_, ?_⟩
  · obtain ⟨g1, h1, _⟩ :=
      (build_loop_spec (text.length + 1) g0 _ _ 0 0 L (by push_cast; omega)).of_lowercase hl
    exact ⟨g1, h1⟩
  · intro k g1 hk
    obtain ⟨pl1, v1, t1, L1⟩ := after_calls_inv k g0 g1 _ _ 0 0 L hk
    have h1 := L1.suf
    have h2 := L1.sufn
    refine ⟨by omega, by omega, by omega⟩

theorem build_terminates_witness :
    lowercase [97, 98, 97] ∧
      ∃ g0, construct_init [97, 98, 97] (some (fun _ => zero_edge)) blank = Except.ok g0 ∧
        (∃ g1, build_loop [97, 98, 97] ([97, 98, 97].length + 1) g0 = Except.ok g1) ∧
        ∀ k g1, after_calls [97, 98, 97] k g0 = some g1 →
          g1.st.suffix = k ∧ g1.st.suffix ≤ [97, 98, 97].length ∧ k ≤ [97, 98, 97].length :=
  ⟨by unfold lowercase; decide,
    build_terminates [97, 98, 97] (fun _ => zero_edge) blank (by unfold lowercase; decide)⟩

/-- C3 (structural bound). For every non-empty text of length n over 'a'..'z',
in every state reached during the construction (between two calls of
`state_transition`, and when the loop has ended) the store has capacity 2n
and at most 2n - 1 edges are allocated from it, the root edge not counted;
and the construction, `realloc` having returned the edge store, ends
normally, so the capacity check of `allocate_edge` never fails. -/
theorem edge_bound (text : List Int) (garbage : Nat → edge) (g : globals)
    (hl : lowercase text) (hn : text ≠ []) :
    (∀ g1, Reached text (some garbage) g g1 →
      g1.edges_capacity = 2 * text.length ∧ g1.edges_size + 1 ≤ 2 * text.length) ∧
    ∃ g0 g1, construct_init text (some garbage) g = Except.ok g0 ∧
      build_loop text (text.length + 1) g0 = Except.ok g1 := by
  have hpos : 1 ≤ text.length := List.length_pos.mpr hn
  constructor
  · intro g1 hr
    rcases reached_inv hr with ⟨pl, v, i, t, L⟩ | ⟨pl, v, i, F⟩
    · refine ⟨L.cap, ?_⟩
      have := L.sufn
      have := L.suf0
      by_cases h0 : i = 0
      · have := L.size0 h0
        omega
      · have := L.size1 (by omega)
        omega
    · refine ⟨F.cap, ?_⟩
      have := F.sufn
      have := F.suf0
      by_cases h0 : i = 0
      · have := F.size0 h0
        omega
      · by_cases h1 : i = text.length
        · have := (F.sizen h1).1 (by omega)
          omega
        · have := F.size1 (by omega) (by omega)
          omega
  · obtain ⟨g0, h0, L⟩ := construct_init_spec text garbage g
    obtain ⟨g1, h1, _⟩ :=
      (build_loop_spec (text.length + 1) g0 _ _ 0 0 L (by push_cast; omega)).of_lowercase hl
    exact ⟨g0, g1, h0, h1⟩

theorem edge_bound_witness :
    lowercase [97, 98, 97] ∧ [97, 98, 97] ≠ ([] : List Int) ∧
      ((∀ g1, Reached [97, 98, 97] (some (fun _ => zero_edge)) blank g1 →
        g1.edges_capacity = 2 * [97, 98, 97].length ∧
          g1.edges_size + 1 ≤ 2 * [97, 98, 97].length) ∧
      ∃ g0 g1, construct_init [97, 98, 97] (some (fun _ => zero_edge)) blank = Except.ok g0 ∧
        build_loop [97, 98, 97] ([97, 98, 97].length + 1) g0 = Except.ok g1) :=
  ⟨by unfold lowercase; decide, by decide,
    edge_bound [97, 98, 97] (fun _ => zero_edge) blank (by unfold lowercase; decide) (by decide)⟩

/-- C4 (suffix-link correctness). In every state reached during the
construction of a text (between two calls of `state_transition`, and when
the loop has ended), every edge `e`, the root or an allocated one, whose
`link` field is not NULL has a path label `c :: w` and its link target has
the path label `w`: the path label of `e->link` is the path label of `e`
without its first character. Both path labels are the only ones. -/
theorem suffix_link_correct (text : List Int) (garbage : Nat → edge) (g g1 : globals)
    (hr : Reached text (some garbage) g g1) (e t : eptr) (he : valid g1 e)
    (hlk : (load g1 e).link = some t) :
    ∃ c w, PathLabel text g1 e (c :: w) ∧ PathLabel text g1 t w ∧
      (∀ w1, PathLabel text g1 e w1 → w1 = c :: w) ∧ (∀ w2, PathLabel text g1 t w2 → w2 = w) := by
  obtain ⟨pl, i, T⟩ := reached_tree hr
  obtain ⟨ht, ⟨c, hc⟩, _⟩ := T.link e t he hlk
  refine ⟨c, pl t, ?_, pl_path_label T t ht, ?_, ?_⟩
  · rw [← hc]
    exact pl_path_label T e he
  · intro w1 h1
    rw [(path_label_pl T h1).2, hc]
  · intro w2 h2
    exact (path_label_pl T h2).2

theorem suffix_link_correct_witness :
    Reached (strip_eol [97, 97, 98]) (some (fun _ => zero_edge)) blank (built [97, 97, 98]) ∧
      valid (built [97, 97, 98]) (eptr.slot 1) ∧
      (load (built [97, 97, 98]) (eptr.slot 1)).link = some eptr.rootedge ∧
      ∃ c w, PathLabel (strip_eol [97, 97, 98]) (built [97, 97, 98]) (eptr.slot 1) (c :: w) ∧
        PathLabel (strip_eol [97, 97, 98]) (built [97, 97, 98]) eptr.rootedge w ∧
        (∀ w1, PathLabel (strip_eol [97, 97, 98]) (built [97, 97, 98]) (eptr.slot 1) w1 →
          w1 = c :: w) ∧
        (∀ w2, PathLabel (strip_eol [97, 97, 98]) (built [97, 97, 98]) eptr.rootedge w2 →
          w2 = w) :=
  ⟨reached_of_construct (built_ok [97, 97, 98] (by unfold lowercase; decide)),
    by unfold valid; decide, by decide,
    suffix_link_correct (strip_eol [97, 97, 98]) (fun _ => zero_edge) blank (built [97, 97, 98])
      (reached_of_construct (built_ok [97, 97, 98] (by unfold lowercase; decide)))
      (eptr.slot 1) eptr.rootedge (by unfold valid; decide) (by decide)⟩

end Suffixtree

namespace Suffixtree

/-! ## The words of the finished tree -/

/-- Every suffix of the text is a word of the finished tree. -/
theorem final_suffix_in_tree {text : List Int} {g : globals} {pl : eptr → List Int} {v : eptr}
    {k : Int} (F : FinalInv text g pl v k) :
    ∀ d : Nat, (d : Int) ≤ text.length →
      InTree text g pl (seg text d (text.length - d)) := by
  have hleaf : ∀ m : Int, 0 ≤ m → m ≤ k → InTree text g pl (seg text m (text.length - m)) := by
    intro m h0 hk
    by_cases e : m = k
    · rw [e]
      exact F.rest
    · obtain ⟨x, hx, _, hpl, _⟩ := F.tree.leaf m h0 (by omega)
      rw [← hpl]
      exact ⟨x, _, spells_node F.tree x hx⟩
  intro d
  induction d with
  | zero =>
    intro _
    exact hleaf 0 (le_refl _) F.suf0
  | succ d ih =>
    intro hd
    by_cases hk : ((d + 1 : Nat) : Int) ≤ k
    · exact hleaf _ (by omega) hk
    · have hin := ih (by push_cast at hd; omega)
      have hne : seg text d (text.length - d) ≠ [] :=
        seg_ne_nil text d _ (by omega) (by push_cast at hd; omega) (by omega)
      obtain ⟨j, r, hj0, hjk, hjn, hjr⟩ := in_tree_occurs F.tree _ hne hin
      rw [seg_cons text j _ hj0 hjn (by omega),
        seg_cons text d _ (by omega) (by push_cast at hd; omega) (by push_cast at hd; omega),
        List.cons_append] at hjr
      have htl := (List.cons.inj hjr).2
      have := hleaf (j + 1) (by omega) (by omega)
      rw [show (text.length : Int) - (j + 1) = text.length - j - 1 by omega, htl] at this
      have h2 := InTree.init F.tree _ _ this
      rw [show ((d + 1 : Nat) : Int) = (d : Int) + 1 by push_cast; rfl,
        show (text.length : Int) - ((d : Int) + 1) = text.length - d - 1 by omega]
      exact h2

/-- Every substring of the text is a word of the finished tree. -/
theorem final_seg_in_tree {text : List Int} {g : globals} {pl : eptr → List Int} {v : eptr}
    {k : Int} (F : FinalInv text g pl v k) (a l : Int) (ha : 0 ≤ a) (hl : 0 ≤ l)
    (hn : a + l ≤ text.length) : InTree text g pl (seg text a l) := by
  lift a to ℕ using ha
  have h := final_suffix_in_tree F a (by omega)
  rw [seg_split text a l (text.length - a) (by omega) hl (by omega)] at h
  exact InTree.init F.tree _ _ h

/-- A substring of the text is a segment of it. -/
theorem infix_seg (text t : List Int) (h : t <:+: text) :
    ∃ a : Int, 0 ≤ a ∧ a + t.length ≤ text.length ∧ seg text a t.length = t := by
  obtain ⟨s, r, hsr⟩ := h
  refine ⟨s.length, by omega, ?_, ?_⟩
  · rw [← hsr]
    simp only [List.length_append]
    push_cast
    omega
  · rw [← hsr]
    simp [seg]

theorem final_infix_in_tree {text : List Int} {g : globals} {pl : eptr → List Int} {v : eptr}
    {k : Int} (F : FinalInv text g pl v k) (t : List Int) (h : t <:+: text) :
    InTree text g pl t := by
  obtain ⟨a, ha, hn, ht⟩ := infix_seg text t h
  rw [← ht]
  exact final_seg_in_tree F a t.length ha (by omega) hn

theorem infix_mem (text t : List Int) (h : t <:+: text) : ∀ c ∈ t, c ∈ text := by
  intro c hc
  exact h.subset hc

/-- Walking a word of the tree from a position of the tree succeeds at every
character and ends at the position of the word. -/
theorem walk_from_spec {text : List Int} {pl : eptr → List Int} {i : Int} :
    ∀ (t : List Int) (g : globals) (w : List Int), Tree text g pl i → At text g pl w →
      InTree text g pl (w ++ t) → (∀ c ∈ t, c ∈ text) →
      Outcome text (walk_from text t g)
        (fun r => r.1 = true ∧ same_heap g r.2 ∧ At text r.2 pl (w ++ t)) := by
  intro t
  induction t with
  | nil =>
    intro g w T hat _ _
    simp only [walk_from, pure_eq]
    exact ⟨rfl, same_heap.refl g, by simpa using hat⟩
  | cons c cs ih =>
    intro g w T hat hin hmem
    have hin1 : InTree text g pl (w ++ [c]) := by
      have : w ++ c :: cs = (w ++ [c]) ++ cs := by simp
      rw [this] at hin
      exact InTree.init T _ _ hin
    simp only [walk_from]
    apply Outcome.bind (charstep_spec T hat c (hmem c (List.mem_cons_self _ _)))
    rintro ⟨b, g1⟩ _ hr
    rcases hr with ⟨hb, hh, hat1⟩ | ⟨_, _, hnot⟩
    · simp only at hb hh hat1
      subst hb
      simp only [if_true]
      have hin2 : InTree text g1 pl ((w ++ [c]) ++ cs) := by
        rw [hh.intree_h]
        simpa using hin
      apply Outcome.mono (ih g1 (w ++ [c]) (hh.tree_h T) hat1 hin2
        (fun x hx => hmem x (List.mem_cons_of_mem _ hx)))
      rintro r _ ⟨a1, a2, a3⟩
      exact ⟨a1, hh.trans a2, by simpa using a3⟩
    · exact absurd hin1 hnot

/-- Walking a word of the tree from the root. -/
theorem walk_spec {text : List Int} {g : globals} {pl : eptr → List Int} {i : Int}
    (T : Tree text g pl i) (t : List Int) (hin : InTree text g pl t)
    (hmem : ∀ c ∈ t, c ∈ text) :
    Outcome text (walk text t g)
      (fun r => r.1 = true ∧ same_heap g r.2 ∧ At text r.2 pl t) := by
  unfold walk
  rw [go_to_node_eq]
  simp only [ok_bind]
  have hg := same_heap_go g eptr.rootedge
  have hat := at_go_to_node T eptr.rootedge (valid_root g)
  rw [T.root_pl] at hat
  apply Outcome.mono (walk_from_spec t _ [] (hg.tree_h T) hat
    (by rw [hg.intree_h]; simpa using hin) hmem)
  rintro r _ ⟨a1, a2, a3⟩
  exact ⟨a1, hg.trans a2, by simpa using a3⟩

/-- A text whose construction ends normally has only lowercase letters. -/
theorem final_lowercase {text : List Int} {g : globals} {pl : eptr → List Int} {v : eptr}
    {k : Int} (F : FinalInv text g pl v k) : lowercase text := by
  intro c hc
  obtain ⟨n, hn, rfl⟩ := List.getElem_of_mem hc
  have hseg := final_seg_in_tree F n 1 (by omega) (by omega) (by omega)
  rw [seg_one text n (by omega) (by omega)] at hseg
  have hget : text.getD (n : Int).toNat 0 = text[n] := by
    simp [List.getD_eq_getElem, hn]
  rw [hget] at hseg
  have hs := spells_node F.tree eptr.rootedge (valid_root g)
  rw [F.tree.root_pl] at hs
  have h2 : InTree text g pl ([] ++ [FIRST_SYMBOL + (text[n] - FIRST_SYMBOL)]) := by
    rw [show FIRST_SYMBOL + (text[n] - FIRST_SYMBOL) = text[n] by omega]
    simpa using hseg
  obtain ⟨ch, hch⟩ := (spells_child F.tree hs _).1 h2
  obtain ⟨_, _, s0, s1, _⟩ := F.tree.child eptr.rootedge _ ch (valid_root g) hch
  constructor <;> omega

/-- The final invariant holds in the state a construction ends in. -/
theorem final_of_construct {fuel : Nat} {garbage : Nat → edge} {g g1 : globals}
    {line : List Int} (h : construct_suffixtree fuel (some garbage) g line = .ok g1) :
    ∃ pl v k, FinalInv (strip_eol line) g1 pl v k := by
  obtain ⟨g0, h0, L0⟩ := construct_init_spec (strip_eol line) garbage g
  unfold construct_suffixtree at h
  rw [h0] at h
  exact build_loop_final fuel g0 _ _ 0 0 L0 h

end Suffixtree

namespace Suffixtree

/-! ## Path existence, branching nodes and the alphabet -/

/-- C1 (path existence). For every line whose stripped text has only
characters in 'a'..'z', in the state in which `construct_suffixtree` ends
(the build loop has finished because `state_transition` returned 0), for
every substring `t` of the text, placing the cursor at the root with
`go_to_node(&rootedge)` and calling `charstep` on the characters of `t` one
at a time returns 1 at every character. -/
theorem path_existence (fuel : Nat) (garbage : Nat → edge) (g g1 : globals) (line : List Int)
    (hl : lowercase (strip_eol line))
    (h : construct_suffixtree fuel (some garbage) g line = Except.ok g1)
    (t : List Int) (ht : t <:+: strip_eol line) :
    ∃ g2, walk (strip_eol line) t g1 = Except.ok (true, g2) := by
  obtain ⟨pl, v, k, F⟩ := final_of_construct h
  obtain ⟨r, hr, hb, _⟩ := (walk_spec F.tree t (final_infix_in_tree F t ht)
    (infix_mem _ t ht)).of_lowercase hl
  obtain ⟨b, g2⟩ := r
  simp only at hb
  subst hb
  exact ⟨g2, hr⟩

theorem path_existence_witness :
    lowercase (strip_eol [97, 98, 97]) ∧
      construct_suffixtree ([97, 98, 97].length + 1) (some (fun _ => zero_edge)) blank [97, 98, 97]
        = Except.ok (built [97, 98, 97]) ∧
      [98, 97] <:+: strip_eol [97, 98, 97] ∧
      ∃ g2, walk (strip_eol [97, 98, 97]) [98, 97] (built [97, 98, 97]) = Except.ok (true, g2) :=
  ⟨by unfold lowercase; decide, built_ok [97, 98, 97] (by unfold lowercase; decide),
    ⟨[97], [], by decide⟩,
    path_existence _ (fun _ => zero_edge) blank (built [97, 98, 97]) [97, 98, 97]
      (by unfold lowercase; decide) (built_ok [97, 98, 97] (by unfold lowercase; decide))
      [98, 97] ⟨[97], [], by decide⟩⟩

/-- C7, the claim as written fails on its own witness: on the text "banana$"
the construction does not end normally, it stops in the assertion of
`get_symbol`, because '$' is not one of the 26 symbols. -/
theorem banana_dollar_stops :
    construct_suffixtree 8 (some (fun _ => zero_edge)) blank [98, 97, 110, 97, 110, 97, 36]
      = Except.error Err.symbol := by
  rfl

/-- C7 (branching nodes are explicit), amended. For every line whose stripped
text has only characters in 'a'..'z', and every string `w` such that both
`w` followed by `c` and `w` followed by `d` occur in the text for two
distinct characters `c` and `d`, in the state in which `construct_suffixtree`
ends the walk of `w` from the root succeeds and ends at an explicit node (the
cursor offset equals the length of the label of the cursor's edge) whose
child map has non-NULL entries for both `c` and `d`. On "bananaz" the node
reached after "ana" has children for 'n' and for 'z'. -/
theorem branching_explicit (fuel : Nat) (garbage : Nat → edge) (g g1 : globals)
    (line : List Int) (hl : lowercase (strip_eol line))
    (h : construct_suffixtree fuel (some garbage) g line = Except.ok g1)
    (w : List Int) (c d : Int) (hcd : c ≠ d)
    (hc : (w ++ [c]) <:+: strip_eol line) (hd : (w ++ [d]) <:+: strip_eol line) :
    ∃ g2 e, walk (strip_eol line) w g1 = Except.ok (true, g2) ∧ g2.st.edge = some e ∧
      g2.st.offset = (load g2 e).len ∧
      (load g2 e).childs (c - FIRST_SYMBOL) ≠ none ∧
      (load g2 e).childs (d - FIRST_SYMBOL) ≠ none := by
  obtain ⟨pl, v, k, F⟩ := final_of_construct h
  have hw : w <:+: strip_eol line := by
    obtain ⟨s, r, hsr⟩ := hc
    exact ⟨s, [c] ++ r, by simpa using hsr⟩
  have hinc := final_infix_in_tree F _ hc
  have hind := final_infix_in_tree F _ hd
  obtain ⟨r, hr, hb, hh, hat⟩ := (walk_spec F.tree w (final_infix_in_tree F w hw)
    (infix_mem _ w hw)).of_lowercase hl
  obtain ⟨b, g2⟩ := r
  simp only at hb hh hat
  subst hb
  obtain ⟨e, he, hs, _⟩ := hat
  have T2 := hh.tree_h F.tree
  rw [← hh.intree_h] at hinc hind
  have hoff : g2.st.offset = (load g2 e).len := by
    by_contra hne
    have hlt : g2.st.offset < (load g2 e).len := by
      rcases hs.2 with ⟨e1, _, ho⟩ | ⟨_, p, _, _, hle, _⟩
      · rw [e1, T2.root_len] at hne
        exact absurd ho hne
      · omega
    have her : e ≠ eptr.rootedge := by
      intro e1
      subst e1
      have := hs.root.2
      have := T2.root_len
      omega
    obtain ⟨p, hp, _⟩ := T2.lab e hs.is_valid her
    have h1 := (spells_next T2 hs hp hlt her c).1 hinc
    have h2 := (spells_next T2 hs hp hlt her d).1 hind
    exact hcd (h1.trans h2.symm)
  rw [hoff] at hs
  refine ⟨g2, e, hr, he, hoff, ?_, ?_⟩
  · have : InTree (strip_eol line) g2 pl (w ++ [FIRST_SYMBOL + (c - FIRST_SYMBOL)]) := by
      rw [show FIRST_SYMBOL + (c - FIRST_SYMBOL) = c by omega]
      exact hinc
    obtain ⟨ch, hch⟩ := (spells_child T2 hs _).1 this
    rw [hch]
    simp
  · have : InTree (strip_eol line) g2 pl (w ++ [FIRST_SYMBOL + (d - FIRST_SYMBOL)]) := by
      rw [show FIRST_SYMBOL + (d - FIRST_SYMBOL) = d by omega]
      exact hind
    obtain ⟨ch, hch⟩ := (spells_child T2 hs _).1 this
    rw [hch]
    simp

theorem branching_explicit_witness :
    lowercase (strip_eol [98, 97, 110, 97, 110, 97, 122]) ∧
      construct_suffixtree ([98, 97, 110, 97, 110, 97, 122].length + 1) (some (fun _ => zero_edge))
        blank [98, 97, 110, 97, 110, 97, 122] = Except.ok (built [98, 97, 110, 97, 110, 97, 122]) ∧
      (110 : Int) ≠ 122 ∧
      ([97, 110, 97] ++ [110]) <:+: strip_eol [98, 97, 110, 97, 110, 97, 122] ∧
      ([97, 110, 97] ++ [122]) <:+: strip_eol [98, 97, 110, 97, 110, 97, 122] ∧
      ∃ g2 e, walk (strip_eol [98, 97, 110, 97, 110, 97, 122]) [97, 110, 97]
          (built [98, 97, 110, 97, 110, 97, 122]) = Except.ok (true, g2) ∧
        g2.st.edge = some e ∧ g2.st.offset = (load g2 e).len ∧
        (load g2 e).childs (110 - FIRST_SYMBOL) ≠ none ∧
        (load g2 e).childs (122 - FIRST_SYMBOL) ≠ none :=
  ⟨by unfold lowercase; decide,
    built_ok [98, 97, 110, 97, 110, 97, 122] (by unfold lowercase; decide), by decide,
    ⟨[98], [97, 122], by decide⟩, ⟨[98, 97, 110], [], by decide⟩,
    branching_explicit _ (fun _ => zero_edge) blank (built [98, 97, 110, 97, 110, 97, 122])
      [98, 97, 110, 97, 110, 97, 122] (by unfold lowercase; decide)
      (built_ok [98, 97, 110, 97, 110, 97, 122] (by unfold lowercase; decide))
      [97, 110, 97] 110 122 (by decide) ⟨[98], [97, 122], by decide⟩
      ⟨[98, 97, 110], [], by decide⟩⟩

/-- C9 (alphabet restriction). For every line whose stripped text contains a
character outside 'a'..'z', `construct_suffixtree`, run with fuel for one
more call of `state_transition` than the text has characters, does not end
normally: once `realloc` has returned the edge store, it stops in the failed
assertion `0 <= sym && sym < NUM_SYMBOLS` of `get_symbol`. -/
theorem alphabet_restriction (fuel : Nat) (garbage : Nat → edge) (g : globals)
    (line : List Int) (hbad : ¬ lowercase (strip_eol line))
    (hf : (strip_eol line).length + 1 ≤ fuel) :
    construct_suffixtree fuel (some garbage) g line = Except.error Err.symbol := by
  have hspec := construct_spec fuel garbage g line hf
  cases hr : construct_suffixtree fuel (some garbage) g line with
  | error e =>
    rw [hr] at hspec
    rw [hspec.1]
  | ok g1 =>
    obtain ⟨pl, v, k, F⟩ := final_of_construct hr
    exact absurd (final_lowercase F) hbad

theorem alphabet_restriction_witness :
    ¬ lowercase (strip_eol [97, 98, 65, 98, 10]) ∧ (strip_eol [97, 98, 65, 98, 10]).length + 1 ≤ 5 ∧
      construct_suffixtree 5 (some (fun _ => zero_edge)) blank [97, 98, 65, 98, 10]
        = Except.error Err.symbol :=
  ⟨by unfold lowercase; decide, by decide,
    alphabet_restriction 5 (fun _ => zero_edge) blank [97, 98, 65, 98, 10]
      (by unfold lowercase; decide) (by decide)⟩

end Suffixtree

namespace Suffixtree

/-! ## The traversal of `print_all_suffixes` -/

theorem is_leaf_iff {text : List Int} {g : globals} {pl : eptr → List Int} {i : Int}
    (T : Tree text g pl i) (x : eptr) (hx : valid g x) :
    is_leaf (load g x) = true ↔ ∀ sym, (load g x).childs sym = none := by
  unfold is_leaf
  rw [List.all_eq_true]
  constructor
  · intro h sym
    cases hc : (load g x).childs sym with
    | none => rfl
    | some c =>
      obtain ⟨_, _, s0, s1, _⟩ := T.child x sym c hx hc
      have h1 := h sym.toNat (List.mem_range.mpr (by unfold NUM_SYMBOLS at s1; omega))
      rw [Int.toNat_of_nonneg s0, hc] at h1
      simp at h1
  · intro h j _
    rw [h]
    rfl

/-- The length of a path label is at most the length of the text. -/
theorem pl_length_le {text : List Int} {g : globals} {pl : eptr → List Int} {i : Int}
    (T : Tree text g pl i) (x : eptr) (hx : valid g x) : (pl x).length ≤ text.length := by
  by_cases hr : x = eptr.rootedge
  · rw [hr, T.root_pl]
    simp
  · obtain ⟨p, hp, h0, h1, hn⟩ := T.lab x hx hr
    obtain ⟨o1, _, _⟩ := T.occ x p hx hr hp
    omega

/-- A path label that properly extends the path label of `x` passes through
the end of a child of `x`. -/
theorem descend_aux {text : List Int} {g : globals} {pl : eptr → List Int} {i : Int}
    (T : Tree text g pl i) (x : eptr) (hx : valid g x) (n : Nat) :
    ∀ y, valid g y → (pl y).length < n → ∀ r, r ≠ [] → pl y = pl x ++ r →
      ∃ sym ch, (load g x).childs sym = some ch ∧ ∃ r1, pl y = pl ch ++ r1 := by
  induction n with
  | zero => intro y _ h; omega
  | succ n ih =>
    intro y hy hlen r hr hpl
    have hyr : y ≠ eptr.rootedge := by
      intro e
      rw [e, T.root_pl] at hpl
      have := congrArg List.length hpl
      simp at this
      exact hr (List.eq_nil_of_length_eq_zero (by omega))
    obtain ⟨q, sym, hq, hc⟩ := T.par y hy hyr
    obtain ⟨_, _, _, _, hcc⟩ := T.child q sym y hq hc
    obtain ⟨p, hp, h0, h1, hn⟩ := T.lab y hy hyr
    obtain ⟨_, hply⟩ := hcc p hp
    have hll := seg_len text p (load g y).len h0 (by omega) hn
    have hly : ((pl y).length : Int) = (pl q).length + (load g y).len := by
      rw [hply, List.length_append]
      push_cast
      omega
    have hlx : (pl y).length = (pl x).length + r.length := by
      rw [hpl, List.length_append]
    have hrl : 1 ≤ r.length := List.length_pos.mpr hr
    rcases lt_trichotomy (pl q).length (pl x).length with hlt | heq | hgt
    · -- the end of x would lie strictly inside the edge y
      exfalso
      have e1 : pl x = (pl y).take (pl x).length := by
        rw [hpl, List.take_left']
        rfl
      have e2 : (pl y).take (pl x).length
          = pl q ++ seg text p (((pl x).length : Int) - (pl q).length) := by
        rw [hply, List.take_append_eq_append_take, List.take_of_length_le (by omega)]
        congr 1
        have := seg_take text p (((pl x).length : Int) - (pl q).length) (load g y).len (by omega)
        rw [← this]
        congr 1
        omega
      have hs := spells_on_edge T q y sym p (((pl x).length : Int) - (pl q).length) hq hc hp
        (by omega) (by omega)
      rw [← e1.trans e2] at hs
      obtain ⟨e3, e4⟩ := spells_unique T hs (spells_node T x hx)
      subst e3
      omega
    · have : pl q = pl x := by
        have h2 : pl q ++ seg text p (load g y).len = pl x ++ r := by rw [← hply, hpl]
        exact (List.append_inj h2 heq).1
      have hqx := pl_inj T hq hx this
      subst hqx
      exact ⟨sym, y, hc, [], by simp⟩
    · have e1 : pl q = (pl y).take (pl q).length := by
        rw [hply, List.take_left']
        rfl
      have e2 : (pl y).take (pl q).length = pl x ++ r.take ((pl q).length - (pl x).length) := by
        rw [hpl, List.take_append_eq_append_take, List.take_of_length_le (by omega)]
      have hne : r.take ((pl q).length - (pl x).length) ≠ [] := by
        intro e
        rcases List.take_eq_nil_iff.mp e with h | h
        · omega
        · exact hr h
      obtain ⟨s1, ch, hch, r1, hr1⟩ := ih q hq (by omega) _ hne (e1.trans e2)
      exact ⟨s1, ch, hch, r1 ++ seg text p (load g y).len, by rw [hply, hr1, List.append_assoc]⟩

theorem descend {text : List Int} {g : globals} {pl : eptr → List Int} {i : Int}
    (T : Tree text g pl i) (x y : eptr) (hx : valid g x) (hy : valid g y) (r : List Int)
    (hr : r ≠ []) (hpl : pl y = pl x ++ r) :
    ∃ sym ch, (load g x).childs sym = some ch ∧ ∃ r1, pl y = pl ch ++ r1 :=
  descend_aux T x hx ((pl y).length + 1) y hy (Nat.lt_succ_self _) r hr hpl

/-- The leaves below a child of `x` continue the path label of `x` with the
symbol of the child. -/
theorem below_child {text : List Int} {g : globals} {pl : eptr → List Int} {i : Int}
    (T : Tree text g pl i) (x c : eptr) (sym : Int) (hx : valid g x)
    (hc : (load g x).childs sym = some c) (w : List Int) (h : Below g pl c w) :
    ∃ r, w = pl x ++ (FIRST_SYMBOL + sym) :: r := by
  obtain ⟨y, _, _, _, r, hr⟩ := h
  obtain ⟨hcv, hcr, _, _, hcc⟩ := T.child x sym c hx hc
  obtain ⟨p, hp, h0, h1, hn⟩ := T.lab c hcv hcr
  obtain ⟨hf, hplc⟩ := hcc p hp
  rw [hr, hplc, seg_cons text p _ h0 (by omega) h1, hf]
  exact ⟨seg text (p + 1) ((load g c).len - 1) ++ r, by simp⟩

/-- The leaves below `x`, when `x` has a child, are the leaves below its children. -/
theorem below_iff_child {text : List Int} {g : globals} {pl : eptr → List Int} {i : Int}
    (T : Tree text g pl i) (x : eptr) (hx : valid g x) (hch : has_child (load g x))
    (w : List Int) :
    Below g pl x w ↔ ∃ s : Nat, s < 26 ∧ ∃ c, (load g x).childs s = some c ∧ Below g pl c w := by
  constructor
  · rintro ⟨y, hy, hnc, hply, r, hr⟩
    have hrne : r ≠ [] := by
      intro e
      rw [e, List.append_nil, ← hply] at hr
      have := pl_inj T hy hx hr
      subst this
      obtain ⟨s, c, hc⟩ := hch
      rw [hnc s] at hc
      cases hc
    rw [← hply] at hr
    obtain ⟨sym, ch, hc, r1, hr1⟩ := descend T x y hx hy r hrne hr
    obtain ⟨_, _, s0, s1, _⟩ := T.child x sym ch hx hc
    refine ⟨sym.toNat, by unfold NUM_SYMBOLS at s1; omega, ch, ?_, y, hy, hnc, hply, r1, ?_⟩
    · rw [Int.toNat_of_nonneg s0]
      exact hc
    · rw [← hply]
      exact hr1
  · rintro ⟨s, _, c, hc, y, hy, hnc, hply, r, hr⟩
    obtain ⟨hcv, hcr, _, _, hcc⟩ := T.child x s c hx hc
    obtain ⟨p, hp, _⟩ := T.lab c hcv hcr
    refine ⟨y, hy, hnc, hply, seg text p (load g c).len ++ r, ?_⟩
    rw [hr, (hcc p hp).2, List.append_assoc]

/-- The leaves below an edge without children: the edge itself. -/
theorem below_leaf {text : List Int} {g : globals} {pl : eptr → List Int} {i : Int}
    (T : Tree text g pl i) (x : eptr) (hx : valid g x)
    (hnc : ∀ sym, (load g x).childs sym = none) (w : List Int) :
    Below g pl x w ↔ w = pl x := by
  constructor
  · rintro ⟨y, hy, _, hply, r, hr⟩
    by_cases hrne : r = []
    · rw [hr, hrne, List.append_nil]
    · exfalso
      rw [← hply] at hr
      obtain ⟨sym, ch, hc, _⟩ := descend T x y hx hy r hrne hr
      rw [hnc sym] at hc
      cases hc
  · intro e
    exact ⟨x, hx, hnc, e.symm, [], by rw [e, List.append_nil]⟩

/-- The children loop of `print_all_suffixes_sub`, given what the recursive
calls do. -/
theorem print_children_spec {text : List Int} {g : globals} {pl : eptr → List Int} {i : Int}
    (T : Tree text g pl i) (x : eptr) (hx : valid g x)
    (sub : eptr → Except Err (List (List Int)))
    (hsub : ∀ (s : Nat) c, (load g x).childs s = some c →
      ∃ out1, sub c = .ok out1 ∧ out1.Nodup ∧ ∀ w, w ∈ out1 ↔ Below g pl c w) :
    ∀ n : Nat, ∃ out hv, print_children sub (load g x).childs n = .ok (out, hv) ∧ out.Nodup ∧
      (∀ w, w ∈ out ↔
        ∃ s : Nat, s < n ∧ ∃ c, (load g x).childs s = some c ∧ Below g pl c w) ∧
      (hv = true ↔ ∃ s : Nat, s < n ∧ ∃ c, (load g x).childs s = some c) := by
  intro n
  induction n with
  | zero =>
    refine ⟨[], false, rfl, List.nodup_nil, ?_, ?_⟩
    · intro w
      simp
    · simp
  | succ n ih =>
    obtain ⟨out, hv, h1, h2, h3, h4⟩ := ih
    simp only [print_children, h1, ok_bind]
    cases hc : (load g x).childs (n : Int) with
    | none =>
      refine ⟨out, hv, rfl, h2, ?_, ?_⟩
      · intro w
        rw [h3]
        constructor
        · rintro ⟨s, hs, c, hsc, hb⟩
          exact ⟨s, by omega, c, hsc, hb⟩
        · rintro ⟨s, hs, c, hsc, hb⟩
          have : s ≠ n := by
            intro e
            rw [e, hc] at hsc
            cases hsc
          exact ⟨s, by omega, c, hsc, hb⟩
      · rw [h4]
        constructor
        · rintro ⟨s, hs, c, hsc⟩
          exact ⟨s, by omega, c, hsc⟩
        · rintro ⟨s, hs, c, hsc⟩
          have : s ≠ n := by
            intro e
            rw [e, hc] at hsc
            cases hsc
          exact ⟨s, by omega, c, hsc⟩
    | some c =>
      obtain ⟨out1, hs1, hs2, hs3⟩ := hsub n c hc
      simp only [hs1, ok_bind, pure_eq]
      refine ⟨out ++ out1, true, rfl, ?_, ?_, ?_⟩
      · rw [List.nodup_append]
        refine ⟨h2, hs2, ?_⟩
        intro w hw hw1
        obtain ⟨s, hs, c', hsc, hb⟩ := (h3 w).1 hw
        obtain ⟨r, hr⟩ := below_child T x c' s hx hsc w hb
        obtain ⟨r1, hr1⟩ := below_child T x c n hx hc w ((hs3 w).1 hw1)
        rw [hr] at hr1
        have := (List.cons.inj (List.append_cancel_left hr1)).1
        omega
      · intro w
        rw [List.mem_append, h3, hs3]
        constructor
        · rintro (⟨s, hs, c', hsc, hb⟩ | hb)
          · exact ⟨s, by omega, c', hsc, hb⟩
          · exact ⟨n, by omega, c, hc, hb⟩
        · rintro ⟨s, hs, c', hsc, hb⟩
          by_cases e : s = n
          · subst e
            rw [hc] at hsc
            cases hsc
            exact Or.inr hb
          · exact Or.inl ⟨s, by omega, c', hsc, hb⟩
      · simp only [true_iff]
        exact ⟨n, by omega, c, hc⟩

end Suffixtree

namespace Suffixtree

/-- The label copied by `print_all_suffixes_sub` continues the path label of
the parent to the path label of the edge. -/
theorem copy_label_spec {text : List Int} {g : globals} {pl : eptr → List Int} {i : Int}
    (T : Tree text g pl i) (x : eptr) (hx : valid g x) (buf : List Int)
    (hb : (x = eptr.rootedge ∧ buf = []) ∨
      ∃ q sym, valid g q ∧ (load g q).childs sym = some x ∧ buf = pl q) :
    ∃ lab, copy_label text (load g x) = .ok lab ∧ pl x = buf ++ lab ∧
      0 ≤ (load g x).len ∧ (lab.length : Int) = (load g x).len := by
  rcases hb with ⟨hr, hbuf⟩ | ⟨q, sym, hq, hc, hbuf⟩
  · subst hr
    refine ⟨[], ?_, ?_, ?_, ?_⟩
    · unfold copy_label
      rw [if_pos T.root_len]
      rfl
    · rw [T.root_pl, hbuf]
      rfl
    · rw [T.root_len]
    · rw [T.root_len]
      rfl
  · obtain ⟨_, hxr, _, _, hcc⟩ := T.child q sym x hq hc
    obtain ⟨p, hp, h0, h1, hn⟩ := T.lab x hx hxr
    refine ⟨seg text p (load g x).len, ?_, ?_, by omega, ?_⟩
    · unfold copy_label
      rw [if_neg (by omega), hp]
      simp only []
      rw [if_pos ⟨h0, by omega, hn⟩]
      rfl
    · rw [hbuf]
      exact (hcc p hp).2
    · exact seg_len text p _ h0 (by omega) hn

/-- The traversal below an edge `x`, entered with the path label of the parent
of `x` in the buffer, returns the path labels of the leaves below `x`, each
once. -/
theorem print_sub_spec {text : List Int} {g : globals} {pl : eptr → List Int} {i : Int}
    (T : Tree text g pl i) :
    ∀ (fuel : Nat) (x : eptr) (buf : List Int), valid g x →
      text.length + 1 ≤ fuel + (pl x).length →
      ((x = eptr.rootedge ∧ buf = []) ∨
        ∃ q sym, valid g q ∧ (load g q).childs sym = some x ∧ buf = pl q) →
      ∃ out, print_all_suffixes_sub text g fuel (some x) buf (buf.length : Int) = .ok out ∧
        out.Nodup ∧ ∀ w, w ∈ out ↔ Below g pl x w := by
  intro fuel
  induction fuel with
  | zero =>
    intro x buf hx hf _
    have := pl_length_le T x hx
    omega
  | succ k ih =>
    intro x buf hx hf hb
    obtain ⟨lab, hlab, hpl, hlen0, hlen⟩ := copy_label_spec T x hx buf hb
    have hn := pl_length_le T x hx
    have hlx : (pl x).length = buf.length + lab.length := by
      rw [hpl, List.length_append]
    have hoff : (buf.length : Int) + (load g x).len = ((pl x).length : Int) := by
      rw [hlx]
      push_cast
      omega
    have hbuf1 : List.take (buf.length : Int).toNat buf ++ lab = pl x := by
      rw [Int.toNat_ofNat, List.take_length, hpl]
    simp only [print_all_suffixes_sub, deref, ok_bind, hlab]
    rw [if_neg (by
      rw [not_not]
      exact ⟨by omega, by omega⟩)]
    rw [hbuf1, hoff]
    have hsub : ∀ (s : Nat) c, (load g x).childs s = some c →
        ∃ out1, print_all_suffixes_sub text g k (some c) (pl x) ((pl x).length : Int) = .ok out1 ∧
          out1.Nodup ∧ ∀ w, w ∈ out1 ↔ Below g pl c w := by
      intro s c hc
      obtain ⟨hcv, hcr, _, _, hcc⟩ := T.child x s c hx hc
      obtain ⟨p, hp, h0, h1, hpn⟩ := T.lab c hcv hcr
      have hll := seg_len text p (load g c).len h0 (by omega) hpn
      have hlc : (pl c).length = (pl x).length + (seg text p (load g c).len).length := by
        rw [(hcc p hp).2, List.length_append]
      exact ih c (pl x) hcv (by omega) (Or.inr ⟨x, s, hx, hc, rfl⟩)
    obtain ⟨out, hv, h1, h2, h3, h4⟩ := print_children_spec T x hx
      (fun c => print_all_suffixes_sub text g k (some c) (pl x) ((pl x).length : Int)) hsub 26
    rw [h1]
    simp only [ok_bind]
    cases hv with
    | true =>
      have hch : has_child (load g x) := by
        obtain ⟨s, _, c, hc⟩ := h4.1 rfl
        exact ⟨s, c, hc⟩
      refine ⟨out, rfl, h2, ?_⟩
      intro w
      rw [h3, below_iff_child T x hx hch]
    | false =>
      have hnc : ∀ sym, (load g x).childs sym = none := by
        intro sym
        cases hc : (load g x).childs sym with
        | none => rfl
        | some c =>
          exfalso
          obtain ⟨_, _, s0, s1, _⟩ := T.child x sym c hx hc
          have : false = true := h4.2 ⟨sym.toNat, by unfold NUM_SYMBOLS at s1; omega, c, by
            rw [Int.toNat_of_nonneg s0]
            exact hc⟩
          cases this
      have hout : out = [] := by
        apply List.eq_nil_iff_forall_not_mem.mpr
        intro w hw
        obtain ⟨s, _, c, hc, _⟩ := (h3 w).1 hw
        rw [hnc] at hc
        cases hc
      refine ⟨[pl x], ?_, List.nodup_singleton _, ?_⟩
      · rw [hout, Int.toNat_ofNat, List.take_length]
        rfl
      · intro w
        rw [below_leaf T x hx hnc, List.mem_singleton]

end Suffixtree

namespace Suffixtree

/-! ## Leaves and suffixes in the final state -/

/-- The path label of a leaf edge is a suffix that has been inserted. -/
theorem leaf_label {text : List Int} {g : globals} {pl : eptr → List Int} {i : Int}
    (T : Tree text g pl i) (y : eptr) (hy : valid g y) (hyr : y ≠ eptr.rootedge)
    (hnc : ∀ sym, (load g y).childs sym = none) :
    ∃ m : Nat, (m : Int) < i ∧ pl y = text.drop m := by
  obtain ⟨p, hp, h0, h1, hn⟩ := T.lab y hy hyr
  obtain ⟨o1, o2, o3⟩ := T.occ y p hy hyr hp
  have he := T.leaf_end y p hy hyr hnc hp
  refine ⟨(p + (load g y).len - (pl y).length).toNat, by omega, ?_⟩
  rw [← seg_full text _ o1]
  have e : (text.length : Int) - (p + (load g y).len - (pl y).length) = (pl y).length := by
    omega
  rw [e]
  exact o3

/-- Every inserted suffix is the path label of a leaf edge. -/
theorem suffix_leaf {text : List Int} {g : globals} {pl : eptr → List Int} {i : Int}
    (T : Tree text g pl i) (m : Nat) (hm : (m : Int) < i) :
    ∃ y, valid g y ∧ y ≠ eptr.rootedge ∧ pl y = text.drop m ∧
      ∀ sym, (load g y).childs sym = none := by
  obtain ⟨y, hy, hyr, hpl, hnc⟩ := T.leaf m (by omega) hm
  refine ⟨y, hy, hyr, ?_, hnc⟩
  rw [hpl, seg_full text _ (by omega)]
  rfl

/-- Once a suffix has been inserted the root has a child. -/
theorem root_has_child {text : List Int} {g : globals} {pl : eptr → List Int} {i : Int}
    (T : Tree text g pl i) (hi : 0 < i) : has_child (load g eptr.rootedge) := by
  obtain ⟨y, hy, hyr, _, _⟩ := T.leaf 0 (le_refl _) hi
  have hne : pl y ≠ [] := by
    intro e
    rw [← T.root_pl] at e
    exact hyr (pl_inj T hy (valid_root g) e)
  obtain ⟨sym, ch, hc, _⟩ := descend T eptr.rootedge y (valid_root g) hy (pl y) hne
    (by rw [T.root_pl]; rfl)
  exact ⟨sym, ch, hc⟩

theorem drop_map_nodup (text : List Int) (K : Nat) (hK : K ≤ text.length) :
    ((List.range K).map (fun j => text.drop j)).Nodup := by
  apply List.Nodup.map_on _ (List.nodup_range K)
  intro a ha b hb hab
  rw [List.mem_range] at ha hb
  have := congrArg List.length hab
  simp only [List.length_drop] at this
  omega

/-- The traversal from the root prints the inserted suffixes, each once. -/
theorem final_print {text : List Int} {g : globals} {pl : eptr → List Int} {i : Int}
    (T : Tree text g pl i) (K : Nat) (hK : (K : Int) = i) (h1 : 1 ≤ K) (hKn : K ≤ text.length)
    (fuel : Nat) (hf : text.length + 1 ≤ fuel) :
    ∃ out, print_all_suffixes text g fuel = .ok out ∧
      out.Perm ((List.range K).map (fun j => text.drop j)) := by
  obtain ⟨out, ho, hnd, hmem⟩ := print_sub_spec T fuel eptr.rootedge [] (valid_root g)
    (by omega) (Or.inl ⟨rfl, rfl⟩)
  refine ⟨out, ho, ?_⟩
  rw [List.perm_ext_iff_of_nodup hnd (drop_map_nodup text K hKn)]
  intro w
  rw [hmem, List.mem_map]
  have hroot := root_has_child T (by omega : 0 < i)
  constructor
  · rintro ⟨y, hy, hnc, hply, _⟩
    have hyr : y ≠ eptr.rootedge := by
      intro e
      subst e
      obtain ⟨s, c, hc⟩ := hroot
      rw [hnc s] at hc
      cases hc
    obtain ⟨m, hm, hpm⟩ := leaf_label T y hy hyr hnc
    exact ⟨m, List.mem_range.mpr (by omega), by rw [← hply, hpm]⟩
  · rintro ⟨m, hm, hw⟩
    rw [List.mem_range] at hm
    obtain ⟨y, hy, _, hply, hnc⟩ := suffix_leaf T m (by omega)
    exact ⟨y, hy, hnc, by rw [hply, hw], w, by rw [T.root_pl]; rfl⟩

/-- The allocated edges without children are as many as the inserted suffixes. -/
theorem final_leaf_count {text : List Int} {g : globals} {pl : eptr → List Int} {i : Int}
    (T : Tree text g pl i) (K : Nat) (hK : (K : Int) = i) (hKn : K ≤ text.length) :
    leaf_count g = K := by
  unfold leaf_count
  have hnd : ((List.range g.edges_size).filter (fun j => is_leaf (g.edges j))).Nodup :=
    (List.nodup_range _).filter _
  have hnd1 : (((List.range g.edges_size).filter (fun j => is_leaf (g.edges j))).map
      (fun j => pl (eptr.slot j))).Nodup := by
    apply List.Nodup.map_on _ hnd
    intro a ha b hb hab
    rw [List.mem_filter, List.mem_range] at ha hb
    have := pl_inj T (x := eptr.slot a) (y := eptr.slot b) ha.1 hb.1 hab
    cases this
    rfl
  have hperm : (((List.range g.edges_size).filter (fun j => is_leaf (g.edges j))).map
      (fun j => pl (eptr.slot j))).Perm ((List.range K).map (fun j => text.drop j)) := by
    rw [List.perm_ext_iff_of_nodup hnd1 (drop_map_nodup text K hKn)]
    intro w
    rw [List.mem_map, List.mem_map]
    constructor
    · rintro ⟨j, hj, hw⟩
      rw [List.mem_filter, List.mem_range] at hj
      have hv : valid g (eptr.slot j) := hj.1
      have hnc := (is_leaf_iff T (eptr.slot j) hv).1 hj.2
      obtain ⟨m, hm, hpm⟩ := leaf_label T (eptr.slot j) hv (by intro e; cases e) hnc
      exact ⟨m, List.mem_range.mpr (by omega), by rw [← hw, hpm]⟩
    · rintro ⟨m, hm, hw⟩
      rw [List.mem_range] at hm
      obtain ⟨y, hy, hyr, hply, hnc⟩ := suffix_leaf T m (by omega)
      cases y with
      | rootedge => exact absurd rfl hyr
      | slot j =>
        refine ⟨j, ?_, by rw [hply, hw]⟩
        rw [List.mem_filter, List.mem_range]
        exact ⟨hy, (is_leaf_iff T (eptr.slot j) hy).2 hnc⟩
  have := hperm.length_eq
  rw [List.length_map, List.length_map, List.length_range] at this
  exact this

/-- The index at which the construction ends is the first suffix that is an
initial part of an earlier suffix. -/
theorem final_index {text : List Int} {g : globals} {pl : eptr → List Int} {v : eptr}
    {k : Int} (F : FinalInv text g pl v k) (hne : text ≠ []) :
    ∃ K : Nat, (K : Int) = k ∧ 1 ≤ K ∧ K ≤ text.length ∧
      (∃ j, j < K ∧ text.drop K <+: text.drop j) ∧
      ∀ m, m < K → ¬ ∃ j, j < m ∧ text.drop m <+: text.drop j := by
  have hn : 1 ≤ text.length := List.length_pos.mpr hne
  have hk0 := F.suf0
  have hkn := F.sufn
  have h1 : 1 ≤ k := by
    by_contra hlt
    have hk : k = 0 := by omega
    have hsz := F.size0 hk
    obtain ⟨v1, off, hs⟩ := F.rest
    cases v1 with
    | rootedge =>
      have := hs.root.1
      rw [hk] at this
      exact seg_ne_nil text 0 _ (le_refl _) (by omega) (by omega) this
    | slot j =>
      have hv : j < g.edges_size := hs.is_valid
      omega
  refine ⟨k.toNat, by omega, by omega, by omega, ?_, ?_⟩
  · by_cases hkn1 : k = text.length
    · refine ⟨0, by omega, ?_⟩
      have : k.toNat = text.length := by omega
      rw [this, List.drop_length]
      exact List.nil_prefix
    · have hne1 : seg text k (text.length - k) ≠ [] :=
        seg_ne_nil text k _ hk0 (by omega) (by omega)
      obtain ⟨m, r, m0, mk, _, hm⟩ := in_tree_occurs F.tree _ hne1 F.rest
      refine ⟨m.toNat, by omega, r, ?_⟩
      rw [seg_full text m m0, seg_full text k hk0] at hm
      exact hm.symm
  · rintro m hm ⟨j, hj, r, hr⟩
    apply F.early m j (by omega) (by omega) (by omega)
    refine ⟨r, ?_⟩
    rw [seg_full text _ (by omega), seg_full text _ (by omega)]
    simp only [Int.toNat_ofNat]
    exact hr.symm

/-- The least index with a property is unique. -/
theorem least_unique (P : Nat → Prop) (a b : Nat) (ha : P a) (hb : P b)
    (hma : ∀ m, m < a → ¬ P m) (hmb : ∀ m, m < b → ¬ P m) : a = b := by
  rcases lt_trichotomy a b with h | h | h
  · exact absurd ha (hmb a h)
  · exact h
  · exact absurd hb (hma b h)

/-- When the last character of the text occurs nowhere else, no non-empty
suffix is an initial part of an earlier suffix. -/
theorem unique_last {text : List Int} (hne : text ≠ [])
    (hlast : ∀ j, j < text.length - 1 → text.getD j 0 ≠ text.getD (text.length - 1) 0) :
    (∃ j, j < text.length ∧ text.drop text.length <+: text.drop j) ∧
      ∀ m, m < text.length → ¬ ∃ j, j < m ∧ text.drop m <+: text.drop j := by
  have hn : 1 ≤ text.length := List.length_pos.mpr hne
  constructor
  · refine ⟨0, by omega, ?_⟩
    rw [List.drop_length]
    exact List.nil_prefix
  · rintro m hm ⟨j, hj, r, hr⟩
    apply hlast (j + (text.length - 1 - m)) (by omega)
    have e1 : (text.drop m ++ r)[text.length - 1 - m]? = (text.drop m)[text.length - 1 - m]? :=
      List.getElem?_append_left (by rw [List.length_drop]; omega)
    rw [hr, List.getElem?_drop, List.getElem?_drop] at e1
    rw [List.getD_eq_getElem?_getD, List.getD_eq_getElem?_getD, e1]
    congr 2
    omega

end Suffixtree

namespace Suffixtree

/-- C8 (leaf policy without a terminator). For every line whose stripped text
`s` is non-empty and has only characters in 'a'..'z', let `k` be the least
index such that the suffix of `s` from `k` is an initial part of the suffix
from some `j < k`. Then `k` is at most the length of `s`, the construction
(with fuel for one more call of `state_transition` than `s` has characters,
`realloc` having returned the edge store) ends normally, and in the state in
which it ends the allocated edges without
children are exactly `k` in number and `print_all_suffixes` returns, up to
order, the suffixes of `s` from the indices `0, ..., k - 1`, each once. -/
theorem leaf_policy (fuel : Nat) (garbage : Nat → edge) (g : globals) (line : List Int)
    (hl : lowercase (strip_eol line)) (hne : strip_eol line ≠ [])
    (hf : (strip_eol line).length + 1 ≤ fuel)
    (k : Nat) (hk : ∃ j, j < k ∧ (strip_eol line).drop k <+: (strip_eol line).drop j)
    (hmin : ∀ m, m < k → ¬ ∃ j, j < m ∧ (strip_eol line).drop m <+: (strip_eol line).drop j)
    (pfuel : Nat) (hpf : (strip_eol line).length + 1 ≤ pfuel) :
    k ≤ (strip_eol line).length ∧
      ∃ g1, construct_suffixtree fuel (some garbage) g line = Except.ok g1 ∧ leaf_count g1 = k ∧
        ∃ out, print_all_suffixes (strip_eol line) g1 pfuel = Except.ok out ∧
          out.Perm ((List.range k).map (fun j => (strip_eol line).drop j)) := by
  obtain ⟨g1, h, _⟩ := (construct_spec fuel garbage g line hf).of_lowercase hl
  obtain ⟨pl, v, i, F⟩ := final_of_construct h
  obtain ⟨K, hK, h1, hKn, hP, hmin1⟩ := final_index F hne
  have e : k = K := least_unique
    (fun m => ∃ j, j < m ∧ (strip_eol line).drop m <+: (strip_eol line).drop j)
    k K hk hP hmin hmin1
  subst e
  exact ⟨hKn, g1, h, final_leaf_count F.tree k hK hKn, final_print F.tree k hK h1 hKn pfuel hpf⟩

theorem leaf_policy_witness :
    lowercase (strip_eol [97, 97, 97]) ∧ strip_eol [97, 97, 97] ≠ [] ∧
      (strip_eol [97, 97, 97]).length + 1 ≤ 4 ∧
      (∃ j, j < 1 ∧ (strip_eol [97, 97, 97]).drop 1 <+: (strip_eol [97, 97, 97]).drop j) ∧
      (∀ m, m < 1 → ¬ ∃ j, j < m ∧
        (strip_eol [97, 97, 97]).drop m <+: (strip_eol [97, 97, 97]).drop j) ∧
      (strip_eol [97, 97, 97]).length + 1 ≤ 4 ∧
      1 ≤ (strip_eol [97, 97, 97]).length ∧
      ∃ g1, construct_suffixtree 4 (some (fun _ => zero_edge)) blank [97, 97, 97] = Except.ok g1 ∧
        leaf_count g1 = 1 ∧
        ∃ out, print_all_suffixes (strip_eol [97, 97, 97]) g1 4 = Except.ok out ∧
          out.Perm ((List.range 1).map (fun j => (strip_eol [97, 97, 97]).drop j)) :=
  ⟨by unfold lowercase; decide, by decide, by decide,
    ⟨0, by decide, [97], by decide⟩,
    fun m hm hj => by obtain ⟨j, hj, _⟩ := hj; omega,
    by decide,
    leaf_policy 4 (fun _ => zero_edge) blank [97, 97, 97]
      (by unfold lowercase; decide) (by decide) (by decide) 1
      ⟨0, by decide, [97], by decide⟩
      (fun m hm hj => by obtain ⟨j, hj, _⟩ := hj; omega) 4 (by decide)⟩

/-- C2, the claim as written fails on its own witness: on the text "abab$" the
construction does not end normally, it stops in the assertion of
`get_symbol`, because '$' is not one of the 26 symbols. -/
theorem abab_dollar_stops :
    construct_suffixtree 6 (some (fun _ => zero_edge)) blank [97, 98, 97, 98, 36]
      = Except.error Err.symbol := by
  rfl

/-- C2 (suffix-leaf correspondence), amended. For every line whose stripped
text is non-empty, has only characters in 'a'..'z' and has a last character
that occurs nowhere else in it, `construct_suffixtree` (with fuel for one
more call of `state_transition` than the text has characters, `realloc`
having returned the edge store) ends normally,
and in the state in which it ends the allocated edges without children are
exactly as many as the text has characters, and `print_all_suffixes` returns, up to order, the non-empty
suffixes of the text, each once. On "ababz" these are "ababz", "babz", "abz",
"bz" and "z". -/
theorem suffix_leaf_correspondence (fuel : Nat) (garbage : Nat → edge) (g : globals)
    (line : List Int) (hl : lowercase (strip_eol line)) (hne : strip_eol line ≠ [])
    (hf : (strip_eol line).length + 1 ≤ fuel)
    (hlast : ∀ j, j < (strip_eol line).length - 1 →
      (strip_eol line).getD j 0 ≠ (strip_eol line).getD ((strip_eol line).length - 1) 0)
    (pfuel : Nat) (hpf : (strip_eol line).length + 1 ≤ pfuel) :
    ∃ g1, construct_suffixtree fuel (some garbage) g line = Except.ok g1 ∧
      leaf_count g1 = (strip_eol line).length ∧
      ∃ out, print_all_suffixes (strip_eol line) g1 pfuel = Except.ok out ∧
        out.Perm ((List.range (strip_eol line).length).map (fun j => (strip_eol line).drop j)) := by
  obtain ⟨g1, h, _⟩ := (construct_spec fuel garbage g line hf).of_lowercase hl
  obtain ⟨pl, v, i, F⟩ := final_of_construct h
  obtain ⟨K, hK, h1, hKn, hP, hmin1⟩ := final_index F hne
  obtain ⟨hQ, hmin⟩ := unique_last hne hlast
  have e : (strip_eol line).length = K := least_unique
    (fun m => ∃ j, j < m ∧ (strip_eol line).drop m <+: (strip_eol line).drop j)
    _ K hQ hP hmin hmin1
  rw [e] at hpf ⊢
  rw [← e] at hpf
  exact ⟨g1, h, final_leaf_count F.tree K hK hKn, final_print F.tree K hK h1 hKn pfuel hpf⟩

theorem suffix_leaf_correspondence_witness :
    lowercase (strip_eol [97, 98, 97, 98, 122]) ∧ strip_eol [97, 98, 97, 98, 122] ≠ [] ∧
      (strip_eol [97, 98, 97, 98, 122]).length + 1 ≤ 6 ∧
      (∀ j, j < (strip_eol [97, 98, 97, 98, 122]).length - 1 →
        (strip_eol [97, 98, 97, 98, 122]).getD j 0 ≠
          (strip_eol [97, 98, 97, 98, 122]).getD ((strip_eol [97, 98, 97, 98, 122]).length - 1) 0) ∧
      (strip_eol [97, 98, 97, 98, 122]).length + 1 ≤ 6 ∧
      ∃ g1, construct_suffixtree 6 (some (fun _ => zero_edge)) blank [97, 98, 97, 98, 122]
          = Except.ok g1 ∧
        leaf_count g1 = (strip_eol [97, 98, 97, 98, 122]).length ∧
        ∃ out, print_all_suffixes (strip_eol [97, 98, 97, 98, 122]) g1 6 = Except.ok out ∧
          out.Perm ((List.range (strip_eol [97, 98, 97, 98, 122]).length).map
            (fun j => (strip_eol [97, 98, 97, 98, 122]).drop j)) :=
  ⟨by unfold lowercase; decide, by decide, by decide, by decide, by decide,
    suffix_leaf_correspondence 6 (fun _ => zero_edge) blank
      [97, 98, 97, 98, 122] (by unfold lowercase; decide) (by decide) (by decide) (by decide)
      6 (by decide)⟩

end Suffixtree

namespace Suffixtree

/-! ## Independence of the contents of unallocated store -/

theorem map_ok {α β : Type} (f : α → β) (a : α) :
    Except.map f (Except.ok a : Except Err α) = Except.ok (f a) := rfl

theorem map_error {α β : Type} (f : α → β) (e : Err) :
    Except.map f (Except.error e : Except Err α) = Except.error e := rfl

theorem regarb_st (g : globals) (h : Nat → edge) : (regarb g h).st = g.st := rfl

theorem regarb_size (g : globals) (h : Nat → edge) : (regarb g h).edges_size = g.edges_size := rfl

theorem regarb_capacity (g : globals) (h : Nat → edge) :
    (regarb g h).edges_capacity = g.edges_capacity := rfl

theorem load_regarb (g : globals) (h : Nat → edge) (x : eptr) (hx : valid g x) :
    load (regarb g h) x = load g x := by
  cases x with
  | rootedge => rfl
  | slot j =>
    have : j < g.edges_size := hx
    simp [load, regarb, this]

theorem store_regarb (g : globals) (h : Nat → edge) (p : eptr) (e : edge) (hp : valid g p) :
    store (regarb g h) p e = regarb (store g p e) h := by
  cases p with
  | rootedge => rfl
  | slot i =>
    have hi : i < g.edges_size := hp
    simp only [store, regarb]
    congr 1
    funext j
    by_cases hj : j = i
    · subst hj
      simp [hi]
    · simp [hj]

theorem setst_regarb (g : globals) (h : Nat → edge) (s : state) :
    { regarb g h with st := s } = regarb { g with st := s } h := rfl

theorem agree_regarb (g : globals) (h : Nat → edge) : agree g (regarb g h) := by
  refine ⟨rfl, rfl, rfl, rfl, ?_⟩
  intro j hj
  simp [regarb, hj]

theorem agree.eq_regarb {g g1 : globals} (a : agree g g1) : g1 = regarb g g1.edges := by
  obtain ⟨a1, a2, a3, a4, a5⟩ := a
  cases g with
  | mk st r ed n c =>
    cases g1 with
    | mk st1 r1 ed1 n1 c1 =>
      simp only at a1 a2 a3 a4 a5
      subst a1 a2 a3 a4
      simp only [regarb]
      congr 1
      funext j
      by_cases hj : j < n1
      · simp [hj, a5 j hj]
      · simp [hj]

theorem agree.trans_a {g g1 g2 : globals} (a : agree g g1) (b : agree g1 g2) : agree g g2 := by
  obtain ⟨a1, a2, a3, a4, a5⟩ := a
  obtain ⟨b1, b2, b3, b4, b5⟩ := b
  refine ⟨b1.trans a1, b2.trans a2, b3.trans a3, b4.trans a4, ?_⟩
  intro j hj
  rw [b5 j (by omega), a5 j hj]

theorem agree.symm_a {g g1 : globals} (a : agree g g1) : agree g1 g := by
  obtain ⟨a1, a2, a3, a4, a5⟩ := a
  refine ⟨a1.symm, a2.symm, a3.symm, a4.symm, ?_⟩
  intro j hj
  rw [a5 j (by omega)]

theorem okp_none (g : globals) : okp g none := by
  intro x hx
  cases hx

theorem okp_some (g : globals) (x : eptr) : okp g (some x) ↔ valid g x := by
  constructor
  · intro h
    exact h x rfl
  · intro h y hy
    cases hy
    exact h

theorem valid_mono {g g1 : globals} (h : g.edges_size ≤ g1.edges_size) (x : eptr)
    (hx : valid g x) : valid g1 x := by
  cases x with
  | rootedge => trivial
  | slot j =>
    have : j < g.edges_size := hx
    show j < g1.edges_size
    omega

theorem okp_mono {g g1 : globals} (h : g.edges_size ≤ g1.edges_size) (o : Option eptr)
    (ho : okp g o) : okp g1 o :=
  fun x hx => valid_mono h x (ho x hx)

theorem edge_ok_mono {g g1 : globals} (h : g.edges_size ≤ g1.edges_size) (e : edge)
    (he : edge_ok g e) : edge_ok g1 e :=
  ⟨okp_mono h _ he.1, fun sym => okp_mono h _ (he.2 sym)⟩

theorem edge_ok_zero (g : globals) : edge_ok g zero_edge :=
  ⟨okp_none g, fun _ => okp_none g⟩

theorem closed_setst (g : globals) (s : state) (hc : closed g) (he : okp g s.edge)
    (hp : okp g s.parent) : closed { g with st := s } := by
  refine ⟨he, hp, ?_⟩
  intro x hx
  rw [load_setst]
  exact hc.2.2 x hx

theorem closed_store (g : globals) (p : eptr) (e : edge) (hc : closed g) (he : edge_ok g e) :
    closed (store g p e) := by
  have hs : g.edges_size ≤ (store g p e).edges_size := by rw [store_size]
  refine ⟨?_, ?_, ?_⟩
  · rw [store_st]
    exact okp_mono hs _ hc.1
  · rw [store_st]
    exact okp_mono hs _ hc.2.1
  · intro x hx
    have hx1 : valid g x := (valid_congr g _ (store_size g p e) x).1 hx
    rw [load_store]
    by_cases hxp : x = p
    · rw [if_pos hxp]
      exact edge_ok_mono hs _ he
    · rw [if_neg hxp]
      exact edge_ok_mono hs _ (hc.2.2 x hx1)

/-- What `allocate_edge` does. -/
theorem allocate_edge_garb (g : globals) (h : Nat → edge) (hc : closed g) :
    allocate_edge (regarb g h) = (allocate_edge g).map (fun r => (r.1, regarb r.2 h)) ∧
      ∀ x, allocate_edge g = .ok x → closed x.2 ∧ x.2.edges_size = g.edges_size + 1 ∧
        x.1 = eptr.slot g.edges_size ∧ x.2.st = g.st ∧ edge_ok x.2 (load x.2 x.1) ∧
        ∀ y, valid g y → load x.2 y = load g y := by
  unfold allocate_edge
  by_cases hcap : g.edges_size < g.edges_capacity
  · rw [if_pos hcap, if_pos (by exact hcap)]
    constructor
    · rw [map_ok]
      simp only [regarb]
      congr 3
      funext j
      by_cases hj : j = g.edges_size
      · simp [hj]
      · by_cases hj1 : j < g.edges_size
        · simp [hj, hj1, Nat.lt_succ_of_lt hj1]
        · have : ¬ j < g.edges_size + 1 := by omega
          simp [hj, hj1, this]
    · intro x hx
      cases hx
      have hload : ∀ y, load { g with
          edges := fun j => if j = g.edges_size then zero_edge else g.edges j,
          edges_size := g.edges_size + 1 } y
          = if y = eptr.slot g.edges_size then zero_edge else load g y := load_alloc g zero_edge
      refine ⟨⟨?_, ?_, ?_⟩, rfl, rfl, rfl, ?_, ?_⟩
      · exact @okp_mono g _ (Nat.le_succ _) _ hc.1
      · exact @okp_mono g _ (Nat.le_succ _) _ hc.2.1
      · intro y hy
        rw [hload]
        by_cases hyn : y = eptr.slot g.edges_size
        · rw [if_pos hyn]
          exact edge_ok_zero _
        · rw [if_neg hyn]
          have hy1 : valid g y := by
            cases y with
            | rootedge => trivial
            | slot j =>
              have h1 : j < g.edges_size + 1 := hy
              have h2 : j ≠ g.edges_size := fun e => hyn (by rw [e])
              show j < g.edges_size
              omega
          exact edge_ok_mono (Nat.le_succ _) _ (hc.2.2 y hy1)
      · simp only []
        rw [hload, if_pos rfl]
        exact edge_ok_zero _
      · intro y hy
        simp only []
        rw [hload, if_neg]
        intro e
        subst e
        have : g.edges_size < g.edges_size := hy
        omega
  · rw [if_neg hcap, if_neg (by exact hcap)]
    refine ⟨rfl, ?_⟩
    intro x hx
    cases hx

/-- What `go_to_node` does, on a pointer that is NULL or allocated. -/
theorem go_to_node_garb (g : globals) (h : Nat → edge) (e : Option eptr) (hc : closed g)
    (he : okp g e) :
    go_to_node (regarb g h) e = (go_to_node g e).map (fun r => regarb r h) ∧
      ∀ x, go_to_node g e = .ok x → closed x ∧ x.edges_size = g.edges_size := by
  cases e with
  | none =>
    refine ⟨rfl, ?_⟩
    intro x hx
    cases hx
  | some p =>
    have hv : valid g p := he p rfl
    constructor
    · simp only [go_to_node, deref, load_regarb g h p hv, map_ok]
      rfl
    · intro x hx
      simp only [go_to_node, deref] at hx
      cases hx
      exact ⟨closed_setst g _ hc he (okp_none g), rfl⟩

/-- What the comparing half of `charstep` does. -/
theorem charstep_compare_garb (text : List Int) (c : Int) (g : globals) (h : Nat → edge)
    (hc : closed g) :
    charstep_compare text c (regarb g h)
        = (charstep_compare text c g).map (fun r => (r.1, regarb r.2 h)) ∧
      ∀ x, charstep_compare text c g = .ok x → closed x.2 ∧ x.2.edges_size = g.edges_size := by
  unfold charstep_compare
  rw [regarb_st]
  cases he : g.st.edge with
  | none =>
    refine ⟨rfl, ?_⟩
    intro x hx
    cases hx
  | some p =>
    have hv : valid g p := hc.1 p he
    simp only [deref, ok_bind, load_regarb g h p hv]
    cases hr : read text (load g p).label g.st.offset with
    | error e =>
      refine ⟨rfl, ?_⟩
      intro x hx
      cases hx
    | ok x =>
      simp only [ok_bind]
      by_cases hx : x ≠ c
      · rw [if_pos hx, if_pos hx]
        refine ⟨rfl, ?_⟩
        intro y hy
        cases hy
        exact ⟨hc, rfl⟩
      · rw [if_neg hx, if_neg hx]
        refine ⟨rfl, ?_⟩
        intro y hy
        cases hy
        refine ⟨closed_setst g _ hc ?_ hc.2.1, rfl⟩
        exact hc.1

end Suffixtree

namespace Suffixtree

/-- What `charstep` does. -/
theorem charstep_garb (text : List Int) (c : Int) (g : globals) (h : Nat → edge)
    (hc : closed g) :
    charstep text c (regarb g h) = (charstep text c g).map (fun r => (r.1, regarb r.2 h)) ∧
      ∀ x, charstep text c g = .ok x → closed x.2 ∧ x.2.edges_size = g.edges_size := by
  unfold charstep
  rw [regarb_st]
  cases he : g.st.edge with
  | none =>
    refine ⟨rfl, ?_⟩
    intro x hx
    cases hx
  | some p =>
    have hv : valid g p := hc.1 p he
    simp only [deref, ok_bind, load_regarb g h p hv]
    by_cases hoff : g.st.offset ≥ (load g p).len
    · rw [if_pos hoff, if_pos hoff]
      cases hs : get_symbol c with
      | error e =>
        refine ⟨rfl, ?_⟩
        intro x hx
        cases hx
      | ok sym =>
        simp only [ok_bind]
        cases hch : (load g p).childs sym with
        | none =>
          refine ⟨rfl, ?_⟩
          intro x hx
          cases hx
          exact ⟨hc, rfl⟩
        | some ch =>
          have hvch : valid g ch := (hc.2.2 p hv).2 sym ch hch
          have hc1 : closed { g with
              st := { g.st with parent := some p, edge := some ch, offset := 0 } } :=
            closed_setst g _ hc ((okp_some g ch).2 hvch) ((okp_some g p).2 hv)
          simp only [load_setst, load_regarb g h ch hvch]
          cases hr : read text (load g ch).label 0 with
          | error e =>
            refine ⟨rfl, ?_⟩
            intro x hx
            cases hx
          | ok x =>
            simp only [ok_bind]
            by_cases hx : x ≠ c
            · rw [if_pos hx, if_pos hx]
              refine ⟨rfl, ?_⟩
              intro y hy
              cases hy
            · rw [if_neg hx, if_neg hx]
              exact charstep_compare_garb text c _ h hc1
    · rw [if_neg hoff, if_neg hoff]
      exact charstep_compare_garb text c g h hc

/-- What the loop of `consume_string` and `consume_whole_string` does. -/
theorem consume_loop_garb (text : List Int) (stop : Int) (h : Nat → edge) :
    ∀ (k : Nat) (s : Int) (g : globals), closed g →
      consume_loop text stop k s (regarb g h)
          = (consume_loop text stop k s g).map (fun r => (r.1, regarb r.2 h)) ∧
        ∀ x, consume_loop text stop k s g = .ok x →
          closed x.2 ∧ x.2.edges_size = g.edges_size := by
  intro k
  induction k with
  | zero =>
    intro s g hc
    unfold consume_loop
    by_cases hs : s < stop
    · rw [if_pos hs, if_pos hs]
      refine ⟨rfl, ?_⟩
      intro x hx
      cases hx
    · rw [if_neg hs, if_neg hs]
      refine ⟨rfl, ?_⟩
      intro x hx
      cases hx
      exact ⟨hc, rfl⟩
  | succ k ih =>
    intro s g hc
    unfold consume_loop
    by_cases hs : s < stop
    · rw [if_pos hs, if_pos hs]
      cases hr : read text (some s) 0 with
      | error e =>
        refine ⟨rfl, ?_⟩
        intro x hx
        cases hx
      | ok c =>
        simp only [ok_bind]
        obtain ⟨e1, e2⟩ := charstep_garb text c g h hc
        rw [e1]
        cases hcs : charstep text c g with
        | error e =>
          refine ⟨rfl, ?_⟩
          intro x hx
          cases hx
        | ok r =>
          obtain ⟨b, g1⟩ := r
          obtain ⟨hc1, hs1⟩ := e2 _ hcs
          simp only [map_ok, ok_bind]
          cases b with
          | true =>
            simp only [if_true]
            obtain ⟨i1, i2⟩ := ih (s + 1) g1 hc1
            refine ⟨i1, ?_⟩
            intro x hx
            obtain ⟨a1, a2⟩ := i2 x hx
            exact ⟨a1, a2.trans hs1⟩
          | false =>
            simp only [Bool.false_eq_true, if_false]
            refine ⟨rfl, ?_⟩
            intro x hx
            cases hx
            exact ⟨hc1, hs1⟩
    · rw [if_neg hs, if_neg hs]
      refine ⟨rfl, ?_⟩
      intro x hx
      cases hx
      exact ⟨hc, rfl⟩

/-- What `consume_string` does. -/
theorem consume_string_garb (text : List Int) (s : Int) (g : globals) (h : Nat → edge)
    (hc : closed g) :
    consume_string text s (regarb g h)
        = (consume_string text s g).map (fun r => (r.1, regarb r.2 h)) ∧
      ∀ x, consume_string text s g = .ok x → closed x.2 ∧ x.2.edges_size = g.edges_size :=
  consume_loop_garb text _ h _ s g hc

/-- What `consume_whole_string` does. -/
theorem consume_whole_string_garb (text : List Int) (s stop : Int) (g : globals)
    (h : Nat → edge) (hc : closed g) :
    consume_whole_string text s stop (regarb g h)
        = (consume_whole_string text s stop g).map (fun r => regarb r h) ∧
      ∀ x, consume_whole_string text s stop g = .ok x →
        closed x ∧ x.edges_size = g.edges_size := by
  unfold consume_whole_string
  obtain ⟨e1, e2⟩ := consume_loop_garb text stop h (stop - s).toNat s g hc
  rw [e1]
  cases hr : consume_loop text stop (stop - s).toNat s g with
  | error e =>
    refine ⟨rfl, ?_⟩
    intro x hx
    cases hx
  | ok r =>
    obtain ⟨s1, g1⟩ := r
    obtain ⟨hc1, hs1⟩ := e2 _ hr
    simp only [map_ok, ok_bind]
    by_cases hs : s1 = stop
    · rw [if_pos hs, if_pos hs]
      refine ⟨rfl, ?_⟩
      intro x hx
      cases hx
      exact ⟨hc1, hs1⟩
    · rw [if_neg hs, if_neg hs]
      refine ⟨rfl, ?_⟩
      intro x hx
      cases hx

end Suffixtree

namespace Suffixtree

theorem valid_store (g : globals) (p : eptr) (e : edge) (x : eptr) :
    valid (store g p e) x ↔ valid g x :=
  valid_congr g _ (store_size g p e) x

theorem valid_setst (g : globals) (s : state) (x : eptr) :
    valid { g with st := s } x ↔ valid g x :=
  valid_congr g _ rfl x

/-- Writing `label` and `len` of an allocated record keeps the store closed. -/
theorem closed_store_fields (g : globals) (p : eptr) (hc : closed g) (hp : valid g p)
    (l : Option Int) (n : Int) :
    closed (store g p
      { label := l, len := n, link := (load g p).link, childs := (load g p).childs }) :=
  closed_store g p _ hc (hc.2.2 p hp)

/-- Writing an allocated pointer into `childs` keeps the store closed. -/
theorem closed_store_child (g : globals) (p : eptr) (hc : closed g) (hp : valid g p)
    (sym : Int) (c : eptr) (hv : valid g c) :
    closed (store g p
      { label := (load g p).label, len := (load g p).len, link := (load g p).link,
        childs := fun j => if j = sym then some c else (load g p).childs j }) := by
  apply closed_store g p _ hc
  refine ⟨(hc.2.2 p hp).1, ?_⟩
  intro j
  show okp g (if j = sym then some c else (load g p).childs j)
  by_cases hj : j = sym
  · rw [if_pos hj]
    exact (okp_some g c).2 hv
  · rw [if_neg hj]
    exact (hc.2.2 p hp).2 j

/-- Writing the cursor's edge into `link` keeps the store closed. -/
theorem closed_store_link (g : globals) (p : eptr) (hc : closed g) (hp : valid g p)
    (o : Option eptr) (ho : okp g o) :
    closed (store g p
      { label := (load g p).label, len := (load g p).len, link := o,
        childs := (load g p).childs }) :=
  closed_store g p _ hc ⟨ho, (hc.2.2 p hp).2⟩

/-- What `insert_tail` does. -/
theorem insert_tail_garb (text : List Int) (g : globals) (h : Nat → edge) (hc : closed g) :
    insert_tail text (regarb g h) = (insert_tail text g).map (fun r => regarb r h) ∧
      ∀ x, insert_tail text g = .ok x → closed x ∧ g.edges_size ≤ x.edges_size := by
  unfold insert_tail
  obtain ⟨e1, e2⟩ := allocate_edge_garb g h hc
  rw [e1]
  cases ha : allocate_edge g with
  | error e =>
    refine ⟨rfl, ?_⟩
    intro x hx
    cases hx
  | ok r =>
    obtain ⟨child, g1⟩ := r
    obtain ⟨hc1, hs1, hch, hst1, hz, hl1⟩ := e2 _ ha
    simp only at hc1 hs1 hch hst1 hz hl1
    have hv1 : valid g1 child := by
      rw [hch]
      show g.edges_size < g1.edges_size
      omega
    simp only [map_ok, ok_bind, regarb_st, store_st, load_regarb, store_regarb, valid_store, hv1]
    cases hr : read text (some g1.st.tail) 0 with
    | error e =>
      refine ⟨rfl, ?_⟩
      intro x hx
      cases hx
    | ok c =>
      simp only [ok_bind]
      cases hs : get_symbol c with
      | error e =>
        refine ⟨rfl, ?_⟩
        intro x hx
        cases hx
      | ok sym =>
        simp only [ok_bind]
        cases he : g1.st.edge with
        | none =>
          refine ⟨rfl, ?_⟩
          intro x hx
          cases hx
        | some p =>
          have hvp : valid g1 p := hc1.1 p he
          simp only [load_regarb, store_regarb, valid_store, hvp]
          split_ifs with hA hB
          · refine ⟨rfl, ?_⟩
            intro x hx
            cases hx
          · refine ⟨rfl, ?_⟩
            intro x hx
            cases hx
          · refine ⟨rfl, ?_⟩
            intro x hx
            cases hx
            refine ⟨?_, ?_⟩
            · exact closed_store_child _ p
                (closed_store_fields _ child (closed_store_fields g1 child hc1 hv1 _ _)
                  ((valid_store _ _ _ _).2 hv1) _ _)
                ((valid_store _ _ _ _).2 ((valid_store _ _ _ _).2 hvp)) sym child
                ((valid_store _ _ _ _).2 ((valid_store _ _ _ _).2 hv1))
            · simp only [store_size]
              omega

end Suffixtree

namespace Suffixtree

/-- A computation that does not depend on the state can be run first on both
sides. -/
theorem garb_bind {α β : Type} (r : Except Err α) (k k1 : α → Except Err β) (L : β → β)
    (P : β → Prop)
    (hk : ∀ a, r = Except.ok a → k1 a = (k a).map L ∧ ∀ x, k a = Except.ok x → P x) :
    (r >>= k1) = (r >>= k).map L ∧ ∀ x, (r >>= k) = Except.ok x → P x := by
  cases r with
  | error e =>
    refine ⟨rfl, ?_⟩
    intro x hx
    cases hx
  | ok a => exact hk a rfl

theorem valid_store_of {g : globals} {p : eptr} {e : edge} {x : eptr} (h : valid g x) :
    valid (store g p e) x :=
  (valid_store g p e x).2 h

/-- What `split_if_not_at_node` does. -/
theorem split_garb (text : List Int) (g : globals) (h : Nat → edge) (hc : closed g) :
    split_if_not_at_node text (regarb g h)
        = (split_if_not_at_node text g).map (fun r => regarb r h) ∧
      ∀ x, split_if_not_at_node text g = .ok x → closed x ∧ g.edges_size ≤ x.edges_size := by
  unfold split_if_not_at_node
  rw [regarb_st]
  cases he : g.st.edge with
  | none =>
    refine ⟨rfl, ?_⟩
    intro x hx
    cases hx
  | some b =>
    have hvb : valid g b := hc.1 b he
    dsimp -zeta only
    rw [load_regarb g h b hvb]
    by_cases hA : 0 ≤ g.st.offset ∧ g.st.offset ≤ (load g b).len
    · rw [if_neg (not_not.mpr hA), if_neg (not_not.mpr hA)]
      by_cases hB : g.st.offset ≥ (load g b).len
      · rw [if_pos hB, if_pos hB]
        refine ⟨rfl, ?_⟩
        intro x hx
        cases hx
        exact ⟨hc, le_refl _⟩
      · rw [if_neg hB, if_neg hB]
        obtain ⟨e1, e2⟩ := allocate_edge_garb g h hc
        rw [e1]
        cases ha : allocate_edge g with
        | error e =>
          refine ⟨rfl, ?_⟩
          intro x hx
          cases hx
        | ok r =>
          obtain ⟨top, g1⟩ := r
          obtain ⟨hc1, hs1, hch, hst1, hz, hl1⟩ := e2 _ ha
          clear e1 e2 hz hl1
          simp only at hc1 hs1 hch hst1
          have hle : g.edges_size ≤ g1.edges_size := by omega
          have hvt : valid g1 top := by
            rw [hch]
            show g.edges_size < g1.edges_size
            omega
          have hvb1 : valid g1 b := valid_mono hle b hvb
          rw [map_ok, ok_bind, ok_bind]
          dsimp -zeta only
          lift_lets
          extract_lets sA A2 eA2 A3 eA3 A4 eA4 A5 eA5 A6 eA6 sB B2 eB2 B3 eB3 B4 eB4 B5 eB5 B6 eB6
          have hc2 : closed B2 := closed_setst g1 _ hc1 ((okp_some g1 top).2 hvt) hc1.2.1
          have hs2 : B2.edges_size = g1.edges_size := rfl
          have hp2 : B2.st.parent = g1.st.parent := rfl
          have h2 : A2 = regarb B2 h := rfl
          have v2 : ∀ y, valid g1 y → valid B2 y := fun y hy => (valid_congr g1 B2 hs2 y).2 hy
          have hc3 : closed B3 := closed_store_fields B2 top hc2 (v2 top hvt) _ _
          have hs3 : B3.edges_size = g1.edges_size := (store_size _ _ _).trans hs2
          have hp3 : B3.st.parent = g1.st.parent := (congrArg state.parent (store_st _ _ _)).trans hp2
          have v3 : ∀ y, valid g1 y → valid B3 y := fun y hy => (valid_congr g1 B3 hs3 y).2 hy
          have h3 : A3 = regarb B3 h := by
            show store A2 top _ = regarb (store B2 top _) h
            rw [← store_regarb B2 h top _ (v2 top hvt)]
            simp only [eA2, eB2, h2, load_regarb B2 h top (v2 top hvt),
              load_regarb B2 h b (v2 b hvb1)]
          have hc4 : closed B4 := closed_store_fields B3 top hc3 (v3 top hvt) _ _
          have hs4 : B4.edges_size = g1.edges_size := (store_size _ _ _).trans hs3
          have hp4 : B4.st.parent = g1.st.parent := (congrArg state.parent (store_st _ _ _)).trans hp3
          have v4 : ∀ y, valid g1 y → valid B4 y := fun y hy => (valid_congr g1 B4 hs4 y).2 hy
          have h4 : A4 = regarb B4 h := by
            show store A3 top _ = regarb (store B3 top _) h
            rw [← store_regarb B3 h top _ (v3 top hvt)]
            simp only [eA3, eB3, h3, load_regarb B3 h top (v3 top hvt), regarb_st]
          have hc5 : closed B5 := closed_store_fields B4 b hc4 (v4 b hvb1) _ _
          have hs5 : B5.edges_size = g1.edges_size := (store_size _ _ _).trans hs4
          have hp5 : B5.st.parent = g1.st.parent := (congrArg state.parent (store_st _ _ _)).trans hp4
          have v5 : ∀ y, valid g1 y → valid B5 y := fun y hy => (valid_congr g1 B5 hs5 y).2 hy
          have h5 : A5 = regarb B5 h := by
            show store A4 b _ = regarb (store B4 b _) h
            rw [← store_regarb B4 h b _ (v4 b hvb1)]
            simp only [eA4, eB4, h4, load_regarb B4 h b (v4 b hvb1), regarb_st]
          have hc6 : closed B6 := closed_store_fields B5 b hc5 (v5 b hvb1) _ _
          have hs6 : B6.edges_size = g1.edges_size := (store_size _ _ _).trans hs5
          have hp6 : B6.st.parent = g1.st.parent := (congrArg state.parent (store_st _ _ _)).trans hp5
          have v6 : ∀ y, valid g1 y → valid B6 y := fun y hy => (valid_congr g1 B6 hs6 y).2 hy
          have h6 : A6 = regarb B6 h := by
            show store A5 b _ = regarb (store B5 b _) h
            rw [← store_regarb B5 h b _ (v5 b hvb1)]
            simp only [eA5, eB5, h5, load_regarb B5 h b (v5 b hvb1), regarb_st]
          have he6 : eA6 = eB6 := by
            simp only [eA6, eB6, h6, load_regarb B6 h top (v6 top hvt)]
          clear_value sA A2 eA2 A3 eA3 A4 eA4 A5 eA5 A6 sB B2 eB2 B3 eB3 B4 eB4 B5 eB5 B6
          subst h6
          clear h2 h3 h4 h5 hc2 hc3 hc4 hc5 v2 v3 v4 v5 hs2 hs3 hs4 hs5 hp2 hp3 hp4 hp5
          clear_value eA6
          subst he6
          rw [load_regarb B6 h b (v6 b hvb1)]
          apply garb_bind
          intro c _
          apply garb_bind
          intro sym _
          rw [load_regarb B6 h top (v6 top hvt), store_regarb B6 h top _ (v6 top hvt)]
          lift_lets
          extract_lets A7 B7
          have hc7 : closed B7 := closed_store_child B6 top hc6 (v6 top hvt) sym b (v6 b hvb1)
          have hs7 : B7.edges_size = g1.edges_size := (store_size _ _ _).trans hs6
          have hp7 : B7.st.parent = g1.st.parent := (congrArg state.parent (store_st _ _ _)).trans hp6
          have v7 : ∀ y, valid g1 y → valid B7 y := fun y hy => (valid_congr g1 B7 hs7 y).2 hy
          have h7 : A7 = regarb B7 h := rfl
          clear_value A7 B7
          subst h7
          rw [load_regarb B7 h top (v7 top hvt)]
          apply garb_bind
          intro c1 _
          apply garb_bind
          intro sym1 _
          rw [regarb_st, hp7]
          cases hq : g1.st.parent with
          | none =>
            refine ⟨rfl, ?_⟩
            intro x hx
            cases hx
          | some q =>
            have hvq : valid g1 q := hc1.2.1 q hq
            simp only [load_regarb B7 h q (v7 q hvq), store_regarb B7 h q _ (v7 q hvq)]
            by_cases hC : (load B7 q).childs sym1 ≠ some b
            · rw [if_pos hC, if_pos hC]
              refine ⟨rfl, ?_⟩
              intro x hx
              cases hx
            · rw [if_neg hC, if_neg hC]
              refine ⟨rfl, ?_⟩
              intro x hx
              cases hx
              refine ⟨closed_store_child B7 q hc7 (v7 q hvq) sym1 top (v7 top hvt), ?_⟩
              rw [store_size]
              omega
    · rw [if_pos hA, if_pos hA]
      refine ⟨rfl, ?_⟩
      intro x hx
      cases hx

end Suffixtree

namespace Suffixtree

/-- What the shared tail of the re-scanning branches does. -/
theorem rescan_garb (text : List Int) (last : eptr) (s stop : Int) (g : globals)
    (h : Nat → edge) (hc : closed g) (hl : valid g last) :
    rescan text last s stop (regarb g h) = (rescan text last s stop g).map (fun r => regarb r h) ∧
      ∀ x, rescan text last s stop g = .ok x → closed x ∧ g.edges_size ≤ x.edges_size := by
  unfold rescan
  obtain ⟨e1, e2⟩ := consume_whole_string_garb text s stop g h hc
  rw [e1]
  cases h1 : consume_whole_string text s stop g with
  | error e =>
    refine ⟨rfl, ?_⟩
    intro x hx
    cases hx
  | ok g1 =>
    obtain ⟨hc1, hs1⟩ := e2 _ h1
    rw [map_ok, ok_bind, ok_bind]
    obtain ⟨f1, f2⟩ := split_garb text g1 h hc1
    rw [f1]
    cases h2 : split_if_not_at_node text g1 with
    | error e =>
      refine ⟨rfl, ?_⟩
      intro x hx
      cases hx
    | ok g2 =>
      obtain ⟨hc2, hs2⟩ := f2 _ h2
      have hl2 : valid g2 last := valid_mono (by omega) last hl
      rw [map_ok, ok_bind, ok_bind]
      simp only [load_regarb g2 h last hl2, store_regarb g2 h last _ hl2, regarb_st]
      refine ⟨rfl, ?_⟩
      intro x hx
      cases hx
      refine ⟨closed_store_link g2 last hc2 hl2 _ hc2.1, ?_⟩
      rw [store_size]
      omega

/-- What the first half of `state_transition` does. -/
theorem reposition_garb (text : List Int) (g : globals) (h : Nat → edge) (hc : closed g) :
    reposition text (regarb g h) = (reposition text g).map (fun r => regarb r h) ∧
      ∀ x, reposition text g = .ok x → closed x ∧ g.edges_size ≤ x.edges_size := by
  unfold reposition
  rw [regarb_st]
  cases he : g.st.edge with
  | none =>
    refine ⟨rfl, ?_⟩
    intro x hx
    cases hx
  | some last =>
    have hl : valid g last := hc.1 last he
    simp only [load_regarb g h last hl]
    by_cases hr : last = eptr.rootedge
    · rw [if_pos hr, if_pos hr]
      by_cases ht : g.st.tail = g.st.suffix
      · rw [if_pos ht, if_pos ht]
        refine ⟨rfl, ?_⟩
        intro x hx
        cases hx
        exact ⟨hc, le_refl _⟩
      · rw [if_neg ht, if_neg ht]
        refine ⟨rfl, ?_⟩
        intro x hx
        cases hx
    · rw [if_neg hr, if_neg hr]
      by_cases h1 : (load g last).link = none ∧ g.st.parent = some eptr.rootedge
      · rw [if_pos h1, if_pos h1]
        obtain ⟨e1, e2⟩ := go_to_node_garb g h (some eptr.rootedge) hc
          ((okp_some g _).2 (valid_root g))
        rw [e1]
        cases hg : go_to_node g (some eptr.rootedge) with
        | error e =>
          refine ⟨rfl, ?_⟩
          intro x hx
          cases hx
        | ok g1 =>
          obtain ⟨hc1, hs1⟩ := e2 _ hg
          have hl1 : valid g1 last := valid_mono (by omega) last hl
          rw [map_ok, ok_bind, ok_bind, load_regarb g1 h last hl1]
          cases hp : (load g1 last).label with
          | none =>
            refine ⟨rfl, ?_⟩
            intro x hx
            cases hx
          | some p =>
            obtain ⟨f1, f2⟩ := rescan_garb text last (p + 1) (p + (load g1 last).len) g1 h hc1 hl1
            refine ⟨f1, ?_⟩
            intro x hx
            obtain ⟨a1, a2⟩ := f2 x hx
            exact ⟨a1, by omega⟩
      · rw [if_neg h1, if_neg h1]
        by_cases h2 : (load g last).link = none ∧ g.st.parent ≠ some eptr.rootedge
        · rw [if_pos h2, if_pos h2]
          cases hq : g.st.parent with
          | none =>
            refine ⟨rfl, ?_⟩
            intro x hx
            cases hx
          | some q =>
            have hvq : valid g q := hc.2.1 q hq
            simp only [deref, ok_bind, load_regarb g h q hvq]
            obtain ⟨e1, e2⟩ := go_to_node_garb g h (load g q).link hc (hc.2.2 q hvq).1
            rw [e1]
            cases hg : go_to_node g (load g q).link with
            | error e =>
              refine ⟨rfl, ?_⟩
              intro x hx
              cases hx
            | ok g1 =>
              obtain ⟨hc1, hs1⟩ := e2 _ hg
              have hl1 : valid g1 last := valid_mono (by omega) last hl
              rw [map_ok, ok_bind, ok_bind, load_regarb g1 h last hl1]
              cases hp : (load g1 last).label with
              | none =>
                refine ⟨rfl, ?_⟩
                intro x hx
                cases hx
              | some p =>
                obtain ⟨f1, f2⟩ := rescan_garb text last p (p + (load g1 last).len) g1 h hc1 hl1
                refine ⟨f1, ?_⟩
                intro x hx
                obtain ⟨a1, a2⟩ := f2 x hx
                exact ⟨a1, by omega⟩
        · rw [if_neg h2, if_neg h2]
          by_cases h3 : (load g last).link ≠ none
          · rw [if_pos h3, if_pos h3]
            obtain ⟨e1, e2⟩ := go_to_node_garb g h (load g last).link hc (hc.2.2 last hl).1
            refine ⟨e1, ?_⟩
            intro x hx
            obtain ⟨a1, a2⟩ := e2 x hx
            exact ⟨a1, by omega⟩
          · rw [if_neg h3, if_neg h3]
            refine ⟨rfl, ?_⟩
            intro x hx
            cases hx

/-- What the second half of `state_transition` does. -/
theorem extend_garb (text : List Int) (g : globals) (h : Nat → edge) (hc : closed g) :
    extend text (regarb g h) = (extend text g).map (fun r => (r.1, regarb r.2 h)) ∧
      ∀ x, extend text g = .ok x → closed x.2 ∧ g.edges_size ≤ x.2.edges_size := by
  unfold extend
  rw [regarb_st]
  obtain ⟨e1, e2⟩ := consume_string_garb text g.st.tail g h hc
  rw [e1]
  cases h1 : consume_string text g.st.tail g with
  | error e =>
    refine ⟨rfl, ?_⟩
    intro x hx
    cases hx
  | ok r =>
    obtain ⟨t, g1⟩ := r
    obtain ⟨hc1, hs1⟩ := e2 _ h1
    simp only at hc1 hs1
    simp only [map_ok, ok_bind, regarb_st, setst_regarb]
    have hc2 : closed { g1 with st := { g1.st with tail := t } } :=
      closed_setst g1 _ hc1 hc1.1 hc1.2.1
    have hs2 : ({ g1 with st := { g1.st with tail := t } } : globals).edges_size
        = g.edges_size := hs1
    generalize ({ g1 with st := { g1.st with tail := t } } : globals) = g2 at hc2 hs2 ⊢
    obtain ⟨f1, f2⟩ := split_garb text g2 h hc2
    rw [f1]
    cases h2 : split_if_not_at_node text g2 with
    | error e =>
      refine ⟨rfl, ?_⟩
      intro x hx
      cases hx
    | ok g3 =>
      obtain ⟨hc3, hs3⟩ := f2 _ h2
      simp only [map_ok, ok_bind, regarb_st]
      by_cases ht : g3.st.tail = text.length
      · rw [if_pos ht, if_pos ht]
        refine ⟨rfl, ?_⟩
        intro x hx
        cases hx
        exact ⟨hc3, by show g.edges_size ≤ g3.edges_size; omega⟩
      · rw [if_neg ht, if_neg ht]
        obtain ⟨i1, i2⟩ := insert_tail_garb text g3 h hc3
        rw [i1]
        cases h3 : insert_tail text g3 with
        | error e =>
          refine ⟨rfl, ?_⟩
          intro x hx
          cases hx
        | ok g4 =>
          obtain ⟨hc4, hs4⟩ := i2 _ h3
          simp only [map_ok, ok_bind, regarb_st]
          refine ⟨rfl, ?_⟩
          intro x hx
          cases hx
          exact ⟨closed_setst g4 _ hc4 hc4.1 hc4.2.1, by show g.edges_size ≤ g4.edges_size; omega⟩

/-- What `state_transition` does. -/
theorem state_transition_garb (text : List Int) (g : globals) (h : Nat → edge)
    (hc : closed g) :
    state_transition text (regarb g h)
        = (state_transition text g).map (fun r => (r.1, regarb r.2 h)) ∧
      ∀ x, state_transition text g = .ok x → closed x.2 ∧ g.edges_size ≤ x.2.edges_size := by
  have key : ∀ g0 : globals, closed g0 → g0.edges_size = g.edges_size →
      (if g0.st.tail = text.length then (pure (false, regarb g0 h) : Except Err (Bool × globals))
        else do
          let g1 ← reposition text (regarb g0 h)
          extend text g1)
        = (if g0.st.tail = text.length then (pure (false, g0) : Except Err (Bool × globals))
          else do
            let g1 ← reposition text g0
            extend text g1).map (fun r => (r.1, regarb r.2 h)) ∧
      ∀ x, (if g0.st.tail = text.length then (pure (false, g0) : Except Err (Bool × globals))
          else do
            let g1 ← reposition text g0
            extend text g1) = .ok x → closed x.2 ∧ g.edges_size ≤ x.2.edges_size := by
    intro g0 hc0 hs0
    by_cases ht : g0.st.tail = text.length
    · rw [if_pos ht, if_pos ht]
      refine ⟨rfl, ?_⟩
      intro x hx
      cases hx
      exact ⟨hc0, by show g.edges_size ≤ g0.edges_size; omega⟩
    · rw [if_neg ht, if_neg ht]
      obtain ⟨e1, e2⟩ := reposition_garb text g0 h hc0
      rw [e1]
      cases h1 : reposition text g0 with
      | error e =>
        refine ⟨rfl, ?_⟩
        intro x hx
        cases hx
      | ok g1 =>
        obtain ⟨hc1, hs1⟩ := e2 _ h1
        rw [map_ok, ok_bind, ok_bind]
        obtain ⟨f1, f2⟩ := extend_garb text g1 h hc1
        refine ⟨f1, ?_⟩
        intro x hx
        obtain ⟨a1, a2⟩ := f2 x hx
        exact ⟨a1, by omega⟩
  unfold state_transition
  by_cases hts : g.st.tail < g.st.suffix
  · have := key { g with st := { g.st with tail := g.st.suffix } }
      (closed_setst g _ hc hc.1 hc.2.1) rfl
    simp only [regarb_st, if_pos hts]
    exact this
  · have := key g hc rfl
    simp only [regarb_st, if_neg hts]
    exact this

/-- What the loop of `construct_suffixtree` does. -/
theorem build_loop_garb (text : List Int) (h : Nat → edge) :
    ∀ (fuel : Nat) (g : globals), closed g →
      build_loop text fuel (regarb g h) = (build_loop text fuel g).map (fun r => regarb r h) := by
  intro fuel
  induction fuel with
  | zero =>
    intro g _
    rfl
  | succ k ih =>
    intro g hc
    unfold build_loop
    obtain ⟨e1, e2⟩ := state_transition_garb text g h hc
    rw [e1]
    cases h1 : state_transition text g with
    | error e => rfl
    | ok r =>
      obtain ⟨b, g1⟩ := r
      obtain ⟨hc1, _⟩ := e2 _ h1
      simp only [map_ok, ok_bind]
      cases b with
      | true =>
        simp only [if_true]
        exact ih g1 hc1
      | false =>
        simp only [Bool.false_eq_true, if_false]
        rfl

/-- The state in which the build loop starts, up to the contents of the edge store. -/
theorem construct_init_eq (text : List Int) (garbage : Nat → edge) (g : globals) :
    construct_init text (some garbage) g = .ok (regarb
      ⟨⟨some eptr.rootedge, none, 0, 0, 0⟩, zero_edge, fun _ => zero_edge, 0, 2 * text.length⟩
      (fun j => if j < g.edges_capacity then g.edges j else garbage j)) := by
  unfold construct_init xrealloc need_alloced
  simp only [pure_eq, go_to_node, deref, load, ok_bind, state_init, regarb, zero_edge,
    Nat.not_lt_zero, if_false]

theorem closed_start (n : Nat) :
    closed ⟨⟨some eptr.rootedge, none, 0, 0, 0⟩, zero_edge, fun _ => zero_edge, 0, n⟩ := by
  refine ⟨?_, ?_, ?_⟩
  · intro x hx
    cases hx
    trivial
  · exact okp_none _
  · intro x hx
    cases x with
    | rootedge => exact edge_ok_zero _
    | slot j => exact absurd hx (Nat.not_lt_zero j)

/-- Two runs of `construct_suffixtree` on the same line end with the same
error, or in states that differ only in the unallocated part of the store. -/
theorem construct_garb (fuel : Nat) (garbage garbage1 : Nat → edge) (g g1 : globals)
    (line : List Int) :
    (∃ e, construct_suffixtree fuel (some garbage) g line = .error e ∧
        construct_suffixtree fuel (some garbage1) g1 line = .error e) ∨
      ∃ r r1, construct_suffixtree fuel (some garbage) g line = .ok r ∧
        construct_suffixtree fuel (some garbage1) g1 line = .ok r1 ∧ agree r r1 := by
  unfold construct_suffixtree
  rw [construct_init_eq, construct_init_eq, ok_bind, ok_bind,
    build_loop_garb _ _ _ _ (closed_start _), build_loop_garb _ _ _ _ (closed_start _)]
  cases build_loop (strip_eol line) fuel
      ⟨⟨some eptr.rootedge, none, 0, 0, 0⟩, zero_edge, fun _ => zero_edge, 0,
        2 * (strip_eol line).length⟩ with
  | error e => exact Or.inl ⟨e, rfl, rfl⟩
  | ok r =>
    refine Or.inr ⟨_, _, rfl, rfl, ?_⟩
    exact (agree_regarb r _).symm_a.trans_a (agree_regarb r _)

end Suffixtree

namespace Suffixtree

/-- When `realloc` answers `NULL`, `construct_suffixtree` ends in
`need_alloced`, whatever the line and the prior state. -/
theorem construct_null (fuel : Nat) (g : globals) (line : List Int) :
    construct_suffixtree fuel none g line = Except.error Err.oom := rfl

/-- C10, the claim as written fails: on the line "\n" (the empty text) the
store is requested with `realloc(edges, 0)`. In a program that holds the
store of an earlier build (here the one of "ab") `realloc` may answer `NULL`
to that request, and then `need_alloced` ends the run with "OOM!" before
anything is built, while the run of a fresh program, in which `realloc`
returns a block, on the same line ends normally with the empty tree: the two
runs do not produce the same tree. -/
theorem realloc_null_stops :
    strip_eol [10] = [] ∧
      construct_suffixtree 1 none (built [97, 98]) [10] = Except.error Err.oom ∧
      ∃ r, construct_suffixtree 1 (some (fun _ => zero_edge)) blank [10] = Except.ok r ∧
        r.edges_size = 0 :=
  ⟨by decide, rfl, _, rfl, rfl⟩

/-- C10 (determinism), amended. For every line whose stripped text has only
characters in 'a'..'z' and any two prior values `g`, `g1` of the globals
(cursor `st`, `rootedge`, edge store contents, `edges_size`,
`edges_capacity`): when `realloc` returns a block in both runs, whatever the
contents `garbage`, `garbage1` of the memory it hands out, the two runs of
`construct_suffixtree` (with fuel for one more call of `state_transition`
than the text has characters) both end normally, in states that hold the same
tree: the same cursor, the same root record, the same `edges_size` and
`edges_capacity`, and the same record (label, len, link and child map) in
every allocated slot of the edge store. When `realloc` answers `NULL`, the
run ends in `need_alloced` and produces no tree. -/
theorem determinism (fuel : Nat) (garbage garbage1 : Nat → edge) (g g1 : globals)
    (line : List Int) (hl : lowercase (strip_eol line))
    (hf : (strip_eol line).length + 1 ≤ fuel) :
    (∃ r r1, construct_suffixtree fuel (some garbage) g line = Except.ok r ∧
      construct_suffixtree fuel (some garbage1) g1 line = Except.ok r1 ∧ agree r r1) ∧
      construct_suffixtree fuel none g line = Except.error Err.oom ∧
      construct_suffixtree fuel none g1 line = Except.error Err.oom := by
  refine ⟨?_, rfl, rfl⟩
  obtain ⟨r0, h0, _⟩ := (construct_spec fuel garbage g line hf).of_lowercase hl
  rcases construct_garb fuel garbage garbage1 g g1 line with ⟨e, he, _⟩ | hr
  · rw [h0] at he
    cases he
  · exact hr

theorem determinism_witness :
    lowercase (strip_eol [97, 98, 97]) ∧ (strip_eol [97, 98, 97]).length + 1 ≤ 4 ∧
      (∃ r r1, construct_suffixtree 4 (some (fun _ => zero_edge)) blank [97, 98, 97]
          = Except.ok r ∧
        construct_suffixtree 4
          (some (fun _ => ⟨some 5, 7, some (eptr.slot 3), fun _ => some eptr.rootedge⟩))
          (built [98, 98, 97, 98]) [97, 98, 97] = Except.ok r1 ∧ agree r r1) ∧
      construct_suffixtree 4 none blank [97, 98, 97] = Except.error Err.oom ∧
      construct_suffixtree 4 none (built [98, 98, 97, 98]) [97, 98, 97]
        = Except.error Err.oom :=
  ⟨by unfold lowercase; decide, by decide,
    determinism 4 (fun _ => zero_edge)
      (fun _ => ⟨some 5, 7, some (eptr.slot 3), fun _ => some eptr.rootedge⟩)
      blank (built [98, 98, 97, 98]) [97, 98, 97] (by unfold lowercase; decide) (by decide)⟩

end Suffixtree

namespace Suffixtree

/-! ## Invariants of the reached states, read off the edge records -/

/-- C17 (edge labels are well-formed). In every state reached during the
construction of a text (between two calls of `state_transition`, and when
the loop has ended): every allocated edge has `len >= 1` and a label range
inside the text buffer (`string <= label` and `label + len <= string_end`);
the root has `len == 0`, so it is the only edge with length 0; and for every
edge `e`, the root included, and every symbol index `i`, if `e->childs[i]` is
not NULL then the first character of that child's label is
`FIRST_SYMBOL + i`. -/
theorem labels_well_formed (text : List Int) (garbage : Nat → edge) (g g1 : globals)
    (hr : Reached text (some garbage) g g1) :
    (∀ j, j < g1.edges_size → ∃ p, (g1.edges j).label = some p ∧ 0 ≤ p ∧
        1 ≤ (g1.edges j).len ∧ p + (g1.edges j).len ≤ text.length) ∧
      g1.rootedge.len = 0 ∧
      ∀ e, valid g1 e → ∀ i c, (load g1 e).childs i = some c →
        ∃ p, (load g1 c).label = some p ∧ text.getD p.toNat 0 = FIRST_SYMBOL + i := by
  obtain ⟨pl, i, T⟩ := reached_tree hr
  refine ⟨?_, T.root_len, ?_⟩
  · intro j hj
    exact T.lab (eptr.slot j) hj (by intro e; cases e)
  · intro e he s c hc
    obtain ⟨hcv, hcr, _, _, hcc⟩ := T.child e s c he hc
    obtain ⟨p, hp, _⟩ := T.lab c hcv hcr
    exact ⟨p, hp, (hcc p hp).1⟩

theorem labels_well_formed_witness :
    Reached (strip_eol [97, 98, 97, 98]) (some (fun _ => zero_edge)) blank (built [97, 98, 97, 98]) ∧
      (∀ j, j < (built [97, 98, 97, 98]).edges_size →
        ∃ p, ((built [97, 98, 97, 98]).edges j).label = some p ∧ 0 ≤ p ∧
          1 ≤ ((built [97, 98, 97, 98]).edges j).len ∧
          p + ((built [97, 98, 97, 98]).edges j).len ≤ (strip_eol [97, 98, 97, 98]).length) ∧
      (built [97, 98, 97, 98]).rootedge.len = 0 ∧
      ∀ e, valid (built [97, 98, 97, 98]) e → ∀ i c,
        (load (built [97, 98, 97, 98]) e).childs i = some c →
        ∃ p, (load (built [97, 98, 97, 98]) c).label = some p ∧
          (strip_eol [97, 98, 97, 98]).getD p.toNat 0 = FIRST_SYMBOL + i :=
  ⟨reached_of_construct (built_ok [97, 98, 97, 98] (by unfold lowercase; decide)),
    labels_well_formed (strip_eol [97, 98, 97, 98]) (fun _ => zero_edge) blank
      (built [97, 98, 97, 98])
      (reached_of_construct (built_ok [97, 98, 97, 98] (by unfold lowercase; decide)))⟩

/-- C18 (suffix links exist exactly on settled internal nodes). In every
state reached between two calls of `state_transition` and when the loop has
ended: every allocated edge without children has a NULL `link`, and every
allocated edge that has at least one child and is not the cursor's edge
`st.edge` has a non-NULL `link`. -/
theorem links_settled (text : List Int) (garbage : Nat → edge) (g g1 : globals)
    (hr : Reached text (some garbage) g g1) :
    (∀ j, j < g1.edges_size → (∀ sym, (g1.edges j).childs sym = none) →
        (g1.edges j).link = none) ∧
      ∀ j, j < g1.edges_size → g1.st.edge ≠ some (eptr.slot j) →
        (∃ sym c, (g1.edges j).childs sym = some c) → (g1.edges j).link ≠ none := by
  have key : ∀ pl i v, Tree text g1 pl i → g1.st.edge = some v → HasLink g1 v →
      (∀ j, j < g1.edges_size → (∀ sym, (g1.edges j).childs sym = none) →
        (g1.edges j).link = none) ∧
      ∀ j, j < g1.edges_size → g1.st.edge ≠ some (eptr.slot j) →
        (∃ sym c, (g1.edges j).childs sym = some c) → (g1.edges j).link ≠ none := by
    intro pl i v T he HL
    constructor
    · intro j hj hnc
      cases hl : (g1.edges j).link with
      | none => rfl
      | some t =>
        obtain ⟨_, _, sym, ch, hch⟩ := T.link (eptr.slot j) t hj hl
        have : (g1.edges j).childs sym = some ch := hch
        rw [hnc sym] at this
        cases this
    · intro j hj hne hch
      exact HL (eptr.slot j) hj (by intro e; cases e) (by
        intro e
        apply hne
        rw [he, e]) hch
  rcases reached_inv hr with ⟨pl, v, i, t, L⟩ | ⟨pl, v, i, F⟩
  · exact key pl i v L.tree L.edge L.haslink
  · exact key pl i v F.tree F.edge F.haslink

theorem links_settled_witness :
    Reached (strip_eol [97, 98, 97, 98]) (some (fun _ => zero_edge)) blank (built [97, 98, 97, 98]) ∧
      (∀ j, j < (built [97, 98, 97, 98]).edges_size →
        (∀ sym, ((built [97, 98, 97, 98]).edges j).childs sym = none) →
        ((built [97, 98, 97, 98]).edges j).link = none) ∧
      ∀ j, j < (built [97, 98, 97, 98]).edges_size →
        (built [97, 98, 97, 98]).st.edge ≠ some (eptr.slot j) →
        (∃ sym c, ((built [97, 98, 97, 98]).edges j).childs sym = some c) →
        ((built [97, 98, 97, 98]).edges j).link ≠ none :=
  ⟨reached_of_construct (built_ok [97, 98, 97, 98] (by unfold lowercase; decide)),
    links_settled (strip_eol [97, 98, 97, 98]) (fun _ => zero_edge) blank
      (built [97, 98, 97, 98])
      (reached_of_construct (built_ok [97, 98, 97, 98] (by unfold lowercase; decide)))⟩

theorem not_one_child_of_branching (e : edge) (h : branching e) : ¬ one_child e := by
  obtain ⟨s1, s2, c1, c2, hne, h1, h2⟩ := h
  rintro ⟨sym, c, _, hall⟩
  exact hne ((hall s1 c1 h1).trans (hall s2 c2 h2).symm)

/-- C20 (compactness). In the state in which `construct_suffixtree` ends, an
allocated edge that has a child under exactly one symbol is the cursor's edge
`st.edge` (the upper half made by the split of the last call), so at most one
allocated edge has exactly one child; every other allocated edge has no
child or children under at least two symbols. When the last character of the
text occurs nowhere else in it, no allocated edge has exactly one child. -/
theorem compactness (fuel : Nat) (garbage : Nat → edge) (g g1 : globals) (line : List Int)
    (h : construct_suffixtree fuel (some garbage) g line = Except.ok g1) :
    (∀ j, j < g1.edges_size → one_child (g1.edges j) → g1.st.edge = some (eptr.slot j)) ∧
      (∀ j k, j < g1.edges_size → k < g1.edges_size → one_child (g1.edges j) →
        one_child (g1.edges k) → j = k) ∧
      (∀ j, j < g1.edges_size → g1.st.edge ≠ some (eptr.slot j) →
        (∀ sym, (g1.edges j).childs sym = none) ∨ branching (g1.edges j)) ∧
      ((∀ j, j < (strip_eol line).length - 1 →
          (strip_eol line).getD j 0 ≠ (strip_eol line).getD ((strip_eol line).length - 1) 0) →
        ∀ j, j < g1.edges_size → ¬ one_child (g1.edges j)) := by
  obtain ⟨pl, v, i, F⟩ := final_of_construct h
  have hB : ∀ j, j < g1.edges_size → g1.st.edge ≠ some (eptr.slot j) →
      (∀ sym, (g1.edges j).childs sym = none) ∨ branching (g1.edges j) := by
    intro j hj hne
    by_cases hch : has_child (g1.edges j)
    · right
      exact F.branch (eptr.slot j) hj (by intro e; cases e) (by
        intro e
        apply hne
        rw [F.edge, e]) hch
    · left
      intro sym
      cases hc : (g1.edges j).childs sym with
      | none => rfl
      | some c => exact absurd ⟨sym, c, hc⟩ hch
  have hA : ∀ j, j < g1.edges_size → one_child (g1.edges j) →
      g1.st.edge = some (eptr.slot j) := by
    intro j hj ho
    by_contra hne
    rcases hB j hj hne with hn | hb
    · obtain ⟨sym, c, hc, _⟩ := ho
      rw [hn sym] at hc
      cases hc
    · exact not_one_child_of_branching _ hb ho
  refine ⟨hA, ?_, hB, ?_⟩
  · intro j k hj hk h1 h2
    have e1 := hA j hj h1
    have e2 := hA k hk h2
    rw [e1] at e2
    cases e2
    rfl
  · intro hlast j hj ho
    by_cases hne : strip_eol line = []
    · have hi : i = 0 := by
        have h1 := F.suf0
        have h2 := F.sufn
        rw [hne] at h2
        simp at h2
        omega
      have := F.size0 hi
      omega
    · obtain ⟨K, hK, _, _, hP, hmin1⟩ := final_index F hne
      obtain ⟨hQ, hmin⟩ := unique_last hne hlast
      have e : (strip_eol line).length = K := least_unique
        (fun m => ∃ j, j < m ∧ (strip_eol line).drop m <+: (strip_eol line).drop j)
        _ K hQ hP hmin hmin1
      have hBr := (F.sizen (by rw [← hK, e])).2
      have hch : has_child (g1.edges j) := by
        obtain ⟨sym, c, hc, _⟩ := ho
        exact ⟨sym, c, hc⟩
      exact not_one_child_of_branching _
        (hBr (eptr.slot j) hj (by intro e; cases e) (by intro e; cases e) hch) ho

theorem compactness_witness :
    construct_suffixtree ([97, 97, 98, 97, 97].length + 1) (some (fun _ => zero_edge)) blank
        [97, 97, 98, 97, 97] = Except.ok (built [97, 97, 98, 97, 97]) ∧
      (∀ j, j < (built [97, 97, 98, 97, 97]).edges_size →
        one_child ((built [97, 97, 98, 97, 97]).edges j) →
        (built [97, 97, 98, 97, 97]).st.edge = some (eptr.slot j)) ∧
      (∀ j k, j < (built [97, 97, 98, 97, 97]).edges_size →
        k < (built [97, 97, 98, 97, 97]).edges_size →
        one_child ((built [97, 97, 98, 97, 97]).edges j) →
        one_child ((built [97, 97, 98, 97, 97]).edges k) → j = k) ∧
      (∀ j, j < (built [97, 97, 98, 97, 97]).edges_size →
        (built [97, 97, 98, 97, 97]).st.edge ≠ some (eptr.slot j) →
        (∀ sym, ((built [97, 97, 98, 97, 97]).edges j).childs sym = none) ∨
          branching ((built [97, 97, 98, 97, 97]).edges j)) ∧
      ((∀ j, j < (strip_eol [97, 97, 98, 97, 97]).length - 1 →
          (strip_eol [97, 97, 98, 97, 97]).getD j 0 ≠
            (strip_eol [97, 97, 98, 97, 97]).getD ((strip_eol [97, 97, 98, 97, 97]).length - 1) 0) →
        ∀ j, j < (built [97, 97, 98, 97, 97]).edges_size →
          ¬ one_child ((built [97, 97, 98, 97, 97]).edges j)) :=
  ⟨built_ok [97, 97, 98, 97, 97] (by unfold lowercase; decide),
    compactness _ (fun _ => zero_edge) blank (built [97, 97, 98, 97, 97]) [97, 97, 98, 97, 97]
      (built_ok [97, 97, 98, 97, 97] (by unfold lowercase; decide))⟩

end Suffixtree

namespace Suffixtree

/-- C13 (postcondition of `split_if_not_at_node`). Let `e` be the cursor's
edge. If the cursor is at an explicit node (`st.offset >= e->len`) the call
changes nothing: whenever it returns the state is the one it started in, and
it does return when `0 <= st.offset == e->len`. Otherwise, on a text over
'a'..'z', with `e` of label start `p` and length `L`, offset `k`
(`0 < k < L`), parent `q` (an edge other than `e`, with `q->childs[sym] == e`
for the symbol `sym` of the character at `p`) and a free slot in the store,
the call returns and allocates exactly one new edge `u`, the next slot:
`u` has label `(p, k)`, a NULL link and its only child is `e`, under the
symbol of the character at `p + k`; `e` keeps its link and children and has
the label `(p + k, L - k)`; `q->childs[sym]` is `u` and `q` is otherwise
unchanged; no other edge record changes; and the cursor is `st.edge = u`
with `st.offset = k = u->len` and `st.parent = q`, the rest of `st` being
unchanged. -/
theorem split_postcondition (text : List Int) (g : globals) (e : eptr)
    (he : g.st.edge = some e) :
    (g.st.offset ≥ (load g e).len →
      (∀ g1, split_if_not_at_node text g = Except.ok g1 → g1 = g) ∧
      (g.st.offset = (load g e).len → 0 ≤ g.st.offset →
        split_if_not_at_node text g = Except.ok g)) ∧
    (∀ q p sym, lowercase text → (load g e).label = some p → 0 ≤ p →
      p + (load g e).len ≤ text.length → 0 < g.st.offset → g.st.offset < (load g e).len →
      g.st.parent = some q → valid g e → valid g q → q ≠ e →
      (load g q).childs sym = some e → text.getD p.toNat 0 = FIRST_SYMBOL + sym →
      g.edges_size < g.edges_capacity →
      ∃ g1 sym1, split_if_not_at_node text g = Except.ok g1 ∧
        g1.edges_size = g.edges_size + 1 ∧
        text.getD (p + g.st.offset).toNat 0 = FIRST_SYMBOL + sym1 ∧
        load g1 (eptr.slot g.edges_size)
          = ⟨some p, g.st.offset, none, fun j => if j = sym1 then some e else none⟩ ∧
        load g1 e = { load g e with
          label := some (p + g.st.offset), len := (load g e).len - g.st.offset } ∧
        load g1 q =
          { load g q with childs := fun j =>
              if j = sym then some (eptr.slot g.edges_size) else (load g q).childs j } ∧
        (∀ x, x ≠ eptr.slot g.edges_size → x ≠ e → x ≠ q → load g1 x = load g x) ∧
        g1.st = { g.st with edge := some (eptr.slot g.edges_size) } ∧
        g1.st.offset = (load g1 (eptr.slot g.edges_size)).len) := by
  constructor
  · intro hge
    constructor
    · intro g1 h1
      unfold split_if_not_at_node at h1
      rw [he] at h1
      simp only at h1
      split_ifs at h1 with hA
      cases h1
      rfl
    · intro heq h0
      exact split_at_node text g e he h0 heq
  · intro q p sym hl hp hp0 hn hk0 hk hpar hve hvq hqe hqc hA hcap
    have hNv : ¬ valid g (eptr.slot g.edges_size) := by simp [valid]
    have hqN : q ≠ eptr.slot g.edges_size := fun h => hNv (h ▸ hvq)
    have hbN : e ≠ eptr.slot g.edges_size := fun h => hNv (h ▸ hve)
    have hmem := hl _ (getD_mem text p hp0 (by omega))
    rw [hA] at hmem
    obtain ⟨g1, h1, hsize, _, hst, symB, _, _, hB, hload⟩ :=
      (split_eval text g e q p sym he hp hp0 (by omega) hk hn hcap hpar hqc hA
        (by omega) (by omega) hbN hqN hqe).of_lowercase hl
    refine ⟨g1, symB, h1, hsize, hB, ?_, ?_, ?_, ?_, hst, ?_⟩
    · rw [hload, if_pos rfl]
    · rw [hload, if_neg hbN, if_pos rfl]
    · rw [hload, if_neg hqN, if_neg hqe, if_pos rfl]
    · intro x h1 h2 h3
      rw [hload, if_neg h1, if_neg h2, if_neg h3]
    · rw [hload, if_pos rfl, hst]

theorem split_postcondition_witness :
    (⟨⟨some (eptr.slot 0), some eptr.rootedge, 1, 0, 0⟩,
        ⟨none, 0, none, fun j => if j = 0 then some (eptr.slot 0) else none⟩,
        fun _ => ⟨some 0, 2, none, fun _ => none⟩, 1, 4⟩ : globals).st.edge
        = some (eptr.slot 0) ∧
      ∃ g1 sym1, split_if_not_at_node [97, 98]
          ⟨⟨some (eptr.slot 0), some eptr.rootedge, 1, 0, 0⟩,
            ⟨none, 0, none, fun j => if j = 0 then some (eptr.slot 0) else none⟩,
            fun _ => ⟨some 0, 2, none, fun _ => none⟩, 1, 4⟩ = Except.ok g1 ∧
        g1.edges_size = 2 ∧ sym1 = 1 ∧
        load g1 (eptr.slot 1)
          = ⟨some 0, 1, none, fun j => if j = sym1 then some (eptr.slot 0) else none⟩ ∧
        (load g1 (eptr.slot 0)).label = some 1 ∧ (load g1 (eptr.slot 0)).len = 1 ∧
        (load g1 eptr.rootedge).childs 0 = some (eptr.slot 1) ∧
        g1.st.edge = some (eptr.slot 1) ∧ g1.st.offset = 1 ∧
        g1.st.parent = some eptr.rootedge := by
  refine ⟨rfl, ?_⟩
  obtain ⟨g1, sym1, h1, h2, h3, h4, h5, h6, _, h8, _⟩ :=
    (split_postcondition [97, 98]
      ⟨⟨some (eptr.slot 0), some eptr.rootedge, 1, 0, 0⟩,
        ⟨none, 0, none, fun j => if j = 0 then some (eptr.slot 0) else none⟩,
        fun _ => ⟨some 0, 2, none, fun _ => none⟩, 1, 4⟩ (eptr.slot 0) rfl).2
      eptr.rootedge 0 0 (by unfold lowercase; decide) rfl (by decide) (by decide) (by decide)
      (by decide) rfl (by unfold valid; decide) (by unfold valid; decide) (by decide)
      rfl (by decide) (by decide)
  have hs : sym1 = 1 := by
    have : ([97, 98] : List Int).getD ((0 : Int) + 1).toNat 0 = 98 := by decide
    have h3a : (98 : Int) = FIRST_SYMBOL + sym1 := this ▸ h3
    unfold FIRST_SYMBOL at h3a
    omega
  refine ⟨g1, sym1, h1, h2, hs, h4, ?_, ?_, ?_, ?_, ?_, ?_⟩
  · rw [h5]
    rfl
  · rw [h5]
    rfl
  · rw [h6]
    rfl
  · rw [h8]
  · rw [h8]
  · rw [h8]

end Suffixtree

namespace Suffixtree

/-! ## `charstep` on an arbitrary character, and walks -/

/-- The effect of `charstep` at a position of the tree, for any character:
the only way it can stop is the assertion of `get_symbol`, at the end of an
edge and on a character that is not a lowercase letter. -/
theorem charstep_any {text : List Int} {g : globals} {pl : eptr → List Int} {i : Int}
    (T : Tree text g pl i) {w : List Int} (hat : At text g pl w) (c : Int) :
    (∃ r, charstep text c g = .ok r ∧
      ((r.1 = true ∧ same_heap g r.2 ∧ At text r.2 pl (w ++ [c])) ∨
       (r.1 = false ∧ r.2 = g ∧ ¬ InTree text g pl (w ++ [c])))) ∨
    (charstep text c g = .error Err.symbol ∧
      ¬ (FIRST_SYMBOL ≤ c ∧ c < FIRST_SYMBOL + NUM_SYMBOLS)) := by
  obtain ⟨v, he, hs, hpar⟩ := hat
  unfold charstep
  rw [he]
  simp only [deref, ok_bind]
  by_cases hnode : g.st.offset ≥ (load g v).len
  · rw [if_pos hnode]
    have hoff : g.st.offset = (load g v).len := by
      rcases hs.2 with ⟨e, _, ho⟩ | ⟨_, p, _, _, hle, _⟩
      · rw [e, T.root_len]; exact ho
      · omega
    rw [hoff] at hs
    by_cases hlc : FIRST_SYMBOL ≤ c ∧ c < FIRST_SYMBOL + NUM_SYMBOLS
    · left
      rw [get_symbol_ok c hlc.1 hlc.2]
      simp only [ok_bind]
      have hcs : c = FIRST_SYMBOL + (c - FIRST_SYMBOL) := by omega
      generalize c - FIRST_SYMBOL = sym at hcs
      cases hch : (load g v).childs sym with
      | none =>
        refine ⟨_, rfl, Or.inr ⟨rfl, rfl, ?_⟩⟩
        rw [hcs, spells_child T hs sym, hch]
        simp
      | some ch =>
        obtain ⟨hv, hne, _, _, hcc⟩ := T.child v sym ch hs.is_valid hch
        obtain ⟨p, hp, h0, h1, hn⟩ := T.lab ch hv hne
        obtain ⟨hf, hpl⟩ := hcc p hp
        simp only [load_setst, hp]
        rw [read_ok text p 0 (by omega) (by omega)]
        simp only [ok_bind, add_zero]
        have hx : text.getD p.toNat 0 = c := by rw [hf, hcs]
        rw [if_neg (by simpa using hx)]
        rw [charstep_compare_eq text c _ ch p rfl (by simpa [load_setst] using hp)
          (by simpa using h0) (by simp; omega)]
        simp only [add_zero, hx, ne_eq, not_true_eq_false, if_false]
        refine ⟨_, rfl, Or.inl ⟨rfl, ⟨rfl, rfl, rfl, rfl, rfl, rfl⟩, ch, rfl, ?_, ?_⟩⟩
        · have := spells_on_edge T v ch sym p 1 hs.is_valid hch hp (le_refl _) h1
          rw [seg_one text p h0 (by omega), hx, ← spells_at_end T hs] at this
          exact same_heap.spells_h ⟨rfl, rfl, rfl, rfl, rfl, rfl⟩ this
        · intro _
          exact ⟨v, sym, rfl, hs.is_valid, hch⟩
    · right
      rw [get_symbol_err c hlc]
      exact ⟨rfl, hlc⟩
  · left
    rw [if_neg hnode]
    have hne : v ≠ eptr.rootedge := by
      intro e
      subst e
      have := hs.root.2
      have := T.root_len
      omega
    obtain ⟨q, sym, p, hq, hcq, hp, h1, h2, h0, hn, hw, hpl, hf, hl⟩ := hs.parent T hne
    rw [charstep_compare_eq text c g v p he hp (by omega) (by omega)]
    have hnext := spells_next T hs hp (by omega) hne c
    by_cases hx : text.getD (p + g.st.offset).toNat 0 = c
    · rw [if_neg (by simpa using hx)]
      refine ⟨_, rfl, Or.inl ⟨rfl, ⟨rfl, rfl, rfl, rfl, rfl, rfl⟩, v, he, ?_, ?_⟩⟩
      · have := spells_on_edge T q v sym p (g.st.offset + 1) hq hcq hp (by omega) (by omega)
        rw [seg_snoc text p g.st.offset h0 (by omega) (by omega), ← List.append_assoc, ← hw, hx]
          at this
        exact same_heap.spells_h ⟨rfl, rfl, rfl, rfl, rfl, rfl⟩ this
      · intro hlt
        exact hpar (by simp [load_setst] at hlt; omega)
    · rw [if_pos hx]
      refine ⟨_, rfl, Or.inr ⟨rfl, rfl, ?_⟩⟩
      rw [hnext]
      exact fun e => hx e.symm

/-- A word of the tree is a substring of the text. -/
theorem in_tree_infix {text : List Int} {g : globals} {pl : eptr → List Int} {i : Int}
    (T : Tree text g pl i) (w : List Int) (h : InTree text g pl w) : w <:+: text := by
  by_cases hne : w = []
  · rw [hne]
    exact List.nil_infix
  · obtain ⟨m, r, m0, _, _, hm⟩ := in_tree_occurs T w hne h
    rw [seg_full text m m0] at hm
    refine ⟨text.take m.toNat, r, ?_⟩
    rw [List.append_assoc, ← hm, List.take_append_drop]

/-- A walk in which every call of `charstep` returns 1 follows a word of the tree. -/
theorem walk_from_true {text : List Int} {pl : eptr → List Int} {i : Int} :
    ∀ (t : List Int) (g g2 : globals) (w : List Int), Tree text g pl i → At text g pl w →
      walk_from text t g = .ok (true, g2) → same_heap g g2 ∧ At text g2 pl (w ++ t) := by
  intro t
  induction t with
  | nil =>
    intro g g2 w T hat h
    simp only [walk_from, pure_eq] at h
    cases h
    exact ⟨same_heap.refl g, by simpa using hat⟩
  | cons c cs ih =>
    intro g g2 w T hat h
    simp only [walk_from] at h
    rcases charstep_any T hat c with ⟨r, hr, hcase⟩ | ⟨he, _⟩
    · obtain ⟨b, g1⟩ := r
      rw [hr] at h
      simp only [ok_bind] at h
      rcases hcase with ⟨hb, hh, hat1⟩ | ⟨hb, _, _⟩
      · simp only at hb hh hat1
        subst hb
        simp only [if_true] at h
        obtain ⟨a1, a2⟩ := ih g1 g2 (w ++ [c]) (hh.tree_h T) hat1 h
        exact ⟨hh.trans a1, by simpa using a2⟩
      · simp only at hb
        subst hb
        simp only [Bool.false_eq_true, if_false, pure_eq] at h
        cases h
    · rw [he] at h
      cases h

/-- A walk from the root in which every call of `charstep` returns 1 follows
a word of the tree. -/
theorem walk_true {text : List Int} {g g2 : globals} {pl : eptr → List Int} {i : Int}
    (T : Tree text g pl i) (t : List Int) (h : walk text t g = .ok (true, g2)) :
    InTree text g pl t := by
  unfold walk at h
  rw [go_to_node_eq] at h
  simp only [ok_bind] at h
  have hg := same_heap_go g eptr.rootedge
  have hat := at_go_to_node T eptr.rootedge (valid_root g)
  rw [T.root_pl] at hat
  obtain ⟨a1, v, _, hs, _⟩ := walk_from_true t _ g2 [] (hg.tree_h T) hat h
  rw [← hg.intree_h, ← a1.intree_h]
  exact ⟨v, _, by simpa using hs⟩

/-- The comparing half of `charstep` never stops in the assertion of
`get_symbol`. -/
theorem charstep_compare_no_symbol (text : List Int) (c : Int) (g : globals) :
    charstep_compare text c g ≠ .error Err.symbol := by
  intro h
  unfold charstep_compare at h
  cases he : g.st.edge with
  | none =>
    rw [he] at h
    cases h
  | some v =>
    rw [he] at h
    simp only [deref, ok_bind] at h
    cases hr : read text (load g v).label g.st.offset with
    | error e =>
      rw [hr] at h
      unfold read at hr
      cases hl : (load g v).label with
      | none =>
        rw [hl] at hr
        cases hr
        cases h
      | some p =>
        rw [hl] at hr
        simp only at hr
        split_ifs at hr
        cases hr
        cases h
    | ok x =>
      rw [hr] at h
      simp only [ok_bind] at h
      split_ifs at h
      · cases h
      · cases h

/-- C14, the claim as written fails: in the state reached after the first
call of `state_transition` on the text "ab" the cursor is at the root, and
`charstep('$')` does not return 0 there: it stops in the assertion
`0 <= sym && sym < NUM_SYMBOLS` of `get_symbol`, because '$' is not one of
the 26 symbols. -/
theorem charstep_dollar_aborts :
    ∃ g1, Reached [97, 98] (some (fun _ => zero_edge)) blank g1 ∧
      g1.st.edge = some eptr.rootedge ∧
      charstep [97, 98] 36 g1 = Except.error Err.symbol :=
  ⟨_, ⟨_, rfl, Or.inl ⟨1, rfl⟩⟩, rfl, rfl⟩

/-- C14 (contract of `charstep`), amended. In a state of the construction,
that is, a state with the tree invariant `Tree` (in particular each non-NULL
child entry under a symbol has a non-empty label beginning with that symbol's
character) whose cursor is at the position spelling the string `w` (`At`),
for every character `c`. If `c` is in 'a'..'z', or if the cursor is inside an
edge (`st.offset < st.edge->len`), then `charstep(c)` returns and modifies no
edge (root record, edge store, `edges_size` and `edges_capacity` are
unchanged); it returns 1 exactly when `w` followed by `c` can be read along
the tree from the root, and then the cursor is at the position spelling `w`
followed by `c`; when it returns 0 the cursor `st` is unchanged. If `c` is
not in 'a'..'z' and the cursor is at the end of an edge
(`st.offset >= st.edge->len`), `charstep(c)` does not return: the assertion
of `get_symbol` fails; `w` followed by `c` cannot be read along the tree
then. -/
theorem charstep_contract (text : List Int) (g : globals) (pl : eptr → List Int) (i : Int)
    (w : List Int) (T : Tree text g pl i) (hat : At text g pl w) (c : Int) :
    (((FIRST_SYMBOL ≤ c ∧ c < FIRST_SYMBOL + NUM_SYMBOLS) ∨
        ∃ v, g.st.edge = some v ∧ g.st.offset < (load g v).len) →
      ∃ b g1, charstep text c g = Except.ok (b, g1) ∧
        g1.rootedge = g.rootedge ∧ g1.edges = g.edges ∧ g1.edges_size = g.edges_size ∧
        g1.edges_capacity = g.edges_capacity ∧
        (b = true ↔ InTree text g pl (w ++ [c])) ∧
        (b = true → At text g1 pl (w ++ [c])) ∧
        (b = false → g1.st = g.st)) ∧
    (¬ (FIRST_SYMBOL ≤ c ∧ c < FIRST_SYMBOL + NUM_SYMBOLS) →
      (∃ v, g.st.edge = some v ∧ g.st.offset ≥ (load g v).len) →
      charstep text c g = Except.error Err.symbol ∧ ¬ InTree text g pl (w ++ [c])) := by
  constructor
  · intro hc
    rcases charstep_any T hat c with ⟨r, hr, hcase⟩ | ⟨herr, hn⟩
    · obtain ⟨b, g1⟩ := r
      rcases hcase with ⟨hb, hh, hat1⟩ | ⟨hb, hg, hnot⟩
      · simp only at hb hh hat1
        subst hb
        refine ⟨true, g1, hr, hh.1, hh.2.1, hh.2.2.1, hh.2.2.2.1, ?_, fun _ => hat1, ?_⟩
        · simp only [true_iff]
          obtain ⟨v, _, hs, _⟩ := hat1
          rw [← hh.intree_h]
          exact ⟨v, _, hs⟩
        · intro hf
          cases hf
      · simp only at hb hg
        subst hb
        subst hg
        refine ⟨false, g1, hr, rfl, rfl, rfl, rfl, ?_, ?_, fun _ => rfl⟩
        · constructor
          · intro hf
            cases hf
          · intro hin
            exact absurd hin hnot
        · intro hf
          cases hf
    · rcases hc with hc | ⟨v, he, hlt⟩
      · exact absurd hc hn
      · exfalso
        unfold charstep at herr
        rw [he] at herr
        simp only [deref, ok_bind] at herr
        rw [if_neg (by omega)] at herr
        exact charstep_compare_no_symbol text c g herr
  · rintro hn ⟨v, he, hge⟩
    constructor
    · unfold charstep
      rw [he]
      simp only [deref, ok_bind]
      rw [if_pos hge, get_symbol_err c hn]
      rfl
    · intro hin
      obtain ⟨v1, he1, hs, _⟩ := hat
      rw [he] at he1
      cases he1
      have hoff : g.st.offset = (load g v).len := by
        rcases hs.2 with ⟨e, _, ho⟩ | ⟨_, p, _, _, hle, _⟩
        · rw [e, T.root_len]; exact ho
        · omega
      rw [hoff] at hs
      rw [show c = FIRST_SYMBOL + (c - FIRST_SYMBOL) by omega] at hin
      obtain ⟨ch, hch⟩ := (spells_child T hs _).1 hin
      obtain ⟨_, _, c1, c2, _⟩ := T.child v _ ch hs.is_valid hch
      exact hn ⟨by omega, by omega⟩

theorem charstep_contract_witness :
    ∃ pl i, Tree (strip_eol [97, 98, 97]) (gone_to (built [97, 98, 97]) eptr.rootedge) pl i ∧
      At (strip_eol [97, 98, 97]) (gone_to (built [97, 98, 97]) eptr.rootedge) pl [] ∧
      (((FIRST_SYMBOL ≤ 98 ∧ (98 : Int) < FIRST_SYMBOL + NUM_SYMBOLS) ∨
          ∃ v, (gone_to (built [97, 98, 97]) eptr.rootedge).st.edge = some v ∧
            (gone_to (built [97, 98, 97]) eptr.rootedge).st.offset
              < (load (gone_to (built [97, 98, 97]) eptr.rootedge) v).len) →
        ∃ b g1, charstep (strip_eol [97, 98, 97]) 98 (gone_to (built [97, 98, 97]) eptr.rootedge)
            = Except.ok (b, g1) ∧
          g1.rootedge = (gone_to (built [97, 98, 97]) eptr.rootedge).rootedge ∧
          g1.edges = (gone_to (built [97, 98, 97]) eptr.rootedge).edges ∧
          g1.edges_size = (gone_to (built [97, 98, 97]) eptr.rootedge).edges_size ∧
          g1.edges_capacity = (gone_to (built [97, 98, 97]) eptr.rootedge).edges_capacity ∧
          (b = true ↔ InTree (strip_eol [97, 98, 97])
            (gone_to (built [97, 98, 97]) eptr.rootedge) pl ([] ++ [98])) ∧
          (b = true → At (strip_eol [97, 98, 97]) g1 pl ([] ++ [98])) ∧
          (b = false → g1.st = (gone_to (built [97, 98, 97]) eptr.rootedge).st)) ∧
      (¬ (FIRST_SYMBOL ≤ 98 ∧ (98 : Int) < FIRST_SYMBOL + NUM_SYMBOLS) →
        (∃ v, (gone_to (built [97, 98, 97]) eptr.rootedge).st.edge = some v ∧
          (gone_to (built [97, 98, 97]) eptr.rootedge).st.offset
            ≥ (load (gone_to (built [97, 98, 97]) eptr.rootedge) v).len) →
        charstep (strip_eol [97, 98, 97]) 98 (gone_to (built [97, 98, 97]) eptr.rootedge)
            = Except.error Err.symbol ∧
          ¬ InTree (strip_eol [97, 98, 97])
            (gone_to (built [97, 98, 97]) eptr.rootedge) pl ([] ++ [98])) := by
  obtain ⟨pl, v, k, F⟩ := final_of_construct (built_ok [97, 98, 97] (by unfold lowercase; decide))
  have hg := same_heap_go (built [97, 98, 97]) eptr.rootedge
  have hat := at_go_to_node F.tree eptr.rootedge (valid_root _)
  rw [F.tree.root_pl] at hat
  exact ⟨pl, k, hg.tree_h F.tree, hat,
    charstep_contract _ _ pl k [] (hg.tree_h F.tree) hat 98⟩

/-- C19 (the tree contains nothing but substrings). In every state reached
during the construction of a text (between two calls of `state_transition`,
and when the loop has ended), every string that can be walked from the root
with `charstep`, each call returning 1, is a substring of the text; and in a
state in which the build loop has ended the strings that can be walked this
way are exactly the substrings of the text. -/
theorem only_substrings (text : List Int) (garbage : Nat → edge) (g g1 : globals)
    (hr : Reached text (some garbage) g g1) :
    (∀ t g2, walk text t g1 = Except.ok (true, g2) → t <:+: text) ∧
      ((∃ g0 fuel, construct_init text (some garbage) g = Except.ok g0 ∧
          build_loop text fuel g0 = Except.ok g1) →
        ∀ t, (∃ g2, walk text t g1 = Except.ok (true, g2)) ↔ t <:+: text) := by
  have h1 : ∀ t g2, walk text t g1 = Except.ok (true, g2) → t <:+: text := by
    intro t g2 hw
    obtain ⟨pl, i, T⟩ := reached_tree hr
    exact in_tree_infix T t (walk_true T t hw)
  refine ⟨h1, ?_⟩
  rintro ⟨g0, fuel, h0, hb⟩ t
  constructor
  · rintro ⟨g2, hw⟩
    exact h1 t g2 hw
  · intro ht
    obtain ⟨g0', h0', L0⟩ := construct_init_spec text garbage g
    rw [h0] at h0'
    cases h0'
    obtain ⟨pl, v, k, F⟩ := build_loop_final fuel g0 _ _ 0 0 L0 hb
    obtain ⟨r, hr1, hb1, _⟩ := (walk_spec F.tree t (final_infix_in_tree F t ht)
      (infix_mem _ t ht)).of_lowercase (final_lowercase F)
    obtain ⟨b, g2⟩ := r
    simp only at hb1
    subst hb1
    exact ⟨g2, hr1⟩

theorem only_substrings_witness :
    Reached (strip_eol [97, 98, 97]) (some (fun _ => zero_edge)) blank (built [97, 98, 97]) ∧
      (∀ t g2, walk (strip_eol [97, 98, 97]) t (built [97, 98, 97]) = Except.ok (true, g2) →
        t <:+: strip_eol [97, 98, 97]) ∧
      ((∃ g0 fuel, construct_init (strip_eol [97, 98, 97]) (some (fun _ => zero_edge)) blank
            = Except.ok g0 ∧
          build_loop (strip_eol [97, 98, 97]) fuel g0 = Except.ok (built [97, 98, 97])) →
        ∀ t, (∃ g2, walk (strip_eol [97, 98, 97]) t (built [97, 98, 97]) = Except.ok (true, g2)) ↔
          t <:+: strip_eol [97, 98, 97]) :=
  ⟨reached_of_construct (built_ok [97, 98, 97] (by unfold lowercase; decide)),
    only_substrings (strip_eol [97, 98, 97]) (fun _ => zero_edge) blank (built [97, 98, 97])
      (reached_of_construct (built_ok [97, 98, 97] (by unfold lowercase; decide)))⟩

end Suffixtree

namespace Suffixtree

/-! ## What the functions of the construction leave alone -/

theorem bind_eq_ok {α β : Type} {r : Except Err α} {k : α → Except Err β} {x : β}
    (h : (r >>= k) = Except.ok x) : ∃ a, r = Except.ok a ∧ k a = Except.ok x := by
  cases r with
  | error e => cases h
  | ok a => exact ⟨a, rfl, h⟩

theorem read_inv {text : List Int} {b off c : Int} (h : read text (some b) off = .ok c) :
    0 ≤ b + off ∧ b + off < text.length ∧ c = text.getD (b + off).toNat 0 := by
  unfold read at h
  simp only at h
  split_ifs at h with hr
  cases h
  exact ⟨hr.1, hr.2, rfl⟩

theorem read_none_inv {text : List Int} {off c : Int} (h : read text none off = .ok c) :
    False := by
  cases h

theorem get_symbol_inv {c sym : Int} (h : get_symbol c = .ok sym) :
    sym = c - FIRST_SYMBOL ∧ 0 ≤ sym ∧ sym < NUM_SYMBOLS := by
  unfold get_symbol at h
  simp only at h
  split_ifs at h with hr
  cases h
  exact ⟨rfl, hr.1, hr.2⟩

theorem same_heap_setst (g : globals) (e p : Option eptr) (o : Int) :
    same_heap g { g with st := { g.st with edge := e, parent := p, offset := o } } :=
  ⟨rfl, rfl, rfl, rfl, rfl, rfl⟩

/-- The comparing half of `charstep` writes the cursor position only. -/
theorem charstep_compare_frame {text : List Int} {c : Int} {g : globals} {r : Bool × globals}
    (h : charstep_compare text c g = .ok r) : same_heap g r.2 := by
  unfold charstep_compare at h
  obtain ⟨e, _, h⟩ := bind_eq_ok h
  obtain ⟨x, _, h⟩ := bind_eq_ok h
  split_ifs at h
  · cases h
    exact same_heap.refl g
  · cases h
    exact ⟨rfl, rfl, rfl, rfl, rfl, rfl⟩

/-- `charstep` writes the cursor position only. -/
theorem charstep_frame {text : List Int} {c : Int} {g : globals} {r : Bool × globals}
    (h : charstep text c g = .ok r) : same_heap g r.2 := by
  unfold charstep at h
  obtain ⟨e, _, h⟩ := bind_eq_ok h
  split_ifs at h
  · obtain ⟨sym, _, h⟩ := bind_eq_ok h
    cases hch : e.childs sym with
    | none =>
      rw [hch] at h
      cases h
      exact same_heap.refl g
    | some ch =>
      rw [hch] at h
      simp only at h
      obtain ⟨x, _, h⟩ := bind_eq_ok h
      split_ifs at h
      · exact (same_heap_setst g (some ch) g.st.edge 0).trans (charstep_compare_frame h)
  · exact charstep_compare_frame h

/-- The consuming loop writes the cursor position only and never moves the
string pointer back. -/
theorem consume_loop_frame {text : List Int} {stop : Int} :
    ∀ (k : Nat) (s : Int) (g : globals) (r : Int × globals),
      consume_loop text stop k s g = .ok r → same_heap g r.2 ∧ s ≤ r.1 := by
  intro k
  induction k with
  | zero =>
    intro s g r h
    unfold consume_loop at h
    split_ifs at h
    cases h
    exact ⟨same_heap.refl g, le_refl _⟩
  | succ k ih =>
    intro s g r h
    unfold consume_loop at h
    split_ifs at h
    · obtain ⟨c, _, h⟩ := bind_eq_ok h
      obtain ⟨r1, h1, h⟩ := bind_eq_ok h
      obtain ⟨b, g1⟩ := r1
      have hh := charstep_frame h1
      simp only at h
      cases b with
      | true =>
        simp only [if_true] at h
        obtain ⟨a1, a2⟩ := ih (s + 1) g1 r h
        exact ⟨hh.trans a1, by omega⟩
      | false =>
        simp only [Bool.false_eq_true, if_false, pure_eq] at h
        cases h
        exact ⟨hh, le_refl _⟩
    · cases h
      exact ⟨same_heap.refl g, le_refl _⟩

theorem consume_whole_string_frame {text : List Int} {s stop : Int} {g g1 : globals}
    (h : consume_whole_string text s stop g = .ok g1) : same_heap g g1 := by
  unfold consume_whole_string at h
  obtain ⟨r, h1, h⟩ := bind_eq_ok h
  obtain ⟨s1, g2⟩ := r
  simp only at h
  split_ifs at h
  cases h
  exact (consume_loop_frame _ _ _ _ h1).1

theorem go_to_node_frame {g g1 : globals} {e : Option eptr} (h : go_to_node g e = .ok g1) :
    same_heap g g1 := by
  cases e with
  | none => cases h
  | some x =>
    rw [go_to_node_eq] at h
    cases h
    exact same_heap_go g x

end Suffixtree

namespace Suffixtree

/-- What a call of `split_if_not_at_node` that returns has done, in a state
whose edge pointers are all allocated: nothing, or the split of the cursor's
edge `b` at the cursor's offset, described record by record. -/
theorem split_frame (text : List Int) (g g1 : globals) (hc : closed g)
    (h : split_if_not_at_node text g = .ok g1) :
    g1 = g ∨ ∃ b q p symA symB,
      g.st.edge = some b ∧ g.st.parent = some q ∧ (load g b).label = some p ∧
      valid g b ∧ valid g q ∧ 0 ≤ g.st.offset ∧ g.st.offset < (load g b).len ∧
      0 ≤ p ∧ p + g.st.offset < text.length ∧
      text.getD p.toNat 0 = FIRST_SYMBOL + symA ∧ 0 ≤ symA ∧ symA < NUM_SYMBOLS ∧
      text.getD (p + g.st.offset).toNat 0 = FIRST_SYMBOL + symB ∧ 0 ≤ symB ∧ symB < NUM_SYMBOLS ∧
      g.edges_size < g.edges_capacity ∧ (load g q).childs symA = some b ∧
      g1.edges_size = g.edges_size + 1 ∧ g1.edges_capacity = g.edges_capacity ∧
      g1.st = { g.st with edge := some (eptr.slot g.edges_size) } ∧
      (q ≠ b → ∀ x, load g1 x =
        if x = eptr.slot g.edges_size then
          ⟨some p, g.st.offset, none, fun j => if j = symB then some b else none⟩
        else if x = b then
          { load g b with label := some (p + g.st.offset), len := (load g b).len - g.st.offset }
        else if x = q then
          { load g q with childs := fun j =>
              if j = symA then some (eptr.slot g.edges_size) else (load g q).childs j }
        else load g x) := by
  unfold split_if_not_at_node at h
  cases he : g.st.edge with
  | none =>
    rw [he] at h
    cases h
  | some b =>
    rw [he] at h
    simp only at h
    by_cases hA : 0 ≤ g.st.offset ∧ g.st.offset ≤ (load g b).len
    swap
    · rw [if_pos hA] at h
      cases h
    rw [if_neg (not_not.mpr hA)] at h
    by_cases hB : g.st.offset ≥ (load g b).len
    · rw [if_pos hB] at h
      cases h
      exact Or.inl rfl
    rw [if_neg hB] at h
    unfold allocate_edge at h
    by_cases hcap : g.edges_size < g.edges_capacity
    swap
    · rw [if_neg hcap] at h
      cases h
    rw [if_pos hcap] at h
    have hbv : valid g b := hc.1 b he
    have hNv : ¬ valid g (eptr.slot g.edges_size) := by simp [valid]
    have hbN : b ≠ eptr.slot g.edges_size := fun e => hNv (e ▸ hbv)
    simp only [ok_bind, load_store, store_st, load_alloc, load_setst, if_true, if_neg hbN,
      if_neg (Ne.symm hbN)] at h
    cases hp : (load g b).label with
    | none =>
      rw [hp] at h
      cases h
    | some p =>
      rw [hp] at h
      simp only [Option.map_some'] at h
      obtain ⟨c, hc1, h⟩ := bind_eq_ok h
      obtain ⟨r1, r2, r3⟩ := read_inv hc1
      obtain ⟨symB, hsB, h⟩ := bind_eq_ok h
      obtain ⟨sB, sB0, sB1⟩ := get_symbol_inv hsB
      obtain ⟨c2, hc2, h⟩ := bind_eq_ok h
      obtain ⟨r4, r5, r6⟩ := read_inv hc2
      obtain ⟨symA, hsA, h⟩ := bind_eq_ok h
      obtain ⟨sA, sA0, sA1⟩ := get_symbol_inv hsA
      simp only [add_zero] at r1 r2 r3 r4 r5 r6
      cases hq : g.st.parent with
      | none =>
        rw [hq] at h
        cases h
      | some q =>
        rw [hq] at h
        have hqv : valid g q := hc.2.1 q hq
        have hqN : q ≠ eptr.slot g.edges_size := fun e => hNv (e ▸ hqv)
        simp only [if_neg hqN] at h
        by_cases hqb : q = b
        · subst hqb
          simp only [if_true] at h
          split_ifs at h with hC
          cases h
          rw [not_not] at hC
          refine Or.inr ⟨q, q, p, symA, symB, rfl, rfl, hp, hbv, hqv, hA.1, by omega, r4, r2,
            by rw [← r6, sA]; omega, sA0, sA1, by rw [← r3, sB]; omega, sB0, sB1, hcap, hC,
            ?_, ?_, ?_, fun hne => absurd rfl hne⟩
          · simp only [store_size]
          · simp only [store_capacity]
          · simp only [store_st]
            rw [hq]
        · simp only [if_neg hqb] at h
          split_ifs at h with hC
          cases h
          rw [not_not] at hC
          refine Or.inr ⟨b, q, p, symA, symB, rfl, rfl, hp, hbv, hqv, hA.1, by omega, r4, r2,
            by rw [← r6, sA]; omega, sA0, sA1, by rw [← r3, sB]; omega, sB0, sB1, hcap, hC,
            ?_, ?_, ?_, ?_⟩
          · simp only [store_size]
          · simp only [store_capacity]
          · simp only [store_st]
            rw [hq]
          · intro _ x
            simp only [load_store, load_alloc, load_setst]
            by_cases h1 : x = eptr.slot g.edges_size
            · subst h1
              simp [hqN, hbN, Ne.symm hqN, Ne.symm hbN]
              exact ⟨rfl, rfl⟩
            by_cases h2 : x = b
            · subst h2
              simp [h1, hqb, Ne.symm hqb]
            by_cases h3 : x = q
            · subst h3
              simp [h1, h2]
            simp only [if_neg h1, if_neg h2, if_neg h3]
            cases x with
            | rootedge => rfl
            | slot j =>
              have : j ≠ g.edges_size := fun e => h1 (by rw [e])
              simp [load, this]

end Suffixtree

namespace Suffixtree

/-- What a call of `insert_tail` that returns has done, in a state whose edge
pointers are all allocated: it has hung a new leaf with the label
`[st.tail, string_end)` below the cursor's edge `v`, described record by
record. -/
theorem insert_frame (text : List Int) (g g1 : globals) (hc : closed g)
    (h : insert_tail text g = .ok g1) :
    ∃ v sym, g.st.edge = some v ∧ valid g v ∧ 0 ≤ g.st.tail ∧ g.st.tail < text.length ∧
      text.getD g.st.tail.toNat 0 = FIRST_SYMBOL + sym ∧ 0 ≤ sym ∧ sym < NUM_SYMBOLS ∧
      g.st.offset = (load g v).len ∧ (load g v).childs sym = none ∧
      g.edges_size < g.edges_capacity ∧
      g1.edges_size = g.edges_size + 1 ∧ g1.edges_capacity = g.edges_capacity ∧ g1.st = g.st ∧
      ∀ x, load g1 x =
        if x = eptr.slot g.edges_size then
          ⟨some g.st.tail, text.length - g.st.tail, none, fun _ => none⟩
        else if x = v then
          { load g v with childs := fun j =>
              if j = sym then some (eptr.slot g.edges_size) else (load g v).childs j }
        else load g x := by
  unfold insert_tail allocate_edge at h
  by_cases hcap : g.edges_size < g.edges_capacity
  swap
  · rw [if_neg hcap] at h
    cases h
  rw [if_pos hcap] at h
  simp only [ok_bind, load_store, store_st, load_alloc, load_setst, if_true] at h
  obtain ⟨c, hc1, h⟩ := bind_eq_ok h
  obtain ⟨r1, r2, r3⟩ := read_inv hc1
  obtain ⟨sym, hs, h⟩ := bind_eq_ok h
  obtain ⟨s1, s2, s3⟩ := get_symbol_inv hs
  simp only [add_zero] at r1 r2 r3
  cases he : g.st.edge with
  | none =>
    rw [he] at h
    cases h
  | some v =>
    rw [he] at h
    have hv : valid g v := hc.1 v he
    have hNv : ¬ valid g (eptr.slot g.edges_size) := by simp [valid]
    have hvN : v ≠ eptr.slot g.edges_size := fun e => hNv (e ▸ hv)
    simp only [if_neg hvN] at h
    split_ifs at h with hA hB
    cases h
    rw [not_not] at hA hB
    refine ⟨v, sym, rfl, hv, r1, r2, by rw [← r3, s1]; omega, s2, s3, hA, hB, hcap,
      ?_, ?_, ?_, ?_⟩
    · simp only [store_size]
    · simp only [store_capacity]
    · simp only [store_st]
    · intro x
      simp only [load_store, load_alloc, load_setst]
      by_cases h1 : x = eptr.slot g.edges_size
      · subst h1
        simp [Ne.symm hvN]
        exact ⟨rfl, rfl⟩
      by_cases h2 : x = v
      · subst h2
        simp [h1]
      cases x with
      | rootedge => simp [h2, load]
      | slot j =>
        have : j ≠ g.edges_size := fun e => h1 (by rw [e])
        simp [load, this, h2]

end Suffixtree

namespace Suffixtree

/-! ## Leaf counts and the order of labels along the tree -/

theorem same_shape.refl_sh (g : globals) : same_shape g g := ⟨rfl, fun _ => ⟨rfl, rfl, rfl⟩⟩

theorem same_shape.trans_sh {g g1 g2 : globals} (a : same_shape g g1) (b : same_shape g1 g2) :
    same_shape g g2 :=
  ⟨b.1.trans a.1, fun x => ⟨(b.2 x).1.trans (a.2 x).1, (b.2 x).2.1.trans (a.2 x).2.1,
    (b.2 x).2.2.trans (a.2 x).2.2⟩⟩

theorem same_heap.shape {g g1 : globals} (h : same_heap g g1) : same_shape g g1 :=
  ⟨h.2.2.1, fun x => by rw [h.load_h]; exact ⟨rfl, rfl, rfl⟩⟩

theorem same_shape_set_link (g : globals) (v : eptr) (o : Option eptr) :
    same_shape g (store g v { load g v with link := o }) := by
  refine ⟨store_size _ _ _, ?_⟩
  intro x
  rw [load_store]
  by_cases e : x = v
  · rw [if_pos e, e]
    exact ⟨rfl, rfl, rfl⟩
  · rw [if_neg e]
    exact ⟨rfl, rfl, rfl⟩

theorem same_shape_setst (g : globals) (s : state) : same_shape g { g with st := s } :=
  ⟨rfl, fun x => by rw [load_setst]; exact ⟨rfl, rfl, rfl⟩⟩

theorem same_shape.valid_sh {g g1 : globals} (h : same_shape g g1) (x : eptr) :
    valid g1 x ↔ valid g x :=
  valid_congr g g1 h.1 x

theorem same_shape.ordered {g g1 : globals} (h : same_shape g g1) (ho : Ordered g) :
    Ordered g1 := by
  refine ⟨?_, ?_⟩
  · have := (h.2 eptr.rootedge).1
    exact this.trans ho.1
  · intro q hq sym c hch
    rw [(h.2 q).2.2] at hch
    obtain ⟨pc, hpc, hrest⟩ := ho.2 q ((h.valid_sh q).1 hq) sym c hch
    refine ⟨pc, by rw [(h.2 c).1]; exact hpc, ?_⟩
    intro hqr
    obtain ⟨pq, hpq, hle⟩ := hrest hqr
    exact ⟨pq, by rw [(h.2 q).1]; exact hpq, by rw [(h.2 q).2.1]; exact hle⟩

theorem leaf_count_congr (g g1 : globals) (hs : g1.edges_size = g.edges_size)
    (h : ∀ j, j < g.edges_size → is_leaf (g1.edges j) = is_leaf (g.edges j)) :
    leaf_count g1 = leaf_count g := by
  unfold leaf_count
  rw [hs]
  congr 1
  apply List.filter_congr
  intro j hj
  exact h j (List.mem_range.mp hj)

theorem leaf_count_succ (g g1 : globals) (hs : g1.edges_size = g.edges_size + 1)
    (h : ∀ j, j < g.edges_size → is_leaf (g1.edges j) = is_leaf (g.edges j)) :
    leaf_count g1 = leaf_count g + (if is_leaf (g1.edges g.edges_size) then 1 else 0) := by
  unfold leaf_count
  rw [hs, List.range_succ, List.filter_append, List.length_append]
  congr 1
  · congr 1
    apply List.filter_congr
    intro j hj
    exact h j (List.mem_range.mp hj)
  · by_cases hl : is_leaf (g1.edges g.edges_size) = true
    · simp [hl]
    · simp [hl]

theorem is_leaf_congr {e e1 : edge} (h : ∀ s, e1.childs s = none ↔ e.childs s = none) :
    is_leaf e1 = is_leaf e := by
  unfold is_leaf
  rw [Bool.eq_iff_iff, List.all_eq_true, List.all_eq_true]
  constructor
  · intro h1 j hj
    have := h1 j hj
    rw [Option.isNone_iff_eq_none] at this ⊢
    exact (h _).1 this
  · intro h1 j hj
    have := h1 j hj
    rw [Option.isNone_iff_eq_none] at this ⊢
    exact (h _).2 this

theorem same_shape.leaf_count_sh {g g1 : globals} (h : same_shape g g1) :
    leaf_count g1 = leaf_count g := by
  apply leaf_count_congr g g1 h.1
  intro j _
  have := (h.2 (eptr.slot j)).2.2
  have e : (g1.edges j).childs = (g.edges j).childs := this
  apply is_leaf_congr
  intro s
  rw [e]

theorem is_leaf_false (e : edge) (sym : Int) (c : eptr) (h0 : 0 ≤ sym) (h1 : sym < NUM_SYMBOLS)
    (h : e.childs sym = some c) : is_leaf e = false := by
  cases hl : is_leaf e with
  | false => rfl
  | true =>
    unfold is_leaf at hl
    rw [List.all_eq_true] at hl
    have := hl sym.toNat (List.mem_range.mpr (by unfold NUM_SYMBOLS at h1; omega))
    rw [Int.toNat_of_nonneg h0, h] at this
    simp at this

theorem is_leaf_true (e : edge) (h : ∀ s, e.childs s = none) : is_leaf e = true := by
  unfold is_leaf
  rw [List.all_eq_true]
  intro j _
  rw [h]
  rfl

end Suffixtree

namespace Suffixtree

/-! ## Splits and insertions without the tree invariant -/

theorem not_valid_top (g : globals) : ¬ valid g (eptr.slot g.edges_size) :=
  Nat.lt_irrefl _

theorem ne_top_of_valid {g : globals} {x : eptr} (h : valid g x) : x ≠ eptr.slot g.edges_size := by
  intro e
  rw [e] at h
  exact not_valid_top g h

theorem valid_succ {g g1 : globals} (h : g1.edges_size = g.edges_size + 1) (x : eptr) :
    valid g1 x ↔ (x = eptr.slot g.edges_size ∨ valid g x) := by
  cases x with
  | rootedge => exact ⟨fun _ => Or.inr trivial, fun _ => trivial⟩
  | slot j =>
    show j < g1.edges_size ↔ (eptr.slot j = eptr.slot g.edges_size ∨ j < g.edges_size)
    rw [h]
    constructor
    · intro hj
      by_cases e : j = g.edges_size
      · exact Or.inl (by rw [e])
      · exact Or.inr (by omega)
    · rintro (e | e)
      · cases e
        omega
      · omega

theorem Quiet.refl_q (g : globals) : Quiet g g :=
  ⟨le_refl _, rfl, rfl, fun _ _ => rfl, fun j h1 h2 => absurd h2 (by omega)⟩

theorem Quiet.trans_q {g g1 g2 : globals} (a : Quiet g g1) (b : Quiet g1 g2) : Quiet g g2 := by
  refine ⟨le_trans a.size b.size, b.cap.trans a.cap, b.suffix.trans a.suffix, ?_, ?_⟩
  · intro j hj
    rw [b.old_leaf j (lt_of_lt_of_le hj a.size)]
    exact a.old_leaf j hj
  · intro j h1 h2
    by_cases hj : j < g1.edges_size
    · rw [b.old_leaf j hj]
      exact a.new_leaf j h1 hj
    · exact b.new_leaf j (by omega) h2

theorem same_shape.quiet {g g1 : globals} (h : same_shape g g1)
    (hc : g1.edges_capacity = g.edges_capacity) (hs : g1.st.suffix = g.st.suffix) :
    Quiet g g1 := by
  refine ⟨le_of_eq h.1.symm, hc, hs, ?_, ?_⟩
  · intro j _
    have e : (g1.edges j).childs = (g.edges j).childs := (h.2 (eptr.slot j)).2.2
    apply is_leaf_congr
    intro s
    rw [e]
  · intro j h1 h2
    rw [h.1] at h2
    omega

theorem filter_length_grow (f f1 : Nat → Bool) (m : Nat) :
    ∀ n, m ≤ n → (∀ j, j < m → f1 j = f j) → (∀ j, m ≤ j → j < n → f1 j = false) →
      ((List.range n).filter f1).length = ((List.range m).filter f).length := by
  intro n hmn
  induction n, hmn using Nat.le_induction with
  | base =>
    intro h1 _
    congr 1
    apply List.filter_congr
    intro j hj
    exact h1 j (List.mem_range.mp hj)
  | succ n hn ih =>
    intro h1 h2
    rw [List.range_succ, List.filter_append, List.length_append,
      ih h1 (fun j a b => h2 j a (by omega))]
    have := h2 n hn (by omega)
    simp [this]

theorem Quiet.leaf_count_q {g g1 : globals} (h : Quiet g g1) : leaf_count g1 = leaf_count g := by
  unfold leaf_count
  exact filter_length_grow _ _ _ _ h.size h.old_leaf h.new_leaf

/-- A split keeps the order of the labels along the tree. -/
theorem split_made.ordered_sm {g g1 : globals} (hc : closed g) (ho : Ordered g)
    (h : split_made g g1) : Ordered g1 := by
  obtain ⟨hsz, _, b, q, p, k, sa, sb, hvb, hvq, hqb, hlab, hk0, hk1, _, _, hchq, htop, hb1, hb2,
    hb3, hq1, hq2, hq3, hrest⟩ := h
  have hbr : b ≠ eptr.rootedge := by
    intro e
    rw [e] at hlab
    have := ho.1
    rw [show (load g eptr.rootedge).label = g.rootedge.label from rfl, this] at hlab
    cases hlab
  have lab1 : ∀ x, valid g x → x ≠ b →
      (load g1 x).label = (load g x).label ∧ (load g1 x).len = (load g x).len := by
    intro x hx hxb
    by_cases hxq : x = q
    · rw [hxq]
      exact ⟨hq1, hq2⟩
    · exact ⟨(hrest x (ne_top_of_valid hx) hxb hxq).1, (hrest x (ne_top_of_valid hx) hxb hxq).2.1⟩
  -- an old edge other than `b` with an old child
  have old : ∀ x sym c, valid g x → x ≠ b → (load g x).childs sym = some c →
      ∃ pc, (load g1 c).label = some pc ∧
        (x ≠ eptr.rootedge → ∃ pq, (load g1 x).label = some pq ∧ pq + (load g1 x).len ≤ pc) := by
    intro x sym c hx hxb hch
    obtain ⟨pc, hpc, hle⟩ := ho.2 x hx sym c hch
    have hvc : valid g c := (hc.2.2 x hx).2 sym c hch
    rw [(lab1 x hx hxb).1, (lab1 x hx hxb).2]
    by_cases hcb : c = b
    · rw [hcb] at hpc ⊢
      rw [hlab] at hpc
      cases hpc
      refine ⟨p + k, hb1, fun hxr => ?_⟩
      obtain ⟨pq, hpq, hl⟩ := hle hxr
      exact ⟨pq, hpq, by omega⟩
    · exact ⟨pc, by rw [(lab1 c hvc hcb).1]; exact hpc, hle⟩
  refine ⟨?_, ?_⟩
  · have := (lab1 eptr.rootedge trivial (Ne.symm hbr)).1
    exact this.trans ho.1
  · intro x hx sym c hch
    rcases (valid_succ hsz x).1 hx with e | hvx
    · rw [e, htop] at hch
      simp only at hch
      split_ifs at hch
      cases hch
      rw [e, htop]
      exact ⟨p + k, hb1, fun _ => ⟨p, rfl, le_refl _⟩⟩
    · by_cases hxb : x = b
      · rw [hxb] at hch ⊢
        rw [hb3] at hch
        obtain ⟨pc, hpc, hle⟩ := ho.2 b hvb sym c hch
        obtain ⟨pq, hpq, hl⟩ := hle hbr
        rw [hlab] at hpq
        cases hpq
        have hvc : valid g c := (hc.2.2 b hvb).2 sym c hch
        have hcb : c ≠ b := by
          intro e
          rw [e, hlab] at hpc
          cases hpc
          omega
        refine ⟨pc, by rw [(lab1 c hvc hcb).1]; exact hpc, fun _ => ⟨p + k, hb1, ?_⟩⟩
        rw [hb2]
        omega
      · by_cases hxq : x = q
        · rw [hxq] at hch ⊢
          rw [hq3] at hch
          simp only at hch
          split_ifs at hch with hs
          · cases hch
            obtain ⟨pc, hpc, hle⟩ := ho.2 q hvq sa b hchq
            rw [hlab] at hpc
            cases hpc
            rw [htop, hq1, hq2]
            exact ⟨_, rfl, hle⟩
          · exact old q sym c hvq hqb hch
        · rw [(hrest x (ne_top_of_valid hvx) hxb hxq).2.2] at hch
          exact old x sym c hvx hxb hch

/-- A split inserts no leaf. -/
theorem split_made.quiet_sm {g g1 : globals} (h : split_made g g1)
    (hcap : g1.edges_capacity = g.edges_capacity) (hs : g1.st.suffix = g.st.suffix) :
    Quiet g g1 := by
  obtain ⟨hsz, _, b, q, p, k, sa, sb, hvb, hvq, hqb, hlab, hk0, hk1, hs0, hs1, hchq, htop, hb1,
    hb2, hb3, hq1, hq2, hq3, hrest⟩ := h
  refine ⟨by omega, hcap, hs, ?_, ?_⟩
  · intro j hj
    show is_leaf (load g1 (eptr.slot j)) = is_leaf (load g (eptr.slot j))
    have hv : valid g (eptr.slot j) := hj
    apply is_leaf_congr
    intro s
    by_cases hxb : eptr.slot j = b
    · rw [hxb, hb3]
    · by_cases hxq : eptr.slot j = q
      · rw [hxq, hq3]
        simp only
        split_ifs with e
        · rw [e, hchq]
          simp
        · rfl
      · rw [(hrest _ (ne_top_of_valid hv) hxb hxq).2.2]
  · intro j h1 h2
    have e : j = g.edges_size := by omega
    rw [e]
    show is_leaf (load g1 (eptr.slot g.edges_size)) = false
    apply is_leaf_false _ sb b hs0 hs1
    rw [htop]
    simp

/-- What a call of `split_if_not_at_node` that returns has done, in a state
whose edge pointers are all allocated and whose labels are ordered along the
tree. -/
theorem split_step (text : List Int) (g g1 : globals) (hc : closed g) (ho : Ordered g)
    (h : split_if_not_at_node text g = .ok g1) :
    closed g1 ∧ Ordered g1 ∧ Quiet g g1 ∧ g1.st.tail = g.st.tail ∧
      (g1 = g ∨ split_made g g1) := by
  have hc1 := ((split_garb text g (fun _ => zero_edge) hc).2 g1 h).1
  rcases split_frame text g g1 hc h with e | ⟨b, q, p, symA, symB, he, hq, hlab, hvb, hvq, hk0,
    hk1, hp0, hpn, hA, hA0, hA1, hB, hB0, hB1, hcap, hch, hsz, hcp, hst, hform⟩
  · subst e
    exact ⟨hc, ho, Quiet.refl_q _, rfl, Or.inl rfl⟩
  · have hbr : b ≠ eptr.rootedge := by
      intro e
      rw [e] at hlab
      have := ho.1
      rw [show (load g eptr.rootedge).label = g.rootedge.label from rfl, this] at hlab
      cases hlab
    have hqb : q ≠ b := by
      intro e
      obtain ⟨pc, hpc, hle⟩ := ho.2 q hvq symA b hch
      rw [hlab] at hpc
      cases hpc
      obtain ⟨pq, hpq, hl⟩ := hle (by rw [e]; exact hbr)
      rw [e, hlab] at hpq
      cases hpq
      rw [e] at hl
      omega
    have form := hform hqb
    have hbt := ne_top_of_valid hvb
    have hqt := ne_top_of_valid hvq
    have hsm : split_made g g1 := by
      refine ⟨hsz, by rw [hst], b, q, p, g.st.offset, symA, symB, hvb, hvq, hqb, hlab, hk0, hk1,
        hB0, hB1, hch, ?_, ?_, ?_, ?_, ?_, ?_, ?_, ?_⟩
      · rw [form, if_pos rfl]
      · rw [form, if_neg hbt, if_pos rfl]
      · rw [form, if_neg hbt, if_pos rfl]
      · rw [form, if_neg hbt, if_pos rfl]
      · rw [form, if_neg hqt, if_neg hqb, if_pos rfl]
      · rw [form, if_neg hqt, if_neg hqb, if_pos rfl]
      · rw [form, if_neg hqt, if_neg hqb, if_pos rfl]
      · intro x h1 h2 h3
        rw [form, if_neg h1, if_neg h2, if_neg h3]
        exact ⟨rfl, rfl, rfl⟩
    have hsuf : g1.st.suffix = g.st.suffix := by rw [hst]
    exact ⟨hc1, hsm.ordered_sm hc ho, hsm.quiet_sm hcp hsuf, by rw [hst],
      Or.inr hsm⟩

end Suffixtree

namespace Suffixtree

/-! ## The steps of `state_transition` without the tree invariant -/

theorem split_made.of_shape {g g1 g2 : globals} (hs : same_shape g g1) (h : split_made g1 g2) :
    split_made g g2 := by
  obtain ⟨hsz, hedge, b, q, p, k, sa, sb, hvb, hvq, hqb, hlab, hk0, hk1, hs0, hs1, hchq, htop, hb1,
    hb2, hb3, hq1, hq2, hq3, hrest⟩ := h
  rw [hs.1] at hsz hedge htop hq3 hrest
  rw [hs.valid_sh] at hvb hvq
  rw [(hs.2 b).1] at hlab
  rw [(hs.2 b).2.1] at hk1 hb2
  rw [(hs.2 b).2.2] at hb3
  rw [(hs.2 q).1] at hq1
  rw [(hs.2 q).2.1] at hq2
  rw [(hs.2 q).2.2] at hchq hq3
  refine ⟨hsz, hedge, b, q, p, k, sa, sb, hvb, hvq, hqb, hlab, hk0, hk1, hs0, hs1, hchq, htop, hb1,
    hb2, hb3, hq1, hq2, hq3, ?_⟩
  intro x h1 h2 h3
  obtain ⟨a1, a2, a3⟩ := hrest x h1 h2 h3
  exact ⟨a1.trans (hs.2 x).1, a2.trans (hs.2 x).2.1, a3.trans (hs.2 x).2.2⟩

theorem split_made.then_shape {g g1 g2 : globals} (h : split_made g g1) (hs : same_shape g1 g2)
    (he : g2.st.edge = g1.st.edge)
    (hl : (load g2 (eptr.slot g.edges_size)).link = (load g1 (eptr.slot g.edges_size)).link) :
    g2.edges_size = g.edges_size + 1 ∧ g2.st.edge = some (eptr.slot g.edges_size) ∧
      (load g2 (eptr.slot g.edges_size)).link = none := by
  obtain ⟨hsz, hedge, b, q, p, k, sa, sb, _, _, _, _, _, _, _, _, _, htop, _⟩ := h
  refine ⟨hs.1.trans hsz, he.trans hedge, ?_⟩
  rw [hl, htop]

/-- What a call of `insert_tail` that returns has done, in a state whose edge
pointers are all allocated and whose labels are ordered along the tree, when
the cursor's edge is the root or has a child and ends at or before `st.tail`. -/
theorem insert_step (text : List Int) (g g1 : globals) (hc : closed g) (ho : Ordered g)
    (h : insert_tail text g = .ok g1)
    (hpre : ∀ v, g.st.edge = some v → v ≠ eptr.rootedge →
      (∃ sym ch, 0 ≤ sym ∧ sym < NUM_SYMBOLS ∧ (load g v).childs sym = some ch) ∧
      ∃ pv, (load g v).label = some pv ∧ pv + (load g v).len ≤ g.st.tail) :
    closed g1 ∧ Ordered g1 ∧ g1.edges_size = g.edges_size + 1 ∧
      g1.edges_capacity = g.edges_capacity ∧ g1.st = g.st ∧ g.st.tail < text.length ∧
      load g1 (eptr.slot g.edges_size)
        = ⟨some g.st.tail, text.length - g.st.tail, none, fun _ => none⟩ ∧
      (∃ v, g.st.edge = some v ∧
        (load g1 v).childs (text.getD g.st.tail.toNat 0 - FIRST_SYMBOL)
          = some (eptr.slot g.edges_size)) ∧
      (∀ j, j < g.edges_size → is_leaf (g1.edges j) = is_leaf (g.edges j)) ∧
      leaf_count g1 = leaf_count g + 1 := by
  have hc1 := ((insert_tail_garb text g (fun _ => zero_edge) hc).2 g1 h).1
  obtain ⟨v, sym, he, hv, ht0, htn, hsym, hs0, hs1, hoff, hnone, hcap, hsz, hcp, hst, form⟩ :=
    insert_frame text g g1 hc h
  have hvt := ne_top_of_valid hv
  have htop : load g1 (eptr.slot g.edges_size)
      = ⟨some g.st.tail, text.length - g.st.tail, none, fun _ => none⟩ := by
    rw [form, if_pos rfl]
  have hv1 : (load g1 v).label = (load g v).label ∧ (load g1 v).len = (load g v).len ∧
      (load g1 v).childs
        = (fun j => if j = sym then some (eptr.slot g.edges_size) else (load g v).childs j) := by
    rw [form, if_neg hvt, if_pos rfl]
    exact ⟨rfl, rfl, rfl⟩
  have lab1 : ∀ x, x ≠ eptr.slot g.edges_size →
      (load g1 x).label = (load g x).label ∧ (load g1 x).len = (load g x).len := by
    intro x hx
    rw [form, if_neg hx]
    split_ifs with e
    · rw [e]
      exact ⟨rfl, rfl⟩
    · exact ⟨rfl, rfl⟩
  have old : ∀ x sym1 c, valid g x → (load g x).childs sym1 = some c →
      ∃ pc, (load g1 c).label = some pc ∧
        (x ≠ eptr.rootedge → ∃ pq, (load g1 x).label = some pq ∧ pq + (load g1 x).len ≤ pc) := by
    intro x sym1 c hx hch
    obtain ⟨pc, hpc, hle⟩ := ho.2 x hx sym1 c hch
    have hvc : valid g c := (hc.2.2 x hx).2 sym1 c hch
    rw [(lab1 x (ne_top_of_valid hx)).1, (lab1 x (ne_top_of_valid hx)).2,
      (lab1 c (ne_top_of_valid hvc)).1]
    exact ⟨pc, hpc, hle⟩
  have hord : Ordered g1 := by
    refine ⟨?_, ?_⟩
    · have := (lab1 eptr.rootedge (ne_top_of_valid (valid_root g))).1
      exact this.trans ho.1
    · intro x hx sym1 c hch
      rcases (valid_succ hsz x).1 hx with e | hvx
      · rw [e, htop] at hch
        cases hch
      · by_cases hxv : x = v
        · rw [hxv] at hch ⊢
          rw [hv1.2.2] at hch
          simp only at hch
          split_ifs at hch with hs
          · cases hch
            refine ⟨g.st.tail, by rw [htop], fun hvr => ?_⟩
            obtain ⟨_, pv, hpv, hle⟩ := hpre v he hvr
            rw [(lab1 v hvt).1, (lab1 v hvt).2]
            exact ⟨pv, hpv, hle⟩
          · exact old v sym1 c hv hch
        · rw [form, if_neg (ne_top_of_valid hvx), if_neg hxv] at hch
          exact old x sym1 c hvx hch
  have hold : ∀ j, j < g.edges_size → is_leaf (g1.edges j) = is_leaf (g.edges j) := by
    intro j hj
    show is_leaf (load g1 (eptr.slot j)) = is_leaf (load g (eptr.slot j))
    have hvj : valid g (eptr.slot j) := hj
    by_cases hxv : eptr.slot j = v
    · have hvr : v ≠ eptr.rootedge := by
        rw [← hxv]
        intro e
        cases e
      obtain ⟨⟨s2, ch, a0, a1, a2⟩, _⟩ := hpre v he hvr
      rw [hxv, is_leaf_false (load g v) s2 ch a0 a1 a2,
        is_leaf_false (load g1 v) sym (eptr.slot g.edges_size) hs0 hs1 (by rw [hv1.2.2]; simp)]
    · rw [form, if_neg (ne_top_of_valid hvj), if_neg hxv]
  refine ⟨hc1, hord, hsz, hcp, hst, htn, htop, ⟨v, he, ?_⟩, hold, ?_⟩
  · rw [hsym, hv1.2.2]
    simp
  · rw [leaf_count_succ g g1 hsz hold]
    have : is_leaf (g1.edges g.edges_size) = true := by
      show is_leaf (load g1 (eptr.slot g.edges_size)) = true
      apply is_leaf_true
      intro s
      rw [htop]
    rw [this]
    rfl

theorem Repositioned.of_heap {g g1 g2 : globals} (hh : same_heap g g1)
    (h : Repositioned g1 g2) : Repositioned g g2 := by
  obtain ⟨a1, a2, a3, a4, a5⟩ := h
  have hq : Quiet g g1 := hh.shape.quiet hh.2.2.2.1 hh.2.2.2.2.1
  refine ⟨a1, a2, hq.trans_q a3, a4.trans hh.2.2.2.2.2, ?_⟩
  rcases a5 with s | ⟨b1, b2, b3⟩
  · exact Or.inl (hh.shape.trans_sh s)
  · rw [hh.2.2.1] at b1 b2 b3
    exact Or.inr ⟨b1, b2, b3⟩

theorem rescan_step (text : List Int) (last : eptr) (s stop : Int) (g g4 : globals)
    (hc : closed g) (ho : Ordered g) (hl : valid g last)
    (h : rescan text last s stop g = .ok g4) : Repositioned g g4 := by
  have hc4 := ((rescan_garb text last s stop g (fun _ => zero_edge) hc hl).2 g4 h).1
  unfold rescan at h
  obtain ⟨g2, h1, h⟩ := bind_eq_ok h
  obtain ⟨g3, h2, h⟩ := bind_eq_ok h
  cases h
  have hh := consume_whole_string_frame h1
  have hc2 := ((consume_whole_string_garb text s stop g (fun _ => zero_edge) hc).2 g2 h1).1
  obtain ⟨hc3, ho3, hq3, ht3, hsp⟩ := split_step text g2 g3 hc2 (hh.shape.ordered ho) h2
  have hs4 := same_shape_set_link g3 last g3.st.edge
  apply Repositioned.of_heap hh
  refine ⟨hc4, hs4.ordered ho3, hq3.trans_q (hs4.quiet (store_capacity _ _ _) (by rw [store_st])),
    by rw [store_st]; exact ht3, ?_⟩
  rcases hsp with e | hsm
  · rw [e]
    rw [e] at hs4
    exact Or.inl hs4
  · right
    apply hsm.then_shape hs4 (by rw [store_st])
    rw [load_store, if_neg]
    intro e
    rw [← e, ← hh.valid_h] at hl
    exact not_valid_top g2 hl

theorem reposition_step (text : List Int) (g g1 : globals) (hc : closed g) (ho : Ordered g)
    (h : reposition text g = .ok g1) : Repositioned g g1 := by
  unfold reposition at h
  cases he : g.st.edge with
  | none =>
    rw [he] at h
    cases h
  | some last =>
    rw [he] at h
    simp only at h
    have hl : valid g last := hc.1 last he
    by_cases hr : last = eptr.rootedge
    · rw [if_pos hr] at h
      split_ifs at h
      cases h
      exact ⟨hc, ho, Quiet.refl_q _, rfl, Or.inl (same_shape.refl_sh _)⟩
    · rw [if_neg hr] at h
      by_cases h1 : (load g last).link = none ∧ g.st.parent = some eptr.rootedge
      · rw [if_pos h1] at h
        obtain ⟨g2, hg, h⟩ := bind_eq_ok h
        have hh := go_to_node_frame hg
        have hc2 := ((go_to_node_garb g (fun _ => zero_edge) (some eptr.rootedge) hc
          ((okp_some g _).2 (valid_root g))).2 g2 hg).1
        have hl2 : valid g2 last := by rw [hh.valid_h]; exact hl
        cases hp : (load g2 last).label with
        | none =>
          rw [hp] at h
          cases h
        | some p =>
          rw [hp] at h
          exact Repositioned.of_heap hh
            (rescan_step text last _ _ g2 g1 hc2 (hh.shape.ordered ho) hl2 h)
      · rw [if_neg h1] at h
        by_cases h2 : (load g last).link = none ∧ g.st.parent ≠ some eptr.rootedge
        · rw [if_pos h2] at h
          obtain ⟨q, hq, h⟩ := bind_eq_ok h
          obtain ⟨g2, hg, h⟩ := bind_eq_ok h
          have hqv : okp g q.link := by
            cases hpar : g.st.parent with
            | none =>
              rw [hpar] at hq
              cases hq
            | some qq =>
              rw [hpar] at hq
              cases hq
              exact (hc.2.2 qq (hc.2.1 qq hpar)).1
          have hh := go_to_node_frame hg
          have hc2 := ((go_to_node_garb g (fun _ => zero_edge) q.link hc hqv).2 g2 hg).1
          have hl2 : valid g2 last := by rw [hh.valid_h]; exact hl
          cases hp : (load g2 last).label with
          | none =>
            rw [hp] at h
            cases h
          | some p =>
            rw [hp] at h
            exact Repositioned.of_heap hh
              (rescan_step text last _ _ g2 g1 hc2 (hh.shape.ordered ho) hl2 h)
        · rw [if_neg h2] at h
          by_cases h3 : (load g last).link ≠ none
          · rw [if_pos h3] at h
            have hh := go_to_node_frame h
            have hc2 := ((go_to_node_garb g (fun _ => zero_edge) (load g last).link hc
              (hc.2.2 last hl).1).2 g1 h).1
            exact ⟨hc2, hh.shape.ordered ho, hh.shape.quiet hh.2.2.2.1 hh.2.2.2.2.1,
              hh.2.2.2.2.2, Or.inl hh.shape⟩
          · rw [if_neg h3] at h
            cases h

/-- What the second half of `state_transition` has done when it returns: the
tail has been consumed up to `g3.st.tail` and the edge reached has been split
if the tail ended inside it, which gives the state `g3`; then the rest of the
tail has been inserted unless it is empty. -/
theorem extend_step (text : List Int) (g : globals) (r : Bool × globals) (hc : closed g)
    (ho : Ordered g) (h : extend text g = .ok r) :
    ∃ g3 gc, consume_string text g.st.tail g = .ok (g3.st.tail, gc) ∧
      closed g3 ∧ Ordered g3 ∧ Quiet g g3 ∧ g.st.tail ≤ g3.st.tail ∧
      (same_shape g g3 ∨ split_made g g3) ∧
      ((g3.st.tail = text.length ∧ r = (false, g3)) ∨
       (g3.st.tail ≠ text.length ∧ ∃ g4, insert_tail text g3 = .ok g4 ∧
          r = (true, { g4 with st := { g4.st with suffix := g4.st.suffix + 1 } }))) := by
  unfold extend at h
  obtain ⟨⟨t, gc⟩, h1, h⟩ := bind_eq_ok h
  simp only at h
  obtain ⟨g3, h2, h⟩ := bind_eq_ok h
  obtain ⟨hh, hle⟩ := consume_loop_frame _ _ _ _ h1
  simp only at hh hle
  have hcc := ((consume_string_garb text g.st.tail g (fun _ => zero_edge) hc).2 _ h1).1
  simp only at hcc
  have hs2 : same_shape g { gc with st := { gc.st with tail := t } } :=
    hh.shape.trans_sh (same_shape_setst gc _)
  have hc2 : closed { gc with st := { gc.st with tail := t } } :=
    closed_setst gc _ hcc hcc.1 hcc.2.1
  obtain ⟨hc3, ho3, hq3, ht3, hsp⟩ := split_step text _ g3 hc2 (hs2.ordered ho) h2
  have ht : g3.st.tail = t := ht3
  have hq : Quiet g g3 := (hs2.quiet hh.2.2.2.1 hh.2.2.2.2.1).trans_q hq3
  refine ⟨g3, gc, by rw [ht]; exact h1, hc3, ho3, hq, by rw [ht]; exact hle, ?_, ?_⟩
  · rcases hsp with e | hsm
    · rw [e]
      exact Or.inl hs2
    · exact Or.inr (hsm.of_shape hs2)
  · by_cases hend : g3.st.tail = text.length
    · rw [if_pos hend] at h
      cases h
      exact Or.inl ⟨hend, rfl⟩
    · rw [if_neg hend] at h
      obtain ⟨g4, h4, h⟩ := bind_eq_ok h
      cases h
      exact Or.inr ⟨hend, g4, h4, rfl⟩

end Suffixtree

namespace Suffixtree

/-! ## One call of `state_transition`, seen from outside -/

/-- After a repositioning that has split an edge, `consume_string` stops at
once: the only child of the new edge does not start with `text[st.tail]`. -/
theorem fresh_stops {text : List Int} {g gc : globals} {pl : eptr → List Int} {v : eptr}
    {i t t1 : Int} (M : MidInv text g pl v i t) (hvr : v ≠ eptr.rootedge)
    (hlk : (load g v).link = none) (h : consume_string text g.st.tail g = .ok (t1, gc)) :
    t1 = t := by
  have hi0 := M.suf0
  have hit := M.suft
  have htn := M.tailn
  have hat : At text g pl (pl v) := by
    refine ⟨v, M.edge, ?_, ?_⟩
    · rw [M.off]
      exact spells_node M.tree v M.val
    · intro h
      have := M.off
      omega
  obtain ⟨a1, a2, hh, hat1, _, _⟩ := (consume_string_spec M.tree hat g.st.tail
    (by rw [M.tl]; omega) (by rw [M.tl]; omega)).of_ok h
  simp only at a1 a2 hh hat1
  rw [M.tl] at a1 hat1
  have hsw := seg_split text i (t - i) (t1 - i) hi0 (by omega) (by omega)
  rw [show i + (t - i) = t by omega, show t1 - i - (t - i) = t1 - t by omega] at hsw
  rw [M.word, ← hsw] at hat1
  have hin : InTree text g pl (seg text i (t1 - i)) := by
    obtain ⟨x, _, hsx, _⟩ := hat1
    exact hh.intree_h.1 ⟨x, _, hsx⟩
  by_contra hne
  obtain ⟨_, _, hall⟩ := M.fresh hvr hlk
  have hc := seg_cons text t (t1 - t) (by omega) M.tailn (by omega)
  rw [hsw, hc, ← M.word] at hin
  have h1 : pl v ++ text.getD t.toNat 0 :: seg text (t + 1) (t1 - t - 1)
      = (pl v ++ [text.getD t.toNat 0]) ++ seg text (t + 1) (t1 - t - 1) := by simp
  rw [h1] at hin
  have h2 := InTree.init M.tree _ _ hin
  rw [show text.getD t.toNat 0 = FIRST_SYMBOL + (text.getD t.toNat 0 - FIRST_SYMBOL) by omega]
    at h2
  obtain ⟨ch, hch⟩ := (spells_child M.tree (spells_node M.tree v M.val) _).1 h2
  exact hall _ ch hch (by omega)

/-- The state after the first statement of `state_transition`,
`if (st.tail < st.suffix) st.tail = st.suffix;`. -/
theorem clamp_facts {g g0 : globals} (hc : closed g) (ho : Ordered g)
    (e : (if g.st.tail < g.st.suffix then
      ({ g with st := { g.st with tail := g.st.suffix } } : globals) else g) = g0) :
    closed g0 ∧ Ordered g0 ∧ same_shape g g0 ∧ g0.edges_capacity = g.edges_capacity ∧
      g0.st.suffix = g.st.suffix ∧ g.st.tail ≤ g0.st.tail ∧ g.st.suffix ≤ g0.st.tail ∧
      (g.st.suffix ≤ g.st.tail → g0.st.tail = g.st.tail) := by
  by_cases h : g.st.tail < g.st.suffix
  · rw [if_pos h] at e
    subst e
    have hs := same_shape_setst g { g.st with tail := g.st.suffix }
    refine ⟨closed_setst g _ hc hc.1 hc.2.1, hs.ordered ho, hs, rfl, rfl, ?_, ?_, ?_⟩
    · show g.st.tail ≤ g.st.suffix
      omega
    · exact le_refl _
    · intro h1
      omega
  · rw [if_neg h] at e
    subst e
    exact ⟨hc, ho, same_shape.refl_sh _, rfl, rfl, le_refl _, by omega, fun _ => rfl⟩

/-- A call of `state_transition` that returns 1, between two calls of which
the invariant holds. -/
theorem transition_true {text : List Int} {g g1 : globals} {pl : eptr → List Int} {v : eptr}
    {i t : Int} (L : LoopInv text g pl v i t) (hc : closed g) (ho : Ordered g)
    (h : state_transition text g = .ok (true, g1)) :
    closed g1 ∧ Ordered g1 ∧ g1.st.suffix = g.st.suffix + 1 ∧ g1.st.tail ≠ text.length ∧
      g.st.tail ≤ g1.st.tail ∧ g.st.suffix ≤ g1.st.tail ∧ g.edges_size < g1.edges_size ∧
      (∀ j, j < g.edges_size → is_leaf (g1.edges j) = is_leaf (g.edges j)) ∧
      (∀ j, g.edges_size ≤ j → j + 1 < g1.edges_size → is_leaf (g1.edges j) = false) ∧
      leaf_count g1 = leaf_count g + 1 ∧
      load g1 (eptr.slot (g1.edges_size - 1))
        = ⟨some g1.st.tail, text.length - g1.st.tail, none, fun _ => none⟩ ∧
      ∃ u, g1.st.edge = some u ∧
        (load g1 u).childs (text.getD g1.st.tail.toNat 0 - FIRST_SYMBOL)
          = some (eptr.slot (g1.edges_size - 1)) := by
  have hspec := (state_transition_spec L).of_ok h
  rcases hspec with ⟨_, pl1, v1, t1, L1⟩ | ⟨hb, _⟩
  swap
  · cases hb
  simp only at L1
  unfold state_transition at h
  simp only at h
  generalize hg0 : (if g.st.tail < g.st.suffix then
    ({ g with st := { g.st with tail := g.st.suffix } } : globals) else g) = g0 at h
  obtain ⟨hc0, ho0, hs0, hcap0, hsuf0, ht0, ht0', _⟩ := clamp_facts hc ho hg0
  by_cases hend : g0.st.tail = text.length
  · rw [if_pos hend] at h
    cases h
  rw [if_neg hend] at h
  obtain ⟨gm, hrep, hext⟩ := bind_eq_ok h
  obtain ⟨hcm, hom, hqm, htm, _⟩ := reposition_step text g0 gm hc0 ho0 hrep
  obtain ⟨g3, gc, _, hc3, ho3, hq3, hle3, _, hfin⟩ := extend_step text gm _ hcm hom hext
  rcases hfin with ⟨_, e⟩ | ⟨hne, g4, hins, e⟩
  · cases e
  have e2 := (Prod.mk.inj e).2
  subst e2
  obtain ⟨u, sym, he, hu, _, htn, hsym, hsy0, hsy1, _, _, _, hsz, _, hst, form⟩ :=
    insert_frame text g3 g4 hc3 hins
  have hut := ne_top_of_valid hu
  have hq : Quiet g g3 := (hs0.quiet hcap0 hsuf0).trans_q (hqm.trans_q hq3)
  -- the cursor's edge after the call is the edge the leaf hangs from
  have hv1 : v1 = u := by
    have h1 := L1.edge
    have h2 : g4.st.edge = some v1 := h1
    rw [hst, he] at h2
    exact (Option.some.inj h2).symm
  have ht1 : t1 = g3.st.tail := by
    have h1 := L1.tl
    have h2 : g4.st.tail = t1 := h1
    rw [hst] at h2
    exact h2.symm
  have hl1 : ∀ x, load { g4 with st := { g4.st with suffix := g4.st.suffix + 1 } } x
      = load g4 x := fun x => load_setst g4 _ x
  have hpre : ∀ w, g3.st.edge = some w → w ≠ eptr.rootedge →
      (∃ s ch, 0 ≤ s ∧ s < NUM_SYMBOLS ∧ (load g3 w).childs s = some ch) ∧
      ∃ pv, (load g3 w).label = some pv ∧ pv + (load g3 w).len ≤ g3.st.tail := by
    intro w hw hwr
    rw [he] at hw
    have hwu : u = w := Option.some.inj hw
    subst hwu
    subst hv1
    obtain ⟨d1, d2, d3, d4, s, ch, d5, d6⟩ := L1.deep hwr
    obtain ⟨_, _, c1, c2, _⟩ := L1.tree.child v1 s ch L1.val d5
    rw [hl1, form, if_neg hut, if_pos rfl] at d5
    simp only at d5
    have hss : s ≠ sym := by
      intro e
      rw [e, ht1, hsym] at d6
      exact d6 rfl
    rw [if_neg hss] at d5
    refine ⟨⟨s, ch, c1, c2, d5⟩, ?_⟩
    obtain ⟨p, b1, b2, b3, b4⟩ := L1.tree.lab v1 L1.val hwr
    obtain ⟨o1, o2, _⟩ := L1.tree.occ v1 p L1.val hwr b1
    have hlen := seg_len text (i + 1 - 1) (t1 - (i + 1) + 1) (by omega) (by omega) (by omega)
    rw [← d4] at hlen
    rw [hlen] at o2
    rw [hl1, form, if_neg hut, if_pos rfl] at b1 o2
    simp only at b1 o2
    exact ⟨p, b1, by omega⟩
  obtain ⟨hc4, ho4, _, _, _, _, htop, ⟨u1, hu1, hhang⟩, hold, hcount⟩ :=
    insert_step text g3 g4 hc3 ho3 hins hpre
  refine ⟨closed_setst g4 _ hc4 hc4.1 hc4.2.1, (same_shape_setst g4 _).ordered ho4, ?_, ?_, ?_, ?_,
    ?_, ?_, ?_, ?_, ?_, ?_⟩
  · show g4.st.suffix + 1 = g.st.suffix + 1
    rw [hst, hq.suffix]
  · show g4.st.tail ≠ _
    rw [hst]
    exact hne
  · show g.st.tail ≤ g4.st.tail
    rw [hst]
    omega
  · show g.st.suffix ≤ g4.st.tail
    rw [hst]
    omega
  · show g.edges_size < g4.edges_size
    have := hq.size
    omega
  · intro j hj
    show is_leaf (g4.edges j) = _
    rw [hold j (lt_of_lt_of_le hj hq.size)]
    exact hq.old_leaf j hj
  · intro j h1 h2
    have h3 : j + 1 < g4.edges_size := h2
    show is_leaf (g4.edges j) = _
    rw [hold j (by omega)]
    exact hq.new_leaf j h1 (by omega)
  · show leaf_count g4 = _
    rw [hcount, hq.leaf_count_q]
  · show load { g4 with st := { g4.st with suffix := g4.st.suffix + 1 } }
      (eptr.slot (g4.edges_size - 1)) = ⟨some g4.st.tail, text.length - g4.st.tail, none, _⟩
    rw [hl1, hsz, Nat.add_sub_cancel, htop, hst]
  · refine ⟨u1, ?_, ?_⟩
    · show g4.st.edge = _
      rw [hst]
      exact hu1
    · show (load { g4 with st := { g4.st with suffix := g4.st.suffix + 1 } } u1).childs
        (text.getD g4.st.tail.toNat 0 - FIRST_SYMBOL) = some (eptr.slot (g4.edges_size - 1))
      rw [hl1, hsz, Nat.add_sub_cancel, hst]
      exact hhang

/-- A call of `state_transition` that returns 0, between two calls of which
the invariant holds. -/
theorem transition_false {text : List Int} {g g1 : globals} {pl : eptr → List Int} {v : eptr}
    {i t : Int} (L : LoopInv text g pl v i t) (hc : closed g) (ho : Ordered g)
    (h : state_transition text g = .ok (false, g1)) :
    closed g1 ∧ Ordered g1 ∧ Quiet g g1 ∧ g1.st.tail = text.length ∧
      (same_shape g g1 ∨ split_made g g1) := by
  have L0 := L.normalise
  unfold state_transition at h
  simp only at h
  generalize hg0 : (if g.st.tail < g.st.suffix then
    ({ g with st := { g.st with tail := g.st.suffix } } : globals) else g) = g0 at h L0
  obtain ⟨hc0, ho0, hs0, hcap0, hsuf0, ht0, ht0', _⟩ := clamp_facts hc ho hg0
  by_cases hend : g0.st.tail = text.length
  · rw [if_pos hend] at h
    cases h
    exact ⟨hc0, ho0, hs0.quiet hcap0 hsuf0, hend, Or.inl hs0⟩
  rw [if_neg hend] at h
  have hlt : max t i < text.length := by
    have htl := L0.tl
    have h1 : max t i ≤ text.length := by
      by_cases hvr : v = eptr.rootedge
      · have := L0.at_root hvr
        have := L0.sufn
        omega
      · have := (L0.deep hvr).2.2.1
        omega
    omega
  obtain ⟨gm, hrep, hext⟩ := bind_eq_ok h
  obtain ⟨pl1, v1, M⟩ := (reposition_spec L0 (le_max_right _ _) hlt).of_ok hrep
  obtain ⟨hcm, hom, hqm, htm, hsh⟩ := reposition_step text g0 gm hc0 ho0 hrep
  obtain ⟨g3, gc, hcons, hc3, ho3, hq3, hle3, hsp, hfin⟩ := extend_step text gm _ hcm hom hext
  rcases hfin with ⟨hn, e⟩ | ⟨_, g4, _, e⟩
  swap
  · cases e
  have e2 := (Prod.mk.inj e).2
  subst e2
  have hq : Quiet g g1 := (hs0.quiet hcap0 hsuf0).trans_q (hqm.trans_q hq3)
  refine ⟨hc3, ho3, hq, hn, ?_⟩
  have hsm : same_shape g0 gm := by
    rcases hsh with s | ⟨b1, b2, b3⟩
    · exact s
    · exfalso
      have hv1 : v1 = eptr.slot g0.edges_size := by
        have := M.edge
        rw [b2] at this
        exact (Option.some.inj this).symm
      have hstop := fresh_stops M (by rw [hv1]; intro e; cases e) (by rw [hv1]; exact b3) hcons
      omega
  rcases hsp with s | s
  · exact Or.inl (hs0.trans_sh (hsm.trans_sh s))
  · exact Or.inr (s.of_shape (hs0.trans_sh hsm))

end Suffixtree

namespace Suffixtree

/-! ## Pointer closure and label order in every state reached -/

theorem start_facts {text : List Int} {garbage : Nat → edge} {g g0 : globals}
    (h : construct_init text (some garbage) g = .ok g0) :
    closed g0 ∧ Ordered g0 ∧ g0.st.suffix = 0 ∧ g0.st.tail = 0 := by
  rw [construct_init_eq] at h
  cases h
  have hv : ∀ x, valid (regarb ⟨⟨some eptr.rootedge, none, 0, 0, 0⟩, zero_edge,
      fun _ => zero_edge, 0, 2 * text.length⟩
      (fun j => if j < g.edges_capacity then g.edges j else garbage j)) x →
      x = eptr.rootedge := by
    intro x hx
    cases x with
    | rootedge => rfl
    | slot j => exact absurd hx (Nat.not_lt_zero j)
  refine ⟨⟨?_, okp_none _, ?_⟩, ⟨rfl, ?_⟩, rfl, rfl⟩
  · intro x hx
    cases hx
    trivial
  · intro x hx
    rw [hv x hx]
    exact edge_ok_zero _
  · intro q hq sym c hch
    rw [hv q hq] at hch
    cases hch

theorem after_calls_facts {text : List Int} :
    ∀ (k : Nat) (g g1 : globals) (pl : eptr → List Int) (v : eptr) (i t : Int),
      LoopInv text g pl v i t → closed g → Ordered g → g.st.suffix ≤ g.st.tail + 1 →
      after_calls text k g = some g1 →
      closed g1 ∧ Ordered g1 ∧ g1.st.suffix ≤ g1.st.tail + 1 := by
  intro k
  induction k with
  | zero =>
    intro g g1 pl v i t _ hc ho ht h
    simp only [after_calls, Option.some.injEq] at h
    subst h
    exact ⟨hc, ho, ht⟩
  | succ k ih =>
    intro g g1 pl v i t L hc ho ht h
    have hspec := state_transition_spec L
    unfold after_calls at h
    cases hr : state_transition text g with
    | error e => rw [hr] at h; cases h
    | ok r =>
      obtain ⟨b, g2⟩ := r
      rw [hr] at h hspec
      cases b with
      | false => cases h
      | true =>
        simp only at h
        rcases hspec with ⟨_, pl1, v1, t1, L1⟩ | ⟨hb, _⟩
        · obtain ⟨a1, a2, a3, _, _, a6, _⟩ := transition_true L hc ho hr
          exact ih g2 g1 pl1 v1 (i + 1) t1 L1 a1 a2 (by omega) h
        · cases hb

theorem build_loop_facts {text : List Int} {g1 : globals} :
    ∀ (n : Nat) (g2 : globals) (pl : eptr → List Int) (v : eptr) (i t : Int),
      LoopInv text g2 pl v i t → closed g2 → Ordered g2 → build_loop text n g2 = .ok g1 →
      closed g1 ∧ Ordered g1 := by
  intro n
  induction n with
  | zero =>
    intro g2 pl v i t _ _ _ h
    simp [build_loop, throw_eq] at h
  | succ n ih =>
    intro g2 pl v i t L2 hc ho h
    have hspec := state_transition_spec L2
    unfold build_loop at h
    cases hr : state_transition text g2 with
    | error e => rw [hr] at h; cases h
    | ok r =>
      obtain ⟨b, g3⟩ := r
      rw [hr] at h hspec
      simp only [ok_bind] at h
      cases b with
      | true =>
        simp only [if_true] at h
        rcases hspec with ⟨_, pl1, v1, t1, L1⟩ | ⟨hb, _⟩
        · obtain ⟨a1, a2, _⟩ := transition_true L2 hc ho hr
          exact ih g3 pl1 v1 _ t1 L1 a1 a2 h
        · cases hb
      | false =>
        simp only [Bool.false_eq_true, if_false, pure_eq] at h
        cases h
        obtain ⟨a1, a2, _⟩ := transition_false L2 hc ho hr
        exact ⟨a1, a2⟩

/-- In every state reached the edge pointers are allocated, the labels are
ordered along the tree, and `st.tail` is at most one behind `st.suffix`. -/
theorem reached_facts {text : List Int} {garbage : Nat → edge} {g g1 : globals}
    (h : Reached text (some garbage) g g1) :
    closed g1 ∧ Ordered g1 ∧ g1.st.suffix ≤ g1.st.tail + 1 := by
  obtain ⟨g0, h0, h1⟩ := h
  obtain ⟨g0', h0', L⟩ := construct_init_spec text garbage g
  rw [h0] at h0'
  cases h0'
  obtain ⟨hc, ho, hs, ht⟩ := start_facts h0
  rcases h1 with ⟨k, hk⟩ | ⟨fuel, hf⟩
  · exact after_calls_facts k g0 g1 _ _ 0 0 L hc ho (by omega) hk
  · obtain ⟨a1, a2⟩ := build_loop_facts fuel g0 _ _ 0 0 L hc ho hf
    obtain ⟨pl1, v1, k, F⟩ := build_loop_final fuel g0 _ _ 0 0 L hf
    refine ⟨a1, a2, ?_⟩
    rw [F.tl, F.suf]
    have := F.sufn
    omega

/-- The label of an edge below another starts where the label of the upper
edge ends, or later. -/
theorem above_order {text : List Int} {g : globals} {pl : eptr → List Int} {i : Int}
    (T : Tree text g pl i) (ho : Ordered g) {a d : eptr} (hd : Above g a d) :
    valid g a → a ≠ eptr.rootedge →
      ∃ pa pd, (load g a).label = some pa ∧ (load g d).label = some pd ∧
        pa + (load g a).len ≤ pd := by
  induction hd with
  | child q c sym hch =>
    intro hq hqr
    obtain ⟨pc, hpc, hle⟩ := ho.2 q hq sym c hch
    obtain ⟨pq, hpq, hl⟩ := hle hqr
    exact ⟨pq, pc, hpq, hpc, hl⟩
  | step q c d sym hch _ ih =>
    intro hq hqr
    obtain ⟨pc, hpc, hle⟩ := ho.2 q hq sym c hch
    obtain ⟨pq, hpq, hl⟩ := hle hqr
    obtain ⟨hvc, hcr, _⟩ := T.child q sym c hq hch
    obtain ⟨pc1, pd, hpc1, hpd, hl1⟩ := ih hvc hcr
    rw [hpc] at hpc1
    cases hpc1
    obtain ⟨p, b1, _, b3, _⟩ := T.lab c hvc hcr
    exact ⟨pq, pd, hpq, hpd, by omega⟩

/-! ## The claims about the states reached and about one call -/

/-- C15, the claim as written fails: on the text "aa" the first call of
`state_transition` inserts the leaf "aa" at the root, leaves `st.tail` at 0
and advances `st.suffix` to 1, so that `st.tail < st.suffix` in a state
between two calls. -/
theorem tail_behind_suffix :
    ∃ g1, Reached [97, 97] (some (fun _ => zero_edge)) blank g1 ∧ g1.st.tail < g1.st.suffix :=
  ⟨_, ⟨_, rfl, Or.inl ⟨1, rfl⟩⟩, by decide⟩

/-- C15 (cursor pointer ordering), amended. In every state reached during the
construction (between two calls of `state_transition`, or when the loop has
ended), `st.tail >= st.suffix - 1`; and `st.tail >= st.suffix` holds in the
state the build loop starts in, in every reached state whose cursor is not on
the root edge, and in the state in which the loop ends. (At the root
`st.tail` can be one behind; the first statement of `state_transition` then
moves it up to `st.suffix`.) -/
theorem cursor_order (text : List Int) (garbage : Nat → edge) (g g1 : globals)
    (h : Reached text (some garbage) g g1) :
    g1.st.suffix - 1 ≤ g1.st.tail ∧
      (g1.st.edge ≠ some eptr.rootedge → g1.st.suffix ≤ g1.st.tail) ∧
      (∀ g0, construct_init text (some garbage) g = .ok g0 → g0.st.suffix ≤ g0.st.tail) ∧
      (∀ g0 fuel, construct_init text (some garbage) g = .ok g0 →
        build_loop text fuel g0 = .ok g1 → g1.st.suffix ≤ g1.st.tail) := by
  obtain ⟨_, _, ht⟩ := reached_facts h
  refine ⟨by omega, ?_, ?_, ?_⟩
  · intro hne
    rcases reached_inv h with ⟨pl, v, i, t, L⟩ | ⟨pl, v, i, F⟩
    · have hvr : v ≠ eptr.rootedge := by
        intro e
        rw [L.edge, e] at hne
        exact hne rfl
      rw [L.suf, L.tl]
      exact (L.deep hvr).2.1
    · rw [F.tl, F.suf]
      exact F.sufn
  · intro g0 h0
    obtain ⟨_, _, hs, ht0⟩ := start_facts h0
    rw [hs, ht0]
  · intro g0 fuel h0 hf
    obtain ⟨g0', h0', L⟩ := construct_init_spec text garbage g
    rw [h0] at h0'
    cases h0'
    obtain ⟨pl1, v1, k, F⟩ := build_loop_final fuel g0 _ _ 0 0 L hf
    rw [F.tl, F.suf]
    exact F.sufn

theorem cursor_order_witness :
    Reached (strip_eol [97, 97, 98]) (some (fun _ => zero_edge)) blank (built [97, 97, 98]) ∧
      (built [97, 97, 98]).st.suffix - 1 ≤ (built [97, 97, 98]).st.tail ∧
      ((built [97, 97, 98]).st.edge ≠ some eptr.rootedge →
        (built [97, 97, 98]).st.suffix ≤ (built [97, 97, 98]).st.tail) ∧
      (∀ g0, construct_init (strip_eol [97, 97, 98]) (some (fun _ => zero_edge)) blank = .ok g0 →
        g0.st.suffix ≤ g0.st.tail) ∧
      (∀ g0 fuel, construct_init (strip_eol [97, 97, 98]) (some (fun _ => zero_edge)) blank = .ok g0 →
        build_loop (strip_eol [97, 97, 98]) fuel g0 = .ok (built [97, 97, 98]) →
        (built [97, 97, 98]).st.suffix ≤ (built [97, 97, 98]).st.tail) :=
  ⟨reached_of_construct (built_ok [97, 97, 98] (by unfold lowercase; decide)),
    cursor_order (strip_eol [97, 97, 98]) (fun _ => zero_edge) blank (built [97, 97, 98])
      (reached_of_construct (built_ok [97, 97, 98] (by unfold lowercase; decide)))⟩

/-- C16, the claim as written fails: in the tree of "ab" the two leaves
`edges[0]` and `edges[1]` have the labels `[0, 2)` and `[1, 2)`, which share
the position 1. -/
theorem ab_labels_overlap :
    ∃ g1, Reached [97, 98] (some (fun _ => zero_edge)) blank g1 ∧ g1.edges_size = 2 ∧
      (g1.edges 0).label = some 0 ∧ (g1.edges 0).len = 2 ∧
      (g1.edges 1).label = some 1 ∧ (g1.edges 1).len = 1 :=
  ⟨_, ⟨_, rfl, Or.inr ⟨3, rfl⟩⟩, rfl, rfl, rfl, rfl, rfl⟩

/-- C16 (edge labels are non-overlapping), amended. In every state reached
during the construction, for every allocated edge `a` and every edge `d` that
lies below `a` in the tree (reached from `a` by child pointers), the label
ranges `[label, label + len)` of `a` and `d` are disjoint: the range of `a`
ends where the range of `d` starts, or earlier. (Edges that do not lie on one
path from the root can share text positions, as all leaves' labels end at the
end of the text.) -/
theorem labels_disjoint_along_paths (text : List Int) (garbage : Nat → edge) (g g1 : globals)
    (h : Reached text (some garbage) g g1) (a d : eptr) (ha : valid g1 a) (har : a ≠ eptr.rootedge)
    (hd : Above g1 a d) :
    ∃ pa pd, (load g1 a).label = some pa ∧ (load g1 d).label = some pd ∧
      pa + (load g1 a).len ≤ pd ∧
      ∀ m : Int, pa ≤ m → m < pa + (load g1 a).len → ¬ (pd ≤ m ∧ m < pd + (load g1 d).len) := by
  obtain ⟨_, ho, _⟩ := reached_facts h
  obtain ⟨pl, i, T⟩ := reached_tree h
  obtain ⟨pa, pd, h1, h2, h3⟩ := above_order T ho hd ha har
  exact ⟨pa, pd, h1, h2, h3, fun m _ _ => by omega⟩

theorem labels_disjoint_along_paths_witness :
    Reached (strip_eol [97, 97, 98]) (some (fun _ => zero_edge)) blank (built [97, 97, 98]) ∧
      valid (built [97, 97, 98]) (eptr.slot 1) ∧ eptr.slot 1 ≠ eptr.rootedge ∧
      Above (built [97, 97, 98]) (eptr.slot 1) (eptr.slot 0) ∧
      ∃ pa pd, (load (built [97, 97, 98]) (eptr.slot 1)).label = some pa ∧
        (load (built [97, 97, 98]) (eptr.slot 0)).label = some pd ∧
        pa + (load (built [97, 97, 98]) (eptr.slot 1)).len ≤ pd ∧
        ∀ m : Int, pa ≤ m → m < pa + (load (built [97, 97, 98]) (eptr.slot 1)).len →
          ¬ (pd ≤ m ∧ m < pd + (load (built [97, 97, 98]) (eptr.slot 0)).len) :=
  ⟨reached_of_construct (built_ok [97, 97, 98] (by unfold lowercase; decide)),
    by unfold valid; decide, by decide, Above.child _ _ 0 rfl,
    labels_disjoint_along_paths (strip_eol [97, 97, 98]) (fun _ => zero_edge) blank
      (built [97, 97, 98])
      (reached_of_construct (built_ok [97, 97, 98] (by unfold lowercase; decide)))
      (eptr.slot 1) (eptr.slot 0) (by unfold valid; decide) (by decide)
      (Above.child _ _ 0 rfl)⟩

end Suffixtree

namespace Suffixtree

/-- C12, the claim as written fails: on the text "aa" the second call of
`state_transition` consumes the whole remaining tail (`st.tail` goes from 1
to 2, the end of the text) and returns 0 from its second exit, but
`split_if_not_at_node`, which runs before that exit, has split the edge
`edges[0]`: `edges_size` has grown from 1 to 2 and the label of `edges[0]`
has changed from `[0, 2)` to `[1, 2)`. -/
theorem aa_stopper_splits :
    ∃ g0 g1 g2, construct_init [97, 97] (some (fun _ => zero_edge)) blank = Except.ok g0 ∧
      after_calls [97, 97] 1 g0 = some g1 ∧
      max g1.st.tail g1.st.suffix ≠ 2 ∧
      state_transition [97, 97] g1 = Except.ok (false, g2) ∧
      g1.edges_size = 1 ∧ g2.edges_size = 2 ∧
      (g1.edges 0).label = some 0 ∧ (g1.edges 0).len = 2 ∧
      (g2.edges 0).label = some 1 ∧ (g2.edges 0).len = 1 :=
  ⟨_, _, _, rfl, rfl, by decide, rfl, rfl, rfl, rfl, rfl, rfl, rfl⟩

/-- C12 (the show-stopper), amended. For every text and every call of
`state_transition`, made in a state between two calls during the
construction, that returns 0 (in particular from its second exit, when
`consume_string` has returned `string_end`): `st.suffix` is unchanged,
`st.tail` is `string_end`, and no leaf has been inserted (the number of leaf
edges is unchanged, every edge allocated before is a leaf exactly when it
was, and no edge allocated by the call is a leaf). Either no edge has been
allocated and no edge's label, length or child map has been modified; or
exactly one edge has been allocated, by `split_if_not_at_node` splitting the
edge in which the tail ended: the new edge is its upper half, the cursor is
on it, it has no link and the lower half as its only child, the lower half
has lost the first `k` characters of its label, the child pointer of the
parent points to the new edge, and no other label, length or child map has
been modified. -/
theorem show_stopper_effect (text : List Int) (garbage : Nat → edge) (g g0 : globals) (k : Nat)
    (g1 g2 : globals) (h0 : construct_init text (some garbage) g = .ok g0)
    (hk : after_calls text k g0 = some g1)
    (h : state_transition text g1 = .ok (false, g2)) :
    g2.st.suffix = g1.st.suffix ∧ g2.st.tail = text.length ∧
      leaf_count g2 = leaf_count g1 ∧
      (∀ j, j < g1.edges_size → is_leaf (g2.edges j) = is_leaf (g1.edges j)) ∧
      (∀ j, g1.edges_size ≤ j → j < g2.edges_size → is_leaf (g2.edges j) = false) ∧
      (same_shape g1 g2 ∨ split_made g1 g2) := by
  obtain ⟨g0', h0', L⟩ := construct_init_spec text garbage g
  rw [h0] at h0'
  cases h0'
  obtain ⟨pl1, v1, t1, L1⟩ := after_calls_inv k g0 g1 _ _ 0 0 L hk
  obtain ⟨hc, ho, _⟩ := reached_facts ⟨g0, h0, Or.inl ⟨k, hk⟩⟩
  obtain ⟨_, _, hq, ht, hs⟩ := transition_false L1 hc ho h
  exact ⟨hq.suffix, ht, hq.leaf_count_q, hq.old_leaf, hq.new_leaf, hs⟩

theorem show_stopper_effect_witness :
    ∃ g0 g1 g2, construct_init [97, 97] (some (fun _ => zero_edge)) blank = Except.ok g0 ∧
      after_calls [97, 97] 1 g0 = some g1 ∧
      state_transition [97, 97] g1 = Except.ok (false, g2) ∧
      g2.st.suffix = g1.st.suffix ∧ g2.st.tail = ([97, 97] : List Int).length ∧
      leaf_count g2 = leaf_count g1 ∧
      (∀ j, j < g1.edges_size → is_leaf (g2.edges j) = is_leaf (g1.edges j)) ∧
      (∀ j, g1.edges_size ≤ j → j < g2.edges_size → is_leaf (g2.edges j) = false) ∧
      (same_shape g1 g2 ∨ split_made g1 g2) :=
  ⟨_, _, _, rfl, rfl, rfl,
    show_stopper_effect [97, 97] (fun _ => zero_edge) blank _ 1 _ _ rfl rfl rfl⟩

/-- C11 (return contract of `state_transition`). For every text over
'a'..'z' and every state between two calls of `state_transition` during the
construction, the next call returns, and it returns 1 if and only if
`st.tail != string_end` after it. When it returns 1, `st.suffix` has
increased by exactly one and exactly one leaf has been inserted: the number
of leaf edges has increased by one, the edges allocated before are leaves
exactly when they were, the last edge allocated is a leaf with the label
`[st.tail, string_end)` and no link, it is the child of the cursor's edge
`st.edge` under the key `text[st.tail]`, and no other edge allocated by the
call is a leaf. When it returns 0, `st.tail == string_end`, `st.suffix` is
unchanged and no leaf has been inserted. -/
theorem return_contract (text : List Int) (garbage : Nat → edge) (g g0 : globals) (k : Nat)
    (g1 : globals) (hl : lowercase text) (h0 : construct_init text (some garbage) g = .ok g0)
    (hk : after_calls text k g0 = some g1) :
    ∃ b g2, state_transition text g1 = .ok (b, g2) ∧
      (b = true ↔ g2.st.tail ≠ text.length) ∧
      (b = true →
        g2.st.suffix = g1.st.suffix + 1 ∧ leaf_count g2 = leaf_count g1 + 1 ∧
        g1.edges_size < g2.edges_size ∧
        (∀ j, j < g1.edges_size → is_leaf (g2.edges j) = is_leaf (g1.edges j)) ∧
        (∀ j, g1.edges_size ≤ j → j + 1 < g2.edges_size → is_leaf (g2.edges j) = false) ∧
        load g2 (eptr.slot (g2.edges_size - 1))
          = ⟨some g2.st.tail, text.length - g2.st.tail, none, fun _ => none⟩ ∧
        ∃ u, g2.st.edge = some u ∧
          (load g2 u).childs (text.getD g2.st.tail.toNat 0 - FIRST_SYMBOL)
            = some (eptr.slot (g2.edges_size - 1))) ∧
      (b = false →
        g2.st.tail = text.length ∧ g2.st.suffix = g1.st.suffix ∧
        leaf_count g2 = leaf_count g1 ∧
        (∀ j, j < g1.edges_size → is_leaf (g2.edges j) = is_leaf (g1.edges j)) ∧
        (∀ j, g1.edges_size ≤ j → j < g2.edges_size → is_leaf (g2.edges j) = false)) := by
  obtain ⟨g0', h0', L⟩ := construct_init_spec text garbage g
  rw [h0] at h0'
  cases h0'
  obtain ⟨pl1, v1, t1, L1⟩ := after_calls_inv k g0 g1 _ _ 0 0 L hk
  obtain ⟨hc, ho, _⟩ := reached_facts ⟨g0, h0, Or.inl ⟨k, hk⟩⟩
  obtain ⟨⟨b, g2⟩, hr, _⟩ := (state_transition_spec L1).of_lowercase hl
  refine ⟨b, g2, hr, ?_⟩
  cases b with
  | true =>
    obtain ⟨_, _, a3, a4, _, _, a7, a8, a9, a10, a11, a12⟩ := transition_true L1 hc ho hr
    refine ⟨⟨fun _ => a4, fun _ => rfl⟩, fun _ => ⟨a3, a10, a7, a8, a9, a11, a12⟩, ?_⟩
    intro e
    cases e
  | false =>
    obtain ⟨_, _, hq, ht, _⟩ := transition_false L1 hc ho hr
    refine ⟨⟨fun e => ?_, fun e => absurd ht e⟩, fun e => ?_,
      fun _ => ⟨ht, hq.suffix, hq.leaf_count_q, hq.old_leaf, hq.new_leaf⟩⟩
    · cases e
    · cases e

theorem return_contract_witness :
    lowercase [97, 98, 97] ∧
    ∃ g0 g1, construct_init [97, 98, 97] (some (fun _ => zero_edge)) blank = Except.ok g0 ∧
      after_calls [97, 98, 97] 1 g0 = some g1 ∧
      ∃ b g2, state_transition [97, 98, 97] g1 = .ok (b, g2) ∧
        (b = true ↔ g2.st.tail ≠ ([97, 98, 97] : List Int).length) ∧
        (b = true →
          g2.st.suffix = g1.st.suffix + 1 ∧ leaf_count g2 = leaf_count g1 + 1 ∧
          g1.edges_size < g2.edges_size ∧
          (∀ j, j < g1.edges_size → is_leaf (g2.edges j) = is_leaf (g1.edges j)) ∧
          (∀ j, g1.edges_size ≤ j → j + 1 < g2.edges_size → is_leaf (g2.edges j) = false) ∧
          load g2 (eptr.slot (g2.edges_size - 1))
            = ⟨some g2.st.tail, ([97, 98, 97] : List Int).length - g2.st.tail, none,
                fun _ => none⟩ ∧
          ∃ u, g2.st.edge = some u ∧
            (load g2 u).childs (([97, 98, 97] : List Int).getD g2.st.tail.toNat 0 - FIRST_SYMBOL)
              = some (eptr.slot (g2.edges_size - 1))) ∧
        (b = false →
          g2.st.tail = ([97, 98, 97] : List Int).length ∧ g2.st.suffix = g1.st.suffix ∧
          leaf_count g2 = leaf_count g1 ∧
          (∀ j, j < g1.edges_size → is_leaf (g2.edges j) = is_leaf (g1.edges j)) ∧
          (∀ j, g1.edges_size ≤ j → j < g2.edges_size → is_leaf (g2.edges j) = false)) :=
  ⟨by unfold lowercase; decide, _, _, rfl, rfl,
    return_contract [97, 98, 97] (fun _ => zero_edge) blank _ 1 _
      (by unfold lowercase; decide) rfl rfl⟩

end Suffixtree
